import Mathlib

/-!
# Move selection (`moveselection.cpp`)

A shallow embedding of the staged move picker: the stage enumeration, the
two partial-sort primitives, the three scoring functions, the three
constructors, `generate_next_stage` and `next_move`, followed by theorems
about them.

Conventions of the embedding.

* `Move`, `Value`, `Square`, `Piece`, `Depth` are integers of the engine;
  they are embedded as `Nat` / `Int`.  `MOVE_NONE` is the zero move (the
  constructors test the hint with `ttm && ...`).
* A pointer into `moves[MAX_MOVES]` or `killers[3]` is a `Ptr`: the array it
  points into and an integer offset.  The arrays are total maps
  `Int → ExtMove`; the picker never leaves `[0, MAX_MOVES)` as long as the
  generated lists fit, which the theorems that depend on it assume.
* Everything the picker only reads is a parameter: the constants and
  free functions of the missing headers (`Consts`), the position together
  with its thread tables and the lists the move generator emits for it
  (`Position`), and the search stack frames around `ss` (`Stack`).
* The two loops of `next_move` are run with fuel, one unit per pass.
-/

namespace MoveSelection

/-! ## Basic types -/

abbrev Move := Nat
abbrev Value := Int
abbrev Square := Nat
abbrev Piece := Nat
abbrev Color := Nat
abbrev Depth := Int

def MOVE_NONE : Move := 0
def VALUE_ZERO : Value := 0
def DEPTH_ZERO : Depth := 0

/-- A move with its ordering score.  Converting to `Move` reads `move`;
assigning a `Move` writes `move` only; `<` compares `value` only. -/
structure ExtMove where
  move : Move
  value : Value
deriving DecidableEq, Repr

/-! ## Stages (`enum Stages`) -/

@[match_pattern] abbrev MAIN_SEARCH : Nat := 0
@[match_pattern] abbrev GOOD_CAPTURES : Nat := 1
@[match_pattern] abbrev KILLERS : Nat := 2
@[match_pattern] abbrev ALL_QUIETS : Nat := 3
@[match_pattern] abbrev BAD_CAPTURES : Nat := 4
@[match_pattern] abbrev EVASION : Nat := 5
@[match_pattern] abbrev ALL_EVASIONS : Nat := 6
@[match_pattern] abbrev QSEARCH_WITH_CHECKS : Nat := 7
@[match_pattern] abbrev QCAPTURES_1 : Nat := 8
@[match_pattern] abbrev CHECKS : Nat := 9
@[match_pattern] abbrev QSEARCH_WITHOUT_CHECKS : Nat := 10
@[match_pattern] abbrev QCAPTURES_2 : Nat := 11
@[match_pattern] abbrev PROBCUT : Nat := 12
@[match_pattern] abbrev PROBCUT_CAPTURES : Nat := 13
@[match_pattern] abbrev RECAPTURE : Nat := 14
@[match_pattern] abbrev RECAPTURES : Nat := 15
@[match_pattern] abbrev STOP : Nat := 16

/-! ## Read-only context -/

/-- Constants and free functions of headers that are not part of the
sources (`types.h`, `movegen.h`, `<algorithm>`), taken as parameters.
`partition` is `std::partition` seen as a function on the contents of the
range; the standard fixes its result only up to `PartitionSpec` below. -/
structure Consts where
  MAX_MOVES : Int
  DEPTH_QS_NO_CHECKS : Depth
  DEPTH_QS_RECAPTURES : Depth
  ONE_PLY : Depth
  PieceValueMG : Piece → Value
  HistoryMax : Value
  to_sq : Move → Square
  type_of : Piece → Int
  relative_rank : Color → Square → Int
  partition : (ExtMove → Bool) → List ExtMove → List ExtMove

/-- The position, the tables of its thread, and the moves
`generate<T>(pos, ·)` emits for it, in emission order. -/
structure Position where
  checkers : Bool
  pseudo_legal : Move → Bool
  capture : Move → Bool
  see : Move → Value
  see_sign : Move → Value
  piece_on : Square → Piece
  moved_piece : Move → Piece
  side_to_move : Color
  history : Piece → Square → Value
  counterMoves : Piece → Square → Move
  genCaptures : List Move
  genQuiets : List Move
  genEvasions : List Move
  genQuietChecks : List Move

/-- The frames of the search stack the picker looks at: `ss->killers`,
`(ss-1)->currentMove`, and the `counterMoves` table pointers of the frames
1, 2 and 4 plies back (`none` for a null pointer). -/
structure Stack where
  killers0 : Move
  killers1 : Move
  prevMove : Move
  cm : Option (Piece → Square → Value)
  fm : Option (Piece → Square → Value)
  f2 : Option (Piece → Square → Value)

/-! ## Pointers and the picker state -/

/-- A pointer into one of the two arrays of the picker. -/
inductive Ptr where
  | moves (i : Int)
  | killers (i : Int)
deriving DecidableEq, Repr

/-- Offset of a pointer within its array. -/
def Ptr.off : Ptr → Int
  | .moves i => i
  | .killers i => i

/-- Pointer arithmetic `p + k`. -/
def Ptr.add : Ptr → Int → Ptr
  | .moves i, k => .moves (i + k)
  | .killers i, k => .killers (i + k)

/-- The data members of `MovePicker`, apart from `pos` and `ss`, which are
only read and are passed alongside. -/
structure MovePicker where
  countermove : Move
  depth : Depth
  ttMove : Move
  killers : Int → ExtMove
  recaptureSquare : Square
  threshold : Value
  stage : Nat
  endGoodQuiets : Ptr
  endBadCaptures : Ptr
  moves : Int → ExtMove
  cur : Ptr
  endMoves : Ptr

/-- The array a pointer points into. -/
def MovePicker.arr (mp : MovePicker) : Ptr → (Int → ExtMove)
  | .moves _ => mp.moves
  | .killers _ => mp.killers

/-- Replace the array a pointer points into. -/
def MovePicker.setArr (mp : MovePicker) (p : Ptr) (a : Int → ExtMove) : MovePicker :=
  match p with
  | .moves _ => { mp with moves := a }
  | .killers _ => { mp with killers := a }

/-- Dereference `*p`. -/
def MovePicker.deref (mp : MovePicker) (p : Ptr) : ExtMove := mp.arr p p.off

/-- The assignment `*p = m` of a `Move` to an `ExtMove`: only `move` changes. -/
def MovePicker.storeMove (mp : MovePicker) (p : Ptr) (m : Move) : MovePicker :=
  mp.setArr p (Function.update (mp.arr p) p.off { mp.arr p p.off with move := m })

/-! ## Partial-sort primitives -/

/-- Loop of `std::max_element`: `largest` is the best index so far, `first`
the next one to look at, the `Nat` the number of elements left. -/
def max_element_loop (a : Int → ExtMove) : Nat → Int → Int → Int
  | 0, largest, _ => largest
  | n + 1, largest, first =>
    max_element_loop a n (if (a largest).value < (a first).value then first else largest)
      (first + 1)

/-- The call `std::max_element(first, last)`: index of the first element
with the greatest value, `last` on an empty range. -/
def max_element (a : Int → ExtMove) (first last : Int) : Int :=
  if first = last then last
  else max_element_loop a (last - (first + 1)).toNat first (first + 1)

/-- The call `std::swap(a[i], a[j])`. -/
def swap (a : Int → ExtMove) (i j : Int) : Int → ExtMove :=
  Function.update (Function.update a i (a j)) j (a i)

/-- Function `pick_best(begin, end)`: the array after the swap; the move
returned is the one then at `begin`. -/
def pick_best (a : Int → ExtMove) (begin_ end_ : Int) : Int → ExtMove :=
  swap a begin_ (max_element a begin_ end_)

/-- Inner loop of `insertion_sort`:
`for (q = p; q != begin && *(q-1) < tmp; --q) *q = *(q-1); *q = tmp;`
The `Nat` bounds the number of shifts (at most `q - begin`). -/
def insertion_inner (begin_ : Int) (tmp : ExtMove) : Nat → (Int → ExtMove) → Int → (Int → ExtMove)
  | 0, a, q => Function.update a q tmp
  | n + 1, a, q =>
    if q ≠ begin_ ∧ (a (q - 1)).value < tmp.value then
      insertion_inner begin_ tmp n (Function.update a q (a (q - 1))) (q - 1)
    else Function.update a q tmp

/-- Outer loop of `insertion_sort`: `for (p = begin + 1; p < end; ++p)`,
the `Nat` being the number of values of `p` left. -/
def insertion_outer (begin_ : Int) : Nat → (Int → ExtMove) → Int → (Int → ExtMove)
  | 0, a, _ => a
  | n + 1, a, p =>
    insertion_outer begin_ n (insertion_inner begin_ (a p) (p - begin_).toNat a p) (p + 1)

/-- Function `insertion_sort(begin, end)`. -/
def insertion_sort (a : Int → ExtMove) (begin_ end_ : Int) : Int → ExtMove :=
  insertion_outer begin_ (end_ - (begin_ + 1)).toNat a (begin_ + 1)

/-! ## Ranges of an array -/

/-- The contents of `a[b], …, a[b + n - 1]`. -/
def slice (a : Int → ExtMove) (b : Int) (n : Nat) : List ExtMove :=
  (List.range n).map fun (j : Nat) => a (b + (j : Int))

/-- Write the list `l` over `a[b], …`. -/
def blit (a : Int → ExtMove) (b : Int) (l : List ExtMove) : Int → ExtMove :=
  fun i => if b ≤ i ∧ i < b + l.length then l.getD (i - b).toNat (a i) else a i

/-- What the standard guarantees of `std::partition(first, last, pred)`: the
range is permuted, and the elements satisfying `pred` come first. -/
def PartitionSpec (C : Consts) : Prop :=
  ∀ (p : ExtMove → Bool) (l : List ExtMove),
    (C.partition p l).Perm l ∧
      (C.partition p l).take (l.countP p) = (C.partition p l).filter p ∧
      (C.partition p l).drop (l.countP p) = (C.partition p l).filter (fun e => !p e)

/-- The call `generate<T>(pos, moves)`, with `l` the moves of category `T`:
they are assigned to `moves[0], moves[1], …` (so only `move` is written);
the pointer returned is `moves + l.length`. -/
def generate (l : List Move) (a : Int → ExtMove) : Int → ExtMove :=
  fun i => if 0 ≤ i ∧ i < l.length then { a i with move := l.getD i.toNat MOVE_NONE } else a i

/-- The loop `for (auto& m : *this) m.value = f m` over `[moves, moves + n)`. -/
def scoreRange (f : Move → Value) (a : Int → ExtMove) (n : Int) : Int → ExtMove :=
  fun i => if 0 ≤ i ∧ i < n then { a i with value := f (a i).move } else a i

/-! ## Scoring functions -/

variable (C : Consts) (pos : Position) (ss : Stack)

/-- Value given by `score<CAPTURES>` to the move `m`. -/
def captureValue (m : Move) : Value :=
  C.PieceValueMG (pos.piece_on (C.to_sq m)) - 200 * C.relative_rank pos.side_to_move (C.to_sq m)

/-- The signed 32-bit value of an integer, reduced modulo `2^32` into
`[-2^31, 2^31)`: what an `int` holds after an addition or a multiplication
whose exact result is `x`. -/
def wrap32 (x : Int) : Int := (x + 2147483648) % 4294967296 - 2147483648

/-- An integer that a 32-bit `int` holds: it lies in `[-2^31, 2^31)`. -/
def fits32 (x : Int) : Prop := -2147483648 ≤ x ∧ x < 2147483648

instance (x : Int) : Decidable (fits32 x) := by
  unfold fits32
  infer_instance

/-- One weighted term `t ? w * (*t)[pc][to] : VALUE_ZERO` of the quiet score;
the product is formed in `int`. -/
def cmTerm (t : Option (Piece → Square → Value)) (w : Int) (pc : Piece) (sq : Square) : Value :=
  match t with
  | some tbl => wrap32 (w * tbl pc sq)
  | none => VALUE_ZERO

/-- The unweighted term `t ? (*t)[pc][to] : VALUE_ZERO` of the quiet score. -/
def cmEntry (t : Option (Piece → Square → Value)) (pc : Piece) (sq : Square) : Value :=
  match t with
  | some tbl => tbl pc sq
  | none => VALUE_ZERO

/-- Value given by `score<QUIETS>` to the move `m`: `Value` is
`enum Value : int`, so each `+` of the expression, taken from left to right,
and each product is formed in 32-bit `int`. -/
def quietValue (m : Move) : Value :=
  wrap32 (wrap32 (wrap32 (pos.history (pos.moved_piece m) (C.to_sq m)
        + cmTerm ss.cm 3 (pos.moved_piece m) (C.to_sq m))
      + cmTerm ss.fm 2 (pos.moved_piece m) (C.to_sq m))
    + cmEntry ss.f2 (pos.moved_piece m) (C.to_sq m))

/-- Value given by `score<EVASIONS>` to the move `m`. -/
def evasionValue (m : Move) : Value :=
  if pos.see_sign m < VALUE_ZERO then pos.see_sign m - C.HistoryMax
  else if pos.capture m then
    C.PieceValueMG (pos.piece_on (C.to_sq m)) - C.type_of (pos.moved_piece m) + C.HistoryMax
      + Int.tdiv (C.PieceValueMG (pos.moved_piece m)) 16
  else pos.history (pos.moved_piece m) (C.to_sq m)

/-- Function `score<CAPTURES>()`. -/
def score_CAPTURES (mp : MovePicker) : MovePicker :=
  { mp with moves := scoreRange (captureValue C pos) mp.moves mp.endMoves.off }

/-- Function `score<QUIETS>()`. -/
def score_QUIETS (mp : MovePicker) : MovePicker :=
  { mp with moves := scoreRange (quietValue C pos ss) mp.moves mp.endMoves.off }

/-- Function `score<EVASIONS>()`. -/
def score_EVASIONS (mp : MovePicker) : MovePicker :=
  { mp with moves := scoreRange (evasionValue C pos) mp.moves mp.endMoves.off }

/-! ## Constructors -/

/-- The default member initialisers (`cur = moves`, `endMoves = moves`,
`endBadCaptures = moves + MAX_MOVES - 1`) applied to storage `raw` whose
other members are not initialised. -/
def MovePicker.fresh (raw : MovePicker) : MovePicker :=
  { raw with
    endBadCaptures := .moves (C.MAX_MOVES - 1)
    cur := .moves 0
    endMoves := .moves 0 }

/-- The common tail of the constructors: store the accepted hint and reserve
its slot, `endMoves += (ttMove != MOVE_NONE)`. -/
def MovePicker.withHint (mp : MovePicker) (ttMove : Move) : MovePicker :=
  { mp with
    ttMove := ttMove
    endMoves := mp.endMoves.add (if ttMove ≠ MOVE_NONE then 1 else 0) }

/-- Constructor `MovePicker(const Position&, Move, Depth, Search::Stack*)`;
`none` when `assert(d > DEPTH_ZERO)` fails. -/
def MovePicker.mkMain (raw : MovePicker) (ttm : Move) (d : Depth) : Option MovePicker :=
  if d > DEPTH_ZERO then
    let prevSq := C.to_sq ss.prevMove
    let mp : MovePicker :=
      { MovePicker.fresh C raw with
        depth := d
        countermove := pos.counterMoves (pos.piece_on prevSq) prevSq
        stage := if pos.checkers then EVASION else MAIN_SEARCH }
    some (mp.withHint (if ttm ≠ 0 ∧ pos.pseudo_legal ttm = true then ttm else MOVE_NONE))
  else none

/-- Constructor `MovePicker(const Position&, Move, Depth, Square)`;
`none` when `assert(d <= DEPTH_ZERO)` fails. -/
def MovePicker.mkQsearch (raw : MovePicker) (ttm : Move) (d : Depth) (s : Square) :
    Option MovePicker :=
  if d ≤ DEPTH_ZERO then
    let mp := MovePicker.fresh C raw
    if pos.checkers then
      some (({ mp with stage := EVASION } : MovePicker).withHint
        (if ttm ≠ 0 ∧ pos.pseudo_legal ttm = true then ttm else MOVE_NONE))
    else if d > C.DEPTH_QS_NO_CHECKS then
      some (({ mp with stage := QSEARCH_WITH_CHECKS } : MovePicker).withHint
        (if ttm ≠ 0 ∧ pos.pseudo_legal ttm = true then ttm else MOVE_NONE))
    else if d > C.DEPTH_QS_RECAPTURES then
      some (({ mp with stage := QSEARCH_WITHOUT_CHECKS } : MovePicker).withHint
        (if ttm ≠ 0 ∧ pos.pseudo_legal ttm = true then ttm else MOVE_NONE))
    else
      let ttm := MOVE_NONE
      some (({ mp with stage := RECAPTURE, recaptureSquare := s } : MovePicker).withHint
        (if ttm ≠ 0 ∧ pos.pseudo_legal ttm = true then ttm else MOVE_NONE))
  else none

/-- Constructor `MovePicker(const Position&, Move, Value)`;
`none` when `assert(!pos.checkers())` fails. -/
def MovePicker.mkProbcut (raw : MovePicker) (ttm : Move) (th : Value) : Option MovePicker :=
  if pos.checkers then none
  else
    let mp : MovePicker := { MovePicker.fresh C raw with threshold := th, stage := PROBCUT }
    some (mp.withHint
      (if ttm ≠ 0 ∧ pos.pseudo_legal ttm = true ∧ pos.capture ttm = true ∧ pos.see ttm > th
        then ttm else MOVE_NONE))

/-! ## `generate_next_stage` -/

/-- The statement `endMoves = generate<T>(pos, moves)` for the list `l`. -/
def MovePicker.gen (mp : MovePicker) (l : List Move) : MovePicker :=
  { mp with moves := generate l mp.moves, endMoves := .moves l.length }

/-- The `ALL_QUIETS` case: generate, score, partition when shallow, sort. -/
def MovePicker.genQuiets (mp : MovePicker) : MovePicker :=
  let mp := mp.gen pos.genQuiets
  let mp := { mp with endGoodQuiets := mp.endMoves }
  let mp := score_QUIETS C pos ss mp
  let n := (mp.endMoves.off - mp.cur.off).toNat
  let mp :=
    if mp.depth < 3 * C.ONE_PLY then
      let l := slice (mp.arr mp.cur) mp.cur.off n
      let p : ExtMove → Bool := fun m => decide (m.value > VALUE_ZERO)
      { mp.setArr mp.cur (blit (mp.arr mp.cur) mp.cur.off (C.partition p l)) with
        endGoodQuiets := mp.cur.add (l.countP p) }
    else mp
  mp.setArr mp.cur (insertion_sort (mp.arr mp.cur) mp.cur.off mp.endGoodQuiets.off)

/-- Function `generate_next_stage()`; `none` when an `assert` fails. -/
def generate_next_stage (mp : MovePicker) : Option MovePicker :=
  if mp.stage = STOP then none
  else
    let mp := { mp with cur := .moves 0, stage := mp.stage + 1 }
    match mp.stage with
    | GOOD_CAPTURES | QCAPTURES_1 | QCAPTURES_2 | PROBCUT_CAPTURES | RECAPTURES =>
      some (score_CAPTURES C pos (mp.gen pos.genCaptures))
    | KILLERS =>
      let mp := mp.storeMove (.killers 0) ss.killers0
      let mp := mp.storeMove (.killers 1) ss.killers1
      let mp := mp.storeMove (.killers 2) mp.countermove
      let mp := { mp with cur := .killers 0 }
      some { mp with
        endMoves := mp.cur.add (2 +
          (if mp.countermove ≠ (mp.killers 0).move ∧ mp.countermove ≠ (mp.killers 1).move
            then 1 else 0)) }
    | ALL_QUIETS => some (mp.genQuiets C pos ss)
    | BAD_CAPTURES =>
      some { mp with cur := .moves (C.MAX_MOVES - 1), endMoves := mp.endBadCaptures }
    | ALL_EVASIONS =>
      let mp := mp.gen pos.genEvasions
      some (if mp.endMoves.off - 0 > 1 then score_EVASIONS C pos mp else mp)
    | CHECKS => some (mp.gen pos.genQuietChecks)
    | EVASION | QSEARCH_WITH_CHECKS | QSEARCH_WITHOUT_CHECKS | PROBCUT | RECAPTURE | STOP =>
      some { mp with stage := STOP }
    | _ => none

/-! ## `next_move` -/

/-- What one pass through the loops of `next_move` does: `return m`, or
`break` (back to the top), or the `break` that follows the deferral
`*endBadCaptures-- = m` of a losing capture, or a failed `assert`. -/
inductive Step where
  | ret (m : Move) (mp : MovePicker)
  | brk (mp : MovePicker)
  | defer (m : Move) (mp : MovePicker)
  | abort

/-- The statement `move = pick_best(cur++, endMoves)`: the picker after it,
`move` being then at `cur - 1`. -/
def MovePicker.pick (mp : MovePicker) : MovePicker :=
  { mp.setArr mp.cur (pick_best (mp.arr mp.cur) mp.cur.off mp.endMoves.off) with
    cur := mp.cur.add 1 }

/-- The statement `move = *cur++`. -/
def MovePicker.advance (mp : MovePicker) : MovePicker :=
  { mp with cur := mp.cur.add 1 }

/-- One pass through the loops of `next_move`: either one round of the
inner `while (cur == endMoves && stage != STOP) generate_next_stage();`
(after which control is back at the test of that loop), or, when its
condition is false, the `switch` on the stage. -/
def next_move_step (mp : MovePicker) : Step :=
  if mp.cur = mp.endMoves ∧ mp.stage ≠ STOP then
    match generate_next_stage C pos ss mp with
    | some mp' => .brk mp'
    | none => .abort
  else
    match mp.stage with
    | MAIN_SEARCH | EVASION | QSEARCH_WITH_CHECKS | QSEARCH_WITHOUT_CHECKS | PROBCUT =>
      .ret mp.ttMove mp.advance
    | GOOD_CAPTURES =>
      let mp' := mp.pick
      let move := (mp'.deref mp.cur).move
      if move ≠ mp.ttMove then
        if pos.see_sign move ≥ VALUE_ZERO then .ret move mp'
        else
          .defer move { mp'.storeMove mp'.endBadCaptures move with
            endBadCaptures := mp'.endBadCaptures.add (-1) }
      else .brk mp'
    | KILLERS =>
      let move := (mp.deref mp.cur).move
      if move ≠ MOVE_NONE ∧ move ≠ mp.ttMove ∧ pos.pseudo_legal move = true
          ∧ ¬ pos.capture move = true then
        .ret move mp.advance
      else .brk mp.advance
    | ALL_QUIETS =>
      let move := (mp.deref mp.cur).move
      if move ≠ mp.ttMove ∧ move ≠ (mp.killers 0).move ∧ move ≠ (mp.killers 1).move
          ∧ move ≠ (mp.killers 2).move then
        .ret move mp.advance
      else .brk mp.advance
    | BAD_CAPTURES =>
      .ret (mp.deref mp.cur).move { mp with cur := mp.cur.add (-1) }
    | ALL_EVASIONS | QCAPTURES_1 | QCAPTURES_2 =>
      let mp' := mp.pick
      let move := (mp'.deref mp.cur).move
      if move ≠ mp.ttMove then .ret move mp' else .brk mp'
    | PROBCUT_CAPTURES =>
      let mp' := mp.pick
      let move := (mp'.deref mp.cur).move
      if move ≠ mp.ttMove ∧ pos.see move > mp.threshold then .ret move mp' else .brk mp'
    | RECAPTURES =>
      let mp' := mp.pick
      let move := (mp'.deref mp.cur).move
      if C.to_sq move = mp.recaptureSquare then .ret move mp' else .brk mp'
    | CHECKS =>
      let move := (mp.deref mp.cur).move
      if move ≠ mp.ttMove then .ret move mp.advance else .brk mp.advance
    | STOP => .ret MOVE_NONE mp
    | _ => .abort

/-- Function `next_move()` run with `fuel` passes through its loops:
`some (move, picker after the call)`, or `none` when an `assert` fails or
the fuel does not suffice. -/
def next_move : Nat → MovePicker → Option (Move × MovePicker)
  | 0, _ => none
  | fuel + 1, mp =>
    match next_move_step C pos ss mp with
    | .ret m mp' => some (m, mp')
    | .brk mp' => next_move fuel mp'
    | .defer _ mp' => next_move fuel mp'
    | .abort => none

/-- The first `k` calls of `next_move` (each with `fuel`) made on a picker:
for each call the move it returned and the picker it left; `none` when one
of them fails. -/
def calls (fuel : Nat) : Nat → MovePicker → Option (List (Move × MovePicker))
  | 0, _ => some []
  | k + 1, mp =>
    match next_move C pos ss fuel mp with
    | some (m, mp') => (calls fuel k mp').map ((m, mp') :: ·)
    | none => none

/-- The moves of a sequence of calls up to the first `MOVE_NONE`. -/
def consumed (L : List (Move × MovePicker)) : List Move :=
  (L.map Prod.fst).takeWhile fun m => decide (m ≠ MOVE_NONE)

/-- The moves of a sequence of calls, each with the stage the picker was in
when it returned it. -/
def staged (L : List (Move × MovePicker)) : List (Nat × Move) :=
  L.map fun p => (p.2.stage, p.1)

/-- The moves of a sequence of calls that were returned in stage `s`. -/
def returnedIn (s : Nat) (L : List (Move × MovePicker)) : List Move :=
  ((staged L).filter fun p => p.1 = s).map Prod.snd

/-! ## Traces -/

/-- What can be observed of a pass: a move returned in some stage, or a
losing capture moved to the tail. -/
inductive Event where
  | ret (stage : Nat) (m : Move)
  | defer (m : Move)
deriving DecidableEq, Repr

/-- The events of the passes made from `mp` until the picker is in `STOP`,
whatever the number of calls they belong to; `none` when an `assert` fails
or `fuel` passes do not reach `STOP`. -/
def run : Nat → MovePicker → Option (List Event)
  | 0, _ => none
  | fuel + 1, mp =>
    if mp.stage = STOP then some []
    else
      match next_move_step C pos ss mp with
      | .ret m mp' => (run fuel mp').map (Event.ret mp'.stage m :: ·)
      | .brk mp' => run fuel mp'
      | .defer m mp' => (run fuel mp').map (Event.defer m :: ·)
      | .abort => none

/-- The returns of a trace. -/
def rets : List Event → List (Nat × Move)
  | [] => []
  | .ret s m :: t => (s, m) :: rets t
  | .defer _ :: t => rets t

/-- The deferrals of a trace. -/
def defers : List Event → List Move
  | [] => []
  | .ret _ _ :: t => defers t
  | .defer m :: t => m :: defers t

/-- From `mp` the picker gets to `mp'` in finitely many passes, none of
them made in `STOP`, giving the events `evs`. -/
def Seg (mp : MovePicker) (evs : List Event) (mp' : MovePicker) : Prop :=
  ∃ k, ∀ f, run C pos ss (f + k) mp = (run C pos ss f mp').map (evs ++ ·)

/-- The moves returned in stage `s` in a trace. -/
def retsIn (s : Nat) (t : List Event) : List Move :=
  ((rets t).filter fun p => p.1 = s).map Prod.snd

end MoveSelection
namespace MoveSelection

/-- The moves that `k` successive `pick_best(cur++, endMoves)` return when
`cur` starts at `i` and `endMoves` is `i + k`. -/
def pickSeq : Nat → (Int → ExtMove) → Int → List Move
  | 0, _, _ => []
  | k + 1, a, i =>
    (pick_best a i (i + (k + 1 : Nat)) i).move
      :: pickSeq k (pick_best a i (i + (k + 1 : Nat))) (i + 1)

/-- The array after those `k` calls. -/
def pickFinal : Nat → (Int → ExtMove) → Int → (Int → ExtMove)
  | 0, a, _ => a
  | k + 1, a, i => pickFinal k (pick_best a i (i + (k + 1 : Nat))) (i + 1)

/-- The moves at `a[top], a[top - 1], …`, `d` of them. -/
def tailMoves (a : Int → ExtMove) (top : Int) (d : Nat) : List Move :=
  (List.range d).map fun (j : Nat) => (a (top - (j : Int))).move

end MoveSelection
namespace MoveSelection

variable (C : Consts) (pos : Position)

/-- Stages that consume their segment with `pick_best` and no deferral. -/
def IsPickStage (s : Nat) : Prop :=
  s = ALL_EVASIONS ∨ s = QCAPTURES_1 ∨ s = QCAPTURES_2 ∨ s = PROBCUT_CAPTURES ∨ s = RECAPTURES

/-- The filter such a stage applies to the move picked. -/
def pickKeep (mp : MovePicker) (m : Move) : Bool :=
  if mp.stage = PROBCUT_CAPTURES then decide (m ≠ mp.ttMove ∧ pos.see m > mp.threshold)
  else if mp.stage = RECAPTURES then decide (C.to_sq m = mp.recaptureSquare)
  else decide (m ≠ mp.ttMove)

/-- Stages that consume their segment front to back without reordering. -/
def IsLinearStage (s : Nat) : Prop := s = KILLERS ∨ s = ALL_QUIETS ∨ s = CHECKS

/-- The filter such a stage applies to the move read. -/
def linKeep (mp : MovePicker) (m : Move) : Bool :=
  if mp.stage = KILLERS then
    decide (m ≠ MOVE_NONE ∧ m ≠ mp.ttMove ∧ pos.pseudo_legal m = true ∧ ¬ pos.capture m = true)
  else if mp.stage = ALL_QUIETS then
    decide (m ≠ mp.ttMove ∧ m ≠ (mp.killers 0).move ∧ m ≠ (mp.killers 1).move
      ∧ m ≠ (mp.killers 2).move)
  else decide (m ≠ mp.ttMove)

/-- What `GOOD_CAPTURES` does with the move picked: return it, defer it, or
skip it (the hint). -/
def goodEvent (tt : Move) (m : Move) : Option Event :=
  if m ≠ tt then
    if pos.see_sign m ≥ VALUE_ZERO then some (Event.ret GOOD_CAPTURES m) else some (Event.defer m)
  else none

/-- A capture that `GOOD_CAPTURES` defers. -/
def isBad (tt : Move) (m : Move) : Bool := decide (m ≠ tt ∧ pos.see_sign m < VALUE_ZERO)

/-- A capture that `GOOD_CAPTURES` returns. -/
def isGood (tt : Move) (m : Move) : Bool := decide (m ≠ tt ∧ pos.see_sign m ≥ VALUE_ZERO)

end MoveSelection
namespace MoveSelection

variable (C : Consts) (pos : Position) (ss : Stack)

/-- The moves at `a[0], …, a[n - 1]`. -/
def movesOf (a : Int → ExtMove) (n : Nat) : List Move := (slice a 0 n).map fun e => e.move

/-- The array after `generate<CAPTURES>` and `score<CAPTURES>`. -/
def capArr (a : Int → ExtMove) : Int → ExtMove :=
  scoreRange (captureValue C pos) (generate pos.genCaptures a) pos.genCaptures.length

/-- The array after `generate<EVASIONS>` and, with more than one move,
`score<EVASIONS>`. -/
def evaArr (a : Int → ExtMove) : Int → ExtMove :=
  if (pos.genEvasions.length : Int) - 0 > 1 then
    scoreRange (evasionValue C pos) (generate pos.genEvasions a) pos.genEvasions.length
  else generate pos.genEvasions a

/-- The array after the `ALL_QUIETS` case of `generate_next_stage`. -/
def quietArr (depth : Depth) (a : Int → ExtMove) : Int → ExtMove :=
  let a2 := scoreRange (quietValue C pos ss) (generate pos.genQuiets a) pos.genQuiets.length
  let n := ((pos.genQuiets.length : Int) - 0).toNat
  let p : ExtMove → Bool := fun m => decide (m.value > VALUE_ZERO)
  if depth < 3 * C.ONE_PLY then
    insertion_sort (blit a2 0 (C.partition p (slice a2 0 n))) 0
      (0 + ((slice a2 0 n).countP p : Nat))
  else insertion_sort a2 0 pos.genQuiets.length

/-- The `killers` array after the `KILLERS` case. -/
def killerArr (cm : Move) (a : Int → ExtMove) : Int → ExtMove :=
  let a1 := Function.update a 0 { a 0 with move := ss.killers0 }
  let a2 := Function.update a1 1 { a1 1 with move := ss.killers1 }
  Function.update a2 2 { a2 2 with move := cm }

/-- Number of killer candidates listed. -/
def killerCount (cm : Move) : Int :=
  2 + (if cm ≠ ss.killers0 ∧ cm ≠ ss.killers1 then 1 else 0)

/-- The killer candidates in the order they are tried. -/
def killerList (cm : Move) : List Move :=
  if cm ≠ ss.killers0 ∧ cm ≠ ss.killers1 then [ss.killers0, ss.killers1, cm]
  else [ss.killers0, ss.killers1]

/-- The hint stage returns the hint when there is one. -/
def hintEvents (s : Nat) (tt : Move) : List Event :=
  if tt ≠ MOVE_NONE then [Event.ret s tt] else []

/-- Stages in which the hint is returned. -/
def IsHintStage (s : Nat) : Prop :=
  s = MAIN_SEARCH ∨ s = EVASION ∨ s = QSEARCH_WITH_CHECKS ∨ s = QSEARCH_WITHOUT_CHECKS
    ∨ s = PROBCUT

/-- A picker as the constructors leave it. -/
def Fresh (mp : MovePicker) : Prop :=
  mp.cur = .moves 0 ∧ mp.endMoves = .moves (if mp.ttMove ≠ MOVE_NONE then 1 else 0)
    ∧ mp.endBadCaptures = .moves (C.MAX_MOVES - 1)
    ∧ (IsHintStage mp.stage ∨ (mp.stage = RECAPTURE ∧ mp.ttMove = MOVE_NONE))

end MoveSelection

namespace MoveSelection

variable (C : Consts) (pos : Position) (ss : Stack)

/-- The generated captures in the order `pick_best` picks them. -/
def capPicks (a : Int → ExtMove) : List Move :=
  pickSeq pos.genCaptures.length (capArr C pos a) 0

/-- The generated evasions in the order `pick_best` picks them. -/
def evaPicks (a : Int → ExtMove) : List Move :=
  pickSeq pos.genEvasions.length (evaArr C pos a) 0

/-- The generated quiet moves in the order they are in after sorting. -/
def quietOrder (depth : Depth) (a : Int → ExtMove) : List Move :=
  movesOf (quietArr C pos ss depth a) pos.genQuiets.length

end MoveSelection

namespace MoveSelection

variable (C : Consts) (pos : Position) (ss : Stack)

/-- The filter of the `KILLERS` stage. -/
def keepKiller (tt : Move) (m : Move) : Bool :=
  decide (m ≠ MOVE_NONE ∧ m ≠ tt ∧ pos.pseudo_legal m = true ∧ ¬ pos.capture m = true)

/-- The filter of the `ALL_QUIETS` stage. -/
def keepQuiet (tt cm : Move) (m : Move) : Bool :=
  decide (m ≠ tt ∧ m ≠ ss.killers0 ∧ m ≠ ss.killers1 ∧ m ≠ cm)

/-- The trace of main search when the captures are picked in the order `P`
and the quiet moves are left in the order `Q`. -/
def mainEvents (tt cm : Move) (P Q : List Move) : List Event :=
  hintEvents MAIN_SEARCH tt ++
    (P.filterMap (goodEvent pos tt) ++
      (((killerList ss cm).filter (keepKiller pos tt)).map (Event.ret KILLERS) ++
        ((Q.filter (keepQuiet ss tt cm)).map (Event.ret ALL_QUIETS) ++
          (P.filter (isBad pos tt)).map (Event.ret BAD_CAPTURES))))

end MoveSelection

namespace MoveSelection

variable (C : Consts) (pos : Position) (ss : Stack)

/-- The deferred tail is well formed and holds only moves satisfying `P`. -/
def TailOK (P : Move → Prop) (mp : MovePicker) : Prop :=
  ∃ e, mp.endBadCaptures = .moves e ∧ e ≤ C.MAX_MOVES - 1 ∧
    ∀ j, e < j → j ≤ C.MAX_MOVES - 1 → P (mp.moves j).move

/-- The segment `[cur, endMoves)` lies in `moves` and holds only moves
satisfying `P`. -/
def RangeOK (P : Move → Prop) (mp : MovePicker) : Prop :=
  ∃ i n, mp.cur = .moves i ∧ mp.endMoves = .moves n ∧ i ≤ n ∧
    ∀ j, i ≤ j → j < n → P (mp.moves j).move

/-- In a hint stage either the slot is consumed (or absent), or it is
pending and the hint satisfies `P`. -/
def HintOK (P : Move → Prop) (mp : MovePicker) : Prop :=
  mp.cur = mp.endMoves ∨ (mp.endMoves = mp.cur.add 1 ∧ P mp.ttMove)

/-- The invariant of the picker, for a property `P` of the moves it may
still return. -/
def Inv (P : Move → Prop) (mp : MovePicker) : Prop :=
  (mp.stage = MAIN_SEARCH ∧ HintOK P mp ∧ TailOK C P mp) ∨
  ((mp.stage = EVASION ∨ mp.stage = QSEARCH_WITH_CHECKS ∨ mp.stage = QSEARCH_WITHOUT_CHECKS
      ∨ mp.stage = PROBCUT) ∧ HintOK P mp) ∨
  (mp.stage = RECAPTURE ∧ mp.cur = mp.endMoves) ∨
  ((mp.stage = GOOD_CAPTURES ∨ mp.stage = ALL_QUIETS) ∧ RangeOK P mp ∧ TailOK C P mp) ∨
  (mp.stage = KILLERS ∧ (∃ i n, mp.cur = .killers i ∧ mp.endMoves = .killers n ∧ i ≤ n)
      ∧ TailOK C P mp) ∨
  (mp.stage = BAD_CAPTURES ∧ ∃ c e, mp.cur = .moves c ∧ mp.endMoves = .moves e ∧ e ≤ c ∧
      ∀ j, e < j → j ≤ c → P (mp.moves j).move) ∨
  ((IsPickStage mp.stage ∨ mp.stage = CHECKS) ∧ RangeOK P mp) ∨
  mp.stage = STOP

/-- Every move a generator emits satisfies `P`. -/
def GenSat (P : Move → Prop) : Prop :=
  ∀ m ∈ pos.genCaptures ++ pos.genQuiets ++ pos.genEvasions ++ pos.genQuietChecks, P m

instance (P : Move → Prop) [DecidablePred P] : Decidable (GenSat pos P) := by
  unfold GenSat; infer_instance

/-- The buffer is large enough for main search with hint `tt`: the tail of
deferred captures meets neither the generated captures nor the generated
quiet moves. -/
def Fits (tt : Move) : Prop :=
  (pos.genCaptures.length : Int) + (pos.genCaptures.countP (isBad pos tt) : Nat) ≤ C.MAX_MOVES ∧
  (pos.genQuiets.length : Int) + (pos.genCaptures.countP (isBad pos tt) : Nat) ≤ C.MAX_MOVES

instance (tt : Move) : Decidable (Fits C pos tt) := by
  unfold Fits; infer_instance

/-- A picker is constructed by one of the three constructors. -/
def Constructed (mp : MovePicker) : Prop :=
  (∃ raw ttm d, MovePicker.mkMain C pos ss raw ttm d = some mp) ∨
  (∃ raw ttm d s, MovePicker.mkQsearch C pos raw ttm d s = some mp) ∨
  (∃ raw ttm th, MovePicker.mkProbcut C pos raw ttm th = some mp)

/-- A picker obtained from a constructed one by calls of `next_move`. -/
inductive Reachable : MovePicker → Prop where
  | init {mp : MovePicker} : Constructed C pos ss mp → Reachable mp
  | call {mp mp' : MovePicker} {fuel : Nat} {m : Move} :
      Reachable mp → next_move C pos ss fuel mp = some (m, mp') → Reachable mp'

end MoveSelection

namespace MoveSelection

variable (C : Consts) (pos : Position) (ss : Stack)

/-- One pass keeps the invariant, returns without changing the stage, returns
only moves satisfying `P` outside `STOP` and only `MOVE_NONE` in `STOP`, and
fails no `assert`. -/
def StepOK (P : Move → Prop) (mp : MovePicker) : Prop :=
  match next_move_step C pos ss mp with
  | .ret m mp' =>
    Inv C P mp' ∧ mp'.stage = mp.stage ∧ (mp.stage ≠ STOP → P m)
      ∧ (mp.stage = STOP → m = MOVE_NONE ∧ mp' = mp)
  | .brk mp' => Inv C P mp'
  | .defer _ mp' => Inv C P mp'
  | .abort => False

end MoveSelection

namespace MoveSelection

variable (C : Consts) (pos : Position) (ss : Stack)

/-- The return of the hint, when there is one, tagged with its stage. -/
def hintRets (s : Nat) (tt : Move) : List (Nat × Move) :=
  if tt ≠ MOVE_NONE then [(s, tt)] else []

/-- Tag moves with the stage that returns them. -/
def tag (s : Nat) (l : List Move) : List (Nat × Move) := l.map fun m => (s, m)

/-- The returns of a constructed picker up to `STOP`, by initial stage, with
the captures and evasions in the order `pick_best` picks them and the quiet
moves in the order sorting leaves them (`af` being the array the quiet moves
are generated into). -/
def modeRets (mp : MovePicker) (af : Int → ExtMove) : List (Nat × Move) :=
  if mp.stage = MAIN_SEARCH then
    hintRets MAIN_SEARCH mp.ttMove ++
      (tag GOOD_CAPTURES ((capPicks C pos mp.moves).filter (isGood pos mp.ttMove)) ++
        (tag KILLERS ((killerList ss mp.countermove).filter (keepKiller pos mp.ttMove)) ++
          (tag ALL_QUIETS ((quietOrder C pos ss mp.depth af).filter
              (keepQuiet ss mp.ttMove mp.countermove)) ++
            tag BAD_CAPTURES ((capPicks C pos mp.moves).filter (isBad pos mp.ttMove)))))
  else if mp.stage = EVASION then
    hintRets EVASION mp.ttMove ++
      tag ALL_EVASIONS ((evaPicks C pos mp.moves).filter fun m => decide (m ≠ mp.ttMove))
  else if mp.stage = QSEARCH_WITH_CHECKS then
    hintRets QSEARCH_WITH_CHECKS mp.ttMove ++
      (tag QCAPTURES_1 ((capPicks C pos mp.moves).filter fun m => decide (m ≠ mp.ttMove)) ++
        tag CHECKS (pos.genQuietChecks.filter fun m => decide (m ≠ mp.ttMove)))
  else if mp.stage = QSEARCH_WITHOUT_CHECKS then
    hintRets QSEARCH_WITHOUT_CHECKS mp.ttMove ++
      tag QCAPTURES_2 ((capPicks C pos mp.moves).filter fun m => decide (m ≠ mp.ttMove))
  else if mp.stage = PROBCUT then
    hintRets PROBCUT mp.ttMove ++
      tag PROBCUT_CAPTURES ((capPicks C pos mp.moves).filter fun m =>
        decide (m ≠ mp.ttMove ∧ pos.see m > mp.threshold))
  else
    tag RECAPTURES ((capPicks C pos mp.moves).filter fun m =>
      decide (C.to_sq m = mp.recaptureSquare))

/-- The deferrals of a constructed picker up to `STOP`, in order. -/
def modeDefers (mp : MovePicker) : List Move :=
  if mp.stage = MAIN_SEARCH then (capPicks C pos mp.moves).filter (isBad pos mp.ttMove) else []

end MoveSelection

/-! ## Concrete inputs -/

namespace MoveSelection

/-- Constants of the kind the engine uses; `partition` puts the elements
satisfying the predicate first, each group in its original order. -/
def C0 : Consts where
  MAX_MOVES := 256
  DEPTH_QS_NO_CHECKS := -1
  DEPTH_QS_RECAPTURES := -5
  ONE_PLY := 1
  PieceValueMG := fun p => (p : Int) * 100
  HistoryMax := 1000
  to_sq := fun m => m % 64
  type_of := fun p => ((p % 8 : Nat) : Int)
  relative_rank := fun _ s => ((s / 8 : Nat) : Int)
  partition := fun p l => l.filter p ++ l.filter (fun e => !p e)

/-- Storage before construction. -/
def raw0 : MovePicker where
  countermove := 0
  depth := 0
  ttMove := 0
  killers := fun _ => ⟨0, 0⟩
  recaptureSquare := 0
  threshold := 0
  stage := 0
  endGoodQuiets := .moves 0
  endBadCaptures := .moves 0
  moves := fun _ => ⟨0, 0⟩
  cur := .moves 0
  endMoves := .moves 0

/-- A position, not in check, with five captures (those with an odd number
lose material) and three quiet moves. -/
def pos0 : Position where
  checkers := false
  pseudo_legal := fun m => m != 0
  capture := fun m => decide (m < 100)
  see := fun m => if m % 2 = 0 then 5 else -5
  see_sign := fun m => if m % 2 = 0 then 5 else -5
  piece_on := fun s => s % 7
  moved_piece := fun m => m % 5
  side_to_move := 0
  history := fun p s => (p : Int) - (s : Int)
  counterMoves := fun _ _ => 0
  genCaptures := [1, 2, 3, 4, 5]
  genQuiets := [100, 101, 102]
  genEvasions := []
  genQuietChecks := [101]

/-- A stack frame with two different killers. -/
def ss0 : Stack where
  killers0 := 200
  killers1 := 201
  prevMove := 0
  cm := none
  fm := none
  f2 := none

/-- The picker `MovePicker(pos0, 4, 5, ss0)`. -/
def mp0 : MovePicker :=
  { raw0 with
    depth := 5
    ttMove := 4
    endBadCaptures := .moves 255
    endMoves := .moves 1 }

/-- The picker `MovePicker(pos0, 4, 2, ss0)`: main search at a depth below
`3 * ONE_PLY`. -/
def mpS : MovePicker :=
  { raw0 with
    depth := 2
    ttMove := 4
    endBadCaptures := .moves 255
    endMoves := .moves 1 }

/-- The picker `MovePicker(pos0, 4, -7, 3)`: recapture mode on square 3. -/
def mpR : MovePicker :=
  { raw0 with
    stage := RECAPTURE
    recaptureSquare := 3
    endBadCaptures := .moves 255 }

/-- The picker `MovePicker(pos0, 4, 0)`: probcut with threshold 0. -/
def mpP : MovePicker :=
  { raw0 with
    stage := PROBCUT
    ttMove := 4
    endBadCaptures := .moves 255
    endMoves := .moves 1 }

/-- A position whose only move is the quiet move 7. -/
def posK : Position where
  checkers := false
  pseudo_legal := fun m => m == 7
  capture := fun _ => false
  see := fun _ => 0
  see_sign := fun _ => 0
  piece_on := fun _ => 0
  moved_piece := fun _ => 0
  side_to_move := 0
  history := fun _ _ => 0
  counterMoves := fun _ _ => 0
  genCaptures := []
  genQuiets := [7]
  genEvasions := []
  genQuietChecks := []

/-- A stack frame whose two killers are the same move. -/
def ssK : Stack where
  killers0 := 7
  killers1 := 7
  prevMove := 0
  cm := none
  fm := none
  f2 := none

/-- The picker `MovePicker(posK, MOVE_NONE, 1, ssK)`. -/
def mpK : MovePicker :=
  { raw0 with
    depth := 1
    endBadCaptures := .moves 255 }

/-- A position whose capture generator emits the move 9, which
`pos.capture` does not count as a capture. -/
def posQ : Position where
  checkers := false
  pseudo_legal := fun m => m == 9
  capture := fun _ => false
  see := fun _ => 0
  see_sign := fun _ => 0
  piece_on := fun _ => 0
  moved_piece := fun _ => 0
  side_to_move := 0
  history := fun _ _ => 0
  counterMoves := fun _ _ => 0
  genCaptures := [9]
  genQuiets := []
  genEvasions := []
  genQuietChecks := []

/-- A stack frame whose first killer is the move 9. -/
def ssQ : Stack where
  killers0 := 9
  killers1 := 0
  prevMove := 0
  cm := none
  fm := none
  f2 := none

/-- The picker `MovePicker(posQ, MOVE_NONE, 1, ssQ)`. -/
def mpQ : MovePicker :=
  { raw0 with
    depth := 1
    endBadCaptures := .moves 255 }

/-- A stack frame with the counter-move tables of the frames 1 and 2 plies
back and a null pointer for the frame 4 plies back. -/
def ssT : Stack where
  killers0 := 0
  killers1 := 0
  prevMove := 0
  cm := some fun _ _ => 10
  fm := some fun _ _ => 100
  f2 := none

/-- A position whose only move is the capture 9, with exchange value 0. -/
def posP : Position where
  checkers := false
  pseudo_legal := fun m => m == 9
  capture := fun m => m == 9
  see := fun _ => 0
  see_sign := fun _ => 0
  piece_on := fun _ => 0
  moved_piece := fun _ => 0
  side_to_move := 0
  history := fun _ _ => 0
  counterMoves := fun _ _ => 0
  genCaptures := [9]
  genQuiets := []
  genEvasions := []
  genQuietChecks := []

/-- The picker `MovePicker(posP, MOVE_NONE, 0)`: probcut with threshold 0. -/
def mpPP : MovePicker :=
  { raw0 with
    stage := PROBCUT
    endBadCaptures := .moves 255 }

/-- The picker `MovePicker(posP, MOVE_NONE, -7, 5)`: recapture mode on
square 5. -/
def mpPR : MovePicker :=
  { raw0 with
    stage := RECAPTURE
    recaptureSquare := 5
    endBadCaptures := .moves 255 }

/-- The picker `MovePicker(posP, MOVE_NONE, -3, 5)`: quiescence search
without checks. -/
def mpPQ : MovePicker :=
  { raw0 with
    stage := QSEARCH_WITHOUT_CHECKS
    endBadCaptures := .moves 255 }

/-- A position without any move. -/
def posE : Position where
  checkers := false
  pseudo_legal := fun _ => false
  capture := fun _ => false
  see := fun _ => 0
  see_sign := fun _ => 0
  piece_on := fun _ => 0
  moved_piece := fun _ => 0
  side_to_move := 0
  history := fun _ _ => 0
  counterMoves := fun _ _ => 0
  genCaptures := []
  genQuiets := []
  genEvasions := []
  genQuietChecks := []

/-- The picker `MovePicker(posE, 4, 5, ss0)`: the hint 4 is rejected. -/
def mpE : MovePicker :=
  { raw0 with
    depth := 5
    endBadCaptures := .moves 255 }

/-- A position whose only moves are two losing captures. -/
def pos8 : Position where
  checkers := false
  pseudo_legal := fun m => m == 1 || m == 3
  capture := fun m => m == 1 || m == 3
  see := fun _ => -1
  see_sign := fun _ => -1
  piece_on := fun s => s
  moved_piece := fun _ => 0
  side_to_move := 0
  history := fun _ _ => 0
  counterMoves := fun _ _ => 0
  genCaptures := [1, 3]
  genQuiets := []
  genEvasions := []
  genQuietChecks := []

/-- The picker `MovePicker(pos8, MOVE_NONE, 1, ss8)`. -/
def mp8 : MovePicker :=
  { raw0 with
    depth := 1
    endBadCaptures := .moves 255 }

/-- A stack frame without killers. -/
def ss8 : Stack where
  killers0 := 0
  killers1 := 0
  prevMove := 0
  cm := none
  fm := none
  f2 := none

end MoveSelection
namespace MoveSelection

variable (C : Consts) (pos : Position) (ss : Stack)

/-! ## Stage chains -/

/-- The stages entered by up to `n` successive calls of
`generate_next_stage`, which is not called again once `STOP` is entered
(it asserts `stage != STOP`); `none` when an `assert` fails. -/
def stagesEntered : Nat → MovePicker → Option (List Nat)
  | 0, _ => some []
  | n + 1, mp =>
    if mp.stage = STOP then some []
    else
      match generate_next_stage C pos ss mp with
      | some mp' => (stagesEntered n mp').map (mp'.stage :: ·)
      | none => none

/-- The stage `generate_next_stage` leaves the picker in, by the stage it
is called in: the `switch (++stage)` keeps the incremented stage in its
first six cases and sets `STOP` in the last. -/
def nextStage (s : Nat) : Nat :=
  match s + 1 with
  | GOOD_CAPTURES | QCAPTURES_1 | QCAPTURES_2 | PROBCUT_CAPTURES | RECAPTURES => s + 1
  | KILLERS => s + 1
  | ALL_QUIETS => s + 1
  | BAD_CAPTURES => s + 1
  | ALL_EVASIONS => s + 1
  | CHECKS => s + 1
  | _ => STOP

/-- The stages entered from stage `s` by up to `n` stage changes, the last
one being the change to `STOP`. -/
def stageList : Nat → Nat → List Nat
  | 0, _ => []
  | n + 1, s => if s = STOP then [] else nextStage s :: stageList n (nextStage s)

/-- The chain of stages of a mode, by the stage its constructor sets. -/
def chain (s : Nat) : List Nat :=
  match s with
  | MAIN_SEARCH => [MAIN_SEARCH, GOOD_CAPTURES, KILLERS, ALL_QUIETS, BAD_CAPTURES, STOP]
  | EVASION => [EVASION, ALL_EVASIONS, STOP]
  | QSEARCH_WITH_CHECKS => [QSEARCH_WITH_CHECKS, QCAPTURES_1, CHECKS, STOP]
  | QSEARCH_WITHOUT_CHECKS => [QSEARCH_WITHOUT_CHECKS, QCAPTURES_2, STOP]
  | PROBCUT => [PROBCUT, PROBCUT_CAPTURES, STOP]
  | RECAPTURE => [RECAPTURE, RECAPTURES, STOP]
  | _ => []

/-- The stages a constructor can set. -/
def initialStages : List Nat :=
  [MAIN_SEARCH, EVASION, QSEARCH_WITH_CHECKS, QSEARCH_WITHOUT_CHECKS, PROBCUT, RECAPTURE]

/-! ## The quiet stage seen from any run -/

/-- What holds of a picker of depth `d0` and of the moves `acc` it has
returned in `ALL_QUIETS` so far, for a property `Q` of move lists: before
that stage nothing was returned there; in it, `Q` holds of `acc` followed by
the moves still in `[cur, endMoves)`; after it, `Q` holds of `acc`. -/
def QuietInv (d0 : Depth) (Q : List Move → Prop) (mp : MovePicker) (acc : List Move) : Prop :=
  mp.depth = d0 ∧
  ((mp.stage < ALL_QUIETS ∧ acc = []) ∨
   (mp.stage = ALL_QUIETS ∧ ∃ i n, mp.cur = .moves i ∧ mp.endMoves = .moves n ∧ i ≤ n ∧
      Q (acc ++ (slice mp.moves i (n - i).toNat).map fun e => e.move)) ∨
   (ALL_QUIETS < mp.stage ∧ Q acc))

end MoveSelection

/-! # Score output (`ucicommand.cpp`) -/

namespace UCI

/-- Constants of the missing `types.h` that `UCI::value` reads. -/
structure Consts where
  VALUE_MATE : Int
  MAX_PLY : Int
  PawnValueEg : Int

/-- The number printed after `"cp "`: `v * 100 / PawnValueEg`, with the
truncating division of C++. -/
def cpValue (K : Consts) (v : Int) : Int := Int.tdiv (v * 100) K.PawnValueEg

/-- The number printed after `"mate "`:
`(v > 0 ? VALUE_MATE - v + 1 : -VALUE_MATE - v) / 2`, with the truncating
division of C++. -/
def mateValue (K : Consts) (v : Int) : Int :=
  Int.tdiv (if v > 0 then K.VALUE_MATE - v + 1 else -K.VALUE_MATE - v) 2

/-- Function `UCI::value(Value v)`: what is streamed into `ss`. -/
def value (K : Consts) (v : Int) : String :=
  if |v| < K.VALUE_MATE - K.MAX_PLY then "cp " ++ toString (cpValue K v)
  else "mate " ++ toString (mateValue K v)

/-- Sample values of the constants, those of the Stockfish sources this
engine derives from. -/
def K0 : Consts where
  VALUE_MATE := 32000
  MAX_PLY := 128
  PawnValueEg := 258

end UCI
namespace MoveSelection

variable (C : Consts) (pos : Position) (ss : Stack)

/-! ## Further inputs and ghost definitions -/

/-- An array whose entry `i` has the move `i` and the value `min i 1`: the
greatest value of a range `[0, n)` with `n > 2` is at the positions
`1, …, n - 1`. -/
def arrTie : Int → ExtMove := fun i => ⟨i.toNat, min i 1⟩

/-- The constants `C0` with a buffer of two entries. -/
def C2 : Consts := { C0 with MAX_MOVES := 2 }

/-- The picker `MovePicker(pos8, MOVE_NONE, 1, ss8)` over a buffer of two
entries. -/
def mpT : MovePicker :=
  { raw0 with
    depth := 1
    endBadCaptures := .moves 1 }

/-- A position whose capture generator emits the 256 moves `1, …, 256`, all
of them losing captures. -/
def posF : Position where
  checkers := false
  pseudo_legal := fun m => m != 0
  capture := fun m => m != 0
  see := fun _ => -1
  see_sign := fun _ => -1
  piece_on := fun s => s
  moved_piece := fun _ => 0
  side_to_move := 0
  history := fun _ _ => 0
  counterMoves := fun _ _ => 0
  genCaptures := List.range' 1 256
  genQuiets := []
  genEvasions := []
  genQuietChecks := []

/-- The picker `mp0` after the pass that returns the hint. -/
def mp0h : MovePicker := { mp0 with cur := .moves 1 }

/-- The picker `mp0` when it enters `GOOD_CAPTURES`: the five captures of
`pos0` generated and scored. -/
def mp0g : MovePicker :=
  { mp0 with
    stage := GOOD_CAPTURES
    cur := .moves 0
    endMoves := .moves 5
    moves := capArr C0 pos0 mp0.moves }

/-- The picker `mp0g` after its first pass, which picks the capture 5 and
defers it to the slot 255. -/
def mp0d : MovePicker :=
  { mp0g with
    moves := Function.update (pick_best mp0g.moves 0 5) 255
      { pick_best mp0g.moves 0 5 255 with move := 5 }
    cur := .moves 1
    endBadCaptures := .moves 254 }

/-- The picker `mpT` when it enters `GOOD_CAPTURES`: the two captures of
`pos8` generated and scored, in a buffer of two entries. -/
def mpTg : MovePicker :=
  { mpT with
    stage := GOOD_CAPTURES
    cur := .moves 0
    endMoves := .moves 2
    moves := capArr C2 pos8 mpT.moves }

/-- The picker `mp8` on the position `posF` when it enters `GOOD_CAPTURES`:
the 256 captures generated and scored, in a buffer of 256 entries. -/
def mpFg : MovePicker :=
  { mp8 with
    stage := GOOD_CAPTURES
    cur := .moves 0
    endMoves := .moves 256
    moves := capArr C0 posF mp8.moves }

/-! ## Passes -/

/-- The picker a pass leaves; `none` when an `assert` fails. -/
def Step.after : Step → Option MovePicker
  | .ret _ mp => some mp
  | .brk mp => some mp
  | .defer _ mp => some mp
  | .abort => none

/-- A picker obtained from a constructed one by passes through the loops of
`next_move`, whatever the calls the passes belong to: the states in which
the test of the inner `while` of `next_move` is evaluated. -/
inductive Visited : MovePicker → Prop where
  | init {mp : MovePicker} : Constructed C pos ss mp → Visited mp
  | pass {mp mp' : MovePicker} :
      Visited mp → (next_move_step C pos ss mp).after = some mp' → Visited mp'

/-- What holds of the deferred tail before and during `GOOD_CAPTURES`, for
the hint `tt`: before the stage `endBadCaptures` is where the constructor
put it; during the stage the segment is a range `[i, n)` of the generated
captures and the number of captures deferred so far, together with the
number of captures of the segment still to defer, is at most the number of
losing captures generated. -/
def GoodInv (tt : Move) (mp : MovePicker) : Prop :=
  mp.ttMove = tt ∧
  ((mp.stage = MAIN_SEARCH ∧ mp.endBadCaptures = .moves (C.MAX_MOVES - 1)) ∨
   (mp.stage = GOOD_CAPTURES ∧ ∃ i e, mp.cur = .moves i ∧
      mp.endMoves = .moves pos.genCaptures.length ∧ mp.endBadCaptures = .moves e ∧
      0 ≤ i ∧ i ≤ pos.genCaptures.length ∧
      C.MAX_MOVES - 1 - e
        + (((slice mp.moves i ((pos.genCaptures.length : Int) - i).toNat).map
            fun x => x.move).countP (isBad pos tt) : Nat)
        ≤ (pos.genCaptures.countP (isBad pos tt) : Nat)) ∨
   (mp.stage ≠ MAIN_SEARCH ∧ mp.stage ≠ GOOD_CAPTURES))

/-- What holds of a picker with countermove `cm` and of the moves `acc` it
has returned in `KILLERS` so far, for a property `Q` of move lists: before
that stage nothing was returned there; in it, `Q` holds of `acc` followed by
the candidates still in `[cur, endMoves)`; after it, `Q` holds of `acc`. -/
def KillerInv (cm : Move) (Q : List Move → Prop) (mp : MovePicker) (acc : List Move) : Prop :=
  mp.countermove = cm ∧
  ((mp.stage < KILLERS ∧ acc = []) ∨
   (mp.stage = KILLERS ∧ ∃ i n, mp.cur = .killers i ∧ mp.endMoves = .killers n ∧ i ≤ n ∧
      Q (acc ++ (slice mp.killers i (n - i).toNat).map fun e => e.move)) ∨
   (KILLERS < mp.stage ∧ Q acc))

/-! ## Counting returns -/

/-- The number of moves the generators called in the chain of stages that
starts in stage `s` emit: captures and quiet moves in main search, evasions
in evasion mode, captures and quiet checks in quiescence search with checks,
captures in the other modes. -/
def genCount (s : Nat) : Nat :=
  match s with
  | MAIN_SEARCH => pos.genCaptures.length + pos.genQuiets.length
  | EVASION => pos.genEvasions.length
  | QSEARCH_WITH_CHECKS => pos.genCaptures.length + pos.genQuietChecks.length
  | _ => pos.genCaptures.length

/-- A bound on the number of passes that can still return a move: the
entries left in the current segment, the entries the stages to come will
have in theirs (three killer candidates at most), and in main search the
captures deferred so far. -/
def remaining (mp : MovePicker) : Int :=
  match mp.stage with
  | MAIN_SEARCH =>
    (mp.endMoves.off - mp.cur.off) + pos.genCaptures.length + 3 + pos.genQuiets.length
      + (C.MAX_MOVES - 1 - mp.endBadCaptures.off)
  | GOOD_CAPTURES =>
    (mp.endMoves.off - mp.cur.off) + 3 + pos.genQuiets.length
      + (C.MAX_MOVES - 1 - mp.endBadCaptures.off)
  | KILLERS =>
    (mp.endMoves.off - mp.cur.off) + pos.genQuiets.length
      + (C.MAX_MOVES - 1 - mp.endBadCaptures.off)
  | ALL_QUIETS => (mp.endMoves.off - mp.cur.off) + (C.MAX_MOVES - 1 - mp.endBadCaptures.off)
  | BAD_CAPTURES => mp.cur.off - mp.endMoves.off
  | EVASION => (mp.endMoves.off - mp.cur.off) + pos.genEvasions.length
  | QSEARCH_WITH_CHECKS =>
    (mp.endMoves.off - mp.cur.off) + pos.genCaptures.length + pos.genQuietChecks.length
  | QCAPTURES_1 => (mp.endMoves.off - mp.cur.off) + pos.genQuietChecks.length
  | QSEARCH_WITHOUT_CHECKS | PROBCUT | RECAPTURE =>
    (mp.endMoves.off - mp.cur.off) + pos.genCaptures.length
  | STOP => 0
  | _ => mp.endMoves.off - mp.cur.off

/-! ## Inputs with a buffer of three entries, mixed quiet scores, large table entries -/

/-- The constants `C0` with a buffer of three entries. -/
def Cb3 : Consts := { C0 with MAX_MOVES := 3 }

/-- A position whose only moves are the captures 2, 7 and 5, of which 7
loses material; the victims are worth 200, 700 and 500. -/
def posH : Position where
  checkers := false
  pseudo_legal := fun m => m == 2 || m == 5 || m == 7
  capture := fun m => m == 2 || m == 5 || m == 7
  see := fun m => if m = 7 then -1 else 0
  see_sign := fun m => if m = 7 then -1 else 0
  piece_on := fun s => s
  moved_piece := fun _ => 0
  side_to_move := 0
  history := fun _ _ => 0
  counterMoves := fun _ _ => 0
  genCaptures := [2, 7, 5]
  genQuiets := []
  genEvasions := []
  genQuietChecks := []

/-- The picker `MovePicker(posH, 2, 5, ss8)` over a buffer of three
entries. -/
def mpH : MovePicker :=
  { raw0 with
    depth := 5
    ttMove := 2
    endBadCaptures := .moves 2
    endMoves := .moves 1 }

/-- The picker `mpH` when it enters `GOOD_CAPTURES`. -/
def mpHg : MovePicker :=
  { mpH with
    stage := GOOD_CAPTURES
    cur := .moves 0
    endMoves := .moves 3
    moves := capArr Cb3 posH mpH.moves }

/-- The picker `mpHg` after its first pass, which picks the capture 7 and
defers it to the slot 2. -/
def mpH1 : MovePicker :=
  { mpHg with
    moves := Function.update (pick_best mpHg.moves 0 3) 2
      { pick_best mpHg.moves 0 3 2 with move := 7 }
    cur := .moves 1
    endBadCaptures := .moves 1 }

/-- The picker `mpH1` after its next pass, which picks the entry of slot 2,
again the move 7, and defers it to the slot 1. -/
def mpH2 : MovePicker :=
  { mpH1 with
    moves := Function.update (pick_best mpH1.moves 1 3) 1
      { pick_best mpH1.moves 1 3 1 with move := 7 }
    cur := .moves 2
    endBadCaptures := .moves 0 }

/-- The picker `mpH2` after its next pass, which picks the hint and skips
it. -/
def mpH3 : MovePicker :=
  { mpH2 with
    moves := pick_best mpH2.moves 2 3
    cur := .moves 3 }

/-- A position with the losing capture 1 and the quiet moves 100, 101 and
102. -/
def posW : Position where
  checkers := false
  pseudo_legal := fun m => m != 0
  capture := fun m => decide (m < 100)
  see := fun _ => -1
  see_sign := fun _ => -1
  piece_on := fun s => s
  moved_piece := fun _ => 0
  side_to_move := 0
  history := fun _ _ => 0
  counterMoves := fun _ _ => 0
  genCaptures := [1]
  genQuiets := [100, 101, 102]
  genEvasions := []
  genQuietChecks := []

/-- The picker `MovePicker(posW, 102, 5, ss8)` over a buffer of three
entries. -/
def mpW : MovePicker :=
  { raw0 with
    depth := 5
    ttMove := 102
    endBadCaptures := .moves 2
    endMoves := .moves 1 }

/-- The picker `mpW` when it enters `GOOD_CAPTURES`. -/
def mpWg : MovePicker :=
  { mpW with
    stage := GOOD_CAPTURES
    cur := .moves 0
    endMoves := .moves 1
    moves := capArr Cb3 posW mpW.moves }

/-- The picker `mpWg` after its pass, which picks the capture 1 and defers
it to the slot 2. -/
def mpW1 : MovePicker :=
  { mpWg with
    moves := Function.update (pick_best mpWg.moves 0 1) 2
      { pick_best mpWg.moves 0 1 2 with move := 1 }
    cur := .moves 1
    endBadCaptures := .moves 1 }

/-- The position `pos0` with a history table that gives the quiet moves 100
and 102 the score 7 and the quiet move 101 the score -5. -/
def posM : Position :=
  { pos0 with history := fun p _ => if p = 1 then -5 else 7 }

/-- A stack frame whose counter-move table of the frame 1 ply back has the
entry `2^30` everywhere; the other two pointers are null. -/
def ssBig : Stack where
  killers0 := 0
  killers1 := 0
  prevMove := 0
  cm := some fun _ _ => 1073741824
  fm := none
  f2 := none

/-- The picker `mpPQ` when it enters `QCAPTURES_2`: the capture 9 generated
and scored. -/
def mpPQg : MovePicker :=
  { mpPQ with
    stage := QCAPTURES_2
    cur := .moves 0
    endMoves := .moves 1
    moves := capArr C0 posP mpPQ.moves }

/-- The picker `mpPQ` after its first call, which returns the capture 9. -/
def mpPQ1 : MovePicker :=
  { mpPQg with
    moves := pick_best mpPQg.moves 0 1
    cur := .moves 1 }

/-- The picker `mpPQ` after its second call, which returns `MOVE_NONE`. -/
def mpPQ2 : MovePicker :=
  { mpPQ1 with
    stage := STOP
    cur := .moves 0 }

end MoveSelection
namespace MoveSelection

theorem slice_length (a : Int → ExtMove) (b : Int) (n : Nat) : (slice a b n).length = n := by
  simp [slice]

theorem slice_zero (a : Int → ExtMove) (b : Int) : slice a b 0 = [] := rfl

theorem slice_succ (a : Int → ExtMove) (b : Int) (n : Nat) :
    slice a b (n + 1) = slice a b n ++ [a (b + n)] := by
  simp [slice, List.range_succ]

theorem slice_congr {a a' : Int → ExtMove} {b : Int} {n : Nat}
    (h : ∀ j : Nat, j < n → a (b + j) = a' (b + j)) : slice a b n = slice a' b n := by
  unfold slice
  apply List.map_congr_left
  intro j hj
  exact h j (List.mem_range.1 hj)

theorem slice_append (a : Int → ExtMove) (b : Int) (m n : Nat) :
    slice a b (m + n) = slice a b m ++ slice a (b + m) n := by
  induction n with
  | zero => simp [slice_zero]
  | succ n ih =>
    rw [← Nat.add_assoc, slice_succ, ih, slice_succ, List.append_assoc]
    have : b + ((m + n : Nat) : Int) = b + (m : Int) + (n : Int) := by push_cast; ring
    rw [this]

theorem slice_cons (a : Int → ExtMove) (b : Int) (n : Nat) :
    slice a b (n + 1) = a b :: slice a (b + 1) n := by
  have := slice_append a b 1 n
  rw [Nat.add_comm] at this
  rw [this]
  simp [slice, List.range_succ]

theorem mem_slice {a : Int → ExtMove} {b : Int} {n : Nat} {e : ExtMove} :
    e ∈ slice a b n ↔ ∃ j : Nat, j < n ∧ a (b + j) = e := by
  simp [slice]

theorem slice_getElem (a : Int → ExtMove) (b : Int) (n j : Nat) (h : j < (slice a b n).length) :
    (slice a b n)[j] = a (b + j) := by
  simp [slice]

end MoveSelection
namespace MoveSelection

/-! ### `max_element` stays inside the range -/

theorem max_element_loop_mem (a : Int → ExtMove) (lo : Int) :
    ∀ (n : Nat) (largest first : Int), lo ≤ largest → largest < first →
      lo ≤ max_element_loop a n largest first ∧ max_element_loop a n largest first < first + n := by
  intro n
  induction n with
  | zero => intro largest first h1 h2; simp [max_element_loop]; omega
  | succ n ih =>
    intro largest first h1 h2
    simp only [max_element_loop]
    split
    · have := ih first (first + 1) (by omega) (by omega)
      push_cast; omega
    · have := ih largest (first + 1) h1 (by omega)
      push_cast; omega

theorem max_element_mem (a : Int → ExtMove) (first last : Int) (h : first < last) :
    first ≤ max_element a first last ∧ max_element a first last < last := by
  unfold max_element
  rw [if_neg (by omega)]
  have := max_element_loop_mem a first (last - (first + 1)).toNat first (first + 1)
    (le_refl _) (by omega)
  have h2 : ((last - (first + 1)).toNat : Int) = last - (first + 1) := Int.toNat_of_nonneg (by omega)
  omega

/-! ### `swap` and `pick_best` permute the range -/

theorem swap_apply (a : Int → ExtMove) (i j x : Int) :
    swap a i j x = a (Equiv.swap i j x) := by
  unfold swap
  by_cases hj : x = j
  · subst hj; simp
  · by_cases hi : x = i
    · subst hi; simp [Function.update_noteq hj]
    · rw [Function.update_noteq hj, Function.update_noteq hi, Equiv.swap_apply_of_ne_of_ne hi hj]

theorem swap_frame (a : Int → ExtMove) (i j x : Int) (hi : x ≠ i) (hj : x ≠ j) :
    swap a i j x = a x := by
  rw [swap_apply, Equiv.swap_apply_of_ne_of_ne hi hj]

theorem slice_eq_map (a : Int → ExtMove) (b : Int) (n : Nat) :
    slice a b n = ((List.range n).map fun (j : Nat) => b + (j : Int)).map a := by
  simp [slice]

theorem nodup_indices (b : Int) (n : Nat) :
    ((List.range n).map fun (j : Nat) => b + (j : Int)).Nodup := by
  apply List.Nodup.map _ (List.nodup_range n)
  intro x y h
  simpa using h

theorem mem_indices (b : Int) (n : Nat) (x : Int) :
    x ∈ ((List.range n).map fun (j : Nat) => b + (j : Int)) ↔ b ≤ x ∧ x < b + n := by
  simp only [List.mem_map, List.mem_range]
  constructor
  · rintro ⟨j, hj, rfl⟩; omega
  · rintro ⟨h1, h2⟩
    exact ⟨(x - b).toNat, by omega, by omega⟩

theorem swap_perm (a : Int → ExtMove) (b : Int) (n : Nat) (i j : Int)
    (hi : b ≤ i ∧ i < b + n) (hj : b ≤ j ∧ j < b + n) :
    (slice (swap a i j) b n).Perm (slice a b n) := by
  have h1 : slice (swap a i j) b n
      = (((List.range n).map fun (j : Nat) => b + (j : Int)).map (Equiv.swap i j)).map a := by
    simp only [slice, List.map_map]
    apply List.map_congr_left
    intro k _
    simp [swap_apply]
  rw [h1, slice_eq_map]
  apply List.Perm.map
  rw [List.perm_ext_iff_of_nodup ((nodup_indices b n).map (Equiv.swap i j).injective)
    (nodup_indices b n)]
  intro x
  rw [mem_indices]
  constructor
  · intro hx
    obtain ⟨y, hy, rfl⟩ := List.mem_map.1 hx
    rw [mem_indices] at hy
    by_cases h1 : y = i
    · subst h1; simpa using hj
    · by_cases h2 : y = j
      · subst h2; simpa using hi
      · rwa [Equiv.swap_apply_of_ne_of_ne h1 h2]
  · intro hx
    refine List.mem_map.2 ⟨Equiv.swap i j x, ?_, by simp⟩
    rw [mem_indices]
    by_cases h1 : x = i
    · subst h1; simpa using hj
    · by_cases h2 : x = j
      · subst h2; simpa using hi
      · rwa [Equiv.swap_apply_of_ne_of_ne h1 h2]

theorem pick_best_perm (a : Int → ExtMove) (b : Int) (n : Nat) :
    (slice (pick_best a b (b + (n + 1 : Nat))) b (n + 1)).Perm (slice a b (n + 1)) := by
  have h := max_element_mem a b (b + (n + 1 : Nat)) (by push_cast; omega)
  exact swap_perm a b (n + 1) b _ ⟨le_refl _, by push_cast; omega⟩ h

theorem pick_best_frame (a : Int → ExtMove) (b e x : Int) (h : x < b ∨ e ≤ x) :
    pick_best a b e x = a x := by
  unfold pick_best
  by_cases hbe : b < e
  · have := max_element_mem a b e hbe
    exact swap_frame a _ _ x (by omega) (by omega)
  · unfold max_element
    by_cases hbe2 : b = e
    · subst hbe2
      simp only [if_true]
      by_cases hx : x = b
      · subst hx; simp [swap]
      · exact swap_frame a _ _ x hx hx
    · rw [if_neg hbe2]
      have h0 : (e - (b + 1)).toNat = 0 := by omega
      rw [h0]
      simp only [max_element_loop]
      by_cases hx : x = b
      · subst hx; simp [swap]
      · exact swap_frame a _ _ x hx hx

end MoveSelection
namespace MoveSelection

/-! ### `insertion_sort` permutes the range and touches nothing else -/

theorem insertion_inner_spec (b : Int) (tmp : ExtMove) :
    ∀ (k : Nat) (a : Int → ExtMove) (q : Int), q = b + k →
      (∀ x, (x < b ∨ q < x) → insertion_inner b tmp k a q x = a x) ∧
      (slice (insertion_inner b tmp k a q) b (k + 1)).Perm (tmp :: slice a b k) := by
  intro k
  induction k with
  | zero =>
    intro a q hq
    simp only [insertion_inner]
    constructor
    · intro x hx
      exact Function.update_noteq (by omega) _ _
    · have : q = b := by simpa using hq
      subst this
      rw [slice_succ, slice_zero, slice_zero]
      have h0 : q + ((0 : Nat) : Int) = q := by omega
      rw [h0, Function.update_same]
      simp
  | succ k ih =>
    intro a q hq
    simp only [insertion_inner]
    split
    · obtain ⟨hfr, hperm⟩ := ih (Function.update a q (a (q - 1))) (q - 1) (by push_cast at hq; omega)
      constructor
      · intro x hx
        rw [hfr x (by omega)]
        exact Function.update_noteq (by omega) _ _
      · rw [slice_succ]
        have h1 : insertion_inner b tmp k (Function.update a q (a (q - 1))) (q - 1) (b + ((k + 1 : Nat) : Int))
            = a (b + k) := by
          have hq' : b + ((k + 1 : Nat) : Int) = q := by omega
          rw [hq', hfr q (by omega), Function.update_same]
          congr 1; push_cast at hq; omega
        have h2 : slice (Function.update a q (a (q - 1))) b k = slice a b k := by
          apply slice_congr
          intro j hj
          exact Function.update_noteq (by push_cast at hq; omega) _ _
        rw [h1, slice_succ a b k]
        rw [h2] at hperm
        exact (hperm.append_right _)
    · constructor
      · intro x hx
        exact Function.update_noteq (by omega) _ _
      · rw [slice_succ]
        have hq' : b + ((k + 1 : Nat) : Int) = q := by omega
        rw [hq', Function.update_same]
        have h2 : slice (Function.update a q tmp) b (k + 1) = slice a b (k + 1) := by
          apply slice_congr
          intro j hj
          exact Function.update_noteq (by omega) _ _
        rw [h2]
        exact List.perm_append_singleton _ _

theorem insertion_outer_spec (b : Int) (N : Nat) :
    ∀ (n : Nat) (a : Int → ExtMove) (m : Nat), 1 ≤ m → m + n = N →
      (∀ x, (x < b ∨ b + N ≤ x) → insertion_outer b n a (b + m) x = a x) ∧
      (slice (insertion_outer b n a (b + m)) b N).Perm (slice a b N) := by
  intro n
  induction n with
  | zero => intro a m _ _; simp [insertion_outer]
  | succ n ih =>
    intro a m hm hN
    simp only [insertion_outer]
    have hk : (b + (m : Int) - b).toNat = m := by simp
    rw [hk]
    obtain ⟨hfr, hperm⟩ := insertion_inner_spec b (a (b + m)) m a (b + m) rfl
    have hstep := ih (insertion_inner b (a (b + m)) m a (b + m)) (m + 1) (by omega) (by omega)
    have hcast : b + ((m + 1 : Nat) : Int) = b + m + 1 := by push_cast; ring
    rw [hcast] at hstep
    obtain ⟨hfr2, hperm2⟩ := hstep
    constructor
    · intro x hx
      rw [hfr2 x hx]
      exact hfr x (by omega)
    · refine hperm2.trans ?_
      have hsplit : N = (m + 1) + n := by omega
      rw [hsplit, slice_append, slice_append a]
      apply List.Perm.append
      · refine hperm.trans ?_
        rw [slice_succ]
        exact (List.perm_append_singleton _ _).symm
      · apply List.Perm.of_eq
        apply slice_congr
        intro j _
        exact hfr _ (by push_cast; omega)

theorem insertion_sort_spec (a : Int → ExtMove) (b : Int) (N : Nat) :
    (∀ x, (x < b ∨ b + N ≤ x) → insertion_sort a b (b + N) x = a x) ∧
    (slice (insertion_sort a b (b + N)) b N).Perm (slice a b N) := by
  unfold insertion_sort
  rcases Nat.lt_or_ge N 2 with h | h
  · have : (b + (N : Int) - (b + 1)).toNat = 0 := by omega
    rw [this]
    simp [insertion_outer]
  · have hn : (b + (N : Int) - (b + 1)).toNat = N - 1 := by omega
    rw [hn]
    have := insertion_outer_spec b N (N - 1) a 1 (le_refl _) (by omega)
    simpa using this

/-- Range [b, e) with `e ≤ b` is left alone. -/
theorem insertion_sort_empty (a : Int → ExtMove) (b e : Int) (h : e ≤ b) :
    insertion_sort a b e = a := by
  unfold insertion_sort
  have : (e - (b + 1)).toNat = 0 := by omega
  rw [this]
  rfl

/-! ### `generate`, `scoreRange`, `blit` -/

theorem generate_frame (l : List Move) (a : Int → ExtMove) (x : Int)
    (h : x < 0 ∨ (l.length : Int) ≤ x) : generate l a x = a x := by
  unfold generate
  rw [if_neg (by omega)]

theorem generate_move (l : List Move) (a : Int → ExtMove) (j : Nat) (h : j < l.length) :
    (generate l a j).move = l[j] := by
  unfold generate
  rw [if_pos (by omega)]
  simp [h]

theorem scoreRange_move (f : Move → Value) (a : Int → ExtMove) (n x : Int) :
    (scoreRange f a n x).move = (a x).move := by
  unfold scoreRange
  split <;> rfl

theorem scoreRange_frame (f : Move → Value) (a : Int → ExtMove) (n x : Int)
    (h : x < 0 ∨ n ≤ x) : scoreRange f a n x = a x := by
  unfold scoreRange
  rw [if_neg (by omega)]

theorem blit_frame (a : Int → ExtMove) (b : Int) (l : List ExtMove) (x : Int)
    (h : x < b ∨ b + l.length ≤ x) : blit a b l x = a x := by
  unfold blit
  rw [if_neg (by omega)]

theorem slice_blit (a : Int → ExtMove) (b : Int) (l : List ExtMove) :
    slice (blit a b l) b l.length = l := by
  apply List.ext_getElem
  · simp [slice_length]
  · intro j h1 h2
    rw [slice_getElem]
    unfold blit
    rw [if_pos (by omega)]
    have : (b + (j : Int) - b).toNat = j := by simp
    rw [this, List.getD_eq_getElem _ _ h2]

end MoveSelection
namespace MoveSelection

variable (C : Consts) (pos : Position) (ss : Stack)

/-! ### Passes, calls and traces -/

theorem step_STOP (mp : MovePicker) (h : mp.stage = STOP) :
    next_move_step C pos ss mp = .ret MOVE_NONE mp := by
  unfold next_move_step
  rw [if_neg (by simp [h])]
  simp [h]

theorem next_move_STOP (mp : MovePicker) (h : mp.stage = STOP) (fuel : Nat) :
    next_move C pos ss (fuel + 1) mp = some (MOVE_NONE, mp) := by
  simp [next_move, step_STOP C pos ss mp h]

theorem rets_append (s t : List Event) : rets (s ++ t) = rets s ++ rets t := by
  induction s with
  | nil => rfl
  | cons e s ih => cases e <;> simp [rets, ih]

theorem defers_append (s t : List Event) : defers (s ++ t) = defers s ++ defers t := by
  induction s with
  | nil => rfl
  | cons e s ih => cases e <;> simp [defers, ih]

theorem next_move_of_run :
    ∀ (F : Nat) (mp : MovePicker) (T : List Event), run C pos ss F mp = some T →
      ∀ fuel, F ≤ fuel →
        ∃ m mp', next_move C pos ss fuel mp = some (m, mp') ∧
          ((rets T = [] ∧ m = MOVE_NONE ∧ mp'.stage = STOP) ∨
            ∃ T' F', F' < F ∧ run C pos ss F' mp' = some T' ∧
              rets T = (mp'.stage, m) :: rets T') := by
  intro F
  induction F with
  | zero => intro mp T h; simp [run] at h
  | succ F ih =>
    intro mp T h fuel hfuel
    obtain ⟨fuel', rfl⟩ : ∃ f', fuel = f' + 1 := ⟨fuel - 1, by omega⟩
    have hf : F ≤ fuel' := by omega
    simp only [run] at h
    split at h
    · rename_i hstop
      refine ⟨MOVE_NONE, mp, next_move_STOP C pos ss mp hstop fuel', Or.inl ?_⟩
      simp only [Option.some.injEq] at h
      subst h
      exact ⟨rfl, rfl, hstop⟩
    · simp only [next_move]
      split at h
      · rename_i m mp' hstep
        cases hr : run C pos ss F mp' with
        | none => simp [hr] at h
        | some T' =>
          simp only [hr, Option.map_some', Option.some.injEq] at h
          subst h
          exact ⟨m, mp', rfl, Or.inr ⟨T', F, by omega, hr, rfl⟩⟩
      · rename_i mp' hstep
        obtain ⟨m, mp'', h1, h2⟩ := ih mp' T h fuel' hf
        refine ⟨m, mp'', h1, ?_⟩
        rcases h2 with h2 | ⟨T', F', hF', h3, h4⟩
        · exact Or.inl h2
        · exact Or.inr ⟨T', F', by omega, h3, h4⟩
      · rename_i m0 mp' hstep
        cases hr : run C pos ss F mp' with
        | none => simp [hr] at h
        | some T0 =>
          simp only [hr, Option.map_some', Option.some.injEq] at h
          subst h
          obtain ⟨m, mp'', h1, h2⟩ := ih mp' T0 hr fuel' hf
          refine ⟨m, mp'', h1, ?_⟩
          rcases h2 with h2 | ⟨T', F', hF', h3, h4⟩
          · exact Or.inl h2
          · exact Or.inr ⟨T', F', by omega, h3, h4⟩
      · simp at h

theorem take_append_replicate {α : Type} (R : List α) (x : α) :
    ∀ k j, k ≤ j → (R ++ List.replicate j x).take k = (R ++ List.replicate k x).take k := by
  induction R with
  | nil =>
    intro k j h
    simp [List.take_replicate, Nat.min_eq_left h]
  | cons r R ih =>
    intro k j h
    cases k with
    | zero => simp
    | succ k =>
      simp only [List.cons_append, List.take_succ_cons]
      rw [ih k j (by omega), ih k (k + 1) (by omega)]

theorem calls_STOP (mp : MovePicker) (h : mp.stage = STOP) (fuel k : Nat) :
    calls C pos ss (fuel + 1) k mp = some (List.replicate k (MOVE_NONE, mp)) := by
  induction k with
  | zero => rfl
  | succ k ih => simp [calls, next_move_STOP C pos ss mp h, ih, List.replicate_succ]

theorem calls_of_run :
    ∀ (F : Nat) (mp : MovePicker) (T : List Event), run C pos ss F mp = some T →
      ∀ fuel k, F ≤ fuel →
        ∃ L, calls C pos ss fuel k mp = some L ∧
          staged L = (rets T ++ List.replicate k (STOP, MOVE_NONE)).take k := by
  intro F
  induction F using Nat.strong_induction_on with
  | _ F ih =>
    intro mp T h fuel k hfuel
    cases k with
    | zero => exact ⟨[], rfl, by simp [staged]⟩
    | succ k =>
      obtain ⟨m, mp', h1, h2⟩ := next_move_of_run C pos ss F mp T h fuel hfuel
      simp only [calls, h1]
      rcases h2 with ⟨h2, h3, h4⟩ | ⟨T', F', hF', h3, h4⟩
      · obtain ⟨f', rfl⟩ : ∃ f', fuel = f' + 1 := by
          cases fuel with
          | zero => simp [next_move] at h1
          | succ f' => exact ⟨f', rfl⟩
        rw [calls_STOP C pos ss mp' h4]
        refine ⟨_, rfl, ?_⟩
        simp [staged, h2, h3, h4, List.replicate_succ]
      · obtain ⟨L, hL, hst⟩ := ih F' hF' mp' T' h3 fuel k (by omega)
        refine ⟨(m, mp') :: L, by simp [hL], ?_⟩
        simp only [staged, List.map_cons] at hst ⊢
        rw [h4, hst]
        simp only [List.cons_append, List.take_succ_cons]
        congr 1
        exact (take_append_replicate _ _ k (k + 1) (by omega)).symm

theorem Seg.refl (mp : MovePicker) : Seg C pos ss mp [] mp :=
  ⟨0, fun f => by simp⟩

theorem Seg.trans {mp mp1 mp2 : MovePicker} {e1 e2 : List Event}
    (h1 : Seg C pos ss mp e1 mp1) (h2 : Seg C pos ss mp1 e2 mp2) :
    Seg C pos ss mp (e1 ++ e2) mp2 := by
  obtain ⟨k1, h1⟩ := h1
  obtain ⟨k2, h2⟩ := h2
  refine ⟨k2 + k1, fun f => ?_⟩
  rw [← Nat.add_assoc, h1, h2, Option.map_map]
  congr 1
  funext T
  simp

theorem Seg.of_ret {q q' : MovePicker} {m : Move} (hs : q.stage ≠ STOP)
    (h : next_move_step C pos ss q = .ret m q') :
    Seg C pos ss q [Event.ret q'.stage m] q' :=
  ⟨1, fun f => by simp [run, hs, h]⟩

theorem Seg.of_brk {q q' : MovePicker} (hs : q.stage ≠ STOP)
    (h : next_move_step C pos ss q = .brk q') :
    Seg C pos ss q [] q' :=
  ⟨1, fun f => by simp [run, hs, h]⟩

theorem Seg.of_defer {q q' : MovePicker} {m : Move} (hs : q.stage ≠ STOP)
    (h : next_move_step C pos ss q = .defer m q') :
    Seg C pos ss q [Event.defer m] q' :=
  ⟨1, fun f => by simp [run, hs, h]⟩

theorem Seg.run_of_stop {mp mp' : MovePicker} {evs : List Event}
    (h : Seg C pos ss mp evs mp') (hs : mp'.stage = STOP) :
    ∃ F, run C pos ss F mp = some evs := by
  obtain ⟨k, h⟩ := h
  refine ⟨1 + k, ?_⟩
  rw [h 1]
  simp [run, hs]

end MoveSelection
namespace MoveSelection

/-! ### Successive picks -/

theorem pickSeq_length (k : Nat) (a : Int → ExtMove) (i : Int) : (pickSeq k a i).length = k := by
  induction k generalizing a i with
  | zero => rfl
  | succ k ih => simp [pickSeq, ih]

theorem pickSeq_perm (k : Nat) (a : Int → ExtMove) (i : Int) :
    (pickSeq k a i).Perm ((slice a i k).map fun e => e.move) := by
  induction k generalizing a i with
  | zero => simp [pickSeq, slice_zero]
  | succ k ih =>
    simp only [pickSeq]
    have h1 := (pick_best_perm a i k).map fun e => e.move
    refine List.Perm.trans ?_ h1
    rw [slice_cons, List.map_cons]
    exact List.Perm.cons _ (ih _ _)

theorem pickFinal_frame (k : Nat) (a : Int → ExtMove) (i x : Int) (h : x < i ∨ i + k ≤ x) :
    pickFinal k a i x = a x := by
  induction k generalizing a i with
  | zero => rfl
  | succ k ih =>
    simp only [pickFinal]
    rw [ih _ _ (by push_cast at h; omega)]
    exact pick_best_frame a i _ x (by push_cast at h ⊢; omega)

theorem max_element_loop_congr (a a' : Int → ExtMove) (lo : Int) :
    ∀ (n : Nat) (largest first : Int), lo ≤ largest → largest < first →
      (∀ x, lo ≤ x → x < first + n → a x = a' x) →
      max_element_loop a n largest first = max_element_loop a' n largest first := by
  intro n
  induction n with
  | zero => intros; rfl
  | succ n ih =>
    intro largest first h1 h2 hag
    simp only [max_element_loop]
    rw [hag largest h1 (by push_cast; omega), hag first (by omega) (by push_cast; omega)]
    split
    · exact ih _ _ (by omega) (by omega) (fun x hx1 hx2 => hag x hx1 (by push_cast; omega))
    · exact ih _ _ h1 (by omega) (fun x hx1 hx2 => hag x hx1 (by push_cast; omega))

theorem max_element_congr (a a' : Int → ExtMove) (first last : Int)
    (hag : ∀ x, first ≤ x → x < last → a x = a' x) :
    max_element a first last = max_element a' first last := by
  unfold max_element
  split
  · rfl
  · by_cases h : first < last
    · apply max_element_loop_congr a a' first _ _ _ (le_refl _) (by omega)
      intro x hx1 hx2
      have : ((last - (first + 1)).toNat : Int) = last - (first + 1) :=
        Int.toNat_of_nonneg (by omega)
      exact hag x hx1 (by omega)
    · have : (last - (first + 1)).toNat = 0 := by omega
      rw [this]
      rfl

theorem pick_best_congr (a a' : Int → ExtMove) (b e : Int) (hbe : b < e)
    (hag : ∀ x, b ≤ x → x < e → a x = a' x) (x : Int) (hx1 : b ≤ x) (hx2 : x < e) :
    pick_best a b e x = pick_best a' b e x := by
  unfold pick_best
  rw [swap_apply, swap_apply, max_element_congr a a' b e hag]
  have hm := max_element_mem a' b e hbe
  apply hag
  · by_cases h1 : x = b
    · subst h1; simp [hm.1]
    · by_cases h2 : x = max_element a' b e
      · rw [h2]; simp
      · rw [Equiv.swap_apply_of_ne_of_ne h1 h2]; exact hx1
  · by_cases h1 : x = b
    · subst h1; simp [hm.2]
    · by_cases h2 : x = max_element a' b e
      · rw [h2]; simp [hbe]
      · rw [Equiv.swap_apply_of_ne_of_ne h1 h2]; exact hx2

theorem pickSeq_congr (k : Nat) (a a' : Int → ExtMove) (i : Int)
    (hag : ∀ x, i ≤ x → x < i + k → a x = a' x) : pickSeq k a i = pickSeq k a' i := by
  induction k generalizing a a' i with
  | zero => rfl
  | succ k ih =>
    simp only [pickSeq]
    have hlt : i < i + ((k + 1 : Nat) : Int) := by push_cast; omega
    rw [pick_best_congr a a' i _ hlt hag i (le_refl _) hlt]
    congr 1
    apply ih
    intro x hx1 hx2
    exact pick_best_congr a a' i _ hlt hag x (by omega) (by push_cast; omega)

theorem tailMoves_succ (a : Int → ExtMove) (top : Int) (d : Nat) :
    tailMoves a top (d + 1) = (a top).move :: tailMoves a (top - 1) d := by
  unfold tailMoves
  rw [List.range_succ_eq_map, List.map_cons, List.map_map]
  simp only [Nat.cast_zero, sub_zero, List.cons.injEq, true_and]
  apply List.map_congr_left
  intro j _
  simp only [Function.comp, Nat.cast_succ]
  congr 2
  omega

theorem tailMoves_congr {a a' : Int → ExtMove} {top : Int} {d : Nat}
    (h : ∀ x, top - d < x → x ≤ top → a x = a' x) : tailMoves a top d = tailMoves a' top d := by
  unfold tailMoves
  apply List.map_congr_left
  intro j hj
  have := List.mem_range.1 hj
  rw [h _ (by omega) (by omega)]

end MoveSelection
namespace MoveSelection

variable (C : Consts) (pos : Position) (ss : Stack)

/-! ### Segments consumed by `pick_best` -/

theorem step_pick (mp : MovePicker) (hs : IsPickStage mp.stage) (i n : Int)
    (hcur : mp.cur = .moves i) (hend : mp.endMoves = .moves n) (hlt : i < n) :
    next_move_step C pos ss mp =
      if pickKeep C pos mp (pick_best mp.moves i n i).move then
        .ret (pick_best mp.moves i n i).move
          { mp with moves := pick_best mp.moves i n, cur := .moves (i + 1) }
      else .brk { mp with moves := pick_best mp.moves i n, cur := .moves (i + 1) } := by
  have hne : ¬ (mp.cur = mp.endMoves ∧ mp.stage ≠ STOP) := by
    rw [hcur, hend]
    intro h
    have := h.1
    simp only [Ptr.moves.injEq] at this
    omega
  unfold next_move_step
  rw [if_neg hne]
  rcases hs with h | h | h | h | h <;>
    simp [h, pickKeep, MovePicker.pick, MovePicker.deref, MovePicker.arr, MovePicker.setArr,
      hcur, hend, Ptr.add, Ptr.off]

end MoveSelection
namespace MoveSelection

variable (C : Consts) (pos : Position) (ss : Stack)

theorem seg_picks (mp : MovePicker) (hs : IsPickStage mp.stage) (n : Int)
    (hend : mp.endMoves = .moves n) :
    ∀ (k : Nat) (a : Int → ExtMove) (i : Int), i + k = n →
      Seg C pos ss { mp with moves := a, cur := .moves i }
        (((pickSeq k a i).filter (pickKeep C pos mp)).map (Event.ret mp.stage))
        { mp with moves := pickFinal k a i, cur := .moves n } := by
  intro k
  induction k with
  | zero =>
    intro a i hi
    have : i = n := by simpa using hi
    subst this
    exact Seg.refl C pos ss _
  | succ k ih =>
    intro a i hi
    have hstop : mp.stage ≠ STOP := by
      rcases hs with h | h | h | h | h <;> simp [h]
    have hstep := step_pick C pos ss { mp with moves := a, cur := .moves i } hs i n rfl hend
      (by push_cast at hi; omega)
    have hn : n = i + ((k + 1 : Nat) : Int) := hi.symm
    have hrec := ih (pick_best a i n) (i + 1) (by push_cast at hi; omega)
    simp only [pickSeq, pickFinal, ← hn]
    by_cases hk : pickKeep C pos mp (pick_best a i n i).move = true
    · have hk' : pickKeep C pos { mp with moves := a, cur := .moves i }
          (pick_best a i n i).move = true := hk
      rw [if_pos hk'] at hstep
      have h1 := Seg.of_ret C pos ss (q := { mp with moves := a, cur := .moves i }) hstop hstep
      rw [List.filter_cons_of_pos hk, List.map_cons]
      exact Seg.trans C pos ss h1 hrec
    · have hk' : ¬ pickKeep C pos { mp with moves := a, cur := .moves i }
          (pick_best a i n i).move = true := hk
      rw [if_neg hk'] at hstep
      have h1 := Seg.of_brk C pos ss (q := { mp with moves := a, cur := .moves i }) hstop hstep
      rw [List.filter_cons_of_neg hk]
      exact Seg.trans C pos ss h1 hrec

/-! ### Segments consumed front to back -/

theorem step_linear (mp : MovePicker) (hs : IsLinearStage mp.stage)
    (hne : mp.cur ≠ mp.endMoves) :
    next_move_step C pos ss mp =
      if linKeep pos mp (mp.deref mp.cur).move then
        .ret (mp.deref mp.cur).move { mp with cur := mp.cur.add 1 }
      else .brk { mp with cur := mp.cur.add 1 } := by
  have hne' : ¬ (mp.cur = mp.endMoves ∧ mp.stage ≠ STOP) := fun h => hne h.1
  unfold next_move_step
  rw [if_neg hne']
  rcases hs with h | h | h <;>
    simp [h, linKeep, MovePicker.advance]

/-- The moves at `p, p + 1, …`, `k` of them. -/
theorem seg_linear (mp : MovePicker) (hs : IsLinearStage mp.stage) (p : Ptr) (n : Int)
    (hend : mp.endMoves = p.add n) :
    ∀ (k : Nat) (i : Int), i + k = n →
      Seg C pos ss { mp with cur := p.add i }
        ((((slice (mp.arr p) (p.off + i) k).map fun e => e.move).filter (linKeep pos mp)).map
          (Event.ret mp.stage))
        { mp with cur := p.add n } := by
  intro k
  induction k with
  | zero =>
    intro i hi
    have : i = n := by simpa using hi
    subst this
    exact Seg.refl C pos ss _
  | succ k ih =>
    intro i hi
    have hstop : mp.stage ≠ STOP := by
      rcases hs with h | h | h <;> simp [h]
    have hne : ({ mp with cur := p.add i } : MovePicker).cur
        ≠ ({ mp with cur := p.add i } : MovePicker).endMoves := by
      show p.add i ≠ mp.endMoves
      rw [hend]
      cases p <;> simp [Ptr.add] <;> (push_cast at hi; omega)
    have hstep := step_linear C pos ss { mp with cur := p.add i } hs hne
    have hder : (({ mp with cur := p.add i } : MovePicker).deref (p.add i)).move
        = (mp.arr p (p.off + i)).move := by
      cases p <;> simp [MovePicker.deref, MovePicker.arr, Ptr.add, Ptr.off]
    have hadd : (p.add i).add 1 = p.add (i + 1) := by
      cases p <;> simp [Ptr.add, add_assoc]
    simp only [hder, hadd] at hstep
    have hrec := ih (i + 1) (by push_cast at hi; omega)
    have hoff : p.off + (i + 1) = p.off + i + 1 := by ring
    rw [hoff] at hrec
    rw [slice_cons, List.map_cons]
    by_cases hk : linKeep pos mp (mp.arr p (p.off + i)).move = true
    · have hk' : linKeep pos { mp with cur := p.add i } (mp.arr p (p.off + i)).move = true := hk
      rw [if_pos hk'] at hstep
      have h1 := Seg.of_ret C pos ss (q := { mp with cur := p.add i }) hstop hstep
      rw [List.filter_cons_of_pos hk, List.map_cons]
      exact Seg.trans C pos ss h1 hrec
    · have hk' : ¬ linKeep pos { mp with cur := p.add i } (mp.arr p (p.off + i)).move = true := hk
      rw [if_neg hk'] at hstep
      have h1 := Seg.of_brk C pos ss (q := { mp with cur := p.add i }) hstop hstep
      rw [List.filter_cons_of_neg hk]
      exact Seg.trans C pos ss h1 hrec

/-! ### The tail of losing captures -/

theorem step_bad (mp : MovePicker) (hs : mp.stage = BAD_CAPTURES) (hne : mp.cur ≠ mp.endMoves) :
    next_move_step C pos ss mp
      = .ret (mp.deref mp.cur).move { mp with cur := mp.cur.add (-1) } := by
  have hne' : ¬ (mp.cur = mp.endMoves ∧ mp.stage ≠ STOP) := fun h => hne h.1
  unfold next_move_step
  rw [if_neg hne']
  simp [hs]

theorem seg_bad (mp : MovePicker) (hs : mp.stage = BAD_CAPTURES) (e : Int)
    (hend : mp.endMoves = .moves e) :
    ∀ (k : Nat) (c : Int), c = e + k →
      Seg C pos ss { mp with cur := .moves c }
        ((tailMoves mp.moves c k).map (Event.ret BAD_CAPTURES))
        { mp with cur := .moves e } := by
  intro k
  induction k with
  | zero =>
    intro c hc
    have : c = e := by simpa using hc
    subst this
    exact Seg.refl C pos ss _
  | succ k ih =>
    intro c hc
    have hne : ({ mp with cur := .moves c } : MovePicker).cur
        ≠ ({ mp with cur := .moves c } : MovePicker).endMoves := by
      show Ptr.moves c ≠ mp.endMoves
      rw [hend]
      simp only [ne_eq, Ptr.moves.injEq]
      push_cast at hc; omega
    have hstep := step_bad C pos ss { mp with cur := .moves c } hs hne
    have h1 := Seg.of_ret C pos ss (q := { mp with cur := .moves c }) (by simp [hs]) hstep
    have hrec := ih (c - 1) (by push_cast at hc; omega)
    rw [tailMoves_succ, List.map_cons]
    have e1 : c + -1 = c - 1 := by ring
    simp only [MovePicker.deref, MovePicker.arr, Ptr.off, Ptr.add, hs, e1] at h1
    simp only [hs] at hrec
    have := Seg.trans C pos ss h1 hrec
    simpa only [hs, List.singleton_append] using this

end MoveSelection
namespace MoveSelection

variable (C : Consts) (pos : Position) (ss : Stack)

/-! ### `GOOD_CAPTURES`: picking with deferral -/

theorem Seg.of_ret_stage {q q' : MovePicker} {m : Move} {s : Nat} (hs : q.stage ≠ STOP)
    (h : next_move_step C pos ss q = .ret m q') (hst : q'.stage = s) :
    Seg C pos ss q [Event.ret s m] q' := by
  subst hst
  exact Seg.of_ret C pos ss hs h

theorem step_good (mp : MovePicker) (hs : mp.stage = GOOD_CAPTURES) (i n e : Int)
    (hcur : mp.cur = .moves i) (hend : mp.endMoves = .moves n)
    (hbad : mp.endBadCaptures = .moves e) (hlt : i < n) :
    next_move_step C pos ss mp =
      if (pick_best mp.moves i n i).move ≠ mp.ttMove then
        if pos.see_sign (pick_best mp.moves i n i).move ≥ VALUE_ZERO then
          .ret (pick_best mp.moves i n i).move
            { mp with moves := pick_best mp.moves i n, cur := .moves (i + 1) }
        else
          .defer (pick_best mp.moves i n i).move
            { mp with
              moves := Function.update (pick_best mp.moves i n) e
                { pick_best mp.moves i n e with move := (pick_best mp.moves i n i).move }
              cur := .moves (i + 1)
              endBadCaptures := .moves (e - 1) }
      else .brk { mp with moves := pick_best mp.moves i n, cur := .moves (i + 1) } := by
  have hne : ¬ (mp.cur = mp.endMoves ∧ mp.stage ≠ STOP) := by
    rw [hcur, hend]
    intro h
    have := h.1
    simp only [Ptr.moves.injEq] at this
    omega
  unfold next_move_step
  rw [if_neg hne]
  simp only [hs, MovePicker.pick, MovePicker.deref, MovePicker.arr, MovePicker.setArr,
    MovePicker.storeMove, hcur, hend, hbad, Ptr.add, Ptr.off]
  rfl

theorem seg_good (mp : MovePicker) (hs : mp.stage = GOOD_CAPTURES) (n : Int)
    (hend : mp.endMoves = .moves n) :
    ∀ (k : Nat) (a : Int → ExtMove) (i e : Int), i + k = n →
      n + ((pickSeq k a i).countP (isBad pos mp.ttMove) : Nat) ≤ e + 1 →
      ∃ a_fin : Int → ExtMove,
        Seg C pos ss { mp with moves := a, cur := .moves i, endBadCaptures := .moves e }
          ((pickSeq k a i).filterMap (goodEvent pos mp.ttMove))
          { mp with
            moves := a_fin
            cur := .moves n
            endBadCaptures := .moves (e - ((pickSeq k a i).countP (isBad pos mp.ttMove) : Nat)) }
        ∧ tailMoves a_fin e ((pickSeq k a i).countP (isBad pos mp.ttMove))
            = (pickSeq k a i).filter (isBad pos mp.ttMove)
        ∧ ∀ x, e < x → a_fin x = a x := by
  intro k
  induction k with
  | zero =>
    intro a i e hi _
    have : i = n := by simpa using hi
    subst this
    refine ⟨a, ?_, by simp [pickSeq, tailMoves], fun _ _ => rfl⟩
    simp only [pickSeq, List.countP_nil, Nat.cast_zero, sub_zero, List.filterMap_nil]
    exact Seg.refl C pos ss _
  | succ k ih =>
    intro a i e hi hfit
    have hn : n = i + ((k + 1 : Nat) : Int) := hi.symm
    have hlt : i < n := by push_cast at hi; omega
    have hstep := step_good C pos ss
      { mp with moves := a, cur := .moves i, endBadCaptures := .moves e } hs i n e rfl hend rfl hlt
    simp only [pickSeq, ← hn] at hfit ⊢
    by_cases htt : (pick_best a i n i).move = mp.ttMove
    · -- the hint: skipped
      have hnb : isBad pos mp.ttMove (pick_best a i n i).move = false := by simp [isBad, htt]
      have hev : goodEvent pos mp.ttMove (pick_best a i n i).move = none := by
        simp [goodEvent, htt]
      rw [List.countP_cons_of_neg _ _ (by simp [hnb])] at hfit ⊢
      rw [List.filterMap_cons_none hev, List.filter_cons_of_neg (by simp [hnb])]
      obtain ⟨af, hseg, htail, hfr⟩ := ih (pick_best a i n) (i + 1) e
        (by push_cast at hi; omega) hfit
      refine ⟨af, ?_, htail, ?_⟩
      · rw [if_neg (by simpa using htt)] at hstep
        have h1 := Seg.of_brk C pos ss
          (q := { mp with moves := a, cur := .moves i, endBadCaptures := .moves e })
          (by simp [hs]) hstep
        exact Seg.trans C pos ss h1 hseg
      · intro x hx
        rw [hfr x hx]
        exact pick_best_frame a i n x (by omega)
    · by_cases hsee : pos.see_sign (pick_best a i n i).move ≥ VALUE_ZERO
      · -- a good capture: returned
        have hnb : isBad pos mp.ttMove (pick_best a i n i).move = false := by
          simp [isBad, htt]; exact hsee
        have hev : goodEvent pos mp.ttMove (pick_best a i n i).move
            = some (Event.ret GOOD_CAPTURES (pick_best a i n i).move) := by
          simp [goodEvent, htt, hsee]
        rw [List.countP_cons_of_neg _ _ (by simp [hnb])] at hfit ⊢
        rw [List.filterMap_cons_some hev, List.filter_cons_of_neg (by simp [hnb])]
        obtain ⟨af, hseg, htail, hfr⟩ := ih (pick_best a i n) (i + 1) e
          (by push_cast at hi; omega) hfit
        refine ⟨af, ?_, htail, ?_⟩
        · rw [if_pos (by simpa using htt), if_pos hsee] at hstep
          have h1 := Seg.of_ret_stage C pos ss
            (q := { mp with moves := a, cur := .moves i, endBadCaptures := .moves e })
            (by simp [hs]) hstep hs
          exact Seg.trans C pos ss h1 hseg
        · intro x hx
          rw [hfr x hx]
          exact pick_best_frame a i n x (by omega)
      · -- a losing capture: deferred
        have hb : isBad pos mp.ttMove (pick_best a i n i).move = true := by
          simp [isBad, htt]; exact lt_of_not_ge hsee
        have hev : goodEvent pos mp.ttMove (pick_best a i n i).move
            = some (Event.defer (pick_best a i n i).move) := by
          simp [goodEvent, htt, hsee]
        rw [List.countP_cons_of_pos _ _ hb] at hfit ⊢
        rw [List.filterMap_cons_some hev, List.filter_cons_of_pos hb]
        have hcongr : pickSeq k (Function.update (pick_best a i n) e
              { pick_best a i n e with move := (pick_best a i n i).move }) (i + 1)
            = pickSeq k (pick_best a i n) (i + 1) := by
          apply pickSeq_congr
          intro x hx1 hx2
          exact Function.update_noteq (by push_cast at hfit hi; omega) _ _
        obtain ⟨af, hseg, htail, hfr⟩ := ih (Function.update (pick_best a i n) e
              { pick_best a i n e with move := (pick_best a i n i).move }) (i + 1) (e - 1)
          (by push_cast at hi; omega) (by rw [hcongr]; push_cast at hfit ⊢; omega)
        rw [hcongr] at hseg htail
        refine ⟨af, ?_, ?_, ?_⟩
        · rw [if_pos (by simpa using htt), if_neg hsee] at hstep
          have h1 := Seg.of_defer C pos ss
            (q := { mp with moves := a, cur := .moves i, endBadCaptures := .moves e })
            (by simp [hs]) hstep
          have hsub : e - ((List.countP (isBad pos mp.ttMove) (pickSeq k (pick_best a i n) (i + 1)) + 1 : Nat) : Int)
              = e - 1 - (List.countP (isBad pos mp.ttMove) (pickSeq k (pick_best a i n) (i + 1)) : Nat) := by
            push_cast; ring
          rw [hsub]
          exact Seg.trans C pos ss h1 hseg
        · rw [tailMoves_succ, htail, hfr e (by omega), Function.update_same]
        · intro x hx
          rw [hfr x (by omega), Function.update_noteq (by omega)]
          exact pick_best_frame a i n x (by push_cast at hfit; omega)

end MoveSelection
namespace MoveSelection

variable (C : Consts) (pos : Position) (ss : Stack)

/-! ### Stage transitions -/

theorem step_gen (mp : MovePicker) (heq : mp.cur = mp.endMoves) (hs : mp.stage ≠ STOP) :
    next_move_step C pos ss mp =
      match generate_next_stage C pos ss mp with
      | some mp' => .brk mp'
      | none => .abort := by
  unfold next_move_step
  rw [if_pos ⟨heq, hs⟩]

theorem Seg.of_gen {q q' : MovePicker} (heq : q.cur = q.endMoves) (hs : q.stage ≠ STOP)
    (h : generate_next_stage C pos ss q = some q') : Seg C pos ss q [] q' := by
  apply Seg.of_brk C pos ss hs
  rw [step_gen C pos ss q heq hs, h]

theorem gns_captures (mp : MovePicker)
    (hs : mp.stage = MAIN_SEARCH ∨ mp.stage = QSEARCH_WITH_CHECKS
      ∨ mp.stage = QSEARCH_WITHOUT_CHECKS ∨ mp.stage = PROBCUT ∨ mp.stage = RECAPTURE) :
    generate_next_stage C pos ss mp = some
      { mp with
        stage := mp.stage + 1
        cur := .moves 0
        endMoves := .moves pos.genCaptures.length
        moves := capArr C pos mp.moves } := by
  unfold generate_next_stage
  have h16 : mp.stage ≠ STOP := by
    rcases hs with h | h | h | h | h <;> simp [h]
  rw [if_neg h16]
  rcases hs with h | h | h | h | h <;>
    simp [h, score_CAPTURES, MovePicker.gen, capArr, Ptr.off]

theorem gns_evasions (mp : MovePicker) (hs : mp.stage = EVASION) :
    generate_next_stage C pos ss mp = some
      { mp with
        stage := ALL_EVASIONS
        cur := .moves 0
        endMoves := .moves pos.genEvasions.length
        moves := evaArr C pos mp.moves } := by
  unfold generate_next_stage
  rw [if_neg (by simp [hs])]
  simp only [hs, MovePicker.gen, Ptr.off, score_EVASIONS, evaArr]
  split <;> rfl

theorem gns_checks (mp : MovePicker) (hs : mp.stage = QCAPTURES_1) :
    generate_next_stage C pos ss mp = some
      { mp with
        stage := CHECKS
        cur := .moves 0
        endMoves := .moves pos.genQuietChecks.length
        moves := generate pos.genQuietChecks mp.moves } := by
  unfold generate_next_stage
  rw [if_neg (by simp [hs])]
  simp [hs, MovePicker.gen]

theorem gns_stop (mp : MovePicker)
    (hs : mp.stage = BAD_CAPTURES ∨ mp.stage = ALL_EVASIONS ∨ mp.stage = CHECKS
      ∨ mp.stage = QCAPTURES_2 ∨ mp.stage = PROBCUT_CAPTURES ∨ mp.stage = RECAPTURES) :
    generate_next_stage C pos ss mp = some
      { mp with stage := STOP, cur := .moves 0 } := by
  unfold generate_next_stage
  have h16 : mp.stage ≠ STOP := by
    rcases hs with h | h | h | h | h | h <;> simp [h]
  rw [if_neg h16]
  rcases hs with h | h | h | h | h | h <;> simp [h]

theorem gns_killers (mp : MovePicker) (hs : mp.stage = GOOD_CAPTURES) :
    generate_next_stage C pos ss mp = some
      { mp with
        stage := KILLERS
        cur := .killers 0
        endMoves := .killers (killerCount ss mp.countermove)
        killers := killerArr ss mp.countermove mp.killers } := by
  unfold generate_next_stage
  rw [if_neg (by simp [hs])]
  simp [hs, MovePicker.storeMove, MovePicker.setArr, MovePicker.arr, Ptr.off, Ptr.add,
    killerArr, killerCount, Function.update]

theorem gns_quiets (mp : MovePicker) (hs : mp.stage = KILLERS) :
    generate_next_stage C pos ss mp = some
      { mp with
        stage := ALL_QUIETS
        cur := .moves 0
        endMoves := .moves pos.genQuiets.length
        endGoodQuiets :=
          if mp.depth < 3 * C.ONE_PLY then
            .moves (0 + ((slice (scoreRange (quietValue C pos ss)
              (generate pos.genQuiets mp.moves) pos.genQuiets.length) 0
                ((pos.genQuiets.length : Int) - 0).toNat).countP
                  (fun m => decide (m.value > VALUE_ZERO)) : Nat))
          else .moves pos.genQuiets.length
        moves := quietArr C pos ss mp.depth mp.moves } := by
  unfold generate_next_stage
  rw [if_neg (by simp [hs])]
  by_cases hd : mp.depth < 3 * C.ONE_PLY <;>
    simp [hs, hd, MovePicker.genQuiets, MovePicker.gen, score_QUIETS, Ptr.off, quietArr,
      MovePicker.arr, MovePicker.setArr, Ptr.add]

theorem gns_bad (mp : MovePicker) (hs : mp.stage = ALL_QUIETS) :
    generate_next_stage C pos ss mp = some
      { mp with
        stage := BAD_CAPTURES
        cur := .moves (C.MAX_MOVES - 1)
        endMoves := mp.endBadCaptures } := by
  unfold generate_next_stage
  rw [if_neg (by simp [hs])]
  simp [hs]

end MoveSelection
namespace MoveSelection

variable (C : Consts) (pos : Position) (ss : Stack)

/-! ### What the generated arrays hold -/

theorem movesOf_generate (l : List Move) (a : Int → ExtMove) :
    movesOf (generate l a) l.length = l := by
  apply List.ext_getElem
  · simp [movesOf, slice_length]
  · intro j h1 h2
    simp only [movesOf, List.getElem_map, slice_getElem, zero_add]
    exact generate_move l a j h2

theorem movesOf_congr {a a' : Int → ExtMove} {n : Nat}
    (h : ∀ j : Nat, j < n → (a j).move = (a' j).move) : movesOf a n = movesOf a' n := by
  unfold movesOf slice
  rw [List.map_map, List.map_map]
  apply List.map_congr_left
  intro j hj
  simpa using h j (List.mem_range.1 hj)

theorem movesOf_scoreRange (f : Move → Value) (a : Int → ExtMove) (n : Int) (k : Nat) :
    movesOf (scoreRange f a n) k = movesOf a k :=
  movesOf_congr fun j _ => scoreRange_move f a n j

theorem movesOf_capArr (a : Int → ExtMove) :
    movesOf (capArr C pos a) pos.genCaptures.length = pos.genCaptures := by
  unfold capArr
  rw [movesOf_scoreRange, movesOf_generate]

theorem movesOf_evaArr (a : Int → ExtMove) :
    movesOf (evaArr C pos a) pos.genEvasions.length = pos.genEvasions := by
  unfold evaArr
  split
  · rw [movesOf_scoreRange, movesOf_generate]
  · rw [movesOf_generate]

theorem quietArr_spec (hpart : PartitionSpec C) (depth : Depth) (a : Int → ExtMove) :
    (movesOf (quietArr C pos ss depth a) pos.genQuiets.length).Perm pos.genQuiets
      ∧ ∀ x, (x < 0 ∨ (pos.genQuiets.length : Int) ≤ x) → quietArr C pos ss depth a x = a x := by
  have hbase : movesOf (scoreRange (quietValue C pos ss) (generate pos.genQuiets a)
      pos.genQuiets.length) pos.genQuiets.length = pos.genQuiets := by
    rw [movesOf_scoreRange, movesOf_generate]
  have hfr0 : ∀ x, (x < 0 ∨ (pos.genQuiets.length : Int) ≤ x) →
      scoreRange (quietValue C pos ss) (generate pos.genQuiets a) pos.genQuiets.length x = a x := by
    intro x hx
    rw [scoreRange_frame _ _ _ _ hx, generate_frame _ _ _ hx]
  unfold quietArr
  simp only
  have hn : ((pos.genQuiets.length : Int) - 0).toNat = pos.genQuiets.length := by simp
  rw [hn]
  split
  · -- shallow: partition, then sort the good part
    set a2 := scoreRange (quietValue C pos ss) (generate pos.genQuiets a) pos.genQuiets.length
    set p : ExtMove → Bool := fun m => decide (m.value > VALUE_ZERO)
    set l := slice a2 0 pos.genQuiets.length
    obtain ⟨hperm, _, _⟩ := hpart p l
    have hlen : (C.partition p l).length = pos.genQuiets.length := by
      rw [hperm.length_eq, slice_length]
    have hg : l.countP p ≤ pos.genQuiets.length := by
      have := List.countP_le_length p (l := l)
      rwa [slice_length] at this
    obtain ⟨hfr, hsperm⟩ := insertion_sort_spec (blit a2 0 (C.partition p l)) 0 (l.countP p)
    constructor
    · -- split the range at the end of the good part
      obtain ⟨r, hr⟩ : ∃ r, pos.genQuiets.length = l.countP p + r := ⟨_, (Nat.add_sub_cancel' hg).symm⟩
      have h1 : slice (insertion_sort (blit a2 0 (C.partition p l)) 0 (0 + (l.countP p : Nat))) 0
            pos.genQuiets.length
          = slice (insertion_sort (blit a2 0 (C.partition p l)) 0 (0 + (l.countP p : Nat))) 0
              (l.countP p)
            ++ slice (blit a2 0 (C.partition p l)) (0 + (l.countP p : Nat)) r := by
        rw [hr, slice_append]
        congr 1
        apply slice_congr
        intro j _
        exact hfr _ (Or.inr (by omega))
      have h2 : (slice (blit a2 0 (C.partition p l)) 0 pos.genQuiets.length) = C.partition p l := by
        rw [← hlen, slice_blit]
      have h3 : slice (blit a2 0 (C.partition p l)) 0 pos.genQuiets.length
          = slice (blit a2 0 (C.partition p l)) 0 (l.countP p)
            ++ slice (blit a2 0 (C.partition p l)) (0 + (l.countP p : Nat)) r := by
        rw [hr, slice_append]
      unfold movesOf
      rw [h1]
      have h4 := (hsperm.append_right
        (slice (blit a2 0 (C.partition p l)) (0 + (l.countP p : Nat)) r))
      rw [← h3, h2] at h4
      have h5 := (h4.trans hperm).map fun e => e.move
      refine h5.trans ?_
      exact List.Perm.of_eq hbase
    · intro x hx
      rw [hfr x (by omega), blit_frame _ _ _ _ (by rw [hlen]; omega)]
      exact hfr0 x hx
  · obtain ⟨hfr, hsperm⟩ := insertion_sort_spec
      (scoreRange (quietValue C pos ss) (generate pos.genQuiets a) pos.genQuiets.length) 0
      pos.genQuiets.length
    simp only [zero_add] at hfr hsperm
    constructor
    · have := hsperm.map fun e => e.move
      exact this.trans (List.Perm.of_eq hbase)
    · intro x hx
      rw [hfr x hx]
      exact hfr0 x hx

theorem movesOf_killerArr (cm : Move) (a : Int → ExtMove) :
    (slice (killerArr ss cm a) 0 (killerCount ss cm).toNat).map (fun e => e.move)
      = killerList ss cm := by
  unfold killerCount killerList
  split <;> simp [slice, List.range_succ, killerArr, Function.update]

theorem killerArr_moves (cm : Move) (a : Int → ExtMove) :
    (killerArr ss cm a 0).move = ss.killers0 ∧ (killerArr ss cm a 1).move = ss.killers1
      ∧ (killerArr ss cm a 2).move = cm := by
  simp [killerArr, Function.update]

end MoveSelection
namespace MoveSelection

variable (C : Consts) (pos : Position) (ss : Stack)

/-! ### The chains of stages -/

theorem capPicks_perm (a : Int → ExtMove) : (capPicks C pos a).Perm pos.genCaptures := by
  have := pickSeq_perm pos.genCaptures.length (capArr C pos a) 0
  rwa [show (slice (capArr C pos a) 0 pos.genCaptures.length).map (fun e => e.move)
    = movesOf (capArr C pos a) pos.genCaptures.length from rfl, movesOf_capArr] at this

theorem evaPicks_perm (a : Int → ExtMove) : (evaPicks C pos a).Perm pos.genEvasions := by
  have := pickSeq_perm pos.genEvasions.length (evaArr C pos a) 0
  rwa [show (slice (evaArr C pos a) 0 pos.genEvasions.length).map (fun e => e.move)
    = movesOf (evaArr C pos a) pos.genEvasions.length from rfl, movesOf_evaArr] at this

theorem quietOrder_perm (hpart : PartitionSpec C) (depth : Depth) (a : Int → ExtMove) :
    (quietOrder C pos ss depth a).Perm pos.genQuiets :=
  (quietArr_spec C pos ss hpart depth a).1

theorem step_hint (mp : MovePicker) (hs : IsHintStage mp.stage) (hne : mp.cur ≠ mp.endMoves) :
    next_move_step C pos ss mp = .ret mp.ttMove { mp with cur := mp.cur.add 1 } := by
  have hne' : ¬ (mp.cur = mp.endMoves ∧ mp.stage ≠ STOP) := fun h => hne h.1
  unfold next_move_step
  rw [if_neg hne']
  rcases hs with h | h | h | h | h <;> simp [h, MovePicker.advance]

theorem seg_hint (mp : MovePicker)
    (hs : IsHintStage mp.stage ∨ mp.ttMove = MOVE_NONE)
    (hcur : mp.cur = .moves 0)
    (hend : mp.endMoves = .moves (if mp.ttMove ≠ MOVE_NONE then 1 else 0)) :
    Seg C pos ss mp (hintEvents mp.stage mp.ttMove) { mp with cur := mp.endMoves } := by
  obtain ⟨cm, d, tt, kl, rs, th, st, egq, ebc, mv, cur, em⟩ := mp
  simp only at hcur hend hs ⊢
  subst hcur
  rw [hend]
  clear hend
  by_cases htt : tt = MOVE_NONE
  · simp only [hintEvents, htt, ne_eq, not_true_eq_false, if_false]
    exact Seg.refl C pos ss _
  · have hs' : IsHintStage st := hs.resolve_right htt
    have hstep := step_hint C pos ss
      ⟨cm, d, tt, kl, rs, th, st, egq, ebc, mv, .moves 0, .moves (if tt ≠ MOVE_NONE then 1 else 0)⟩
      hs' (by simp [htt])
    have hst : st ≠ STOP := by
      rcases hs' with h | h | h | h | h <;> simp [h]
    have h1 := Seg.of_ret_stage C pos ss (s := st) hst hstep rfl
    simp only [hintEvents, htt, ne_eq, not_false_eq_true, if_true] at h1 ⊢
    exact h1

/-- From a fresh picker in a stage followed by a capture stage, up to the
end of the captures. -/
theorem seg_capture_chain (mp : MovePicker) (s' : Nat) (hs' : mp.stage + 1 = s')
    (hs : mp.stage = QSEARCH_WITH_CHECKS ∨ mp.stage = QSEARCH_WITHOUT_CHECKS
      ∨ mp.stage = PROBCUT ∨ (mp.stage = RECAPTURE ∧ mp.ttMove = MOVE_NONE))
    (hcur : mp.cur = .moves 0)
    (hend : mp.endMoves = .moves (if mp.ttMove ≠ MOVE_NONE then 1 else 0)) :
    Seg C pos ss mp
      (hintEvents mp.stage mp.ttMove ++
        ((capPicks C pos mp.moves).filter
          (pickKeep C pos { mp with stage := s' })).map (Event.ret s'))
      { mp with
        stage := s'
        cur := .moves pos.genCaptures.length
        endMoves := .moves pos.genCaptures.length
        moves := pickFinal pos.genCaptures.length (capArr C pos mp.moves) 0 } := by
  subst hs'
  have hh : IsHintStage mp.stage ∨ mp.ttMove = MOVE_NONE := by
    rcases hs with h | h | h | h
    · exact Or.inl (Or.inr (Or.inr (Or.inl h)))
    · exact Or.inl (Or.inr (Or.inr (Or.inr (Or.inl h))))
    · exact Or.inl (Or.inr (Or.inr (Or.inr (Or.inr h))))
    · exact Or.inr h.2
  have hst : mp.stage ≠ STOP ∧ (mp.stage = MAIN_SEARCH ∨ mp.stage = QSEARCH_WITH_CHECKS
      ∨ mp.stage = QSEARCH_WITHOUT_CHECKS ∨ mp.stage = PROBCUT ∨ mp.stage = RECAPTURE) := by
    rcases hs with h | h | h | h
    · simp [h]
    · simp [h]
    · simp [h]
    · simp [h.1]
  have hpk : IsPickStage (mp.stage + 1) := by
    rcases hs with h | h | h | h
    · simp [h, IsPickStage]
    · simp [h, IsPickStage]
    · simp [h, IsPickStage]
    · simp [h.1, IsPickStage]
  have h1 := seg_hint C pos ss mp hh hcur hend
  have h2 := Seg.of_gen C pos ss (q := { mp with cur := mp.endMoves }) rfl hst.1
    (gns_captures C pos ss { mp with cur := mp.endMoves } hst.2)
  have h3 := seg_picks C pos ss
    { mp with stage := mp.stage + 1, endMoves := .moves pos.genCaptures.length } hpk
    pos.genCaptures.length rfl pos.genCaptures.length (capArr C pos mp.moves) 0 (by simp)
  have := Seg.trans C pos ss h1 (Seg.trans C pos ss h2 h3)
  simpa only [List.nil_append] using this

end MoveSelection
namespace MoveSelection

variable (C : Consts) (pos : Position) (ss : Stack)

/-! ### Complete traces of the modes without deferral -/

theorem run_captures_only (mp : MovePicker) (s' : Nat) (hs' : mp.stage + 1 = s')
    (hs : mp.stage = QSEARCH_WITHOUT_CHECKS ∨ mp.stage = PROBCUT
      ∨ (mp.stage = RECAPTURE ∧ mp.ttMove = MOVE_NONE))
    (hcur : mp.cur = .moves 0)
    (hend : mp.endMoves = .moves (if mp.ttMove ≠ MOVE_NONE then 1 else 0)) :
    ∃ F, run C pos ss F mp = some
      (hintEvents mp.stage mp.ttMove ++
        ((capPicks C pos mp.moves).filter
          (pickKeep C pos { mp with stage := s' })).map (Event.ret s')) := by
  have h1 := seg_capture_chain C pos ss mp s' hs' (Or.inr hs) hcur hend
  have hst : s' = QCAPTURES_2 ∨ s' = PROBCUT_CAPTURES ∨ s' = RECAPTURES := by
    rcases hs with h | h | h
    · rw [h] at hs'; exact Or.inl hs'.symm
    · rw [h] at hs'; exact Or.inr (Or.inl hs'.symm)
    · rw [h.1] at hs'; exact Or.inr (Or.inr hs'.symm)
  have hne : s' ≠ STOP := by
    rcases hst with h | h | h <;> rw [h] <;> decide
  have h2 := Seg.of_gen C pos ss
    (q := { mp with
        stage := s'
        cur := .moves pos.genCaptures.length
        endMoves := .moves pos.genCaptures.length
        moves := pickFinal pos.genCaptures.length (capArr C pos mp.moves) 0 })
    rfl hne
    (gns_stop C pos ss _ (by
      rcases hst with h | h | h
      · exact Or.inr (Or.inr (Or.inr (Or.inl h)))
      · exact Or.inr (Or.inr (Or.inr (Or.inr (Or.inl h))))
      · exact Or.inr (Or.inr (Or.inr (Or.inr (Or.inr h))))))
  have h3 := Seg.trans C pos ss h1 h2
  rw [List.append_nil] at h3
  exact Seg.run_of_stop C pos ss h3 rfl

theorem run_evasion (mp : MovePicker) (hs : mp.stage = EVASION)
    (hcur : mp.cur = .moves 0)
    (hend : mp.endMoves = .moves (if mp.ttMove ≠ MOVE_NONE then 1 else 0)) :
    ∃ F, run C pos ss F mp = some
      (hintEvents EVASION mp.ttMove ++
        ((evaPicks C pos mp.moves).filter fun m => decide (m ≠ mp.ttMove)).map
          (Event.ret ALL_EVASIONS)) := by
  have h1 := seg_hint C pos ss mp (Or.inl (Or.inr (Or.inl hs))) hcur hend
  have h2 := Seg.of_gen C pos ss (q := { mp with cur := mp.endMoves }) rfl
    (by show mp.stage ≠ STOP; rw [hs]; decide)
    (gns_evasions C pos ss { mp with cur := mp.endMoves } hs)
  have h3 := seg_picks C pos ss
    { mp with
        stage := ALL_EVASIONS
        endMoves := .moves pos.genEvasions.length }
    (Or.inl rfl) pos.genEvasions.length rfl pos.genEvasions.length (evaArr C pos mp.moves) 0
    (by simp)
  have h4 := Seg.of_gen C pos ss
    (q := { mp with
        stage := ALL_EVASIONS
        cur := .moves pos.genEvasions.length
        endMoves := .moves pos.genEvasions.length
        moves := pickFinal pos.genEvasions.length (evaArr C pos mp.moves) 0 })
    rfl (by show ALL_EVASIONS ≠ STOP; decide) (gns_stop C pos ss _ (Or.inr (Or.inl rfl)))
  have h5 := Seg.trans C pos ss h1 (Seg.trans C pos ss h2 (Seg.trans C pos ss h3 h4))
  have hk : pickKeep C pos
      { mp with
        stage := ALL_EVASIONS
        endMoves := .moves pos.genEvasions.length } = fun m => decide (m ≠ mp.ttMove) := by
    funext m
    simp [pickKeep]
  rw [hk] at h5
  have h6 := Seg.run_of_stop C pos ss h5 rfl
  simpa only [evaPicks, hs, List.nil_append, List.append_nil] using h6

end MoveSelection
namespace MoveSelection

variable (C : Consts) (pos : Position) (ss : Stack)

theorem run_qs_checks (mp : MovePicker) (hs : mp.stage = QSEARCH_WITH_CHECKS)
    (hcur : mp.cur = .moves 0)
    (hend : mp.endMoves = .moves (if mp.ttMove ≠ MOVE_NONE then 1 else 0)) :
    ∃ F, run C pos ss F mp = some
      (hintEvents QSEARCH_WITH_CHECKS mp.ttMove ++
        (((capPicks C pos mp.moves).filter fun m => decide (m ≠ mp.ttMove)).map
          (Event.ret QCAPTURES_1) ++
        (pos.genQuietChecks.filter fun m => decide (m ≠ mp.ttMove)).map (Event.ret CHECKS))) := by
  have h1 := seg_capture_chain C pos ss mp QCAPTURES_1 (by rw [hs]) (Or.inl hs) hcur hend
  have h2 := Seg.of_gen C pos ss
    (q := { mp with
        stage := QCAPTURES_1
        cur := .moves pos.genCaptures.length
        endMoves := .moves pos.genCaptures.length
        moves := pickFinal pos.genCaptures.length (capArr C pos mp.moves) 0 })
    rfl (by show QCAPTURES_1 ≠ STOP; decide) (gns_checks C pos ss _ rfl)
  have h3 := seg_linear C pos ss
    { mp with
        stage := CHECKS
        endMoves := .moves pos.genQuietChecks.length
        moves := generate pos.genQuietChecks
          (pickFinal pos.genCaptures.length (capArr C pos mp.moves) 0) }
    (Or.inr (Or.inr rfl)) (.moves 0) pos.genQuietChecks.length (by simp [Ptr.add])
    pos.genQuietChecks.length 0 (by simp)
  have h4 := Seg.of_gen C pos ss
    (q := { mp with
        stage := CHECKS
        cur := .moves pos.genQuietChecks.length
        endMoves := .moves pos.genQuietChecks.length
        moves := generate pos.genQuietChecks
          (pickFinal pos.genCaptures.length (capArr C pos mp.moves) 0) })
    rfl (by show CHECKS ≠ STOP; decide) (gns_stop C pos ss _ (Or.inr (Or.inr (Or.inl rfl))))
  simp only [Ptr.add, zero_add, Ptr.off, MovePicker.arr, add_zero] at h3
  have hm : (slice (generate pos.genQuietChecks
        (pickFinal pos.genCaptures.length (capArr C pos mp.moves) 0)) 0
        pos.genQuietChecks.length).map (fun e => e.move) = pos.genQuietChecks :=
    movesOf_generate _ _
  rw [hm] at h3
  have hk : pickKeep C pos { mp with stage := QCAPTURES_1 }
      = fun m => decide (m ≠ mp.ttMove) := by
    funext m
    simp [pickKeep]
  have hl : linKeep pos
      { mp with
        stage := CHECKS
        endMoves := .moves pos.genQuietChecks.length
        moves := generate pos.genQuietChecks
          (pickFinal pos.genCaptures.length (capArr C pos mp.moves) 0) }
      = fun m => decide (m ≠ mp.ttMove) := by
    funext m
    simp [linKeep]
  rw [hk] at h1
  rw [hl] at h3
  have h5 := Seg.trans C pos ss h1 (Seg.trans C pos ss h2 (Seg.trans C pos ss h3 h4))
  have h6 := Seg.run_of_stop C pos ss h5 rfl
  simpa only [hs, List.nil_append, List.append_nil, List.append_assoc] using h6

end MoveSelection
namespace MoveSelection

variable (C : Consts) (pos : Position) (ss : Stack)

/-! ### The complete trace of main search -/

theorem run_main (hpart : PartitionSpec C) (mp : MovePicker) (hs : mp.stage = MAIN_SEARCH)
    (hcur : mp.cur = .moves 0)
    (hend : mp.endMoves = .moves (if mp.ttMove ≠ MOVE_NONE then 1 else 0))
    (hebc : mp.endBadCaptures = .moves (C.MAX_MOVES - 1))
    (hfit1 : (pos.genCaptures.length : Int) + (pos.genCaptures.countP (isBad pos mp.ttMove) : Nat)
      ≤ C.MAX_MOVES)
    (hfit2 : (pos.genQuiets.length : Int) + (pos.genCaptures.countP (isBad pos mp.ttMove) : Nat)
      ≤ C.MAX_MOVES) :
    ∃ (af : Int → ExtMove) (F : Nat), run C pos ss F mp = some
      (mainEvents pos ss mp.ttMove mp.countermove (capPicks C pos mp.moves)
        (quietOrder C pos ss mp.depth af)) := by
  obtain ⟨cm, d, tt, kl, rs, th, st, egq, ebc, mv, cur, em⟩ := mp
  simp only at hs hcur hend hebc hfit1 hfit2 ⊢
  subst hs
  subst hcur
  subst hebc
  rw [hend]
  clear hend
  have hcount : (capPicks C pos mv).countP (isBad pos tt) = pos.genCaptures.countP (isBad pos tt) :=
    (capPicks_perm C pos mv).countP_eq _
  -- the hint
  have h1 := seg_hint C pos ss
    ⟨cm, d, tt, kl, rs, th, MAIN_SEARCH, egq, .moves (C.MAX_MOVES - 1), mv, .moves 0,
      .moves (if tt ≠ MOVE_NONE then 1 else 0)⟩ (Or.inl (Or.inl rfl)) rfl rfl
  -- captures are generated
  have h2 := Seg.of_gen C pos ss
    (q := ⟨cm, d, tt, kl, rs, th, MAIN_SEARCH, egq, .moves (C.MAX_MOVES - 1), mv,
      .moves (if tt ≠ MOVE_NONE then 1 else 0), .moves (if tt ≠ MOVE_NONE then 1 else 0)⟩)
    rfl (by show MAIN_SEARCH ≠ STOP; decide) (gns_captures C pos ss _ (Or.inl rfl))
  -- good captures are returned, losing ones deferred
  obtain ⟨a1, h3, htail, hfr⟩ := seg_good C pos ss
    ⟨cm, d, tt, kl, rs, th, GOOD_CAPTURES, egq, .moves (C.MAX_MOVES - 1), mv, .moves 0,
      .moves pos.genCaptures.length⟩ rfl pos.genCaptures.length rfl pos.genCaptures.length
    (capArr C pos mv) 0 (C.MAX_MOVES - 1) (by simp)
    (by
      show (pos.genCaptures.length : Int) + ((capPicks C pos mv).countP (isBad pos tt) : Nat)
        ≤ C.MAX_MOVES - 1 + 1
      rw [hcount]; omega)
  simp only at h3 htail
  rw [show pickSeq pos.genCaptures.length (capArr C pos mv) 0 = capPicks C pos mv from rfl]
    at h3 htail
  -- the killer list is assembled
  have h4 := Seg.of_gen C pos ss
    (q := ⟨cm, d, tt, kl, rs, th, GOOD_CAPTURES, egq,
      .moves (C.MAX_MOVES - 1 - ((capPicks C pos mv).countP (isBad pos tt) : Nat)), a1,
      .moves pos.genCaptures.length, .moves pos.genCaptures.length⟩)
    rfl (by show GOOD_CAPTURES ≠ STOP; decide) (gns_killers C pos ss _ rfl)
  have hkc : ((killerCount ss cm).toNat : Int) = killerCount ss cm := by
    unfold killerCount; split <;> simp
  have h5 := seg_linear C pos ss
    ⟨cm, d, tt, killerArr ss cm kl, rs, th, KILLERS, egq,
      .moves (C.MAX_MOVES - 1 - ((capPicks C pos mv).countP (isBad pos tt) : Nat)), a1,
      .killers 0, .killers (killerCount ss cm)⟩ (Or.inl rfl) (.killers 0) (killerCount ss cm)
    (by simp [Ptr.add]) (killerCount ss cm).toNat 0 (by rw [hkc]; simp)
  simp only [Ptr.add, zero_add, Ptr.off, MovePicker.arr, add_zero] at h5
  rw [movesOf_killerArr] at h5
  -- quiet moves are generated
  have h6 := Seg.of_gen C pos ss
    (q := ⟨cm, d, tt, killerArr ss cm kl, rs, th, KILLERS, egq,
      .moves (C.MAX_MOVES - 1 - ((capPicks C pos mv).countP (isBad pos tt) : Nat)), a1,
      .killers (killerCount ss cm), .killers (killerCount ss cm)⟩)
    rfl (by show KILLERS ≠ STOP; decide) (gns_quiets C pos ss _ rfl)
  simp only at h6
  generalize hegq : (if d < 3 * C.ONE_PLY then
      Ptr.moves (0 + ((slice (scoreRange (quietValue C pos ss) (generate pos.genQuiets a1)
        pos.genQuiets.length) 0 ((pos.genQuiets.length : Int) - 0).toNat).countP
          (fun m => decide (m.value > VALUE_ZERO)) : Nat))
      else Ptr.moves pos.genQuiets.length) = egq' at h6
  have h7 := seg_linear C pos ss
    ⟨cm, d, tt, killerArr ss cm kl, rs, th, ALL_QUIETS, egq',
      .moves (C.MAX_MOVES - 1 - ((capPicks C pos mv).countP (isBad pos tt) : Nat)),
      quietArr C pos ss d a1, .moves 0, .moves pos.genQuiets.length⟩ (Or.inr (Or.inl rfl))
    (.moves 0) pos.genQuiets.length (by simp [Ptr.add]) pos.genQuiets.length 0 (by simp)
  simp only [Ptr.add, zero_add, Ptr.off, MovePicker.arr, add_zero] at h7
  rw [show (slice (quietArr C pos ss d a1) 0 pos.genQuiets.length).map (fun e => e.move)
    = quietOrder C pos ss d a1 from rfl] at h7
  -- the tail is entered
  have h8 := Seg.of_gen C pos ss
    (q := ⟨cm, d, tt, killerArr ss cm kl, rs, th, ALL_QUIETS, egq',
      .moves (C.MAX_MOVES - 1 - ((capPicks C pos mv).countP (isBad pos tt) : Nat)),
      quietArr C pos ss d a1, .moves pos.genQuiets.length, .moves pos.genQuiets.length⟩)
    rfl (by show ALL_QUIETS ≠ STOP; decide) (gns_bad C pos ss _ rfl)
  have h9 := seg_bad C pos ss
    ⟨cm, d, tt, killerArr ss cm kl, rs, th, BAD_CAPTURES, egq',
      .moves (C.MAX_MOVES - 1 - ((capPicks C pos mv).countP (isBad pos tt) : Nat)),
      quietArr C pos ss d a1, .moves (C.MAX_MOVES - 1),
      .moves (C.MAX_MOVES - 1 - ((capPicks C pos mv).countP (isBad pos tt) : Nat))⟩ rfl
    (C.MAX_MOVES - 1 - ((capPicks C pos mv).countP (isBad pos tt) : Nat)) rfl
    ((capPicks C pos mv).countP (isBad pos tt)) (C.MAX_MOVES - 1) (by ring)
  simp only at h9
  have htail' : tailMoves (quietArr C pos ss d a1) (C.MAX_MOVES - 1)
      ((capPicks C pos mv).countP (isBad pos tt)) = (capPicks C pos mv).filter (isBad pos tt) := by
    rw [← htail]
    apply tailMoves_congr
    intro x hx1 hx2
    exact (quietArr_spec C pos ss hpart d a1).2 x (Or.inr (by rw [hcount] at hx1; omega))
  rw [htail'] at h9
  -- and left
  have h10 := Seg.of_gen C pos ss
    (q := ⟨cm, d, tt, killerArr ss cm kl, rs, th, BAD_CAPTURES, egq',
      .moves (C.MAX_MOVES - 1 - ((capPicks C pos mv).countP (isBad pos tt) : Nat)),
      quietArr C pos ss d a1,
      .moves (C.MAX_MOVES - 1 - ((capPicks C pos mv).countP (isBad pos tt) : Nat)),
      .moves (C.MAX_MOVES - 1 - ((capPicks C pos mv).countP (isBad pos tt) : Nat))⟩)
    rfl (by show BAD_CAPTURES ≠ STOP; decide) (gns_stop C pos ss _ (Or.inl rfl))
  have hk : linKeep pos
      ⟨cm, d, tt, killerArr ss cm kl, rs, th, KILLERS, egq,
        .moves (C.MAX_MOVES - 1 - ((capPicks C pos mv).countP (isBad pos tt) : Nat)), a1,
        .killers 0, .killers (killerCount ss cm)⟩ = keepKiller pos tt := by
    funext m
    simp [linKeep, keepKiller]
  have hq : linKeep pos
      ⟨cm, d, tt, killerArr ss cm kl, rs, th, ALL_QUIETS, egq',
        .moves (C.MAX_MOVES - 1 - ((capPicks C pos mv).countP (isBad pos tt) : Nat)),
        quietArr C pos ss d a1, .moves 0, .moves pos.genQuiets.length⟩
      = keepQuiet ss tt cm := by
    funext m
    obtain ⟨e0, e1, e2⟩ := killerArr_moves ss cm kl
    simp [linKeep, keepQuiet, e0, e1, e2]
  rw [hk] at h5
  rw [hq] at h7
  have hall := Seg.trans C pos ss h1 (Seg.trans C pos ss h2 (Seg.trans C pos ss h3
    (Seg.trans C pos ss h4 (Seg.trans C pos ss h5 (Seg.trans C pos ss h6
      (Seg.trans C pos ss h7 (Seg.trans C pos ss h8 (Seg.trans C pos ss h9 h10))))))))
  obtain ⟨F, hF⟩ := Seg.run_of_stop C pos ss hall rfl
  refine ⟨a1, F, ?_⟩
  rw [hF]
  simp only [mainEvents, List.nil_append, List.append_nil]

end MoveSelection
namespace MoveSelection

variable (C : Consts) (pos : Position) (ss : Stack)

/-! ### More fuel changes nothing -/

theorem run_mono : ∀ (F : Nat) (mp : MovePicker) (T : List Event),
    run C pos ss F mp = some T → ∀ F', F ≤ F' → run C pos ss F' mp = some T := by
  intro F
  induction F with
  | zero => intro mp T h; simp [run] at h
  | succ F ih =>
    intro mp T h F' hF
    obtain ⟨G, rfl⟩ : ∃ G, F' = G + 1 := ⟨F' - 1, by omega⟩
    have hG : F ≤ G := by omega
    simp only [run] at h ⊢
    split at h
    · rename_i hstop
      rw [if_pos hstop]
      exact h
    · rename_i hstop
      rw [if_neg hstop]
      split at h
      · rename_i m mp' _
        cases hr : run C pos ss F mp' with
        | none => simp [hr] at h
        | some T' =>
          rw [ih _ T' hr G hG]
          simpa [hr] using h
      · exact ih _ T h G hG
      · rename_i m mp' _
        cases hr : run C pos ss F mp' with
        | none => simp [hr] at h
        | some T' =>
          rw [ih _ T' hr G hG]
          simpa [hr] using h
      · simp at h

theorem run_unique {F F' : Nat} {mp : MovePicker} {T T' : List Event}
    (h : run C pos ss F mp = some T) (h' : run C pos ss F' mp = some T') : T = T' := by
  have h1 := run_mono C pos ss F mp T h (max F F') (le_max_left _ _)
  have h2 := run_mono C pos ss F' mp T' h' (max F F') (le_max_right _ _)
  rw [h1] at h2
  exact Option.some.inj h2

theorem next_move_mono : ∀ (f : Nat) (mp : MovePicker) (r : Move × MovePicker),
    next_move C pos ss f mp = some r → ∀ f', f ≤ f' → next_move C pos ss f' mp = some r := by
  intro f
  induction f with
  | zero => intro mp r h; simp [next_move] at h
  | succ f ih =>
    intro mp r h f' hf
    obtain ⟨g, rfl⟩ : ∃ g, f' = g + 1 := ⟨f' - 1, by omega⟩
    have hg : f ≤ g := by omega
    simp only [next_move] at h ⊢
    split at h
    · exact h
    · exact ih _ r h g hg
    · exact ih _ r h g hg
    · simp at h

/-! ### What the constructors leave -/

theorem mkMain_spec {raw mp : MovePicker} {ttm : Move} {d : Depth}
    (h : MovePicker.mkMain C pos ss raw ttm d = some mp) :
    d > DEPTH_ZERO ∧
    mp.stage = (if pos.checkers = true then EVASION else MAIN_SEARCH) ∧
    mp.ttMove = (if ttm ≠ 0 ∧ pos.pseudo_legal ttm = true then ttm else MOVE_NONE) ∧
    mp.cur = .moves 0 ∧
    mp.endMoves = .moves (if mp.ttMove ≠ MOVE_NONE then 1 else 0) ∧
    mp.endBadCaptures = .moves (C.MAX_MOVES - 1) ∧
    mp.moves = raw.moves ∧ mp.killers = raw.killers ∧ mp.depth = d ∧
    mp.countermove = pos.counterMoves (pos.piece_on (C.to_sq ss.prevMove)) (C.to_sq ss.prevMove) := by
  unfold MovePicker.mkMain at h
  split at h
  · rename_i hd
    simp only [Option.some.injEq] at h
    subst h
    refine ⟨hd, ?_⟩
    simp [MovePicker.withHint, MovePicker.fresh, Ptr.add]
  · simp at h

theorem mkQsearch_spec {raw mp : MovePicker} {ttm : Move} {d : Depth} {s : Square}
    (h : MovePicker.mkQsearch C pos raw ttm d s = some mp) :
    d ≤ DEPTH_ZERO ∧
    mp.stage = (if pos.checkers = true then EVASION
      else if d > C.DEPTH_QS_NO_CHECKS then QSEARCH_WITH_CHECKS
      else if d > C.DEPTH_QS_RECAPTURES then QSEARCH_WITHOUT_CHECKS
      else RECAPTURE) ∧
    mp.ttMove = (if mp.stage = RECAPTURE then MOVE_NONE
      else if ttm ≠ 0 ∧ pos.pseudo_legal ttm = true then ttm else MOVE_NONE) ∧
    (mp.stage = RECAPTURE → mp.recaptureSquare = s) ∧
    mp.cur = .moves 0 ∧
    mp.endMoves = .moves (if mp.ttMove ≠ MOVE_NONE then 1 else 0) ∧
    mp.endBadCaptures = .moves (C.MAX_MOVES - 1) ∧
    mp.moves = raw.moves := by
  unfold MovePicker.mkQsearch at h
  split at h
  · rename_i hd
    refine ⟨hd, ?_⟩
    simp only at h
    split at h
    · rename_i hc
      simp only [Option.some.injEq] at h
      subst h
      simp [MovePicker.withHint, MovePicker.fresh, Ptr.add, hc]
    · rename_i hc
      split at h
      · rename_i h1
        simp only [Option.some.injEq] at h
        subst h
        simp [MovePicker.withHint, MovePicker.fresh, Ptr.add, hc, h1]
      · rename_i h1
        split at h
        · rename_i h2
          simp only [Option.some.injEq] at h
          subst h
          simp [MovePicker.withHint, MovePicker.fresh, Ptr.add, hc, h1, h2]
        · rename_i h2
          simp only [Option.some.injEq] at h
          subst h
          simp [MovePicker.withHint, MovePicker.fresh, Ptr.add, hc, h1, h2, MOVE_NONE]
  · simp at h

theorem mkProbcut_spec {raw mp : MovePicker} {ttm : Move} {th : Value}
    (h : MovePicker.mkProbcut C pos raw ttm th = some mp) :
    pos.checkers = false ∧
    mp.stage = PROBCUT ∧
    mp.threshold = th ∧
    mp.ttMove = (if ttm ≠ 0 ∧ pos.pseudo_legal ttm = true ∧ pos.capture ttm = true
      ∧ pos.see ttm > th then ttm else MOVE_NONE) ∧
    mp.cur = .moves 0 ∧
    mp.endMoves = .moves (if mp.ttMove ≠ MOVE_NONE then 1 else 0) ∧
    mp.endBadCaptures = .moves (C.MAX_MOVES - 1) ∧
    mp.moves = raw.moves := by
  unfold MovePicker.mkProbcut at h
  split at h
  · simp at h
  · rename_i hc
    simp only [Option.some.injEq] at h
    subst h
    simp [MovePicker.withHint, MovePicker.fresh, Ptr.add, hc]

end MoveSelection
namespace MoveSelection

variable (C : Consts) (pos : Position) (ss : Stack)

/-! ### Where the entries of the arrays come from -/

theorem generate_sat (P : Move → Prop) (l : List Move) (hP : ∀ m ∈ l, P m)
    (a : Int → ExtMove) (x : Int) (hx : (0 ≤ x ∧ x < l.length) ∨ P (a x).move) :
    P (generate l a x).move := by
  by_cases h : 0 ≤ x ∧ x < l.length
  · have hx' : x = ((x.toNat : Nat) : Int) := (Int.toNat_of_nonneg h.1).symm
    rw [hx', generate_move l a x.toNat (by omega)]
    exact hP _ (List.getElem_mem _)
  · rw [generate_frame l a x (by omega)]
    exact hx.resolve_left h

theorem capArr_sat (P : Move → Prop) (hP : ∀ m ∈ pos.genCaptures, P m)
    (a : Int → ExtMove) (x : Int)
    (hx : (0 ≤ x ∧ x < pos.genCaptures.length) ∨ P (a x).move) :
    P (capArr C pos a x).move := by
  unfold capArr
  rw [scoreRange_move]
  exact generate_sat P _ hP a x hx

theorem evaArr_sat (P : Move → Prop) (hP : ∀ m ∈ pos.genEvasions, P m)
    (a : Int → ExtMove) (x : Int)
    (hx : (0 ≤ x ∧ x < pos.genEvasions.length) ∨ P (a x).move) :
    P (evaArr C pos a x).move := by
  unfold evaArr
  split
  · rw [scoreRange_move]
    exact generate_sat P _ hP a x hx
  · exact generate_sat P _ hP a x hx

theorem quietArr_sat (hpart : PartitionSpec C) (P : Move → Prop)
    (hP : ∀ m ∈ pos.genQuiets, P m) (depth : Depth) (a : Int → ExtMove) (x : Int)
    (hx : (0 ≤ x ∧ x < pos.genQuiets.length) ∨ P (a x).move) :
    P (quietArr C pos ss depth a x).move := by
  obtain ⟨hperm, hfr⟩ := quietArr_spec C pos ss hpart depth a
  by_cases h : 0 ≤ x ∧ x < pos.genQuiets.length
  · apply hP
    apply hperm.subset
    unfold movesOf
    apply List.mem_map.2
    refine ⟨_, mem_slice.2 ⟨x.toNat, by omega, rfl⟩, ?_⟩
    congr 2
    omega
  · rw [hfr x (by omega)]
    exact hx.resolve_left h

theorem pick_best_cases (a : Int → ExtMove) (i n x : Int) :
    (i ≤ x ∧ x < n ∧ ∃ y, i ≤ y ∧ y < n ∧ pick_best a i n x = a y) ∨ pick_best a i n x = a x := by
  by_cases h : i ≤ x ∧ x < n
  · left
    refine ⟨h.1, h.2, ?_⟩
    have hm := max_element_mem a i n (by omega)
    unfold pick_best
    rw [swap_apply]
    refine ⟨_, ?_, ?_, rfl⟩
    · by_cases h1 : x = i
      · subst h1; simp [hm.1]
      · by_cases h2 : x = max_element a i n
        · rw [h2]; simp
        · rw [Equiv.swap_apply_of_ne_of_ne h1 h2]; exact h.1
    · by_cases h1 : x = i
      · subst h1; simp [hm.2]
      · by_cases h2 : x = max_element a i n
        · rw [h2]; simp; omega
        · rw [Equiv.swap_apply_of_ne_of_ne h1 h2]; exact h.2
  · right
    exact pick_best_frame a i n x (by omega)

/-- After a pick, the range and any other region that held only moves
satisfying `P` still do. -/
theorem pick_best_sat (P : Move → Prop) (a : Int → ExtMove) (i n : Int)
    (hr : ∀ j, i ≤ j → j < n → P (a j).move) (x : Int)
    (hx : (i ≤ x ∧ x < n) ∨ P (a x).move) : P (pick_best a i n x).move := by
  rcases pick_best_cases a i n x with ⟨_, _, y, hy1, hy2, hy⟩ | h
  · rw [hy]; exact hr y hy1 hy2
  · rw [h]
    rcases hx with hx | hx
    · exact hr x hx.1 hx.2
    · exact hx

end MoveSelection
namespace MoveSelection

variable (C : Consts) (pos : Position) (ss : Stack)

/-! ### One pass keeps the invariant -/

theorem StepOK.from_brk {P : Move → Prop} {mp mp' : MovePicker}
    (h : next_move_step C pos ss mp = .brk mp') (hinv : Inv C P mp') : StepOK C pos ss P mp := by
  unfold StepOK; rw [h]; exact hinv

theorem StepOK.from_defer {P : Move → Prop} {mp mp' : MovePicker} {m : Move}
    (h : next_move_step C pos ss mp = .defer m mp') (hinv : Inv C P mp') :
    StepOK C pos ss P mp := by
  unfold StepOK; rw [h]; exact hinv

theorem StepOK.from_ret {P : Move → Prop} {mp mp' : MovePicker} {m : Move}
    (h : next_move_step C pos ss mp = .ret m mp') (hinv : Inv C P mp')
    (hst : mp.stage ≠ STOP) (hstage : mp'.stage = mp.stage) (hP : P m) :
    StepOK C pos ss P mp := by
  unfold StepOK; rw [h]; exact ⟨hinv, hstage, fun _ => hP, fun h => absurd h hst⟩

theorem StepOK.from_gen {P : Move → Prop} {mp mp' : MovePicker}
    (heq : mp.cur = mp.endMoves) (hs : mp.stage ≠ STOP)
    (h : generate_next_stage C pos ss mp = some mp') (hinv : Inv C P mp') :
    StepOK C pos ss P mp := by
  apply StepOK.from_brk C pos ss _ hinv
  rw [step_gen C pos ss mp heq hs, h]

theorem Ptr.add_one_ne (p : Ptr) : p.add 1 ≠ p := by
  cases p <;> simp [Ptr.add]

/-- The hint stages. -/
theorem stepOK_hint {P : Move → Prop} (hgen : GenSat pos P) (mp : MovePicker)
    (hs : IsHintStage mp.stage) (hh : HintOK P mp)
    (ht : mp.stage = MAIN_SEARCH → TailOK C P mp) : StepOK C pos ss P mp := by
  have hst : mp.stage ≠ STOP := by
    rcases hs with h | h | h | h | h <;> rw [h] <;> decide
  rcases hh with heq | ⟨hend, hP⟩
  · -- the slot is consumed: the next stage is generated
    rcases hs with h | h | h | h | h
    · refine StepOK.from_gen C pos ss heq hst (gns_captures C pos ss mp (Or.inl h)) ?_
      obtain ⟨e, he, hle, htl⟩ := ht h
      refine Or.inr (Or.inr (Or.inr (Or.inl ⟨Or.inl (by simp [h]), ?_, ?_⟩)))
      · exact ⟨0, pos.genCaptures.length, rfl, rfl, by omega, fun j h1 h2 =>
          capArr_sat C pos P (fun m hm => hgen m (by simp [hm])) _ j (Or.inl ⟨h1, h2⟩)⟩
      · exact ⟨e, he, hle, fun j h1 h2 =>
          capArr_sat C pos P (fun m hm => hgen m (by simp [hm])) _ j (Or.inr (htl j h1 h2))⟩
    · refine StepOK.from_gen C pos ss heq hst (gns_evasions C pos ss mp h) ?_
      refine Or.inr (Or.inr (Or.inr (Or.inr (Or.inr (Or.inr (Or.inl
        ⟨Or.inl (Or.inl rfl), ?_⟩))))))
      exact ⟨0, pos.genEvasions.length, rfl, rfl, by omega, fun j h1 h2 =>
          evaArr_sat C pos P (fun m hm => hgen m (by simp [hm])) _ j
            (Or.inl ⟨h1, h2⟩)⟩
    all_goals
      refine StepOK.from_gen C pos ss heq hst (gns_captures C pos ss mp (by simp [h])) ?_
      refine Or.inr (Or.inr (Or.inr (Or.inr (Or.inr (Or.inr (Or.inl
        ⟨Or.inl (by simp [h, IsPickStage]), ?_⟩))))))
      exact ⟨0, pos.genCaptures.length, rfl, rfl, by omega, fun j h1 h2 =>
          capArr_sat C pos P (fun m hm => hgen m (by simp [hm])) _ j (Or.inl ⟨h1, h2⟩)⟩
  · -- the hint is returned
    have hne : mp.cur ≠ mp.endMoves := by
      rw [hend]; exact (Ptr.add_one_ne mp.cur).symm
    refine StepOK.from_ret C pos ss (step_hint C pos ss mp hs hne) ?_ hst rfl hP
    have hh' : HintOK P { mp with cur := mp.cur.add 1 } := Or.inl hend.symm
    rcases hs with h | h | h | h | h
    · exact Or.inl ⟨h, hh', ht h⟩
    · exact Or.inr (Or.inl ⟨Or.inl h, hh'⟩)
    · exact Or.inr (Or.inl ⟨Or.inr (Or.inl h), hh'⟩)
    · exact Or.inr (Or.inl ⟨Or.inr (Or.inr (Or.inl h)), hh'⟩)
    · exact Or.inr (Or.inl ⟨Or.inr (Or.inr (Or.inr h)), hh'⟩)

end MoveSelection
namespace MoveSelection

variable (C : Consts) (pos : Position) (ss : Stack)

theorem inv_stop {P : Move → Prop} (mp : MovePicker) (h : mp.stage = STOP) : Inv C P mp :=
  Or.inr (Or.inr (Or.inr (Or.inr (Or.inr (Or.inr (Or.inr h))))))

theorem inv_pick {P : Move → Prop} (mp : MovePicker)
    (h : (IsPickStage mp.stage ∨ mp.stage = CHECKS) ∧ RangeOK P mp) : Inv C P mp :=
  Or.inr (Or.inr (Or.inr (Or.inr (Or.inr (Or.inr (Or.inl h))))))

/-- The stages that pick from a generated segment, and `CHECKS`. -/
theorem stepOK_simple {P : Move → Prop} (hgen : GenSat pos P) (mp : MovePicker)
    (hs : IsPickStage mp.stage ∨ mp.stage = CHECKS) (hr : RangeOK P mp) :
    StepOK C pos ss P mp := by
  obtain ⟨i, n, hcur, hend, hin, hsat⟩ := hr
  have hst : mp.stage ≠ STOP := by
    rcases hs with (h | h | h | h | h) | h <;> rw [h] <;> decide
  by_cases heq : i = n
  · -- the segment is exhausted
    have hce : mp.cur = mp.endMoves := by rw [hcur, hend, heq]
    by_cases h8 : mp.stage = QCAPTURES_1
    · refine StepOK.from_gen C pos ss hce hst (gns_checks C pos ss mp h8) ?_
      refine inv_pick C _ ⟨Or.inr rfl, ?_⟩
      exact ⟨0, pos.genQuietChecks.length, rfl, rfl, by omega, fun j h1 h2 =>
        generate_sat P _ (fun m hm => hgen m (by simp [hm])) _ j
          (Or.inl ⟨h1, h2⟩)⟩
    · refine StepOK.from_gen C pos ss hce hst (gns_stop C pos ss mp ?_) (inv_stop C _ rfl)
      rcases hs with (h | h | h | h | h) | h
      · exact Or.inr (Or.inl h)
      · exact absurd h h8
      · exact Or.inr (Or.inr (Or.inr (Or.inl h)))
      · exact Or.inr (Or.inr (Or.inr (Or.inr (Or.inl h))))
      · exact Or.inr (Or.inr (Or.inr (Or.inr (Or.inr h))))
      · exact Or.inr (Or.inr (Or.inl h))
  · have hlt : i < n := by omega
    rcases hs with hp | hc
    · -- a pick
      have hstep := step_pick C pos ss mp hp i n hcur hend hlt
      have hinv : Inv C P { mp with moves := pick_best mp.moves i n, cur := .moves (i + 1) } := by
        refine inv_pick C _ ⟨Or.inl hp, ?_⟩
        exact ⟨i + 1, n, rfl, hend, by omega, fun j h1 h2 =>
          pick_best_sat P mp.moves i n hsat j (Or.inl ⟨by omega, h2⟩)⟩
      have hm : P (pick_best mp.moves i n i).move :=
        pick_best_sat P mp.moves i n hsat i (Or.inl ⟨le_refl _, hlt⟩)
      split at hstep
      · exact StepOK.from_ret C pos ss hstep hinv hst rfl hm
      · exact StepOK.from_brk C pos ss hstep hinv
    · -- a quiet check
      have hne : mp.cur ≠ mp.endMoves := by
        rw [hcur, hend]; simp; omega
      have hstep := step_linear C pos ss mp (Or.inr (Or.inr hc)) hne
      have hinv : Inv C P { mp with cur := mp.cur.add 1 } := by
        refine inv_pick C _ ⟨Or.inr hc, ?_⟩
        exact ⟨i + 1, n, by simp [hcur, Ptr.add], hend, by omega, fun j h1 h2 =>
          hsat j (by omega) h2⟩
      have hm : P (mp.deref mp.cur).move := by
        rw [hcur]
        exact hsat i (le_refl _) hlt
      split at hstep
      · exact StepOK.from_ret C pos ss hstep hinv hst rfl hm
      · exact StepOK.from_brk C pos ss hstep hinv

/-- `GOOD_CAPTURES`. -/
theorem stepOK_good {P : Move → Prop} (mp : MovePicker)
    (hs : mp.stage = GOOD_CAPTURES) (hr : RangeOK P mp) (ht : TailOK C P mp) :
    StepOK C pos ss P mp := by
  obtain ⟨i, n, hcur, hend, hin, hsat⟩ := hr
  obtain ⟨e, he, hle, htl⟩ := ht
  have hst : mp.stage ≠ STOP := by rw [hs]; decide
  by_cases heq : i = n
  · have hce : mp.cur = mp.endMoves := by rw [hcur, hend, heq]
    refine StepOK.from_gen C pos ss hce hst (gns_killers C pos ss mp hs) ?_
    refine Or.inr (Or.inr (Or.inr (Or.inr (Or.inl ⟨rfl, ?_, ⟨e, he, hle, htl⟩⟩))))
    refine ⟨0, killerCount ss mp.countermove, rfl, rfl, ?_⟩
    unfold killerCount; split <;> omega
  · have hlt : i < n := by omega
    have hstep := step_good C pos ss mp hs i n e hcur hend he hlt
    have hm : P (pick_best mp.moves i n i).move :=
      pick_best_sat P mp.moves i n hsat i (Or.inl ⟨le_refl _, hlt⟩)
    have hinv : Inv C P { mp with moves := pick_best mp.moves i n, cur := .moves (i + 1) } := by
      refine Or.inr (Or.inr (Or.inr (Or.inl ⟨Or.inl hs, ?_, ?_⟩)))
      · exact ⟨i + 1, n, rfl, hend, by omega, fun j h1 h2 =>
          pick_best_sat P mp.moves i n hsat j (Or.inl ⟨by omega, h2⟩)⟩
      · exact ⟨e, he, hle, fun j h1 h2 =>
          pick_best_sat P mp.moves i n hsat j (Or.inr (htl j h1 h2))⟩
    split at hstep
    · split at hstep
      · exact StepOK.from_ret C pos ss hstep hinv hst rfl hm
      · refine StepOK.from_defer C pos ss hstep ?_
        have hupd : ∀ j, ((i + 1 ≤ j ∧ j < n) ∨ (e - 1 < j ∧ j ≤ C.MAX_MOVES - 1)) →
            P (Function.update (pick_best mp.moves i n) e
              { pick_best mp.moves i n e with move := (pick_best mp.moves i n i).move } j).move := by
          intro j hj
          by_cases hje : j = e
          · subst hje
            rw [Function.update_same]
            exact hm
          · rw [Function.update_noteq hje]
            rcases hj with hj | hj
            · exact pick_best_sat P mp.moves i n hsat j (Or.inl ⟨by omega, hj.2⟩)
            · exact pick_best_sat P mp.moves i n hsat j (Or.inr (htl j (by omega) hj.2))
        refine Or.inr (Or.inr (Or.inr (Or.inl ⟨Or.inl hs, ?_, ?_⟩)))
        · exact ⟨i + 1, n, rfl, hend, by omega, fun j h1 h2 => hupd j (Or.inl ⟨h1, h2⟩)⟩
        · exact ⟨e - 1, rfl, by omega, fun j h1 h2 => hupd j (Or.inr ⟨h1, h2⟩)⟩
    · exact StepOK.from_brk C pos ss hstep hinv

/-- `KILLERS`, `ALL_QUIETS` and `BAD_CAPTURES`. -/
theorem stepOK_killers {P : Move → Prop}
    (hq : ∀ (depth : Depth) (a : Int → ExtMove) (x : Int),
      ((0 ≤ x ∧ x < pos.genQuiets.length) ∨ P (a x).move) →
        P (quietArr C pos ss depth a x).move)
    (hkill : ∀ m, m ≠ MOVE_NONE → pos.pseudo_legal m = true → P m) (mp : MovePicker)
    (hs : mp.stage = KILLERS)
    (hr : ∃ i n, mp.cur = .killers i ∧ mp.endMoves = .killers n ∧ i ≤ n)
    (ht : TailOK C P mp) : StepOK C pos ss P mp := by
  obtain ⟨i, n, hcur, hend, hin⟩ := hr
  obtain ⟨e, he, hle, htl⟩ := ht
  have hst : mp.stage ≠ STOP := by rw [hs]; decide
  by_cases heq : i = n
  · have hce : mp.cur = mp.endMoves := by rw [hcur, hend, heq]
    refine StepOK.from_gen C pos ss hce hst (gns_quiets C pos ss mp hs) ?_
    refine Or.inr (Or.inr (Or.inr (Or.inl ⟨Or.inr rfl, ?_, ?_⟩)))
    · exact ⟨0, pos.genQuiets.length, rfl, rfl, by omega, fun j h1 h2 =>
        hq _ _ j (Or.inl ⟨h1, h2⟩)⟩
    · exact ⟨e, he, hle, fun j h1 h2 => hq _ _ j (Or.inr (htl j h1 h2))⟩
  · have hne : mp.cur ≠ mp.endMoves := by
      rw [hcur, hend]; simp; omega
    have hstep := step_linear C pos ss mp (Or.inl hs) hne
    have hinv : Inv C P { mp with cur := mp.cur.add 1 } := by
      refine Or.inr (Or.inr (Or.inr (Or.inr (Or.inl ⟨hs, ?_, ⟨e, he, hle, htl⟩⟩))))
      exact ⟨i + 1, n, by simp [hcur, Ptr.add], hend, by omega⟩
    split at hstep
    · rename_i hk
      refine StepOK.from_ret C pos ss hstep hinv hst rfl ?_
      simp only [linKeep, hs, if_true, decide_eq_true_eq] at hk
      exact hkill _ hk.1 hk.2.2.1
    · exact StepOK.from_brk C pos ss hstep hinv

theorem stepOK_quiets {P : Move → Prop} (mp : MovePicker)
    (hs : mp.stage = ALL_QUIETS) (hr : RangeOK P mp) (ht : TailOK C P mp) :
    StepOK C pos ss P mp := by
  obtain ⟨i, n, hcur, hend, hin, hsat⟩ := hr
  obtain ⟨e, he, hle, htl⟩ := ht
  have hst : mp.stage ≠ STOP := by rw [hs]; decide
  by_cases heq : i = n
  · have hce : mp.cur = mp.endMoves := by rw [hcur, hend, heq]
    refine StepOK.from_gen C pos ss hce hst (gns_bad C pos ss mp hs) ?_
    refine Or.inr (Or.inr (Or.inr (Or.inr (Or.inr (Or.inl ⟨rfl, ?_⟩)))))
    exact ⟨C.MAX_MOVES - 1, e, rfl, he, hle, htl⟩
  · have hne : mp.cur ≠ mp.endMoves := by
      rw [hcur, hend]; simp; omega
    have hstep := step_linear C pos ss mp (Or.inr (Or.inl hs)) hne
    have hinv : Inv C P { mp with cur := mp.cur.add 1 } := by
      refine Or.inr (Or.inr (Or.inr (Or.inl ⟨Or.inr hs, ?_, ⟨e, he, hle, htl⟩⟩)))
      exact ⟨i + 1, n, by simp [hcur, Ptr.add], hend, by omega, fun j h1 h2 =>
        hsat j (by omega) h2⟩
    have hm : P (mp.deref mp.cur).move := by
      rw [hcur]
      exact hsat i (le_refl _) (by omega)
    split at hstep
    · exact StepOK.from_ret C pos ss hstep hinv hst rfl hm
    · exact StepOK.from_brk C pos ss hstep hinv

theorem stepOK_bad {P : Move → Prop} (mp : MovePicker) (hs : mp.stage = BAD_CAPTURES)
    (hr : ∃ c e, mp.cur = .moves c ∧ mp.endMoves = .moves e ∧ e ≤ c ∧
      ∀ j, e < j → j ≤ c → P (mp.moves j).move) : StepOK C pos ss P mp := by
  obtain ⟨c, e, hcur, hend, hec, hsat⟩ := hr
  have hst : mp.stage ≠ STOP := by rw [hs]; decide
  by_cases heq : c = e
  · have hce : mp.cur = mp.endMoves := by rw [hcur, hend, heq]
    exact StepOK.from_gen C pos ss hce hst (gns_stop C pos ss mp (Or.inl hs)) (inv_stop C _ rfl)
  · have hne : mp.cur ≠ mp.endMoves := by
      rw [hcur, hend]; simp; omega
    refine StepOK.from_ret C pos ss (step_bad C pos ss mp hs hne) ?_ hst rfl ?_
    · refine Or.inr (Or.inr (Or.inr (Or.inr (Or.inr (Or.inl ⟨hs, ?_⟩)))))
      exact ⟨c - 1, e, by simp [hcur, Ptr.add]; ring, hend, by omega, fun j h1 h2 =>
        hsat j h1 (by omega)⟩
    · rw [hcur]
      exact hsat c (by omega) (le_refl _)

/-- Every pass keeps the invariant, when sorting the quiet moves keeps `P`. -/
theorem inv_step_of {P : Move → Prop}
    (hq : ∀ (depth : Depth) (a : Int → ExtMove) (x : Int),
      ((0 ≤ x ∧ x < pos.genQuiets.length) ∨ P (a x).move) →
        P (quietArr C pos ss depth a x).move)
    (hgen : GenSat pos P)
    (hkill : ∀ m, m ≠ MOVE_NONE → pos.pseudo_legal m = true → P m) (mp : MovePicker)
    (hinv : Inv C P mp) : StepOK C pos ss P mp := by
  rcases hinv with ⟨hs, hh, ht⟩ | ⟨hs, hh⟩ | ⟨hs, hce⟩ | ⟨hs, hr, ht⟩ | ⟨hs, hr, ht⟩
    | ⟨hs, hr⟩ | ⟨hs, hr⟩ | hs
  · exact stepOK_hint C pos ss hgen mp (Or.inl hs) hh (fun _ => ht)
  · refine stepOK_hint C pos ss hgen mp (Or.inr hs) hh (fun h => ?_)
    rcases hs with h' | h' | h' | h' <;> rw [h'] at h <;> exact absurd h (by decide)
  · refine StepOK.from_gen C pos ss hce (by rw [hs]; decide)
      (gns_captures C pos ss mp (by simp [hs])) ?_
    refine inv_pick C _ ⟨Or.inl (by simp [hs, IsPickStage]), ?_⟩
    exact ⟨0, pos.genCaptures.length, rfl, rfl, by omega, fun j h1 h2 =>
      capArr_sat C pos P (fun m hm => hgen m (by simp [hm])) _ j (Or.inl ⟨h1, h2⟩)⟩
  · rcases hs with hs | hs
    · exact stepOK_good C pos ss mp hs hr ht
    · exact stepOK_quiets C pos ss mp hs hr ht
  · exact stepOK_killers C pos ss hq hkill mp hs hr ht
  · exact stepOK_bad C pos ss mp hs hr
  · exact stepOK_simple C pos ss hgen mp hs hr
  · unfold StepOK
    rw [step_STOP C pos ss mp hs]
    exact ⟨inv_stop C _ hs, rfl, fun h => absurd hs h, fun _ => ⟨rfl, rfl⟩⟩

/-- Every pass keeps the invariant. -/
theorem inv_step {P : Move → Prop} (hpart : PartitionSpec C) (hgen : GenSat pos P)
    (hkill : ∀ m, m ≠ MOVE_NONE → pos.pseudo_legal m = true → P m) (mp : MovePicker)
    (hinv : Inv C P mp) : StepOK C pos ss P mp :=
  inv_step_of C pos ss
    (fun depth a x hx =>
      quietArr_sat C pos ss hpart P (fun m hm => hgen m (by simp [hm])) depth a x hx)
    hgen hkill mp hinv

/-- Every pass keeps the invariant that says nothing of the moves. -/
theorem inv_step_any (mp : MovePicker) (hinv : Inv C (fun _ => True) mp) :
    StepOK C pos ss (fun _ => True) mp :=
  inv_step_of C pos ss (fun _ _ _ _ => trivial) (fun _ _ => trivial) (fun _ _ _ => trivial)
    mp hinv

end MoveSelection
namespace MoveSelection

variable (C : Consts) (pos : Position) (ss : Stack)

/-! ### The invariant along calls -/

/-- A call keeps an invariant that every pass keeps, and returns only moves
satisfying `P` outside `STOP`. -/
theorem inv_next_move_of {P : Move → Prop}
    (hok : ∀ mp, Inv C P mp → StepOK C pos ss P mp) :
    ∀ (fuel : Nat) (mp mp' : MovePicker) (m : Move), Inv C P mp →
      next_move C pos ss fuel mp = some (m, mp') →
      Inv C P mp' ∧ (mp'.stage ≠ STOP → P m) ∧ (mp'.stage = STOP → m = MOVE_NONE) := by
  intro fuel
  induction fuel with
  | zero => intro mp mp' m _ h; simp [next_move] at h
  | succ fuel ih =>
    intro mp mp' m hinv h
    have hstep := hok mp hinv
    unfold StepOK at hstep
    simp only [next_move] at h
    split at h
    · rename_i m1 mp1 heq
      rw [heq] at hstep
      simp only [Option.some.injEq, Prod.mk.injEq] at h
      obtain ⟨rfl, rfl⟩ := h
      obtain ⟨h1, h2, h3, h4⟩ := hstep
      refine ⟨h1, fun hne => h3 (by rwa [h2] at hne), fun he => (h4 (by rwa [h2] at he)).1⟩
    · rename_i mp1 heq
      rw [heq] at hstep
      exact ih mp1 mp' m hstep h
    · rename_i m1 mp1 heq
      rw [heq] at hstep
      exact ih mp1 mp' m hstep h
    · simp at h

theorem inv_next_move {P : Move → Prop} (hpart : PartitionSpec C) (hgen : GenSat pos P)
    (hkill : ∀ m, m ≠ MOVE_NONE → pos.pseudo_legal m = true → P m) :
    ∀ (fuel : Nat) (mp mp' : MovePicker) (m : Move), Inv C P mp →
      next_move C pos ss fuel mp = some (m, mp') →
      Inv C P mp' ∧ (mp'.stage ≠ STOP → P m) ∧ (mp'.stage = STOP → m = MOVE_NONE) :=
  inv_next_move_of C pos ss (inv_step C pos ss hpart hgen hkill)

theorem inv_constructed {P : Move → Prop}
    (hkill : ∀ m, m ≠ MOVE_NONE → pos.pseudo_legal m = true → P m) (mp : MovePicker)
    (h : Constructed C pos ss mp) : Inv C P mp := by
  have key : ∀ mp : MovePicker, mp.cur = .moves 0 →
      mp.endMoves = .moves (if mp.ttMove ≠ MOVE_NONE then 1 else 0) →
      (mp.ttMove ≠ MOVE_NONE → P mp.ttMove) → HintOK P mp := by
    intro mp hcur hend hP
    by_cases htt : mp.ttMove = MOVE_NONE
    · left; rw [hcur, hend]; simp [htt]
    · right
      refine ⟨?_, hP htt⟩
      rw [hcur, hend]; simp [htt, Ptr.add]
  rcases h with ⟨raw, ttm, d, h⟩ | ⟨raw, ttm, d, s, h⟩ | ⟨raw, ttm, th, h⟩
  · obtain ⟨_, hst, htt, hcur, hend, hebc, _⟩ := mkMain_spec C pos ss h
    have hP : mp.ttMove ≠ MOVE_NONE → P mp.ttMove := by
      intro hne
      rw [htt] at hne ⊢
      split at hne
      · rename_i hc
        rw [if_pos hc]
        exact hkill _ hc.1 hc.2
      · exact absurd rfl hne
    have hh := key mp hcur hend hP
    by_cases hc : pos.checkers = true
    · rw [if_pos hc] at hst
      exact Or.inr (Or.inl ⟨Or.inl hst, hh⟩)
    · rw [if_neg hc] at hst
      exact Or.inl ⟨hst, hh, C.MAX_MOVES - 1, hebc, le_refl _, fun j h1 h2 => by omega⟩
  · obtain ⟨_, hst, htt, _, hcur, hend, _⟩ := mkQsearch_spec C pos h
    have hP : mp.ttMove ≠ MOVE_NONE → P mp.ttMove := by
      intro hne
      by_cases hr : mp.stage = RECAPTURE
      · rw [if_pos hr] at htt
        exact absurd htt hne
      · rw [if_neg hr] at htt
        by_cases hc : ttm ≠ 0 ∧ pos.pseudo_legal ttm = true
        · rw [if_pos hc] at htt
          rw [htt]
          exact hkill _ hc.1 hc.2
        · rw [if_neg hc] at htt
          exact absurd htt hne
    have hh := key mp hcur hend hP
    by_cases hr : mp.stage = RECAPTURE
    · refine Or.inr (Or.inr (Or.inl ⟨hr, ?_⟩))
      rw [hcur, hend, htt, if_pos hr]
      simp
    · refine Or.inr (Or.inl ⟨?_, hh⟩)
      rw [hst] at hr ⊢
      split
      · exact Or.inl rfl
      · split
        · exact Or.inr (Or.inl rfl)
        · split
          · exact Or.inr (Or.inr (Or.inl rfl))
          · rename_i h1 h2 h3
            simp [h1, h2, h3] at hr
  · obtain ⟨_, hst, _, htt, hcur, hend, _⟩ := mkProbcut_spec C pos h
    have hP : mp.ttMove ≠ MOVE_NONE → P mp.ttMove := by
      intro hne
      rw [htt] at hne ⊢
      split at hne
      · rename_i hc
        rw [if_pos hc]
        exact hkill _ hc.1 hc.2.1
      · exact absurd rfl hne
    exact Or.inr (Or.inl ⟨Or.inr (Or.inr (Or.inr hst)), key mp hcur hend hP⟩)

theorem inv_reachable {P : Move → Prop} (hpart : PartitionSpec C) (hgen : GenSat pos P)
    (hkill : ∀ m, m ≠ MOVE_NONE → pos.pseudo_legal m = true → P m) (mp : MovePicker)
    (h : Reachable C pos ss mp) : Inv C P mp := by
  induction h with
  | init hc => exact inv_constructed C pos ss hkill _ hc
  | call _ hnm ih => exact (inv_next_move C pos ss hpart hgen hkill _ _ _ _ ih hnm).1

/-- The invariant that says nothing of the moves holds of every picker
obtained from a constructor, whatever `std::partition` does. -/
theorem inv_reachable_any (mp : MovePicker) (h : Reachable C pos ss mp) :
    Inv C (fun _ => True) mp := by
  induction h with
  | init hc => exact inv_constructed C pos ss (fun _ _ _ => trivial) _ hc
  | call _ hnm ih =>
    exact (inv_next_move_of C pos ss (inv_step_any C pos ss) _ _ _ _ ih hnm).1

end MoveSelection
namespace MoveSelection

/-! ## Facts about the concrete inputs -/

theorem partitionSpec_C0 : PartitionSpec C0 := by
  intro p l
  have hlen : (l.filter p).length = l.countP p := by
    rw [List.countP_eq_length_filter]
  refine ⟨List.filter_append_perm p l, ?_, ?_⟩
  · show (l.filter p ++ l.filter (fun e => !p e)).take (l.countP p)
      = (l.filter p ++ l.filter (fun e => !p e)).filter p
    rw [← hlen, List.take_left', List.filter_append, List.filter_filter, List.filter_filter]
    · simp
    · rfl
  · show (l.filter p ++ l.filter (fun e => !p e)).drop (l.countP p)
      = (l.filter p ++ l.filter (fun e => !p e)).filter (fun e => !p e)
    rw [← hlen, List.drop_left', List.filter_append, List.filter_filter, List.filter_filter]
    · simp
    · rfl

theorem mkMain_mp0 : MovePicker.mkMain C0 pos0 ss0 raw0 4 5 = some mp0 := rfl

theorem mkQsearch_mpR : MovePicker.mkQsearch C0 pos0 raw0 4 (-7) 3 = some mpR := rfl

theorem mkProbcut_mpP : MovePicker.mkProbcut C0 pos0 raw0 4 0 = some mpP := rfl

theorem mkMain_mpK : MovePicker.mkMain C0 posK ssK raw0 0 1 = some mpK := rfl

theorem mkMain_mp8 : MovePicker.mkMain C0 pos8 ss8 raw0 0 1 = some mp8 := rfl

theorem mkMain_mpE : MovePicker.mkMain C0 posE ss0 raw0 4 5 = some mpE := rfl

theorem mkProbcut_mpPP : MovePicker.mkProbcut C0 posP raw0 0 0 = some mpPP := rfl

theorem mkQsearch_mpPR : MovePicker.mkQsearch C0 posP raw0 0 (-7) 5 = some mpPR := rfl

theorem mkQsearch_mpPQ : MovePicker.mkQsearch C0 posP raw0 0 (-3) 5 = some mpPQ := rfl

theorem mkMain_mpS : MovePicker.mkMain C0 pos0 ss0 raw0 4 2 = some mpS := rfl

theorem mkMain_mpQ : MovePicker.mkMain C0 posQ ssQ raw0 0 1 = some mpQ := rfl

end MoveSelection
namespace MoveSelection

variable (C : Consts) (pos : Position) (ss : Stack)

/-! ### Returns and deferrals of the traces -/

theorem rets_hintEvents (s : Nat) (tt : Move) : rets (hintEvents s tt) = hintRets s tt := by
  unfold hintEvents hintRets
  split <;> rfl

theorem defers_hintEvents (s : Nat) (tt : Move) : defers (hintEvents s tt) = [] := by
  unfold hintEvents
  split <;> rfl

theorem rets_map_ret (s : Nat) (l : List Move) : rets (l.map (Event.ret s)) = tag s l := by
  induction l with
  | nil => rfl
  | cons m l ih => simp only [List.map_cons, rets, ih, tag]

theorem defers_map_ret (s : Nat) (l : List Move) : defers (l.map (Event.ret s)) = [] := by
  induction l with
  | nil => rfl
  | cons m l ih => simpa [defers] using ih

theorem rets_good (tt : Move) (P : List Move) :
    rets (P.filterMap (goodEvent pos tt)) = tag GOOD_CAPTURES (P.filter (isGood pos tt)) := by
  induction P with
  | nil => rfl
  | cons m P ih =>
    by_cases h1 : m = tt
    · have hg : isGood pos tt m = false := by simp [isGood, h1]
      rw [List.filterMap_cons_none (by simp [goodEvent, h1]),
        List.filter_cons_of_neg (by simp [hg]), ih]
    · by_cases h2 : pos.see_sign m ≥ VALUE_ZERO
      · have hg : isGood pos tt m = true := by simp [isGood, h1]; exact h2
        rw [List.filterMap_cons_some (b := Event.ret GOOD_CAPTURES m) (by simp [goodEvent, h1, h2]),
          List.filter_cons_of_pos hg]
        simp only [rets, tag, List.map_cons]
        rw [ih]; rfl
      · have hg : isGood pos tt m = false := by simp [isGood, h1]; exact lt_of_not_ge h2
        rw [List.filterMap_cons_some (b := Event.defer m) (by simp [goodEvent, h1, h2]),
          List.filter_cons_of_neg (by simp [hg])]
        simp only [rets]
        exact ih

theorem defers_good (tt : Move) (P : List Move) :
    defers (P.filterMap (goodEvent pos tt)) = P.filter (isBad pos tt) := by
  induction P with
  | nil => rfl
  | cons m P ih =>
    by_cases h1 : m = tt
    · have hb : isBad pos tt m = false := by simp [isBad, h1]
      rw [List.filterMap_cons_none (by simp [goodEvent, h1]),
        List.filter_cons_of_neg (by simp [hb]), ih]
    · by_cases h2 : pos.see_sign m ≥ VALUE_ZERO
      · have hb : isBad pos tt m = false := by simp [isBad, h1]; exact h2
        rw [List.filterMap_cons_some (b := Event.ret GOOD_CAPTURES m) (by simp [goodEvent, h1, h2]),
          List.filter_cons_of_neg (by simp [hb])]
        simp only [defers]
        exact ih
      · have hb : isBad pos tt m = true := by simp [isBad, h1]; exact lt_of_not_ge h2
        rw [List.filterMap_cons_some (b := Event.defer m) (by simp [goodEvent, h1, h2]),
          List.filter_cons_of_pos hb]
        simp only [defers]
        rw [ih]

theorem rets_mainEvents (tt cm : Move) (P Q : List Move) :
    rets (mainEvents pos ss tt cm P Q) =
      hintRets MAIN_SEARCH tt ++
        (tag GOOD_CAPTURES (P.filter (isGood pos tt)) ++
          (tag KILLERS ((killerList ss cm).filter (keepKiller pos tt)) ++
            (tag ALL_QUIETS (Q.filter (keepQuiet ss tt cm)) ++
              tag BAD_CAPTURES (P.filter (isBad pos tt))))) := by
  unfold mainEvents
  simp only [rets_append, rets_hintEvents, rets_good, rets_map_ret]

theorem defers_mainEvents (tt cm : Move) (P Q : List Move) :
    defers (mainEvents pos ss tt cm P Q) = P.filter (isBad pos tt) := by
  unfold mainEvents
  simp only [defers_append, defers_hintEvents, defers_good, defers_map_ret, List.nil_append,
    List.append_nil]

/-! ### The trace of a constructed picker -/

theorem constructed_facts (mp : MovePicker) (h : Constructed C pos ss mp) :
    mp.cur = .moves 0 ∧
    mp.endMoves = .moves (if mp.ttMove ≠ MOVE_NONE then 1 else 0) ∧
    mp.endBadCaptures = .moves (C.MAX_MOVES - 1) ∧
    (mp.stage = MAIN_SEARCH ∨ mp.stage = EVASION ∨ mp.stage = QSEARCH_WITH_CHECKS
      ∨ mp.stage = QSEARCH_WITHOUT_CHECKS ∨ mp.stage = PROBCUT
      ∨ (mp.stage = RECAPTURE ∧ mp.ttMove = MOVE_NONE)) ∧
    (mp.ttMove ≠ MOVE_NONE → pos.pseudo_legal mp.ttMove = true) ∧
    (mp.stage = PROBCUT → mp.ttMove ≠ MOVE_NONE →
      pos.capture mp.ttMove = true ∧ pos.see mp.ttMove > mp.threshold) := by
  rcases h with ⟨raw, ttm, d, h⟩ | ⟨raw, ttm, d, s, h⟩ | ⟨raw, ttm, th, h⟩
  · obtain ⟨_, hst, htt, hcur, hend, hebc, _⟩ := mkMain_spec C pos ss h
    refine ⟨hcur, hend, hebc, ?_, ?_, ?_⟩
    · rw [hst]; split
      · exact Or.inr (Or.inl rfl)
      · exact Or.inl rfl
    · intro hne
      by_cases hc : ttm ≠ 0 ∧ pos.pseudo_legal ttm = true
      · rw [if_pos hc] at htt; rw [htt]; exact hc.2
      · rw [if_neg hc] at htt; exact absurd htt hne
    · intro hp
      rw [hst] at hp
      split at hp <;> exact absurd hp (by decide)
  · obtain ⟨_, hst, htt, _, hcur, hend, hebc, _⟩ := mkQsearch_spec C pos h
    refine ⟨hcur, hend, hebc, ?_, ?_, ?_⟩
    · by_cases hr : mp.stage = RECAPTURE
      · rw [if_pos hr] at htt
        exact Or.inr (Or.inr (Or.inr (Or.inr (Or.inr ⟨hr, htt⟩))))
      · rw [hst] at hr ⊢
        split
        · exact Or.inr (Or.inl rfl)
        · split
          · exact Or.inr (Or.inr (Or.inl rfl))
          · split
            · exact Or.inr (Or.inr (Or.inr (Or.inl rfl)))
            · rename_i h1 h2 h3
              simp [h1, h2, h3] at hr
    · intro hne
      by_cases hr : mp.stage = RECAPTURE
      · rw [if_pos hr] at htt; exact absurd htt hne
      · rw [if_neg hr] at htt
        by_cases hc : ttm ≠ 0 ∧ pos.pseudo_legal ttm = true
        · rw [if_pos hc] at htt; rw [htt]; exact hc.2
        · rw [if_neg hc] at htt; exact absurd htt hne
    · intro hp
      rw [hst] at hp
      split at hp
      · exact absurd hp (by decide)
      · split at hp
        · exact absurd hp (by decide)
        · split at hp <;> exact absurd hp (by decide)
  · obtain ⟨_, hst, hth, htt, hcur, hend, hebc, _⟩ := mkProbcut_spec C pos h
    refine ⟨hcur, hend, hebc, Or.inr (Or.inr (Or.inr (Or.inr (Or.inl hst)))), ?_, ?_⟩
    · intro hne
      by_cases hc : ttm ≠ 0 ∧ pos.pseudo_legal ttm = true ∧ pos.capture ttm = true
          ∧ pos.see ttm > th
      · rw [if_pos hc] at htt; rw [htt]; exact hc.2.1
      · rw [if_neg hc] at htt; exact absurd htt hne
    · intro _ hne
      by_cases hc : ttm ≠ 0 ∧ pos.pseudo_legal ttm = true ∧ pos.capture ttm = true
          ∧ pos.see ttm > th
      · rw [if_pos hc] at htt; rw [htt, hth]; exact ⟨hc.2.2.1, hc.2.2.2⟩
      · rw [if_neg hc] at htt; exact absurd htt hne

/-- Outside main search the trace needs no assumption. -/
theorem constructed_run_other (mp : MovePicker) (hc : Constructed C pos ss mp)
    (hne : mp.stage ≠ MAIN_SEARCH) (af : Int → ExtMove) :
    ∃ (F : Nat) (T : List Event), run C pos ss F mp = some T ∧
      rets T = modeRets C pos ss mp af ∧ defers T = modeDefers C pos mp := by
  obtain ⟨hcur, hend, hebc, hst, _, _⟩ := constructed_facts C pos ss mp hc
  rcases hst with h | h | h | h | h | ⟨h, htt⟩
  · exact absurd h hne
  · obtain ⟨F, hF⟩ := run_evasion C pos ss mp h hcur hend
    refine ⟨F, _, hF, ?_, ?_⟩
    · simp only [rets_append, rets_hintEvents, rets_map_ret, modeRets, h]
      rfl
    · simp only [defers_append, defers_hintEvents, defers_map_ret, modeDefers, h]
      rfl
  · obtain ⟨F, hF⟩ := run_qs_checks C pos ss mp h hcur hend
    refine ⟨F, _, hF, ?_, ?_⟩
    · simp only [rets_append, rets_hintEvents, rets_map_ret, modeRets, h]
      rfl
    · simp only [defers_append, defers_hintEvents, defers_map_ret, modeDefers, h]
      rfl
  · obtain ⟨F, hF⟩ := run_captures_only C pos ss mp QCAPTURES_2 (by rw [h]) (Or.inl h) hcur hend
    refine ⟨F, _, hF, ?_, ?_⟩
    · have hk : pickKeep C pos { mp with stage := QCAPTURES_2 }
          = fun m => decide (m ≠ mp.ttMove) := by
        funext m; simp [pickKeep]
      simp only [rets_append, rets_hintEvents, rets_map_ret, modeRets, h, hk]
      rfl
    · simp only [defers_append, defers_hintEvents, defers_map_ret, modeDefers, h]
      rfl
  · obtain ⟨F, hF⟩ := run_captures_only C pos ss mp PROBCUT_CAPTURES (by rw [h])
      (Or.inr (Or.inl h)) hcur hend
    refine ⟨F, _, hF, ?_, ?_⟩
    · have hk : pickKeep C pos { mp with stage := PROBCUT_CAPTURES }
          = fun m => decide (m ≠ mp.ttMove ∧ pos.see m > mp.threshold) := by
        funext m; simp [pickKeep]
      simp only [rets_append, rets_hintEvents, rets_map_ret, modeRets, h, hk]
      rfl
    · simp only [defers_append, defers_hintEvents, defers_map_ret, modeDefers, h]
      rfl
  · obtain ⟨F, hF⟩ := run_captures_only C pos ss mp RECAPTURES (by rw [h])
      (Or.inr (Or.inr ⟨h, htt⟩)) hcur hend
    refine ⟨F, _, hF, ?_, ?_⟩
    · have hk : pickKeep C pos { mp with stage := RECAPTURES }
          = fun m => decide (C.to_sq m = mp.recaptureSquare) := by
        funext m; simp [pickKeep]
      simp only [rets_append, rets_hintEvents, rets_map_ret, modeRets, h, hk, htt, hintRets]
      rfl
    · simp only [defers_append, defers_hintEvents, defers_map_ret, modeDefers, h]
      rfl

theorem constructed_run (hpart : PartitionSpec C) (mp : MovePicker)
    (hc : Constructed C pos ss mp) (hfit : mp.stage = MAIN_SEARCH → Fits C pos mp.ttMove) :
    ∃ (af : Int → ExtMove) (F : Nat) (T : List Event), run C pos ss F mp = some T ∧
      rets T = modeRets C pos ss mp af ∧ defers T = modeDefers C pos mp := by
  by_cases h : mp.stage = MAIN_SEARCH
  · obtain ⟨hcur, hend, hebc, _, _, _⟩ := constructed_facts C pos ss mp hc
    obtain ⟨af, F, hF⟩ := run_main C pos ss hpart mp h hcur hend hebc (hfit h).1 (hfit h).2
    refine ⟨af, F, _, hF, ?_, ?_⟩
    · rw [rets_mainEvents]; simp only [modeRets, h, if_true]
    · rw [defers_mainEvents]; simp only [modeDefers, h, if_true]
  · obtain ⟨F, T, h1, h2, h3⟩ := constructed_run_other C pos ss mp hc h mp.moves
    exact ⟨mp.moves, F, T, h1, h2, h3⟩

end MoveSelection
namespace MoveSelection

variable (C : Consts) (pos : Position) (ss : Stack)

/-! ### From traces to calls -/

theorem takeWhile_append_replicate (A : List Move) (n : Nat) :
    (A ++ List.replicate n MOVE_NONE).takeWhile (fun m => decide (m ≠ MOVE_NONE))
      = A.takeWhile (fun m => decide (m ≠ MOVE_NONE)) := by
  induction A with
  | nil =>
    cases n with
    | zero => rfl
    | succ n => simp [List.replicate_succ, List.takeWhile]
  | cons a A ih =>
    simp only [List.cons_append, List.takeWhile_cons]
    split
    · rw [ih]
    · rfl

theorem calls_of_trace {F : Nat} {mp : MovePicker} {T : List Event}
    (h : run C pos ss F mp = some T) (fuel k : Nat) (hfuel : F ≤ fuel) :
    ∃ L, calls C pos ss fuel k mp = some L ∧
      staged L = (rets T ++ List.replicate k (STOP, MOVE_NONE)).take k ∧
      L.map Prod.fst = ((rets T).map Prod.snd ++ List.replicate k MOVE_NONE).take k ∧
      ((rets T).length < k →
        consumed L = ((rets T).map Prod.snd).takeWhile fun m => decide (m ≠ MOVE_NONE)) := by
  obtain ⟨L, hL, hst⟩ := calls_of_run C pos ss F mp T h fuel k hfuel
  have hmoves : L.map Prod.fst
      = ((rets T).map Prod.snd ++ List.replicate k MOVE_NONE).take k := by
    have := congrArg (List.map Prod.snd) hst
    simp only [staged, List.map_map, List.map_take, List.map_append, List.map_replicate] at this
    exact this
  refine ⟨L, hL, hst, hmoves, ?_⟩
  intro hk
  unfold consumed
  rw [hmoves, List.take_append_eq_append_take, List.take_of_length_le (by simp; omega),
    List.take_replicate, takeWhile_append_replicate]

end MoveSelection
namespace MoveSelection

variable (C : Consts) (pos : Position) (ss : Stack)

/-! ### Enough calls see the whole trace -/

theorem take_append_replicate_ge {α : Type} (A : List α) (z : α) (k : Nat)
    (h : A.length ≤ k) :
    (A ++ List.replicate k z).take k = A ++ List.replicate (k - A.length) z := by
  rw [List.take_append_eq_append_take, List.take_of_length_le h, List.take_replicate]
  congr 2
  omega

theorem calls_of_trace_full {F : Nat} {mp : MovePicker} {T : List Event}
    (h : run C pos ss F mp = some T) (fuel k : Nat) (hfuel : F ≤ fuel)
    (hk : (rets T).length ≤ k) :
    ∃ L, calls C pos ss fuel k mp = some L ∧
      staged L = rets T ++ List.replicate (k - (rets T).length) (STOP, MOVE_NONE) ∧
      L.map Prod.fst
        = (rets T).map Prod.snd ++ List.replicate (k - (rets T).length) MOVE_NONE := by
  obtain ⟨L, hL, hst, hmoves, _⟩ := calls_of_trace C pos ss h fuel k hfuel
  refine ⟨L, hL, ?_, ?_⟩
  · rw [hst, take_append_replicate_ge _ _ _ hk]
  · rw [hmoves, take_append_replicate_ge _ _ _ (by simpa using hk)]
    simp

/-- When no move of the trace is `MOVE_NONE`, the moves consumed are those of
the trace. -/
theorem consumed_of_nonzero {F : Nat} {mp : MovePicker} {T : List Event}
    (h : run C pos ss F mp = some T) (fuel k : Nat) (hfuel : F ≤ fuel)
    (hk : (rets T).length < k) (h0 : ∀ p ∈ rets T, p.2 ≠ MOVE_NONE) :
    ∃ L, calls C pos ss fuel k mp = some L ∧
      staged L = rets T ++ List.replicate (k - (rets T).length) (STOP, MOVE_NONE) ∧
      consumed L = (rets T).map Prod.snd := by
  obtain ⟨L, hL, hst, _⟩ := calls_of_trace_full C pos ss h fuel k hfuel (le_of_lt hk)
  obtain ⟨L', hL', _, _, hcons⟩ := calls_of_trace C pos ss h fuel k hfuel
  rw [hL] at hL'
  obtain rfl := Option.some.inj hL'
  refine ⟨L, hL, hst, ?_⟩
  rw [hcons hk, List.takeWhile_eq_self_iff]
  intro m hm
  obtain ⟨p, hp, rfl⟩ := List.mem_map.1 hm
  simpa using h0 p hp

end MoveSelection
namespace MoveSelection

variable (C : Consts) (pos : Position) (ss : Stack)

/-! ## The hint is returned once -/

theorem mem_tag {s : Nat} {l : List Move} {p : Nat × Move} :
    p ∈ tag s l ↔ p.1 = s ∧ p.2 ∈ l := by
  unfold tag
  constructor
  · intro h
    obtain ⟨m, hm, rfl⟩ := List.mem_map.1 h
    exact ⟨rfl, hm⟩
  · rintro ⟨h1, h2⟩
    exact List.mem_map.2 ⟨p.2, h2, by rw [← h1]⟩

theorem map_snd_tag (s : Nat) (l : List Move) : (tag s l).map Prod.snd = l := by
  unfold tag
  rw [List.map_map]
  exact List.map_id _

theorem modeRets_main (mp : MovePicker) (af : Int → ExtMove) (h : mp.stage = MAIN_SEARCH) :
    modeRets C pos ss mp af =
      hintRets MAIN_SEARCH mp.ttMove ++
        (tag GOOD_CAPTURES ((capPicks C pos mp.moves).filter (isGood pos mp.ttMove)) ++
          (tag KILLERS ((killerList ss mp.countermove).filter (keepKiller pos mp.ttMove)) ++
            (tag ALL_QUIETS ((quietOrder C pos ss mp.depth af).filter
                (keepQuiet ss mp.ttMove mp.countermove)) ++
              tag BAD_CAPTURES ((capPicks C pos mp.moves).filter (isBad pos mp.ttMove))))) := by
  rw [modeRets, if_pos h]

theorem modeRets_evasion (mp : MovePicker) (af : Int → ExtMove) (h : mp.stage = EVASION) :
    modeRets C pos ss mp af =
      hintRets EVASION mp.ttMove ++
        tag ALL_EVASIONS ((evaPicks C pos mp.moves).filter fun m => decide (m ≠ mp.ttMove)) := by
  rw [modeRets, if_neg (by rw [h]; decide), if_pos h]

theorem modeRets_qs_checks (mp : MovePicker) (af : Int → ExtMove)
    (h : mp.stage = QSEARCH_WITH_CHECKS) :
    modeRets C pos ss mp af =
      hintRets QSEARCH_WITH_CHECKS mp.ttMove ++
        (tag QCAPTURES_1 ((capPicks C pos mp.moves).filter fun m => decide (m ≠ mp.ttMove)) ++
          tag CHECKS (pos.genQuietChecks.filter fun m => decide (m ≠ mp.ttMove))) := by
  rw [modeRets, if_neg (by rw [h]; decide), if_neg (by rw [h]; decide), if_pos h]

theorem modeRets_qs_no_checks (mp : MovePicker) (af : Int → ExtMove)
    (h : mp.stage = QSEARCH_WITHOUT_CHECKS) :
    modeRets C pos ss mp af =
      hintRets QSEARCH_WITHOUT_CHECKS mp.ttMove ++
        tag QCAPTURES_2 ((capPicks C pos mp.moves).filter fun m => decide (m ≠ mp.ttMove)) := by
  rw [modeRets, if_neg (by rw [h]; decide), if_neg (by rw [h]; decide),
    if_neg (by rw [h]; decide), if_pos h]

theorem modeRets_probcut (mp : MovePicker) (af : Int → ExtMove) (h : mp.stage = PROBCUT) :
    modeRets C pos ss mp af =
      hintRets PROBCUT mp.ttMove ++
        tag PROBCUT_CAPTURES ((capPicks C pos mp.moves).filter fun m =>
          decide (m ≠ mp.ttMove ∧ pos.see m > mp.threshold)) := by
  rw [modeRets, if_neg (by rw [h]; decide), if_neg (by rw [h]; decide),
    if_neg (by rw [h]; decide), if_neg (by rw [h]; decide), if_pos h]

theorem modeRets_recapture (mp : MovePicker) (af : Int → ExtMove) (h : mp.stage = RECAPTURE) :
    modeRets C pos ss mp af =
      tag RECAPTURES ((capPicks C pos mp.moves).filter fun m =>
        decide (C.to_sq m = mp.recaptureSquare)) := by
  rw [modeRets, if_neg (by rw [h]; decide), if_neg (by rw [h]; decide),
    if_neg (by rw [h]; decide), if_neg (by rw [h]; decide), if_neg (by rw [h]; decide)]

/-- With a hint, the returns start with the hint and never repeat it. -/
theorem modeRets_hint (mp : MovePicker) (af : Int → ExtMove) (htt : mp.ttMove ≠ MOVE_NONE)
    (hst : mp.stage = MAIN_SEARCH ∨ mp.stage = EVASION ∨ mp.stage = QSEARCH_WITH_CHECKS
      ∨ mp.stage = QSEARCH_WITHOUT_CHECKS ∨ mp.stage = PROBCUT
      ∨ (mp.stage = RECAPTURE ∧ mp.ttMove = MOVE_NONE)) :
    ∃ R, modeRets C pos ss mp af = (mp.stage, mp.ttMove) :: R ∧ ∀ p ∈ R, p.2 ≠ mp.ttMove := by
  have hh : ∀ s, hintRets s mp.ttMove = [(s, mp.ttMove)] := fun s => by
    simp [hintRets, htt]
  rcases hst with h | h | h | h | h | ⟨_, h⟩
  · rw [modeRets_main C pos ss mp af h, hh, h, List.singleton_append]
    refine ⟨_, rfl, ?_⟩
    intro p hp
    simp only [List.mem_append, mem_tag, List.mem_filter] at hp
    rcases hp with ⟨_, _, hp⟩ | ⟨_, _, hp⟩ | ⟨_, _, hp⟩ | ⟨_, _, hp⟩
    · simp only [isGood, decide_eq_true_eq] at hp; exact hp.1
    · simp only [keepKiller, decide_eq_true_eq] at hp; exact hp.2.1
    · simp only [keepQuiet, decide_eq_true_eq] at hp; exact hp.1
    · simp only [isBad, decide_eq_true_eq] at hp; exact hp.1
  · rw [modeRets_evasion C pos ss mp af h, hh, h, List.singleton_append]
    refine ⟨_, rfl, ?_⟩
    intro p hp
    simp only [mem_tag, List.mem_filter, decide_eq_true_eq] at hp
    exact hp.2.2
  · rw [modeRets_qs_checks C pos ss mp af h, hh, h, List.singleton_append]
    refine ⟨_, rfl, ?_⟩
    intro p hp
    simp only [List.mem_append, mem_tag, List.mem_filter, decide_eq_true_eq] at hp
    rcases hp with ⟨_, _, hp⟩ | ⟨_, _, hp⟩ <;> exact hp
  · rw [modeRets_qs_no_checks C pos ss mp af h, hh, h, List.singleton_append]
    refine ⟨_, rfl, ?_⟩
    intro p hp
    simp only [mem_tag, List.mem_filter, decide_eq_true_eq] at hp
    exact hp.2.2
  · rw [modeRets_probcut C pos ss mp af h, hh, h, List.singleton_append]
    refine ⟨_, rfl, ?_⟩
    intro p hp
    simp only [mem_tag, List.mem_filter, decide_eq_true_eq] at hp
    exact hp.2.2.1
  · exact absurd h htt
/-! ## No duplicates -/

theorem map_snd_hintRets (s : Nat) (tt : Move) :
    (hintRets s tt).map Prod.snd = if tt ≠ MOVE_NONE then [tt] else [] := by
  unfold hintRets
  split <;> rfl

theorem nodup_hint_append (s : Nat) (tt : Move) (X : List Move) (hX : X.Nodup)
    (hne : tt ∉ X) : ((hintRets s tt).map Prod.snd ++ X).Nodup := by
  rw [map_snd_hintRets]
  split
  · exact List.nodup_cons.2 ⟨hne, hX⟩
  · exact hX

theorem nodup_killers (tt cm : Move) (hk : ss.killers0 = ss.killers1 → ss.killers0 = MOVE_NONE) :
    ((killerList ss cm).filter (keepKiller pos tt)).Nodup := by
  by_cases h01 : ss.killers0 = ss.killers1
  · have h0 : keepKiller pos tt ss.killers0 = false := by simp [keepKiller, hk h01]
    have h1 : keepKiller pos tt ss.killers1 = false := by rw [← h01]; exact h0
    unfold killerList
    split
    · rw [List.filter_cons_of_neg (by simp [h0]), List.filter_cons_of_neg (by simp [h1])]
      exact (List.nodup_singleton cm).filter _
    · rw [List.filter_cons_of_neg (by simp [h0]), List.filter_cons_of_neg (by simp [h1])]
      exact List.nodup_nil
  · apply List.Nodup.filter
    unfold killerList
    split
    · rename_i hc
      simp only [List.nodup_cons, List.mem_cons, List.mem_singleton, List.not_mem_nil,
        not_false_eq_true, List.nodup_nil, and_true, not_or]
      exact ⟨⟨h01, fun h => hc.1 h.symm⟩, fun h => hc.2 h.symm⟩
    · simp only [List.nodup_cons, List.mem_singleton, List.not_mem_nil, not_false_eq_true,
        List.nodup_nil, and_true]
      exact h01

theorem mem_killerList {cm m : Move} :
    m ∈ killerList ss cm ↔ m = ss.killers0 ∨ m = ss.killers1 ∨ m = cm := by
  unfold killerList
  split
  · simp
  · rename_i hc
    simp only [List.mem_cons, List.mem_singleton, List.not_mem_nil, or_false]
    constructor
    · rintro (h | h)
      · exact Or.inl h
      · exact Or.inr (Or.inl h)
    · rintro (h | h | h)
      · exact Or.inl h
      · exact Or.inr h
      · by_cases h0 : cm = ss.killers0
        · exact Or.inl (h.trans h0)
        · have : cm = ss.killers1 := by
            by_contra h1
            exact hc ⟨h0, h1⟩
          exact Or.inr (h.trans this)

/-- The moves main search returns are pairwise different. -/
theorem nodup_main (tt cm : Move) (P Q : List Move) (hP : P.Nodup) (hQ : Q.Nodup)
    (hPQ : P.Disjoint Q)
    (hk : ss.killers0 = ss.killers1 → ss.killers0 = MOVE_NONE)
    (hkc : ∀ m ∈ killerList ss cm, pos.pseudo_legal m = true → ¬ pos.capture m = true → m ∉ P) :
    ((hintRets MAIN_SEARCH tt).map Prod.snd ++
      (P.filter (isGood pos tt) ++
        ((killerList ss cm).filter (keepKiller pos tt) ++
          (Q.filter (keepQuiet ss tt cm) ++ P.filter (isBad pos tt))))).Nodup := by
  apply nodup_hint_append
  · rw [List.nodup_append]
    refine ⟨hP.filter _, ?_, ?_⟩
    · rw [List.nodup_append]
      refine ⟨nodup_killers pos ss tt cm hk, ?_, ?_⟩
      · rw [List.nodup_append]
        refine ⟨hQ.filter _, hP.filter _, ?_⟩
        intro m h1 h2
        exact hPQ (List.mem_filter.1 h2).1 (List.mem_filter.1 h1).1
      · intro m h1 h2
        obtain ⟨hm, hkeep⟩ := List.mem_filter.1 h1
        simp only [keepKiller, decide_eq_true_eq] at hkeep
        rcases List.mem_append.1 h2 with h3 | h3
        · obtain ⟨_, hq⟩ := List.mem_filter.1 h3
          simp only [keepQuiet, decide_eq_true_eq] at hq
          rcases (mem_killerList ss).1 hm with h | h | h
          · exact hq.2.1 h
          · exact hq.2.2.1 h
          · exact hq.2.2.2 h
        · exact hkc m hm hkeep.2.2.1 hkeep.2.2.2 (List.mem_filter.1 h3).1
    · intro m h1 h2
      obtain ⟨hmP, hg⟩ := List.mem_filter.1 h1
      simp only [isGood, decide_eq_true_eq] at hg
      rcases List.mem_append.1 h2 with h3 | h3
      · obtain ⟨hm, hkeep⟩ := List.mem_filter.1 h3
        simp only [keepKiller, decide_eq_true_eq] at hkeep
        exact hkc m hm hkeep.2.2.1 hkeep.2.2.2 hmP
      · rcases List.mem_append.1 h3 with h4 | h4
        · exact hPQ hmP (List.mem_filter.1 h4).1
        · obtain ⟨_, hb⟩ := List.mem_filter.1 h4
          simp only [isBad, decide_eq_true_eq] at hb
          exact absurd hg.2 (not_le.2 hb.2)
  · intro h
    simp only [List.mem_append, List.mem_filter, isGood, isBad, keepKiller, keepQuiet,
      decide_eq_true_eq] at h
    rcases h with h | h | h | h
    · exact h.2.1 rfl
    · exact h.2.2.1 rfl
    · exact h.2.1 rfl
    · exact h.2.1 rfl

/-- The moves a constructed picker returns are pairwise different, provided
the killers are. -/
theorem nodup_modeRets (hpart : PartitionSpec C) (mp : MovePicker) (af : Int → ExtMove)
    (hst : mp.stage = MAIN_SEARCH ∨ mp.stage = EVASION ∨ mp.stage = QSEARCH_WITH_CHECKS
      ∨ mp.stage = QSEARCH_WITHOUT_CHECKS ∨ mp.stage = PROBCUT
      ∨ (mp.stage = RECAPTURE ∧ mp.ttMove = MOVE_NONE))
    (hcap : pos.genCaptures.Nodup) (hqui : pos.genQuiets.Nodup) (heva : pos.genEvasions.Nodup)
    (hchk : pos.genQuietChecks.Nodup)
    (hcq : ∀ m ∈ pos.genCaptures, m ∉ pos.genQuiets)
    (hcc : ∀ m ∈ pos.genCaptures, m ∉ pos.genQuietChecks)
    (hk : ss.killers0 = ss.killers1 → ss.killers0 = MOVE_NONE)
    (hkc : ∀ m ∈ [ss.killers0, ss.killers1, mp.countermove],
      pos.pseudo_legal m = true → ¬ pos.capture m = true → m ∉ pos.genCaptures) :
    ((modeRets C pos ss mp af).map Prod.snd).Nodup := by
  have hP : (capPicks C pos mp.moves).Nodup := (capPicks_perm C pos mp.moves).nodup_iff.2 hcap
  have hmemP : ∀ m, m ∈ capPicks C pos mp.moves ↔ m ∈ pos.genCaptures :=
    fun m => (capPicks_perm C pos mp.moves).mem_iff
  have hne : ∀ (l : List Move) (f : Move → Bool), (∀ m, f m = true → m ≠ mp.ttMove) →
      mp.ttMove ∉ l.filter f := fun l f hf h => hf _ (List.mem_filter.1 h).2 rfl
  rcases hst with h | h | h | h | h | ⟨h, htt⟩
  · rw [modeRets_main C pos ss mp af h]
    simp only [List.map_append, map_snd_tag]
    have hQ : (quietOrder C pos ss mp.depth af).Nodup :=
      (quietOrder_perm C pos ss hpart mp.depth af).nodup_iff.2 hqui
    apply nodup_main pos ss _ _ _ _ hP hQ
    · intro m h1 h2
      exact hcq m ((hmemP m).1 h1) ((quietOrder_perm C pos ss hpart mp.depth af).mem_iff.1 h2)
    · exact hk
    · intro m hm hpl hnc hmem
      refine hkc m ?_ hpl hnc ((hmemP m).1 hmem)
      rcases (mem_killerList ss).1 hm with h | h | h <;> simp [h]
  · rw [modeRets_evasion C pos ss mp af h]
    simp only [List.map_append, map_snd_tag]
    apply nodup_hint_append
    · exact ((evaPicks_perm C pos mp.moves).nodup_iff.2 heva).filter _
    · exact hne _ _ (fun m hm => by simpa using hm)
  · rw [modeRets_qs_checks C pos ss mp af h]
    simp only [List.map_append, map_snd_tag]
    apply nodup_hint_append
    · rw [List.nodup_append]
      refine ⟨hP.filter _, hchk.filter _, ?_⟩
      intro m h1 h2
      exact hcc m ((hmemP m).1 (List.mem_filter.1 h1).1) (List.mem_filter.1 h2).1
    · intro hmem
      rcases List.mem_append.1 hmem with h1 | h1
      · exact hne _ _ (fun m hm => by simpa using hm) h1
      · exact hne _ _ (fun m hm => by simpa using hm) h1
  · rw [modeRets_qs_no_checks C pos ss mp af h]
    simp only [List.map_append, map_snd_tag]
    apply nodup_hint_append
    · exact hP.filter _
    · exact hne _ _ (fun m hm => by simpa using hm)
  · rw [modeRets_probcut C pos ss mp af h]
    simp only [List.map_append, map_snd_tag]
    apply nodup_hint_append
    · exact hP.filter _
    · exact hne _ _ (fun m hm => by
        simp only [decide_eq_true_eq] at hm
        exact hm.1)
  · rw [modeRets_recapture C pos ss mp af h, map_snd_tag]
    exact hP.filter _
theorem mem_hintRets {s : Nat} {tt : Move} {p : Nat × Move} :
    p ∈ hintRets s tt ↔ p = (s, tt) ∧ tt ≠ MOVE_NONE := by
  unfold hintRets
  split
  · rename_i h; simp [h]
  · rename_i h; simp [h]

/-- A picker built by the main-search constructor out of check. -/
theorem mkMain_constructed {raw mp : MovePicker} {ttm : Move} {d : Depth}
    (hmk : MovePicker.mkMain C pos ss raw ttm d = some mp) (hchk : pos.checkers = false) :
    Constructed C pos ss mp ∧ mp.stage = MAIN_SEARCH := by
  refine ⟨Or.inl ⟨raw, ttm, d, hmk⟩, ?_⟩
  obtain ⟨_, hst, _⟩ := mkMain_spec C pos ss hmk
  rw [hst, if_neg (by simp [hchk])]

end MoveSelection
namespace MoveSelection

variable (C : Consts) (pos : Position) (ss : Stack)

/-! ## The returns of one stage -/

/-- The moves tagged with stage `s` in a list of returns. -/
theorem stageMoves_tag (s : Nat) (l : List Move) :
    ((tag s l).filter fun p => p.1 = s).map Prod.snd = l := by
  induction l with
  | nil => rfl
  | cons a t ih =>
    simp only [tag, List.map_cons, List.filter_cons, decide_True, if_true] at ih ⊢
    rw [ih]

theorem stageMoves_tag_ne {s s' : Nat} (h : s' ≠ s) (l : List Move) :
    ((tag s' l).filter fun p => p.1 = s).map Prod.snd = [] := by
  induction l with
  | nil => rfl
  | cons a t ih =>
    simp only [tag, List.map_cons, List.filter_cons, decide_eq_true_eq, h, if_false] at ih ⊢
    exact ih

theorem stageMoves_hintRets_ne {s s' : Nat} (h : s' ≠ s) (tt : Move) :
    ((hintRets s' tt).filter fun p => p.1 = s).map Prod.snd = [] := by
  unfold hintRets
  split
  · simp [h]
  · rfl

theorem stageMoves_replicate {s : Nat} (h : s ≠ STOP) (n : Nat) :
    ((List.replicate n (STOP, MOVE_NONE)).filter fun p => p.1 = s).map Prod.snd = [] := by
  induction n with
  | zero => rfl
  | succ n ih =>
    simp only [List.replicate_succ, List.filter_cons, decide_eq_true_eq, Ne.symm h,
      if_false]
    exact ih

/-- The moves returned in a stage other than `STOP`, read off the trace. -/
theorem returnedIn_of_trace {F : Nat} {mp : MovePicker} {T : List Event}
    (h : run C pos ss F mp = some T) (fuel k : Nat) (hfuel : F ≤ fuel)
    (hk : (rets T).length ≤ k) :
    ∃ L, calls C pos ss fuel k mp = some L ∧
      (L.map Prod.fst
        = (rets T).map Prod.snd ++ List.replicate (k - (rets T).length) MOVE_NONE) ∧
      ∀ s, s ≠ STOP → returnedIn s L = retsIn s T := by
  obtain ⟨L, hL, hst, hm⟩ := calls_of_trace_full C pos ss h fuel k hfuel hk
  refine ⟨L, hL, hm, fun s hs => ?_⟩
  rw [returnedIn, hst, List.filter_append, List.map_append, stageMoves_replicate hs,
    List.append_nil, retsIn]

/-- A move of a duplicate-free list that passes a filter occurs once in the
filtered list, also after a permutation. -/
theorem count_filter_perm {l l' : List Move} (hp : l'.Perm l) (hnd : l.Nodup) (p : Move → Bool)
    {m : Move} (hm : m ∈ l) (hpm : p m = true) : (l'.filter p).count m = 1 := by
  have hnd' : (l'.filter p).Nodup := (hp.nodup_iff.2 hnd).filter _
  exact List.count_eq_one_of_mem hnd' (List.mem_filter.2 ⟨hp.mem_iff.2 hm, hpm⟩)

/-- The moves main search returns in each of its stages. -/
theorem retsIn_main {mp : MovePicker} {T : List Event} {af : Int → ExtMove}
    (hst : mp.stage = MAIN_SEARCH) (hrets : rets T = modeRets C pos ss mp af) :
    retsIn GOOD_CAPTURES T = (capPicks C pos mp.moves).filter (isGood pos mp.ttMove) ∧
    retsIn BAD_CAPTURES T = (capPicks C pos mp.moves).filter (isBad pos mp.ttMove) := by
  rw [modeRets_main C pos ss mp af hst] at hrets
  constructor
  · rw [retsIn, hrets]
    simp only [List.filter_append, List.map_append]
    rw [stageMoves_hintRets_ne (by decide), stageMoves_tag,
      stageMoves_tag_ne (by decide), stageMoves_tag_ne (by decide),
      stageMoves_tag_ne (by decide)]
    simp
  · rw [retsIn, hrets]
    simp only [List.filter_append, List.map_append]
    rw [stageMoves_hintRets_ne (by decide), stageMoves_tag,
      stageMoves_tag_ne (by decide), stageMoves_tag_ne (by decide),
      stageMoves_tag_ne (by decide)]
    simp

end MoveSelection
namespace MoveSelection

variable (C : Consts) (pos : Position) (ss : Stack)

/-! ## Probcut and recapture runs -/

theorem stageMoves_hintRets (s : Nat) (tt : Move) :
    ((hintRets s tt).filter fun p => p.1 = s).map Prod.snd
      = if tt ≠ MOVE_NONE then [tt] else [] := by
  unfold hintRets
  split <;> simp

/-- A member of the moves of the calls that is not `MOVE_NONE` is a return
of the trace. -/
theorem mem_returns_of_ne {R : List Move} {n : Nat} {m : Move}
    (hm : m ∈ R ++ List.replicate n MOVE_NONE) (hne : m ≠ MOVE_NONE) : m ∈ R := by
  rcases List.mem_append.1 hm with h | h
  · exact h
  · exact absurd (List.eq_of_mem_replicate h) hne

/-- A picker built by the probcut constructor. -/
theorem mkProbcut_constructed {raw mp : MovePicker} {ttm : Move} {th : Value}
    (hmk : MovePicker.mkProbcut C pos raw ttm th = some mp) :
    Constructed C pos ss mp := Or.inr (Or.inr ⟨raw, ttm, th, hmk⟩)

/-- A picker built by the quiescence constructor. -/
theorem mkQsearch_constructed {raw mp : MovePicker} {ttm : Move} {d : Depth} {s : Square}
    (hmk : MovePicker.mkQsearch C pos raw ttm d s = some mp) :
    Constructed C pos ss mp := Or.inr (Or.inl ⟨raw, ttm, d, s, hmk⟩)

/-- The calls made after the returns of the trace. -/
theorem drop_of_staged {L : List (Move × MovePicker)} {R : List (Nat × Move)} {n : Nat}
    (h : staged L = R ++ List.replicate n (STOP, MOVE_NONE)) :
    ∀ p ∈ L.drop R.length, p.1 = MOVE_NONE ∧ p.2.stage = STOP := by
  intro p hp
  have h1 : (p.2.stage, p.1) ∈ staged (L.drop R.length) :=
    List.mem_map.2 ⟨p, hp, rfl⟩
  have h2 : staged (L.drop R.length) = List.replicate n (STOP, MOVE_NONE) := by
    rw [staged, List.map_drop]
    change List.drop R.length (staged L) = _
    rw [h, List.drop_left]
  rw [h2] at h1
  have := List.eq_of_mem_replicate h1
  exact ⟨(Prod.mk.inj this).2, (Prod.mk.inj this).1⟩

end MoveSelection
namespace MoveSelection

variable (C : Consts) (pos : Position) (ss : Stack)

/-! ### Stages along a run -/

theorem setArr_stage (mp : MovePicker) (p : Ptr) (a : Int → ExtMove) :
    (mp.setArr p a).stage = mp.stage := by
  cases p <;> rfl

theorem storeMove_stage (mp : MovePicker) (p : Ptr) (m : Move) :
    (mp.storeMove p m).stage = mp.stage := setArr_stage _ _ _

theorem pick_stage (mp : MovePicker) : mp.pick.stage = mp.stage := by
  unfold MovePicker.pick
  exact setArr_stage _ _ _

/-- The stage after `generate_next_stage`. -/
theorem gns_stage (mp mp' : MovePicker) (h : generate_next_stage C pos ss mp = some mp') :
    mp'.stage = nextStage mp.stage := by
  have hcases : mp.stage = 0 ∨ mp.stage = 1 ∨ mp.stage = 2 ∨ mp.stage = 3 ∨ mp.stage = 4
      ∨ mp.stage = 5 ∨ mp.stage = 6 ∨ mp.stage = 7 ∨ mp.stage = 8 ∨ mp.stage = 9
      ∨ mp.stage = 10 ∨ mp.stage = 11 ∨ mp.stage = 12 ∨ mp.stage = 13 ∨ mp.stage = 14
      ∨ mp.stage = 15 ∨ mp.stage = 16 ∨ 17 ≤ mp.stage := by omega
  rcases hcases with hs | hs | hs | hs | hs | hs | hs | hs | hs | hs | hs | hs | hs | hs | hs
    | hs | hs | hs
  · rw [gns_captures C pos ss mp (Or.inl hs)] at h
    rw [← Option.some.inj h, hs]; rfl
  · rw [gns_killers C pos ss mp hs] at h
    rw [← Option.some.inj h, hs]; rfl
  · rw [gns_quiets C pos ss mp hs] at h
    rw [← Option.some.inj h, hs]; rfl
  · rw [gns_bad C pos ss mp hs] at h
    rw [← Option.some.inj h, hs]; rfl
  · rw [gns_stop C pos ss mp (Or.inl hs)] at h
    rw [← Option.some.inj h, hs]; rfl
  · rw [gns_evasions C pos ss mp hs] at h
    rw [← Option.some.inj h, hs]; rfl
  · rw [gns_stop C pos ss mp (Or.inr (Or.inl hs))] at h
    rw [← Option.some.inj h, hs]; rfl
  · rw [gns_captures C pos ss mp (Or.inr (Or.inl hs))] at h
    rw [← Option.some.inj h, hs]; rfl
  · rw [gns_checks C pos ss mp hs] at h
    rw [← Option.some.inj h, hs]; rfl
  · rw [gns_stop C pos ss mp (Or.inr (Or.inr (Or.inl hs)))] at h
    rw [← Option.some.inj h, hs]; rfl
  · rw [gns_captures C pos ss mp (Or.inr (Or.inr (Or.inl hs)))] at h
    rw [← Option.some.inj h, hs]; rfl
  · rw [gns_stop C pos ss mp (Or.inr (Or.inr (Or.inr (Or.inl hs))))] at h
    rw [← Option.some.inj h, hs]; rfl
  · rw [gns_captures C pos ss mp (Or.inr (Or.inr (Or.inr (Or.inl hs))))] at h
    rw [← Option.some.inj h, hs]; rfl
  · rw [gns_stop C pos ss mp (Or.inr (Or.inr (Or.inr (Or.inr (Or.inl hs)))))] at h
    rw [← Option.some.inj h, hs]; rfl
  · rw [gns_captures C pos ss mp (Or.inr (Or.inr (Or.inr (Or.inr hs))))] at h
    rw [← Option.some.inj h, hs]; rfl
  · rw [gns_stop C pos ss mp (Or.inr (Or.inr (Or.inr (Or.inr (Or.inr hs)))))] at h
    rw [← Option.some.inj h, hs]; rfl
  · unfold generate_next_stage at h
    rw [if_pos hs] at h
    exact absurd h (by simp)
  · obtain ⟨k, hk⟩ : ∃ k, mp.stage = k + 17 := ⟨mp.stage - 17, by omega⟩
    unfold generate_next_stage at h
    rw [if_neg (by rw [hk]; show k + 17 ≠ 16; omega)] at h
    simp [hk] at h

/-- Before `STOP`, in a stage of the enumeration, `generate_next_stage` fails
no `assert`. -/
theorem gns_some (mp : MovePicker) (hs : mp.stage < STOP) :
    ∃ mp', generate_next_stage C pos ss mp = some mp' := by
  have hcases : mp.stage = 0 ∨ mp.stage = 1 ∨ mp.stage = 2 ∨ mp.stage = 3 ∨ mp.stage = 4
      ∨ mp.stage = 5 ∨ mp.stage = 6 ∨ mp.stage = 7 ∨ mp.stage = 8 ∨ mp.stage = 9
      ∨ mp.stage = 10 ∨ mp.stage = 11 ∨ mp.stage = 12 ∨ mp.stage = 13 ∨ mp.stage = 14
      ∨ mp.stage = 15 := by
    have : mp.stage < 16 := hs
    omega
  rcases hcases with hs | hs | hs | hs | hs | hs | hs | hs | hs | hs | hs | hs | hs | hs | hs
    | hs
  · exact ⟨_, gns_captures C pos ss mp (Or.inl hs)⟩
  · exact ⟨_, gns_killers C pos ss mp hs⟩
  · exact ⟨_, gns_quiets C pos ss mp hs⟩
  · exact ⟨_, gns_bad C pos ss mp hs⟩
  · exact ⟨_, gns_stop C pos ss mp (Or.inl hs)⟩
  · exact ⟨_, gns_evasions C pos ss mp hs⟩
  · exact ⟨_, gns_stop C pos ss mp (Or.inr (Or.inl hs))⟩
  · exact ⟨_, gns_captures C pos ss mp (Or.inr (Or.inl hs))⟩
  · exact ⟨_, gns_checks C pos ss mp hs⟩
  · exact ⟨_, gns_stop C pos ss mp (Or.inr (Or.inr (Or.inl hs)))⟩
  · exact ⟨_, gns_captures C pos ss mp (Or.inr (Or.inr (Or.inl hs)))⟩
  · exact ⟨_, gns_stop C pos ss mp (Or.inr (Or.inr (Or.inr (Or.inl hs))))⟩
  · exact ⟨_, gns_captures C pos ss mp (Or.inr (Or.inr (Or.inr (Or.inl hs))))⟩
  · exact ⟨_, gns_stop C pos ss mp (Or.inr (Or.inr (Or.inr (Or.inr (Or.inl hs)))))⟩
  · exact ⟨_, gns_captures C pos ss mp (Or.inr (Or.inr (Or.inr (Or.inr hs))))⟩
  · exact ⟨_, gns_stop C pos ss mp (Or.inr (Or.inr (Or.inr (Or.inr (Or.inr hs)))))⟩

theorem advance_stage (mp : MovePicker) : mp.advance.stage = mp.stage := rfl

/-- One pass leaves the stage as it is, except for `generate_next_stage`. -/
theorem step_stage (mp : MovePicker) :
    match next_move_step C pos ss mp with
    | .ret _ mp' => mp'.stage = mp.stage
    | .brk mp' => mp'.stage = mp.stage ∨ mp'.stage = nextStage mp.stage
    | .defer _ mp' => mp'.stage = mp.stage
    | .abort => True := by
  by_cases hc : mp.cur = mp.endMoves ∧ mp.stage ≠ STOP
  · rw [step_gen C pos ss mp hc.1 hc.2]
    cases hg : generate_next_stage C pos ss mp with
    | none => trivial
    | some mp' => exact Or.inr (gns_stage C pos ss mp mp' hg)
  · unfold next_move_step
    rw [if_neg hc]
    rcases Nat.lt_or_ge mp.stage 17 with hlt | hge
    · have hcases : mp.stage = 0 ∨ mp.stage = 1 ∨ mp.stage = 2 ∨ mp.stage = 3 ∨ mp.stage = 4
          ∨ mp.stage = 5 ∨ mp.stage = 6 ∨ mp.stage = 7 ∨ mp.stage = 8 ∨ mp.stage = 9
          ∨ mp.stage = 10 ∨ mp.stage = 11 ∨ mp.stage = 12 ∨ mp.stage = 13 ∨ mp.stage = 14
          ∨ mp.stage = 15 ∨ mp.stage = 16 := by omega
      rcases hcases with hs | hs | hs | hs | hs | hs | hs | hs | hs | hs | hs | hs | hs | hs
        | hs | hs | hs
      all_goals
        simp only [hs]
        try split_ifs
        all_goals first
          | trivial
          | exact hs
          | exact Or.inl hs
          | exact (pick_stage mp).trans hs
          | exact Or.inl ((pick_stage mp).trans hs)
          | exact ((storeMove_stage _ _ _).trans (pick_stage mp)).trans hs
    · obtain ⟨k, hk⟩ : ∃ k, mp.stage = k + 17 := ⟨mp.stage - 17, by omega⟩
      simp [hk]

end MoveSelection
namespace MoveSelection

variable (C : Consts) (pos : Position) (ss : Stack)

/-! ### Stages reached by calls -/

theorem nextStage_not_hint (s : Nat) :
    ¬ IsHintStage (nextStage s) ∧ nextStage s ≠ RECAPTURE := by
  unfold nextStage IsHintStage
  split <;> rename_i h <;> first
    | (rw [h]; decide)
    | decide

theorem nextStage_le (s : Nat) : nextStage s ≤ STOP := by
  unfold nextStage
  split <;> rename_i h <;> first
    | (rw [h]; decide)
    | exact le_refl _

/-- The stage a call of `next_move` leaves is reached from the stage it is
made in by stage changes of `generate_next_stage`. -/
theorem next_move_stage : ∀ (fuel : Nat) (mp : MovePicker) (m : Move) (mp' : MovePicker),
    next_move C pos ss fuel mp = some (m, mp') → ∃ n, nextStage^[n] mp.stage = mp'.stage := by
  intro fuel
  induction fuel with
  | zero => intro mp m mp' h; simp [next_move] at h
  | succ fuel ih =>
    intro mp m mp' h
    have hst := step_stage C pos ss mp
    simp only [next_move] at h
    cases hstep : next_move_step C pos ss mp with
    | ret m1 mp1 =>
      rw [hstep] at h hst
      simp only [Option.some.injEq, Prod.mk.injEq] at h
      simp only at hst
      rw [← h.2]
      exact ⟨0, hst.symm⟩
    | brk mp1 =>
      rw [hstep] at h hst
      simp only at h hst
      obtain ⟨n, hn⟩ := ih mp1 m mp' h
      rcases hst with h1 | h1
      · exact ⟨n, by rw [← h1]; exact hn⟩
      · refine ⟨n + 1, ?_⟩
        rw [Function.iterate_succ_apply, ← h1]
        exact hn
    | defer m1 mp1 =>
      rw [hstep] at h hst
      simp only at h hst
      obtain ⟨n, hn⟩ := ih mp1 m mp' h
      exact ⟨n, by rw [← hst]; exact hn⟩
    | abort =>
      rw [hstep] at h
      simp at h

theorem calls_stage (fuel : Nat) : ∀ (k : Nat) (mp : MovePicker) (L : List (Move × MovePicker)),
    calls C pos ss fuel k mp = some L → ∀ p ∈ L, ∃ n, nextStage^[n] mp.stage = p.2.stage := by
  intro k
  induction k with
  | zero =>
    intro mp L h p hp
    simp only [calls, Option.some.injEq] at h
    rw [← h] at hp
    exact absurd hp (List.not_mem_nil _)
  | succ k ih =>
    intro mp L h p hp
    simp only [calls] at h
    cases hn : next_move C pos ss fuel mp with
    | none => rw [hn] at h; simp at h
    | some r =>
      obtain ⟨m, mp1⟩ := r
      rw [hn] at h
      simp only at h
      cases hc : calls C pos ss fuel k mp1 with
      | none => rw [hc] at h; simp at h
      | some L1 =>
        rw [hc] at h
        simp only [Option.map_some', Option.some.injEq] at h
        rw [← h] at hp
        obtain ⟨n1, hn1⟩ := next_move_stage C pos ss fuel mp m mp1 hn
        rcases List.mem_cons.1 hp with rfl | hp1
        · exact ⟨n1, hn1⟩
        · obtain ⟨n2, hn2⟩ := ih mp1 L1 hc p hp1
          refine ⟨n2 + n1, ?_⟩
          rw [Function.iterate_add_apply, hn1]
          exact hn2

/-- A chain is closed under the stage change. -/
theorem chain_closed : ∀ s ∈ initialStages, ∀ x ∈ chain s, nextStage x ∈ chain s := by
  decide

theorem chain_iterate {s : Nat} (hs : s ∈ initialStages) (n : Nat) :
    nextStage^[n] s ∈ chain s := by
  induction n with
  | zero =>
    simp only [Function.iterate_zero, id_eq]
    revert s
    decide
  | succ n ih =>
    rw [Function.iterate_succ_apply']
    exact chain_closed s hs _ ih

/-- The stages `generate_next_stage` enters depend only on the stage. -/
theorem stagesEntered_eq : ∀ (n : Nat) (mp : MovePicker), mp.stage ≤ STOP →
    stagesEntered C pos ss n mp = some (stageList n mp.stage) := by
  intro n
  induction n with
  | zero => intro mp _; rfl
  | succ n ih =>
    intro mp hle
    unfold stagesEntered stageList
    by_cases hs : mp.stage = STOP
    · rw [if_pos hs, if_pos hs]
    · rw [if_neg hs, if_neg hs]
      obtain ⟨mp', hmp'⟩ := gns_some C pos ss mp (lt_of_le_of_ne hle hs)
      have hst := gns_stage C pos ss mp mp' hmp'
      rw [hmp']
      simp only
      rw [ih mp' (by rw [hst]; exact nextStage_le _), hst]
      rfl

theorem stageList_stop (n : Nat) : stageList n STOP = [] := by
  cases n <;> rfl

/-- The chains of the six modes, as stage lists. -/
theorem stageList_chain : ∀ s ∈ initialStages, ∀ k, s :: stageList (k + 5) s = chain s := by
  intro s hs k
  simp only [initialStages, List.mem_cons, List.mem_singleton, List.not_mem_nil, or_false] at hs
  rcases hs with rfl | rfl | rfl | rfl | rfl | rfl <;>
    simp [stageList, nextStage, chain, stageList_stop, MAIN_SEARCH, GOOD_CAPTURES, KILLERS,
      ALL_QUIETS, BAD_CAPTURES, EVASION, ALL_EVASIONS, QSEARCH_WITH_CHECKS, QCAPTURES_1, CHECKS,
      QSEARCH_WITHOUT_CHECKS, QCAPTURES_2, PROBCUT, PROBCUT_CAPTURES, RECAPTURE, RECAPTURES,
      STOP]

end MoveSelection
namespace MoveSelection

variable (C : Consts) (pos : Position) (ss : Stack)

/-- With no hint stored, a constructed picker changes stage before it returns
anything: no call returns from a hint stage. -/
theorem no_hint_return (mp : MovePicker) (hc : Constructed C pos ss mp)
    (htt : mp.ttMove = MOVE_NONE) (fuel : Nat) (m : Move) (mp' : MovePicker)
    (h : next_move C pos ss fuel mp = some (m, mp')) : ¬ IsHintStage mp'.stage := by
  obtain ⟨hcur, hend, _, hst, _, _⟩ := constructed_facts C pos ss mp hc
  rw [htt, if_neg (fun h => h rfl)] at hend
  have hs : mp.stage ≠ STOP := by
    rcases hst with h | h | h | h | h | ⟨h, _⟩ <;> rw [h] <;> decide
  cases fuel with
  | zero => simp [next_move] at h
  | succ f =>
    simp only [next_move, step_gen C pos ss mp (hcur.trans hend.symm) hs] at h
    cases hg : generate_next_stage C pos ss mp with
    | none => rw [hg] at h; simp at h
    | some mp1 =>
      rw [hg] at h
      simp only at h
      obtain ⟨n, hn⟩ := next_move_stage C pos ss f mp1 m mp' h
      rw [gns_stage C pos ss mp mp1 hg] at hn
      rw [← hn]
      cases n with
      | zero => exact (nextStage_not_hint _).1
      | succ k =>
        rw [Function.iterate_succ_apply']
        exact (nextStage_not_hint _).1

end MoveSelection
namespace MoveSelection

variable (C : Consts) (pos : Position) (ss : Stack)

/-! ### `pick_best` picks a greatest value -/

/-- The loop of `std::max_element` ends on the first index of a greatest
value of the range scanned. -/
theorem max_element_loop_spec (a : Int → ExtMove) (lo : Int) :
    ∀ (n : Nat) (largest first : Int), lo ≤ largest → largest < first →
      (∀ x, lo ≤ x → x < first → (a x).value ≤ (a largest).value) →
      (∀ x, lo ≤ x → x < largest → (a x).value < (a largest).value) →
      (∀ x, lo ≤ x → x < first + n →
        (a x).value ≤ (a (max_element_loop a n largest first)).value) ∧
      (∀ x, lo ≤ x → x < max_element_loop a n largest first →
        (a x).value < (a (max_element_loop a n largest first)).value) := by
  intro n
  induction n with
  | zero =>
    intro largest first _ _ h3 h4
    simp only [max_element_loop, Nat.cast_zero, add_zero]
    exact ⟨h3, h4⟩
  | succ n ih =>
    intro largest first h1 h2 h3 h4
    simp only [max_element_loop]
    have hcast : first + ((n + 1 : Nat) : Int) = first + 1 + n := by push_cast; omega
    rw [hcast]
    by_cases hlt : (a largest).value < (a first).value
    · rw [if_pos hlt]
      apply ih first (first + 1) (by omega) (by omega)
      · intro x hx1 hx2
        by_cases hxf : x = first
        · rw [hxf]
        · exact le_of_lt (lt_of_le_of_lt (h3 x hx1 (by omega)) hlt)
      · intro x hx1 hx2
        exact lt_of_le_of_lt (h3 x hx1 hx2) hlt
    · rw [if_neg hlt]
      apply ih largest (first + 1) h1 (by omega)
      · intro x hx1 hx2
        by_cases hxf : x = first
        · rw [hxf]; exact not_lt.1 hlt
        · exact h3 x hx1 (by omega)
      · exact h4

/-- The call `std::max_element(first, last)` on a non-empty range gives the
first index of a greatest value. -/
theorem max_element_spec (a : Int → ExtMove) (first last : Int) (h : first < last) :
    (∀ x, first ≤ x → x < last → (a x).value ≤ (a (max_element a first last)).value) ∧
    (∀ x, first ≤ x → x < max_element a first last →
      (a x).value < (a (max_element a first last)).value) := by
  unfold max_element
  rw [if_neg (by omega)]
  have h2 : first + 1 + ((last - (first + 1)).toNat : Int) = last := by
    rw [Int.toNat_of_nonneg (by omega)]; omega
  have := max_element_loop_spec a first (last - (first + 1)).toNat first (first + 1)
    (le_refl _) (by omega)
    (fun x hx1 hx2 => by have : x = first := by omega
                         rw [this])
    (fun x hx1 hx2 => by omega)
  rw [h2] at this
  exact this

/-- After `pick_best` the element at `begin` has a greatest value of the
range. -/
theorem pick_best_max (a : Int → ExtMove) (b e : Int) (h : b < e) (x : Int)
    (hx1 : b ≤ x) (hx2 : x < e) :
    (pick_best a b e x).value ≤ (pick_best a b e b).value := by
  have hm := max_element_mem a b e h
  have hs := (max_element_spec a b e h).1
  unfold pick_best
  rw [swap_apply, swap_apply, Equiv.swap_apply_left]
  apply hs
  · by_cases h1 : x = b
    · rw [h1, Equiv.swap_apply_left]; exact hm.1
    · by_cases h2 : x = max_element a b e
      · rw [h2, Equiv.swap_apply_right]
      · rw [Equiv.swap_apply_of_ne_of_ne h1 h2]; exact hx1
  · by_cases h1 : x = b
    · rw [h1, Equiv.swap_apply_left]; exact hm.2
    · by_cases h2 : x = max_element a b e
      · rw [h2, Equiv.swap_apply_right]; exact h
      · rw [Equiv.swap_apply_of_ne_of_ne h1 h2]; exact hx2

end MoveSelection
namespace MoveSelection

variable (C : Consts) (pos : Position) (ss : Stack)

/-! ### The quiet moves at shallow depth -/

/-- At depth below `3 * ONE_PLY` the quiet moves are left in the buffer with
those of positive score before those of non-positive score. -/
theorem quietOrder_shallow (hpart : PartitionSpec C) (depth : Depth) (a : Int → ExtMove)
    (hd : depth < 3 * C.ONE_PLY) :
    ∃ A B, quietOrder C pos ss depth a = A ++ B ∧
      (∀ m ∈ A, quietValue C pos ss m > VALUE_ZERO) ∧
      (∀ m ∈ B, quietValue C pos ss m ≤ VALUE_ZERO) := by
  unfold quietOrder quietArr
  simp only
  have hn : ((pos.genQuiets.length : Int) - 0).toNat = pos.genQuiets.length := by simp
  rw [hn, if_pos hd]
  set a2 := scoreRange (quietValue C pos ss) (generate pos.genQuiets a) pos.genQuiets.length
  set p : ExtMove → Bool := fun m => decide (m.value > VALUE_ZERO)
  set l := slice a2 0 pos.genQuiets.length
  have hlval : ∀ e ∈ l, e.value = quietValue C pos ss e.move := by
    intro e he
    obtain ⟨j, hj, rfl⟩ := mem_slice.1 he
    have hr : (0 : Int) ≤ 0 + (j : Int) ∧ 0 + (j : Int) < (pos.genQuiets.length : Int) :=
      ⟨by omega, by omega⟩
    show (scoreRange _ _ _ _).value = quietValue C pos ss (scoreRange _ _ _ _).move
    simp only [scoreRange, if_pos hr]
  obtain ⟨hperm, htake, hdrop⟩ := hpart p l
  have hlen : (C.partition p l).length = pos.genQuiets.length := by
    rw [hperm.length_eq, slice_length]
  have hg : l.countP p ≤ pos.genQuiets.length := by
    have := List.countP_le_length p (l := l)
    rwa [slice_length] at this
  obtain ⟨hfr, hsperm⟩ := insertion_sort_spec (blit a2 0 (C.partition p l)) 0 (l.countP p)
  obtain ⟨r, hr⟩ : ∃ r, pos.genQuiets.length = l.countP p + r :=
    ⟨_, (Nat.add_sub_cancel' hg).symm⟩
  have h1 : slice (insertion_sort (blit a2 0 (C.partition p l)) 0 (0 + (l.countP p : Nat))) 0
        pos.genQuiets.length
      = slice (insertion_sort (blit a2 0 (C.partition p l)) 0 (0 + (l.countP p : Nat))) 0
          (l.countP p)
        ++ slice (blit a2 0 (C.partition p l)) (0 + (l.countP p : Nat)) r := by
    rw [hr, slice_append]
    congr 1
    apply slice_congr
    intro j _
    exact hfr _ (Or.inr (by omega))
  have h2 : (slice (blit a2 0 (C.partition p l)) 0 pos.genQuiets.length) = C.partition p l := by
    rw [← hlen, slice_blit]
  have h3 : slice (blit a2 0 (C.partition p l)) 0 pos.genQuiets.length
      = slice (blit a2 0 (C.partition p l)) 0 (l.countP p)
        ++ slice (blit a2 0 (C.partition p l)) (0 + (l.countP p : Nat)) r := by
    rw [hr, slice_append]
  rw [h2] at h3
  have hA : slice (blit a2 0 (C.partition p l)) 0 (l.countP p)
      = (C.partition p l).take (l.countP p) := by
    have := congrArg (List.take (l.countP p)) h3
    rw [List.take_left' (slice_length _ _ _)] at this
    exact this.symm
  have hB : slice (blit a2 0 (C.partition p l)) (0 + (l.countP p : Nat)) r
      = (C.partition p l).drop (l.countP p) := by
    have := congrArg (List.drop (l.countP p)) h3
    rw [List.drop_left' (slice_length _ _ _)] at this
    exact this.symm
  refine ⟨_, _, by unfold movesOf; rw [h1, List.map_append], ?_, ?_⟩
  · intro m hm
    obtain ⟨e, he, rfl⟩ := List.mem_map.1 hm
    have he' := hsperm.mem_iff.1 he
    rw [hA, htake] at he'
    obtain ⟨he1, he2⟩ := List.mem_filter.1 he'
    rw [← hlval e (hperm.mem_iff.1 he1)]
    simpa [p] using he2
  · intro m hm
    obtain ⟨e, he, rfl⟩ := List.mem_map.1 hm
    rw [hB, hdrop] at he
    obtain ⟨he1, he2⟩ := List.mem_filter.1 he
    rw [← hlval e (hperm.mem_iff.1 he1)]
    simpa [p] using he2

/-- The moves main search returns in `ALL_QUIETS`. -/
theorem retsIn_main_quiets {mp : MovePicker} {T : List Event} {af : Int → ExtMove}
    (hst : mp.stage = MAIN_SEARCH) (hrets : rets T = modeRets C pos ss mp af) :
    retsIn ALL_QUIETS T = (quietOrder C pos ss mp.depth af).filter
      (keepQuiet ss mp.ttMove mp.countermove) ∧
    retsIn KILLERS T = (killerList ss mp.countermove).filter (keepKiller pos mp.ttMove) ∧
    retsIn MAIN_SEARCH T = (if mp.ttMove ≠ MOVE_NONE then [mp.ttMove] else []) := by
  rw [modeRets_main C pos ss mp af hst] at hrets
  refine ⟨?_, ?_, ?_⟩
  · rw [retsIn, hrets]
    simp only [List.filter_append, List.map_append]
    rw [stageMoves_hintRets_ne (by decide), stageMoves_tag,
      stageMoves_tag_ne (by decide), stageMoves_tag_ne (by decide),
      stageMoves_tag_ne (by decide)]
    simp
  · rw [retsIn, hrets]
    simp only [List.filter_append, List.map_append]
    rw [stageMoves_hintRets_ne (by decide), stageMoves_tag,
      stageMoves_tag_ne (by decide), stageMoves_tag_ne (by decide),
      stageMoves_tag_ne (by decide)]
    simp
  · rw [retsIn, hrets]
    simp only [List.filter_append, List.map_append]
    rw [stageMoves_hintRets, stageMoves_tag_ne (by decide), stageMoves_tag_ne (by decide),
      stageMoves_tag_ne (by decide), stageMoves_tag_ne (by decide)]
    simp

end MoveSelection
namespace MoveSelection

variable (C : Consts) (pos : Position) (ss : Stack)

/-! ### The first calls -/

theorem calls_succ_some {fuel k : Nat} {mp : MovePicker} {L : List (Move × MovePicker)}
    (h : calls C pos ss fuel (k + 1) mp = some L) :
    ∃ a mp1 L', L = (a, mp1) :: L' ∧ next_move C pos ss fuel mp = some (a, mp1)
      ∧ calls C pos ss fuel k mp1 = some L' := by
  simp only [calls] at h
  cases hn : next_move C pos ss fuel mp with
  | none => rw [hn] at h; simp at h
  | some r =>
    obtain ⟨a, mp1⟩ := r
    rw [hn] at h
    simp only at h
    cases hc : calls C pos ss fuel k mp1 with
    | none => rw [hc] at h; simp at h
    | some L1 =>
      rw [hc] at h
      simp only [Option.map_some', Option.some.injEq] at h
      exact ⟨a, mp1, L1, h.symm, rfl, hc⟩

/-- The first call, read off the first entry of the staged moves. -/
theorem first_call_of_staged {fuel k : Nat} {mp : MovePicker} {L : List (Move × MovePicker)}
    {s : Nat} {a : Move} {R : List (Nat × Move)}
    (h : calls C pos ss fuel (k + 1) mp = some L) (hst : staged L = (s, a) :: R) :
    ∃ mp1 L', next_move C pos ss fuel mp = some (a, mp1) ∧ mp1.stage = s
      ∧ calls C pos ss fuel k mp1 = some L' ∧ staged L' = R := by
  obtain ⟨a', mp1, L', rfl, hn, hc⟩ := calls_succ_some C pos ss h
  simp only [staged, List.map_cons, List.cons.injEq, Prod.mk.injEq] at hst
  obtain ⟨⟨h1, h2⟩, h3⟩ := hst
  subst h2
  exact ⟨mp1, L', hn, h1, hc, h3⟩

/-- When the run of a picker returns nothing, its first call returns
`MOVE_NONE` and leaves it in `STOP`. -/
theorem first_call_of_empty {F : Nat} {mp : MovePicker} {T : List Event}
    (hrun : run C pos ss F mp = some T) (hrets : rets T = []) (fuel : Nat) (hfuel : F ≤ fuel) :
    ∃ mp1, next_move C pos ss fuel mp = some (MOVE_NONE, mp1) ∧ mp1.stage = STOP := by
  obtain ⟨L, hL, hst, _⟩ := calls_of_trace_full C pos ss hrun fuel 1 hfuel
    (by rw [hrets]; exact Nat.zero_le _)
  rw [hrets] at hst
  obtain ⟨mp1, _, hn, hs, _, _⟩ := first_call_of_staged C pos ss hL
    (show staged L = (STOP, MOVE_NONE) :: [] from hst)
  exact ⟨mp1, hn, hs⟩

/-- When the run of a picker returns the one move `m`, its first call returns
`m` and its second call returns `MOVE_NONE` and leaves it in `STOP`. -/
theorem two_calls_of_single {F : Nat} {mp : MovePicker} {T : List Event} {s : Nat} {m : Move}
    (hrun : run C pos ss F mp = some T) (hrets : rets T = [(s, m)]) (fuel : Nat)
    (hfuel : F ≤ fuel) :
    ∃ mp1 mp2, next_move C pos ss fuel mp = some (m, mp1) ∧ mp1.stage = s
      ∧ next_move C pos ss fuel mp1 = some (MOVE_NONE, mp2) ∧ mp2.stage = STOP := by
  obtain ⟨L, hL, hst, _⟩ := calls_of_trace_full C pos ss hrun fuel 2 hfuel
    (by rw [hrets]; exact Nat.le_succ _)
  rw [hrets] at hst
  obtain ⟨mp1, L', hn, hs, hL', hst'⟩ := first_call_of_staged C pos ss hL
    (show staged L = (s, m) :: [(STOP, MOVE_NONE)] from hst)
  obtain ⟨mp2, _, hn2, hs2, _, _⟩ := first_call_of_staged C pos ss hL'
    (show staged L' = (STOP, MOVE_NONE) :: [] from hst')
  exact ⟨mp1, mp2, hn, hs, hn2, hs2⟩

/-- When the run of a picker starts with two returns, so do its calls. -/
theorem two_calls_of_pair {F : Nat} {mp : MovePicker} {T : List Event} {s s' : Nat}
    {m m' : Move} {R : List (Nat × Move)}
    (hrun : run C pos ss F mp = some T) (hrets : rets T = (s, m) :: (s', m') :: R) (fuel : Nat)
    (hfuel : F ≤ fuel) :
    ∃ mp1 mp2, next_move C pos ss fuel mp = some (m, mp1) ∧ mp1.stage = s
      ∧ next_move C pos ss fuel mp1 = some (m', mp2) ∧ mp2.stage = s' := by
  obtain ⟨L, hL, hst, _, _⟩ := calls_of_trace C pos ss hrun fuel 2 hfuel
  rw [hrets] at hst
  obtain ⟨mp1, L', hn, hs, hL', hst'⟩ := first_call_of_staged C pos ss hL
    (show staged L = (s, m) :: [(s', m')] from hst)
  obtain ⟨mp2, _, hn2, hs2, _, _⟩ := first_call_of_staged C pos ss hL'
    (show staged L' = (s', m') :: [] from hst')
  exact ⟨mp1, mp2, hn, hs, hn2, hs2⟩

end MoveSelection
namespace MoveSelection

variable (C : Consts) (pos : Position) (ss : Stack)

/-! ### Positions with no move or one move -/

theorem capPicks_of_nil (a : Int → ExtMove) (h : pos.genCaptures = []) :
    capPicks C pos a = [] := by
  have := capPicks_perm C pos a
  rw [h] at this
  exact this.eq_nil

theorem capPicks_of_single (a : Int → ExtMove) (m : Move) (h : pos.genCaptures = [m]) :
    capPicks C pos a = [m] := by
  have := capPicks_perm C pos a
  rw [h] at this
  exact List.perm_singleton.1 this

theorem evaPicks_of_nil (a : Int → ExtMove) (h : pos.genEvasions = []) :
    evaPicks C pos a = [] := by
  have := evaPicks_perm C pos a
  rw [h] at this
  exact this.eq_nil

theorem evaPicks_of_single (a : Int → ExtMove) (m : Move) (h : pos.genEvasions = [m]) :
    evaPicks C pos a = [m] := by
  have := evaPicks_perm C pos a
  rw [h] at this
  exact List.perm_singleton.1 this

theorem quietOrder_of_nil (hpart : PartitionSpec C) (d : Depth) (a : Int → ExtMove)
    (h : pos.genQuiets = []) : quietOrder C pos ss d a = [] := by
  have := quietOrder_perm C pos ss hpart d a
  rw [h] at this
  exact this.eq_nil

theorem quietOrder_of_single (hpart : PartitionSpec C) (d : Depth) (a : Int → ExtMove)
    (m : Move) (h : pos.genQuiets = [m]) : quietOrder C pos ss d a = [m] := by
  have := quietOrder_perm C pos ss hpart d a
  rw [h] at this
  exact List.perm_singleton.1 this

/-- With no pseudo-legal move no killer candidate is returned. -/
theorem killers_of_no_legal (tt cm : Move) (hpl : ∀ m, pos.pseudo_legal m = false) :
    (killerList ss cm).filter (keepKiller pos tt) = [] := by
  apply List.filter_eq_nil_iff.2
  intro m _
  simp [keepKiller, hpl m]

/-- With nothing generated and no pseudo-legal move a constructed picker
returns nothing. -/
theorem modeRets_of_no_moves (hpart : PartitionSpec C) (mp : MovePicker) (af : Int → ExtMove)
    (htt : mp.ttMove = MOVE_NONE)
    (h1 : pos.genCaptures = []) (h2 : pos.genQuiets = []) (h3 : pos.genEvasions = [])
    (h4 : pos.genQuietChecks = []) (hpl : ∀ m, pos.pseudo_legal m = false) :
    modeRets C pos ss mp af = [] := by
  unfold modeRets
  rw [capPicks_of_nil C pos _ h1, evaPicks_of_nil C pos _ h3,
    quietOrder_of_nil C pos ss hpart _ _ h2, killers_of_no_legal pos ss _ _ hpl, h4, htt]
  simp [hintRets, tag]

end MoveSelection
namespace MoveSelection

variable (C : Consts) (pos : Position) (ss : Stack)

/-- The one capture of a position is returned once by main search, in
`GOOD_CAPTURES` or in `BAD_CAPTURES`. -/
theorem modeRets_single_capture (hpart : PartitionSpec C) (mp : MovePicker)
    (af : Int → ExtMove) (m : Move) (hst : mp.stage = MAIN_SEARCH) (htt : mp.ttMove = MOVE_NONE)
    (hm0 : m ≠ MOVE_NONE) (hpl : ∀ x, pos.pseudo_legal x = true ↔ x = m)
    (hcap : pos.genCaptures = [m]) (hq : pos.genQuiets = []) (hc : pos.capture m = true) :
    ∃ s, modeRets C pos ss mp af = [(s, m)] := by
  have hk : (killerList ss mp.countermove).filter (keepKiller pos mp.ttMove) = [] := by
    apply List.filter_eq_nil_iff.2
    intro x _
    simp only [keepKiller, decide_eq_true_eq, not_and]
    intro _ _ hx
    rw [(hpl x).1 hx]
    exact fun h => h hc
  rw [modeRets_main C pos ss mp af hst, capPicks_of_single C pos _ m hcap,
    quietOrder_of_nil C pos ss hpart _ _ hq, hk, htt]
  by_cases hsee : pos.see_sign m ≥ VALUE_ZERO
  · have hg : isGood pos MOVE_NONE m = true := by
      simp only [isGood, decide_eq_true_eq]; exact ⟨hm0, hsee⟩
    have hb : isBad pos MOVE_NONE m = false := by
      simp only [isBad, decide_eq_false_iff_not, not_and, not_lt]; exact fun _ => hsee
    exact ⟨GOOD_CAPTURES, by simp [hintRets, tag, List.filter, hg, hb]⟩
  · have hg : isGood pos MOVE_NONE m = false := by
      simp only [isGood, decide_eq_false_iff_not, not_and]; exact fun _ => hsee
    have hb : isBad pos MOVE_NONE m = true := by
      simp only [isBad, decide_eq_true_eq]; exact ⟨hm0, lt_of_not_ge hsee⟩
    exact ⟨BAD_CAPTURES, by simp [hintRets, tag, List.filter, hg, hb]⟩

/-- The one quiet move of a position is returned once by main search, in
`KILLERS` or in `ALL_QUIETS`, unless both stored killers are that move. -/
theorem modeRets_single_quiet (hpart : PartitionSpec C) (mp : MovePicker)
    (af : Int → ExtMove) (m : Move) (hst : mp.stage = MAIN_SEARCH) (htt : mp.ttMove = MOVE_NONE)
    (hm0 : m ≠ MOVE_NONE) (hpl : ∀ x, pos.pseudo_legal x = true ↔ x = m)
    (hcap : pos.genCaptures = []) (hq : pos.genQuiets = [m]) (hc : pos.capture m = false)
    (hk : ¬ (ss.killers0 = m ∧ ss.killers1 = m)) :
    ∃ s, modeRets C pos ss mp af = [(s, m)] := by
  have hyes : keepKiller pos MOVE_NONE m = true := by
    simp [keepKiller, hm0, hc, (hpl m).2 rfl]
  have hno : ∀ x, x ≠ m → keepKiller pos MOVE_NONE x = false := by
    intro x hx
    have : pos.pseudo_legal x = false := by
      cases h : pos.pseudo_legal x
      · rfl
      · exact absurd ((hpl x).1 h) hx
    simp [keepKiller, this]
  have hqk : ∀ b : Bool, (decide (m ≠ MOVE_NONE ∧ m ≠ ss.killers0 ∧ m ≠ ss.killers1
      ∧ m ≠ mp.countermove) = b) → keepQuiet ss MOVE_NONE mp.countermove m = b := fun b h => h
  rw [modeRets_main C pos ss mp af hst, capPicks_of_nil C pos _ hcap,
    quietOrder_of_single C pos ss hpart _ _ m hq, htt]
  by_cases hcm : mp.countermove ≠ ss.killers0 ∧ mp.countermove ≠ ss.killers1
  · rw [killerList, if_pos hcm]
    by_cases h0 : ss.killers0 = m
    · have h1 : ss.killers1 ≠ m := fun h => hk ⟨h0, h⟩
      have h2 : mp.countermove ≠ m := fun h => hcm.1 (h.trans h0.symm)
      have hq' := hqk false (by simp [h0])
      refine ⟨KILLERS, ?_⟩
      simp [hintRets, tag, List.filter, hq', hno _ h1, hno _ h2, h0, hyes]
    · by_cases h1 : ss.killers1 = m
      · have h2 : mp.countermove ≠ m := fun h => hcm.2 (h.trans h1.symm)
        have hq' := hqk false (by simp [h1])
        refine ⟨KILLERS, ?_⟩
        simp [hintRets, tag, List.filter, hq', hno _ h0, hno _ h2, h1, hyes]
      · by_cases h2 : mp.countermove = m
        · have hq' := hqk false (by simp [h2])
          rw [h2] at hq'
          refine ⟨KILLERS, ?_⟩
          simp [hintRets, tag, List.filter, hq', hno _ h0, hno _ h1, h2, hyes]
        · have hq' := hqk true (by
            simp only [decide_eq_true_eq]
            exact ⟨hm0, fun h => h0 h.symm, fun h => h1 h.symm, fun h => h2 h.symm⟩)
          refine ⟨ALL_QUIETS, ?_⟩
          simp [hintRets, tag, List.filter, hq', hno _ h0, hno _ h1, hno _ h2]
  · rw [killerList, if_neg hcm]
    by_cases h0 : ss.killers0 = m
    · have h1 : ss.killers1 ≠ m := fun h => hk ⟨h0, h⟩
      have hq' := hqk false (by simp [h0])
      refine ⟨KILLERS, ?_⟩
      simp [hintRets, tag, List.filter, hq', hno _ h1, h0, hyes]
    · by_cases h1 : ss.killers1 = m
      · have hq' := hqk false (by simp [h1])
        refine ⟨KILLERS, ?_⟩
        simp [hintRets, tag, List.filter, hq', hno _ h0, h1, hyes]
      · have h2 : mp.countermove ≠ m := by
          intro h
          apply hcm
          rw [h]
          exact ⟨fun h => h0 h.symm, fun h => h1 h.symm⟩
        have hq' := hqk true (by
          simp only [decide_eq_true_eq]
          exact ⟨hm0, fun h => h0 h.symm, fun h => h1 h.symm, fun h => h2 h.symm⟩)
        refine ⟨ALL_QUIETS, ?_⟩
        simp [hintRets, tag, List.filter, hq', hno _ h0, hno _ h1]

end MoveSelection
namespace MoveSelection

variable (C : Consts) (pos : Position) (ss : Stack)

/-! ### Termination of `next_move` -/

theorem setArr_cur (mp : MovePicker) (p : Ptr) (a : Int → ExtMove) :
    (mp.setArr p a).cur = mp.cur := by
  cases p <;> rfl

theorem setArr_endMoves (mp : MovePicker) (p : Ptr) (a : Int → ExtMove) :
    (mp.setArr p a).endMoves = mp.endMoves := by
  cases p <;> rfl

theorem pick_cur (mp : MovePicker) : mp.pick.cur = mp.cur.add 1 := rfl

theorem pick_endMoves (mp : MovePicker) : mp.pick.endMoves = mp.endMoves := by
  unfold MovePicker.pick
  exact setArr_endMoves _ _ _

/-- A pass that neither returns nor changes the stage is made in a stage that
consumes a segment, and moves `cur` one entry forward. -/
theorem step_cursor (mp : MovePicker) (hc : ¬ (mp.cur = mp.endMoves ∧ mp.stage ≠ STOP)) :
    match next_move_step C pos ss mp with
    | .ret _ _ => True
    | .brk mp' =>
      mp'.stage = mp.stage ∧ mp'.cur = mp.cur.add 1 ∧ mp'.endMoves = mp.endMoves ∧
        (mp.stage = GOOD_CAPTURES ∨ mp.stage = KILLERS ∨ mp.stage = ALL_QUIETS
          ∨ IsPickStage mp.stage ∨ mp.stage = CHECKS)
    | .defer _ mp' =>
      mp'.stage = mp.stage ∧ mp'.cur = mp.cur.add 1 ∧ mp'.endMoves = mp.endMoves ∧
        (mp.stage = GOOD_CAPTURES ∨ mp.stage = KILLERS ∨ mp.stage = ALL_QUIETS
          ∨ IsPickStage mp.stage ∨ mp.stage = CHECKS)
    | .abort => True := by
  unfold next_move_step
  rw [if_neg hc]
  rcases Nat.lt_or_ge mp.stage 17 with hlt | hge
  · have hcases : mp.stage = 0 ∨ mp.stage = 1 ∨ mp.stage = 2 ∨ mp.stage = 3 ∨ mp.stage = 4
        ∨ mp.stage = 5 ∨ mp.stage = 6 ∨ mp.stage = 7 ∨ mp.stage = 8 ∨ mp.stage = 9
        ∨ mp.stage = 10 ∨ mp.stage = 11 ∨ mp.stage = 12 ∨ mp.stage = 13 ∨ mp.stage = 14
        ∨ mp.stage = 15 ∨ mp.stage = 16 := by omega
    rcases hcases with hs | hs | hs | hs | hs | hs | hs | hs | hs | hs | hs | hs | hs | hs
      | hs | hs | hs
    all_goals
      simp only [hs]
      try split_ifs
      all_goals first
        | trivial
        | exact ⟨hs, rfl, rfl, by simp [IsPickStage]⟩
        | exact ⟨(pick_stage mp).trans hs, pick_cur mp, pick_endMoves mp, by simp [IsPickStage]⟩
        | exact ⟨((storeMove_stage _ _ _).trans (pick_stage mp)).trans hs,
            (setArr_cur _ _ _).trans (pick_cur mp),
            (setArr_endMoves _ _ _).trans (pick_endMoves mp), by simp [IsPickStage]⟩
  · obtain ⟨k, hk⟩ : ∃ k, mp.stage = k + 17 := ⟨mp.stage - 17, by omega⟩
    simp [hk]

theorem nextStage_gt (s : Nat) (h : s < STOP) : s < nextStage s := by
  have h16 : s < 16 := h
  have hcases : s = 0 ∨ s = 1 ∨ s = 2 ∨ s = 3 ∨ s = 4 ∨ s = 5 ∨ s = 6 ∨ s = 7 ∨ s = 8 ∨ s = 9
      ∨ s = 10 ∨ s = 11 ∨ s = 12 ∨ s = 13 ∨ s = 14 ∨ s = 15 := by omega
  rcases hcases with rfl | rfl | rfl | rfl | rfl | rfl | rfl | rfl | rfl | rfl | rfl | rfl | rfl
    | rfl | rfl | rfl <;> decide

/-- Under the invariant the stage is one of the enumeration, and in a stage
that consumes a segment `cur` is not beyond `endMoves`, in the same array. -/
theorem inv_segment {P : Move → Prop} (mp : MovePicker) (hinv : Inv C P mp) :
    mp.stage ≤ STOP ∧
    ((mp.stage = GOOD_CAPTURES ∨ mp.stage = KILLERS ∨ mp.stage = ALL_QUIETS
        ∨ IsPickStage mp.stage ∨ mp.stage = CHECKS) →
      mp.cur.off ≤ mp.endMoves.off ∧ (mp.cur.off = mp.endMoves.off → mp.cur = mp.endMoves)) := by
  rcases hinv with ⟨hs, _⟩ | ⟨hs, _⟩ | ⟨hs, _⟩ | ⟨hs, hr, _⟩ | ⟨hs, hr, _⟩ | ⟨hs, _⟩ | ⟨hs, hr⟩
    | hs
  · refine ⟨by rw [hs]; decide, fun h => ?_⟩
    rw [hs] at h
    simp [IsPickStage] at h
  · refine ⟨by rcases hs with h | h | h | h <;> rw [h] <;> decide, fun h => ?_⟩
    rcases hs with hs | hs | hs | hs <;> rw [hs] at h <;> simp [IsPickStage] at h
  · refine ⟨by rw [hs]; decide, fun h => ?_⟩
    rw [hs] at h
    simp [IsPickStage] at h
  · obtain ⟨i, n, hc, he, hle, _⟩ := hr
    refine ⟨by rcases hs with h | h <;> rw [h] <;> decide, fun _ => ?_⟩
    rw [hc, he]
    exact ⟨hle, fun h => by simp only [Ptr.off] at h; rw [h]⟩
  · obtain ⟨i, n, hc, he, hle⟩ := hr
    refine ⟨by rw [hs]; decide, fun _ => ?_⟩
    rw [hc, he]
    exact ⟨hle, fun h => by simp only [Ptr.off] at h; rw [h]⟩
  · refine ⟨by rw [hs]; decide, fun h => ?_⟩
    rw [hs] at h
    simp [IsPickStage] at h
  · obtain ⟨i, n, hc, he, hle, _⟩ := hr
    refine ⟨?_, fun _ => ?_⟩
    · rcases hs with (h | h | h | h | h) | h <;> rw [h] <;> decide
    · rw [hc, he]
      exact ⟨hle, fun h => by simp only [Ptr.off] at h; rw [h]⟩
  · refine ⟨by rw [hs], fun h => ?_⟩
    rw [hs] at h
    simp [IsPickStage] at h

theorem add_one_off (p : Ptr) : (p.add 1).off = p.off + 1 := by
  cases p <;> rfl

/-- From a picker satisfying the invariant `next_move` returns when it has
enough fuel, provided every pass keeps the invariant. -/
theorem next_move_total_of
    (hstep : ∀ mp, Inv C (fun _ => True) mp → StepOK C pos ss (fun _ => True) mp)
    (mp : MovePicker) (hinv : Inv C (fun _ => True) mp) :
    ∃ fuel m mp', next_move C pos ss fuel mp = some (m, mp') := by
  have key : ∀ (a b : Nat) (mp : MovePicker), Inv C (fun _ => True) mp →
      STOP - mp.stage = a → (mp.endMoves.off - mp.cur.off).toNat = b →
      ∃ fuel m mp', next_move C pos ss fuel mp = some (m, mp') := by
    intro a
    induction a using Nat.strong_induction_on with
    | _ a iha =>
      intro b
      induction b using Nat.strong_induction_on with
      | _ b ihb =>
        intro mp hinv ha hb
        have hok := hstep mp hinv
        have hseg := inv_segment C mp hinv
        unfold StepOK at hok
        by_cases hc : mp.cur = mp.endMoves ∧ mp.stage ≠ STOP
        · -- a stage change
          have hst := step_stage C pos ss mp
          rw [step_gen C pos ss mp hc.1 hc.2] at hok hst
          cases hg : generate_next_stage C pos ss mp with
          | none => rw [hg] at hok; exact absurd hok id
          | some mp1 =>
            rw [hg] at hok hst
            simp only at hok hst
            have hs1 : mp1.stage = nextStage mp.stage := gns_stage C pos ss mp mp1 hg
            have hlt : mp.stage < STOP := lt_of_le_of_ne hseg.1 hc.2
            have hgt := nextStage_gt mp.stage hlt
            have hle := nextStage_le mp.stage
            obtain ⟨fuel, m, mp', h⟩ := iha (STOP - mp1.stage) (by rw [hs1]; omega) _ mp1 hok
              rfl rfl
            refine ⟨fuel + 1, m, mp', ?_⟩
            simp only [next_move, step_gen C pos ss mp hc.1 hc.2, hg]
            exact h
        · have hcur := step_cursor C pos ss mp hc
          cases hstep : next_move_step C pos ss mp with
          | ret m mp1 =>
            exact ⟨1, m, mp1, by simp only [next_move, hstep]⟩
          | brk mp1 =>
            rw [hstep] at hok hcur
            simp only at hok hcur
            obtain ⟨h1, h2, h3, h4⟩ := hcur
            obtain ⟨hle, heq⟩ := hseg.2 h4
            have hne : mp.stage ≠ STOP := by
              rcases h4 with h | h | h | (h | h | h | h | h) | h <;> rw [h] <;> decide
            have hlt : mp.cur.off < mp.endMoves.off :=
              lt_of_le_of_ne hle (fun h => hc ⟨heq h, hne⟩)
            obtain ⟨fuel, m, mp', h⟩ := ihb (mp1.endMoves.off - mp1.cur.off).toNat
              (by rw [h2, h3, add_one_off, ← hb]; omega) mp1 hok (by rw [h1]; exact ha) rfl
            refine ⟨fuel + 1, m, mp', ?_⟩
            simp only [next_move, hstep]
            exact h
          | defer m1 mp1 =>
            rw [hstep] at hok hcur
            simp only at hok hcur
            obtain ⟨h1, h2, h3, h4⟩ := hcur
            obtain ⟨hle, heq⟩ := hseg.2 h4
            have hne : mp.stage ≠ STOP := by
              rcases h4 with h | h | h | (h | h | h | h | h) | h <;> rw [h] <;> decide
            have hlt : mp.cur.off < mp.endMoves.off :=
              lt_of_le_of_ne hle (fun h => hc ⟨heq h, hne⟩)
            obtain ⟨fuel, m, mp', h⟩ := ihb (mp1.endMoves.off - mp1.cur.off).toNat
              (by rw [h2, h3, add_one_off, ← hb]; omega) mp1 hok (by rw [h1]; exact ha) rfl
            refine ⟨fuel + 1, m, mp', ?_⟩
            simp only [next_move, hstep]
            exact h
          | abort =>
            rw [hstep] at hok
            exact absurd hok id
  exact key _ _ mp hinv rfl rfl

/-- From a picker satisfying the invariant `next_move` returns when it has
enough fuel. -/
theorem next_move_total (hpart : PartitionSpec C) (mp : MovePicker)
    (hinv : Inv C (fun _ => True) mp) :
    ∃ fuel m mp', next_move C pos ss fuel mp = some (m, mp') :=
  next_move_total_of C pos ss
    (fun mp h => inv_step C pos ss hpart (fun _ _ => trivial) (fun _ _ _ => trivial) mp h)
    mp hinv

/-- The same, whatever `std::partition` does. -/
theorem next_move_total_any (mp : MovePicker) (hinv : Inv C (fun _ => True) mp) :
    ∃ fuel m mp', next_move C pos ss fuel mp = some (m, mp') :=
  next_move_total_of C pos ss (inv_step_any C pos ss) mp hinv

/-- Every call of `next_move` made on a picker obtained from a constructor
returns, once it has enough fuel. -/
theorem reachable_total (hpart : PartitionSpec C) (mp : MovePicker)
    (h : Reachable C pos ss mp) :
    ∃ N m mp', ∀ fuel, N ≤ fuel → next_move C pos ss fuel mp = some (m, mp') := by
  have hinv := inv_reachable C pos ss hpart (fun _ _ => trivial) (fun _ _ _ => trivial) mp h
  obtain ⟨N, m, mp', hN⟩ := next_move_total C pos ss hpart mp hinv
  exact ⟨N, m, mp', fun fuel hfuel => next_move_mono C pos ss N mp (m, mp') hN fuel hfuel⟩

/-- The same, whatever `std::partition` does. -/
theorem reachable_total_any (mp : MovePicker) (h : Reachable C pos ss mp) :
    ∃ N m mp', ∀ fuel, N ≤ fuel → next_move C pos ss fuel mp = some (m, mp') := by
  obtain ⟨N, m, mp', hN⟩ := next_move_total_any C pos ss mp (inv_reachable_any C pos ss mp h)
  exact ⟨N, m, mp', fun fuel hfuel => next_move_mono C pos ss N mp (m, mp') hN fuel hfuel⟩

end MoveSelection
namespace MoveSelection

variable (C : Consts) (pos : Position) (ss : Stack)

/-! ### The quiet stage of any run -/

theorem gns_depth (mp mp' : MovePicker) (h : generate_next_stage C pos ss mp = some mp') :
    mp'.depth = mp.depth := by
  have hcases : mp.stage = 0 ∨ mp.stage = 1 ∨ mp.stage = 2 ∨ mp.stage = 3 ∨ mp.stage = 4
      ∨ mp.stage = 5 ∨ mp.stage = 6 ∨ mp.stage = 7 ∨ mp.stage = 8 ∨ mp.stage = 9
      ∨ mp.stage = 10 ∨ mp.stage = 11 ∨ mp.stage = 12 ∨ mp.stage = 13 ∨ mp.stage = 14
      ∨ mp.stage = 15 ∨ 16 ≤ mp.stage := by omega
  rcases hcases with hs | hs | hs | hs | hs | hs | hs | hs | hs | hs | hs | hs | hs | hs | hs
    | hs | hs
  · rw [gns_captures C pos ss mp (Or.inl hs)] at h
    rw [← Option.some.inj h]
  · rw [gns_killers C pos ss mp hs] at h
    rw [← Option.some.inj h]
  · rw [gns_quiets C pos ss mp hs] at h
    rw [← Option.some.inj h]
  · rw [gns_bad C pos ss mp hs] at h
    rw [← Option.some.inj h]
  · rw [gns_stop C pos ss mp (Or.inl hs)] at h
    rw [← Option.some.inj h]
  · rw [gns_evasions C pos ss mp hs] at h
    rw [← Option.some.inj h]
  · rw [gns_stop C pos ss mp (Or.inr (Or.inl hs))] at h
    rw [← Option.some.inj h]
  · rw [gns_captures C pos ss mp (Or.inr (Or.inl hs))] at h
    rw [← Option.some.inj h]
  · rw [gns_checks C pos ss mp hs] at h
    rw [← Option.some.inj h]
  · rw [gns_stop C pos ss mp (Or.inr (Or.inr (Or.inl hs)))] at h
    rw [← Option.some.inj h]
  · rw [gns_captures C pos ss mp (Or.inr (Or.inr (Or.inl hs)))] at h
    rw [← Option.some.inj h]
  · rw [gns_stop C pos ss mp (Or.inr (Or.inr (Or.inr (Or.inl hs))))] at h
    rw [← Option.some.inj h]
  · rw [gns_captures C pos ss mp (Or.inr (Or.inr (Or.inr (Or.inl hs))))] at h
    rw [← Option.some.inj h]
  · rw [gns_stop C pos ss mp (Or.inr (Or.inr (Or.inr (Or.inr (Or.inl hs)))))] at h
    rw [← Option.some.inj h]
  · rw [gns_captures C pos ss mp (Or.inr (Or.inr (Or.inr (Or.inr hs))))] at h
    rw [← Option.some.inj h]
  · rw [gns_stop C pos ss mp (Or.inr (Or.inr (Or.inr (Or.inr (Or.inr hs)))))] at h
    rw [← Option.some.inj h]
  · have := gns_stage C pos ss mp mp' h
    rcases Nat.lt_or_ge mp.stage 17 with hlt | hge
    · have h16 : mp.stage = STOP := by
        show mp.stage = 16
        omega
      unfold generate_next_stage at h
      rw [if_pos h16] at h
      exact absurd h (by simp)
    · obtain ⟨k, hk⟩ : ∃ k, mp.stage = k + 17 := ⟨mp.stage - 17, by omega⟩
      unfold generate_next_stage at h
      rw [if_neg (by rw [hk]; show k + 17 ≠ 16; omega)] at h
      simp [hk] at h

theorem setArr_depth (mp : MovePicker) (p : Ptr) (a : Int → ExtMove) :
    (mp.setArr p a).depth = mp.depth := by
  cases p <;> rfl

theorem pick_depth (mp : MovePicker) : mp.pick.depth = mp.depth := by
  unfold MovePicker.pick
  exact setArr_depth _ _ _

/-- No pass changes the depth. -/
theorem step_depth (mp : MovePicker) :
    match next_move_step C pos ss mp with
    | .ret _ mp' => mp'.depth = mp.depth
    | .brk mp' => mp'.depth = mp.depth
    | .defer _ mp' => mp'.depth = mp.depth
    | .abort => True := by
  by_cases hc : mp.cur = mp.endMoves ∧ mp.stage ≠ STOP
  · rw [step_gen C pos ss mp hc.1 hc.2]
    cases hg : generate_next_stage C pos ss mp with
    | none => trivial
    | some mp' => exact gns_depth C pos ss mp mp' hg
  · unfold next_move_step
    rw [if_neg hc]
    rcases Nat.lt_or_ge mp.stage 17 with hlt | hge
    · have hcases : mp.stage = 0 ∨ mp.stage = 1 ∨ mp.stage = 2 ∨ mp.stage = 3 ∨ mp.stage = 4
          ∨ mp.stage = 5 ∨ mp.stage = 6 ∨ mp.stage = 7 ∨ mp.stage = 8 ∨ mp.stage = 9
          ∨ mp.stage = 10 ∨ mp.stage = 11 ∨ mp.stage = 12 ∨ mp.stage = 13 ∨ mp.stage = 14
          ∨ mp.stage = 15 ∨ mp.stage = 16 := by omega
      rcases hcases with hs | hs | hs | hs | hs | hs | hs | hs | hs | hs | hs | hs | hs | hs
        | hs | hs | hs
      all_goals
        simp only [hs]
        try split_ifs
        all_goals first
          | trivial
          | rfl
          | exact pick_depth mp
          | exact (setArr_depth _ _ _).trans (pick_depth mp)
    · obtain ⟨k, hk⟩ : ∃ k, mp.stage = k + 17 := ⟨mp.stage - 17, by omega⟩
      simp [hk]

theorem nextStage_gt_quiets (s : Nat) (h : ALL_QUIETS < s) : ALL_QUIETS < nextStage s := by
  unfold nextStage
  split <;> first
    | exact Nat.lt_succ_of_lt h
    | decide

end MoveSelection
namespace MoveSelection

variable (C : Consts) (pos : Position) (ss : Stack)

/-- One pass keeps `QuietInv`, a move returned in `ALL_QUIETS` being added to
the moves returned there. -/
theorem quietInv_step (d0 : Depth) (Q : List Move → Prop)
    (hsub : ∀ l l' : List Move, Q l → l'.Sublist l → Q l')
    (hQ : ∀ a, Q (quietOrder C pos ss d0 a)) (mp : MovePicker) (acc : List Move)
    (h : QuietInv d0 Q mp acc) :
    match next_move_step C pos ss mp with
    | .ret m mp' => QuietInv d0 Q mp' (if mp'.stage = ALL_QUIETS then acc ++ [m] else acc)
    | .brk mp' => QuietInv d0 Q mp' acc
    | .defer _ mp' => QuietInv d0 Q mp' acc
    | .abort => True := by
  obtain ⟨hd, hcase⟩ := h
  have hdep := step_depth C pos ss mp
  have hstg := step_stage C pos ss mp
  by_cases hc : mp.cur = mp.endMoves ∧ mp.stage ≠ STOP
  · -- a stage change
    rw [step_gen C pos ss mp hc.1 hc.2] at hdep hstg ⊢
    cases hg : generate_next_stage C pos ss mp with
    | none => trivial
    | some mp' =>
      rw [hg] at hdep hstg
      simp only at hdep hstg ⊢
      have hs' := gns_stage C pos ss mp mp' hg
      refine ⟨hdep.trans hd, ?_⟩
      rcases hcase with ⟨hlt, hacc⟩ | ⟨hs, i, n, hcur, hend, hle, hq⟩ | ⟨hgt, hq⟩
      · have h3 : mp.stage = 0 ∨ mp.stage = 1 ∨ mp.stage = 2 := by
          have : mp.stage < 3 := hlt
          omega
        rcases h3 with hs | hs | hs
        · exact Or.inl ⟨by rw [hs', hs]; decide, hacc⟩
        · exact Or.inl ⟨by rw [hs', hs]; decide, hacc⟩
        · right; left
          rw [gns_quiets C pos ss mp hs] at hg
          rw [← Option.some.inj hg, hacc]
          refine ⟨rfl, 0, pos.genQuiets.length, rfl, rfl, by omega, ?_⟩
          have hn : ((pos.genQuiets.length : Int) - 0).toNat = pos.genQuiets.length := by simp
          simp only [List.nil_append, hn]
          rw [hd]
          exact hQ mp.moves
      · right; right
        refine ⟨by rw [hs', hs]; decide, hsub _ _ hq (List.sublist_append_left _ _)⟩
      · right; right
        exact ⟨by rw [hs']; exact nextStage_gt_quiets _ hgt, hq⟩
  · have hcur := step_cursor C pos ss mp hc
    rcases hcase with ⟨hlt, hacc⟩ | ⟨hs, i, n, hci, hen, hle, hq⟩ | ⟨hgt, hq⟩
    · cases hstep : next_move_step C pos ss mp with
      | ret m mp' =>
        rw [hstep] at hdep hstg
        simp only at hdep hstg ⊢
        have hne : mp'.stage ≠ ALL_QUIETS := by
          rw [hstg]; exact Nat.ne_of_lt hlt
        rw [if_neg hne]
        exact ⟨hdep.trans hd, Or.inl ⟨by rw [hstg]; exact hlt, hacc⟩⟩
      | brk mp' =>
        rw [hstep] at hdep hcur
        simp only at hdep hcur ⊢
        exact ⟨hdep.trans hd, Or.inl ⟨by rw [hcur.1]; exact hlt, hacc⟩⟩
      | defer m mp' =>
        rw [hstep] at hdep hcur
        simp only at hdep hcur ⊢
        exact ⟨hdep.trans hd, Or.inl ⟨by rw [hcur.1]; exact hlt, hacc⟩⟩
      | abort => trivial
    · -- in the quiet stage
      have hne : mp.cur ≠ mp.endMoves := fun he => hc ⟨he, by rw [hs]; decide⟩
      have hlt : i < n := by
        rcases lt_or_eq_of_le hle with h | h
        · exact h
        · exact absurd (by rw [hci, hen, h]) hne
      have hslice : (slice mp.moves i (n - i).toNat).map (fun e => e.move)
          = (mp.moves i).move :: (slice mp.moves (i + 1) (n - (i + 1)).toNat).map
              (fun e => e.move) := by
        have : (n - i).toNat = (n - (i + 1)).toNat + 1 := by omega
        rw [this, slice_cons, List.map_cons]
      have hderef : (mp.deref mp.cur).move = (mp.moves i).move := by
        rw [hci]; rfl
      rw [step_linear C pos ss mp (Or.inr (Or.inl hs)) hne]
      by_cases hk : linKeep pos mp (mp.deref mp.cur).move = true
      · rw [if_pos hk]
        show QuietInv d0 Q { mp with cur := mp.cur.add 1 }
          (if mp.stage = ALL_QUIETS then acc ++ [(mp.deref mp.cur).move] else acc)
        rw [if_pos hs, hderef]
        refine ⟨hd, Or.inr (Or.inl ⟨hs, i + 1, n, ?_, hen, by omega, ?_⟩)⟩
        · show mp.cur.add 1 = _
          rw [hci]; rfl
        · rw [hslice] at hq
          show Q (acc ++ [(mp.moves i).move]
            ++ (slice mp.moves (i + 1) (n - (i + 1)).toNat).map fun e => e.move)
          rw [List.append_assoc, List.singleton_append]
          exact hq
      · rw [if_neg hk]
        show QuietInv d0 Q { mp with cur := mp.cur.add 1 } acc
        refine ⟨hd, Or.inr (Or.inl ⟨hs, i + 1, n, ?_, hen, by omega, ?_⟩)⟩
        · show mp.cur.add 1 = _
          rw [hci]; rfl
        · rw [hslice] at hq
          exact hsub _ _ hq
            ((List.Sublist.refl _).append (List.sublist_cons_self _ _))
    · cases hstep : next_move_step C pos ss mp with
      | ret m mp' =>
        rw [hstep] at hdep hstg
        simp only at hdep hstg ⊢
        have hne : mp'.stage ≠ ALL_QUIETS := by
          rw [hstg]; exact Nat.ne_of_gt hgt
        rw [if_neg hne]
        exact ⟨hdep.trans hd, Or.inr (Or.inr ⟨by rw [hstg]; exact hgt, hq⟩)⟩
      | brk mp' =>
        rw [hstep] at hdep hcur
        simp only at hdep hcur ⊢
        exact ⟨hdep.trans hd, Or.inr (Or.inr ⟨by rw [hcur.1]; exact hgt, hq⟩)⟩
      | defer m mp' =>
        rw [hstep] at hdep hcur
        simp only at hdep hcur ⊢
        exact ⟨hdep.trans hd, Or.inr (Or.inr ⟨by rw [hcur.1]; exact hgt, hq⟩)⟩
      | abort => trivial

end MoveSelection
namespace MoveSelection

variable (C : Consts) (pos : Position) (ss : Stack)

theorem quietInv_next_move (d0 : Depth) (Q : List Move → Prop)
    (hsub : ∀ l l' : List Move, Q l → l'.Sublist l → Q l')
    (hQ : ∀ a, Q (quietOrder C pos ss d0 a)) :
    ∀ (fuel : Nat) (mp : MovePicker) (acc : List Move) (m : Move) (mp' : MovePicker),
      QuietInv d0 Q mp acc → next_move C pos ss fuel mp = some (m, mp') →
      QuietInv d0 Q mp' (if mp'.stage = ALL_QUIETS then acc ++ [m] else acc) := by
  intro fuel
  induction fuel with
  | zero => intro mp acc m mp' _ h; simp [next_move] at h
  | succ fuel ih =>
    intro mp acc m mp' hinv h
    have hstep := quietInv_step C pos ss d0 Q hsub hQ mp acc hinv
    simp only [next_move] at h
    cases hs : next_move_step C pos ss mp with
    | ret m1 mp1 =>
      rw [hs] at h hstep
      simp only [Option.some.injEq, Prod.mk.injEq] at h
      obtain ⟨rfl, rfl⟩ := h
      exact hstep
    | brk mp1 =>
      rw [hs] at h hstep
      exact ih mp1 acc m mp' hstep h
    | defer m1 mp1 =>
      rw [hs] at h hstep
      exact ih mp1 acc m mp' hstep h
    | abort =>
      rw [hs] at h
      simp at h

theorem returnedIn_cons (s : Nat) (m : Move) (mp : MovePicker) (L : List (Move × MovePicker)) :
    returnedIn s ((m, mp) :: L) = (if mp.stage = s then [m] else []) ++ returnedIn s L := by
  unfold returnedIn staged
  simp only [List.map_cons, List.filter_cons, decide_eq_true_eq]
  split <;> rfl

/-- The moves returned in `ALL_QUIETS` by any number of calls satisfy every
property of move lists that holds of the sorted quiet moves and is kept by
sublists. -/
theorem quietInv_calls (d0 : Depth) (Q : List Move → Prop)
    (hsub : ∀ l l' : List Move, Q l → l'.Sublist l → Q l')
    (hQ : ∀ a, Q (quietOrder C pos ss d0 a)) (fuel : Nat) :
    ∀ (k : Nat) (mp : MovePicker) (acc : List Move) (L : List (Move × MovePicker)),
      QuietInv d0 Q mp acc → calls C pos ss fuel k mp = some L →
      Q (acc ++ returnedIn ALL_QUIETS L) := by
  have hnil : Q [] := hsub _ _ (hQ fun _ => ⟨0, 0⟩) (List.nil_sublist _)
  intro k
  induction k with
  | zero =>
    intro mp acc L hinv h
    simp only [calls, Option.some.injEq] at h
    rw [← h]
    show Q (acc ++ [])
    rw [List.append_nil]
    rcases hinv.2 with ⟨_, hacc⟩ | ⟨_, i, n, _, _, _, hq⟩ | ⟨_, hq⟩
    · rw [hacc]; exact hnil
    · exact hsub _ _ hq (List.sublist_append_left _ _)
    · exact hq
  | succ k ih =>
    intro mp acc L hinv h
    obtain ⟨m, mp1, L', rfl, hn, hc⟩ := calls_succ_some C pos ss h
    have h1 := quietInv_next_move C pos ss d0 Q hsub hQ fuel mp acc m mp1 hinv hn
    have h2 := ih mp1 _ L' h1 hc
    rw [returnedIn_cons]
    by_cases hs : mp1.stage = ALL_QUIETS
    · rw [if_pos hs] at h2 ⊢
      rw [← List.append_assoc]
      exact h2
    · rw [if_neg hs] at h2 ⊢
      exact h2

/-- A constructed picker has returned nothing in `ALL_QUIETS`. -/
theorem quietInv_constructed (Q : List Move → Prop) (hnil : Q []) (mp : MovePicker)
    (hc : Constructed C pos ss mp) : QuietInv mp.depth Q mp [] := by
  obtain ⟨_, _, _, hst, _, _⟩ := constructed_facts C pos ss mp hc
  refine ⟨rfl, ?_⟩
  rcases hst with h | h | h | h | h | ⟨h, _⟩
  · exact Or.inl ⟨by rw [h]; decide, rfl⟩
  all_goals exact Or.inr (Or.inr ⟨by rw [h]; decide, hnil⟩)

/-- Any number of calls made on a picker obtained from a constructor return,
once they have enough fuel. -/
theorem calls_total (hpart : PartitionSpec C) :
    ∀ (k : Nat) (mp : MovePicker), Reachable C pos ss mp →
      ∃ N L, ∀ fuel, N ≤ fuel → calls C pos ss fuel k mp = some L := by
  intro k
  induction k with
  | zero => intro mp _; exact ⟨0, [], fun _ _ => rfl⟩
  | succ k ih =>
    intro mp hr
    obtain ⟨N1, m, mp1, h1⟩ := reachable_total C pos ss hpart mp hr
    obtain ⟨N2, L, h2⟩ := ih mp1 (Reachable.call hr (h1 N1 (le_refl _)))
    refine ⟨max N1 N2, (m, mp1) :: L, fun fuel hfuel => ?_⟩
    simp only [calls, h1 fuel (le_trans (le_max_left _ _) hfuel),
      h2 fuel (le_trans (le_max_right _ _) hfuel), Option.map_some']

/-- The same, whatever `std::partition` does. -/
theorem calls_total_any :
    ∀ (k : Nat) (mp : MovePicker), Reachable C pos ss mp →
      ∃ N L, ∀ fuel, N ≤ fuel → calls C pos ss fuel k mp = some L := by
  intro k
  induction k with
  | zero => intro mp _; exact ⟨0, [], fun _ _ => rfl⟩
  | succ k ih =>
    intro mp hr
    obtain ⟨N1, m, mp1, h1⟩ := reachable_total_any C pos ss mp hr
    obtain ⟨N2, L, h2⟩ := ih mp1 (Reachable.call hr (h1 N1 (le_refl _)))
    refine ⟨max N1 N2, (m, mp1) :: L, fun fuel hfuel => ?_⟩
    simp only [calls, h1 fuel (le_trans (le_max_left _ _) hfuel),
      h2 fuel (le_trans (le_max_right _ _) hfuel), Option.map_some']

/-- Being a part satisfying `P` followed by a part violating it is kept by
sublists. -/
theorem split_sublist {P : Move → Prop} {l l' : List Move}
    (h : ∃ A B, l = A ++ B ∧ (∀ m ∈ A, P m) ∧ (∀ m ∈ B, ¬ P m)) (hs : l'.Sublist l) :
    ∃ A B, l' = A ++ B ∧ (∀ m ∈ A, P m) ∧ (∀ m ∈ B, ¬ P m) := by
  obtain ⟨A, B, rfl, hA, hB⟩ := h
  obtain ⟨A', B', rfl, hA', hB'⟩ := List.sublist_append_iff.1 hs
  exact ⟨A', B', rfl, fun m hm => hA m (hA'.subset hm), fun m hm => hB m (hB'.subset hm)⟩

end MoveSelection
namespace MoveSelection

/-! ### `insertion_sort` sorts, and keeps entries of equal value in order -/

/-- Where the inner loop of `insertion_sort` puts `tmp`: after the entries
`L1` and before the entries `L2` of the sorted part, every entry of `L2`
having a smaller value and the last entry of `L1`, when there is one, not. -/
theorem insertion_inner_place (b : Int) (tmp : ExtMove) :
    ∀ (k : Nat) (a : Int → ExtMove) (q : Int), q = b + k →
      ∃ L1 L2, slice a b k = L1 ++ L2 ∧
        slice (insertion_inner b tmp k a q) b (k + 1) = L1 ++ tmp :: L2 ∧
        (∀ e ∈ L2, e.value < tmp.value) ∧
        (L1 = [] ∨ ∃ L0 z, L1 = L0 ++ [z] ∧ tmp.value ≤ z.value) := by
  intro k
  induction k with
  | zero =>
    intro a q hq
    have : q = b := by simpa using hq
    subst this
    refine ⟨[], [], rfl, ?_, fun e he => absurd he (List.not_mem_nil _), Or.inl rfl⟩
    simp only [insertion_inner]
    rw [slice_succ, slice_zero]
    have h0 : q + ((0 : Nat) : Int) = q := by omega
    rw [h0, Function.update_same]
  | succ k ih =>
    intro a q hq
    have hq' : b + ((k + 1 : Nat) : Int) = q := by omega
    have hq1 : b + (k : Int) = q - 1 := by push_cast at hq; omega
    simp only [insertion_inner]
    split
    · rename_i hcond
      obtain ⟨L1, L2, h1, h2, h3, h4⟩ :=
        ih (Function.update a q (a (q - 1))) (q - 1) hq1.symm
      have hfr := (insertion_inner_spec b tmp k (Function.update a q (a (q - 1))) (q - 1)
        hq1.symm).1
      have hs : slice (Function.update a q (a (q - 1))) b k = slice a b k := by
        apply slice_congr
        intro j hj
        exact Function.update_noteq (by omega) _ _
      rw [hs] at h1
      refine ⟨L1, L2 ++ [a (q - 1)], ?_, ?_, ?_, h4⟩
      · rw [slice_succ, h1, hq1, List.append_assoc]
      · rw [slice_succ, h2, hq', hfr q (Or.inr (by omega)), Function.update_same]
        simp
      · intro e he
        rcases List.mem_append.1 he with h | h
        · exact h3 e h
        · rw [List.mem_singleton.1 h]
          exact hcond.2
    · rename_i hcond
      have hval : tmp.value ≤ (a (q - 1)).value := by
        by_contra hlt
        exact hcond ⟨by omega, lt_of_not_ge hlt⟩
      refine ⟨slice a b (k + 1), [], by simp, ?_,
        fun e he => absurd he (List.not_mem_nil _), Or.inr ⟨slice a b k, a (q - 1), ?_, hval⟩⟩
      · rw [slice_succ, hq', Function.update_same]
        have hs : slice (Function.update a q tmp) b (k + 1) = slice a b (k + 1) := by
          apply slice_congr
          intro j hj
          exact Function.update_noteq (by omega) _ _
        rw [hs]
      · rw [slice_succ, hq1]

/-- Inserting `tmp` at the place the inner loop chooses keeps a descending
list descending. -/
theorem sorted_insert_place {L1 L2 : List ExtMove} {tmp : ExtMove}
    (hs : (L1 ++ L2).Pairwise fun x y => y.value ≤ x.value)
    (h2 : ∀ e ∈ L2, e.value < tmp.value)
    (h1 : L1 = [] ∨ ∃ L0 z, L1 = L0 ++ [z] ∧ tmp.value ≤ z.value) :
    (L1 ++ tmp :: L2).Pairwise fun x y => y.value ≤ x.value := by
  obtain ⟨hp1, hp2, hp12⟩ := List.pairwise_append.1 hs
  have hge : ∀ e ∈ L1, tmp.value ≤ e.value := by
    rcases h1 with h | ⟨L0, z, h, hz⟩
    · intro e he
      rw [h] at he
      exact absurd he (List.not_mem_nil _)
    · intro e he
      rw [h] at he hp1
      rcases List.mem_append.1 he with h0 | h0
      · exact le_trans hz ((List.pairwise_append.1 hp1).2.2 e h0 z (List.mem_singleton.2 rfl))
      · rw [List.mem_singleton.1 h0]
        exact hz
  refine List.pairwise_append.2 ⟨hp1, List.pairwise_cons.2 ⟨fun e he => le_of_lt (h2 e he), hp2⟩,
    fun x hx y hy => ?_⟩
  rcases List.mem_cons.1 hy with h | h
  · rw [h]
    exact hge x hx
  · exact hp12 x hx y h

/-- Inserting `tmp` at the place the inner loop chooses puts it after the
entries of its own value. -/
theorem filter_insert_place (L1 L2 : List ExtMove) (tmp : ExtMove) (v : Value)
    (h2 : ∀ e ∈ L2, e.value < tmp.value) :
    (L1 ++ tmp :: L2).filter (fun e => decide (e.value = v))
      = (L1 ++ L2 ++ [tmp]).filter (fun e => decide (e.value = v)) := by
  simp only [List.filter_append, List.append_assoc]
  congr 1
  by_cases hv : tmp.value = v
  · have hnil : L2.filter (fun e => decide (e.value = v)) = [] := by
      apply List.filter_eq_nil_iff.2
      intro e he
      have hlt : e.value < v := hv ▸ h2 e he
      simp only [decide_eq_true_eq]
      exact ne_of_lt hlt
    rw [List.filter_cons_of_pos (by simpa using hv), hnil]
    simp [hv]
  · rw [List.filter_cons_of_neg (by simpa using hv)]
    simp [hv]

end MoveSelection
namespace MoveSelection

/-- The outer loop of `insertion_sort`, entered with the first `m` entries
in descending order: the range ends in descending order, and for every value
the entries of that value are in the order they were in. -/
theorem insertion_outer_stable (b : Int) (N : Nat) :
    ∀ (n : Nat) (a : Int → ExtMove) (m : Nat), 1 ≤ m → m + n = N →
      (slice a b m).Pairwise (fun x y => y.value ≤ x.value) →
      (slice (insertion_outer b n a (b + m)) b N).Pairwise (fun x y => y.value ≤ x.value) ∧
      ∀ v : Value, (slice (insertion_outer b n a (b + m)) b N).filter
          (fun e => decide (e.value = v))
        = (slice a b N).filter (fun e => decide (e.value = v)) := by
  intro n
  induction n with
  | zero =>
    intro a m _ hN hs
    have : m = N := by omega
    subst this
    exact ⟨hs, fun _ => rfl⟩
  | succ n ih =>
    intro a m hm hN hs
    simp only [insertion_outer]
    have hk : (b + (m : Int) - b).toNat = m := by simp
    rw [hk]
    obtain ⟨L1, L2, h1, h2, h3, h4⟩ := insertion_inner_place b (a (b + m)) m a (b + m) rfl
    have hfr := (insertion_inner_spec b (a (b + m)) m a (b + m) rfl).1
    have hsorted : (slice (insertion_inner b (a (b + m)) m a (b + m)) b (m + 1)).Pairwise
        (fun x y => y.value ≤ x.value) := by
      rw [h2]
      exact sorted_insert_place (by rw [← h1]; exact hs) h3 h4
    have hstep := ih (insertion_inner b (a (b + m)) m a (b + m)) (m + 1) (by omega) (by omega)
      hsorted
    have hcast : b + ((m + 1 : Nat) : Int) = b + m + 1 := by push_cast; ring
    rw [hcast] at hstep
    refine ⟨hstep.1, fun v => ?_⟩
    rw [hstep.2 v]
    have hsplit : N = (m + 1) + n := by omega
    have htail : slice (insertion_inner b (a (b + m)) m a (b + m)) (b + ((m + 1 : Nat) : Int)) n
        = slice a (b + ((m + 1 : Nat) : Int)) n := by
      apply slice_congr
      intro j _
      exact hfr _ (Or.inr (by push_cast; omega))
    rw [hsplit, slice_append, slice_append a, htail, List.filter_append, List.filter_append,
      h2, filter_insert_place L1 L2 (a (b + m)) v h3, ← h1, slice_succ]

/-- What `insertion_sort` does to the range `[b, b + N)`: the entries end in
descending order of value, and for every value the entries of that value are
in the order they were in. -/
theorem insertion_sort_stable (a : Int → ExtMove) (b : Int) (N : Nat) :
    (slice (insertion_sort a b (b + N)) b N).Pairwise (fun x y => y.value ≤ x.value) ∧
    ∀ v : Value, (slice (insertion_sort a b (b + N)) b N).filter (fun e => decide (e.value = v))
      = (slice a b N).filter (fun e => decide (e.value = v)) := by
  unfold insertion_sort
  rcases Nat.lt_or_ge N 2 with h | h
  · have h0 : (b + (N : Int) - (b + 1)).toNat = 0 := by omega
    rw [h0]
    refine ⟨?_, fun _ => rfl⟩
    show (slice a b N).Pairwise (fun x y => y.value ≤ x.value)
    have hN : N = 0 ∨ N = 1 := by omega
    rcases hN with hN | hN
    · rw [hN, slice_zero]
      exact List.Pairwise.nil
    · rw [hN, slice_succ, slice_zero]
      exact List.pairwise_singleton _ _
  · have hn : (b + (N : Int) - (b + 1)).toNat = N - 1 := by omega
    rw [hn]
    have hone : slice a b 1 = [a b] := by
      rw [slice_succ, slice_zero]
      simp
    have := insertion_outer_stable b N (N - 1) a 1 (le_refl _) (by omega)
      (by rw [hone]; exact List.pairwise_singleton _ _)
    simpa using this

end MoveSelection
namespace MoveSelection

variable (C : Consts) (pos : Position) (ss : Stack)

/-! ### The quiet moves at full depth -/

/-- The range after `generate<QUIETS>` and `score<QUIETS>`: the generated
moves in emission order, each with its quiet score. -/
theorem slice_scored_quiets (a : Int → ExtMove) :
    slice (scoreRange (quietValue C pos ss) (generate pos.genQuiets a) pos.genQuiets.length) 0
        pos.genQuiets.length
      = pos.genQuiets.map fun m => ⟨m, quietValue C pos ss m⟩ := by
  apply List.ext_getElem
  · simp [slice_length]
  · intro j h1 h2
    have hj : j < pos.genQuiets.length := by simpa using h2
    have hr : (0 : Int) ≤ 0 + (j : Int) ∧ 0 + (j : Int) < (pos.genQuiets.length : Int) :=
      ⟨by omega, by omega⟩
    rw [slice_getElem, List.getElem_map]
    simp only [scoreRange, if_pos hr]
    have hm : (generate pos.genQuiets a (0 + (j : Int))).move = pos.genQuiets[j] := by
      rw [zero_add]
      exact generate_move _ a j hj
    rw [hm]

/-- At a depth of at least `3 * ONE_PLY` the quiet moves are left in
descending order of quiet score, those of equal score in emission order. -/
theorem quietOrder_full (depth : Depth) (a : Int → ExtMove) (hd : ¬ depth < 3 * C.ONE_PLY) :
    (quietOrder C pos ss depth a).Pairwise
      (fun m m' => quietValue C pos ss m' ≤ quietValue C pos ss m) ∧
    ∀ v : Value, (quietOrder C pos ss depth a).filter
        (fun m => decide (quietValue C pos ss m = v))
      = pos.genQuiets.filter (fun m => decide (quietValue C pos ss m = v)) := by
  have hs := insertion_sort_stable
    (scoreRange (quietValue C pos ss) (generate pos.genQuiets a) pos.genQuiets.length) 0
    pos.genQuiets.length
  have hp := (insertion_sort_spec
    (scoreRange (quietValue C pos ss) (generate pos.genQuiets a) pos.genQuiets.length) 0
    pos.genQuiets.length).2
  simp only [zero_add] at hs hp
  rw [slice_scored_quiets] at hs hp
  have hq : quietOrder C pos ss depth a
      = (slice (insertion_sort (scoreRange (quietValue C pos ss) (generate pos.genQuiets a)
          pos.genQuiets.length) 0 pos.genQuiets.length) 0 pos.genQuiets.length).map
          fun e => e.move := by
    unfold quietOrder movesOf quietArr
    simp only [if_neg hd]
  have hval : ∀ e ∈ slice (insertion_sort (scoreRange (quietValue C pos ss)
      (generate pos.genQuiets a) pos.genQuiets.length) 0 pos.genQuiets.length) 0
      pos.genQuiets.length, e.value = quietValue C pos ss e.move := by
    intro e he
    obtain ⟨m, _, rfl⟩ := List.mem_map.1 (hp.subset he)
    rfl
  rw [hq]
  constructor
  · rw [List.pairwise_map]
    refine hs.1.imp_of_mem ?_
    intro x y hx hy hxy
    rw [← hval x hx, ← hval y hy]
    exact hxy
  · intro v
    rw [List.filter_map]
    have h1 : (slice (insertion_sort (scoreRange (quietValue C pos ss)
          (generate pos.genQuiets a) pos.genQuiets.length) 0 pos.genQuiets.length) 0
          pos.genQuiets.length).filter
          ((fun m => decide (quietValue C pos ss m = v)) ∘ fun e => e.move)
        = (slice (insertion_sort (scoreRange (quietValue C pos ss)
          (generate pos.genQuiets a) pos.genQuiets.length) 0 pos.genQuiets.length) 0
          pos.genQuiets.length).filter (fun e => decide (e.value = v)) := by
      apply List.filter_congr
      intro e he
      simp only [Function.comp, hval e he]
    rw [h1, hs.2 v, List.filter_map, List.map_map]
    have h2 : ((fun e : ExtMove => e.move) ∘ fun m => (⟨m, quietValue C pos ss m⟩ : ExtMove))
        = id := rfl
    rw [h2, List.map_id]
    rfl

end MoveSelection
namespace MoveSelection

variable (C : Consts) (pos : Position) (ss : Stack)

/-! ### The states of the passes -/

/-- The invariant that says nothing of the moves holds in every state a pass
starts in. -/
theorem visited_inv (mp : MovePicker) (h : Visited C pos ss mp) :
    Inv C (fun _ => True) mp := by
  induction h with
  | init hc => exact inv_constructed C pos ss (fun _ _ _ => trivial) _ hc
  | pass _ hstep ih =>
    have hok := inv_step_any C pos ss _ ih
    unfold StepOK at hok
    revert hok hstep
    cases next_move_step C pos ss _ with
    | ret m mp1 =>
      intro hstep hok
      simp only [Step.after, Option.some.injEq] at hstep
      exact hstep ▸ hok.1
    | brk mp1 =>
      intro hstep hok
      simp only [Step.after, Option.some.injEq] at hstep
      exact hstep ▸ hok
    | defer m mp1 =>
      intro hstep hok
      simp only [Step.after, Option.some.injEq] at hstep
      exact hstep ▸ hok
    | abort =>
      intro hstep
      simp [Step.after] at hstep

/-- The states a call of `next_move` goes through are visited. -/
theorem visited_next_move : ∀ (fuel : Nat) (mp : MovePicker) (m : Move) (mp' : MovePicker),
    Visited C pos ss mp → next_move C pos ss fuel mp = some (m, mp') → Visited C pos ss mp' := by
  intro fuel
  induction fuel with
  | zero => intro mp m mp' _ h; simp [next_move] at h
  | succ fuel ih =>
    intro mp m mp' hv h
    simp only [next_move] at h
    cases hs : next_move_step C pos ss mp with
    | ret m1 mp1 =>
      rw [hs] at h
      simp only [Option.some.injEq, Prod.mk.injEq] at h
      exact h.2 ▸ Visited.pass hv (by rw [hs]; rfl)
    | brk mp1 =>
      rw [hs] at h
      exact ih mp1 m mp' (Visited.pass hv (by rw [hs]; rfl)) h
    | defer m1 mp1 =>
      rw [hs] at h
      exact ih mp1 m mp' (Visited.pass hv (by rw [hs]; rfl)) h
    | abort =>
      rw [hs] at h
      simp at h

/-- The states between the calls of `next_move` are visited. -/
theorem visited_of_reachable (mp : MovePicker) (h : Reachable C pos ss mp) :
    Visited C pos ss mp := by
  induction h with
  | init hc => exact Visited.init hc
  | call _ hnm ih => exact visited_next_move C pos ss _ _ _ _ ih hnm

/-- What the invariant says of `RECAPTURE` and of the stages that call
`pick_best`. -/
theorem inv_pick_range {P : Move → Prop} (mp : MovePicker) (hinv : Inv C P mp) :
    (mp.stage = RECAPTURE → mp.cur = mp.endMoves) ∧
    ((mp.stage = GOOD_CAPTURES ∨ IsPickStage mp.stage) →
      ∃ i n, mp.cur = .moves i ∧ mp.endMoves = .moves n ∧ i ≤ n) := by
  rcases hinv with ⟨hs, _⟩ | ⟨hs, _⟩ | ⟨hs, hce⟩ | ⟨hs, hr, _⟩ | ⟨hs, _⟩ | ⟨hs, _⟩ | ⟨hs, hr⟩
    | hs
  · refine ⟨fun h => ?_, fun h => ?_⟩
    · rw [hs] at h; exact absurd h (by decide)
    · rw [hs] at h; simp [IsPickStage] at h
  · refine ⟨fun h => ?_, fun h => ?_⟩
    · rcases hs with hs | hs | hs | hs <;> rw [hs] at h <;> exact absurd h (by decide)
    · rcases hs with hs | hs | hs | hs <;> rw [hs] at h <;> simp [IsPickStage] at h
  · refine ⟨fun _ => hce, fun h => ?_⟩
    rw [hs] at h; simp [IsPickStage] at h
  · obtain ⟨i, n, h1, h2, h3, _⟩ := hr
    refine ⟨fun h => ?_, fun _ => ⟨i, n, h1, h2, h3⟩⟩
    rcases hs with hs | hs <;> rw [hs] at h <;> exact absurd h (by decide)
  · refine ⟨fun h => ?_, fun h => ?_⟩
    · rw [hs] at h; exact absurd h (by decide)
    · rw [hs] at h; simp [IsPickStage] at h
  · refine ⟨fun h => ?_, fun h => ?_⟩
    · rw [hs] at h; exact absurd h (by decide)
    · rw [hs] at h; simp [IsPickStage] at h
  · obtain ⟨i, n, h1, h2, h3, _⟩ := hr
    refine ⟨fun h => ?_, fun _ => ⟨i, n, h1, h2, h3⟩⟩
    rcases hs with (hs | hs | hs | hs | hs) | hs <;> rw [hs] at h <;> exact absurd h (by decide)
  · refine ⟨fun h => ?_, fun h => ?_⟩
    · rw [hs] at h; exact absurd h (by decide)
    · rw [hs] at h; simp [IsPickStage] at h

end MoveSelection
namespace MoveSelection

variable (C : Consts) (pos : Position) (ss : Stack)

/-! ### Members no pass changes -/

theorem gns_fixed (mp mp' : MovePicker) (h : generate_next_stage C pos ss mp = some mp') :
    mp'.countermove = mp.countermove ∧ mp'.ttMove = mp.ttMove := by
  have hcases : mp.stage = 0 ∨ mp.stage = 1 ∨ mp.stage = 2 ∨ mp.stage = 3 ∨ mp.stage = 4
      ∨ mp.stage = 5 ∨ mp.stage = 6 ∨ mp.stage = 7 ∨ mp.stage = 8 ∨ mp.stage = 9
      ∨ mp.stage = 10 ∨ mp.stage = 11 ∨ mp.stage = 12 ∨ mp.stage = 13 ∨ mp.stage = 14
      ∨ mp.stage = 15 ∨ 16 ≤ mp.stage := by omega
  rcases hcases with hs | hs | hs | hs | hs | hs | hs | hs | hs | hs | hs | hs | hs | hs | hs
    | hs | hs
  · rw [gns_captures C pos ss mp (Or.inl hs)] at h
    rw [← Option.some.inj h]; exact ⟨rfl, rfl⟩
  · rw [gns_killers C pos ss mp hs] at h
    rw [← Option.some.inj h]; exact ⟨rfl, rfl⟩
  · rw [gns_quiets C pos ss mp hs] at h
    rw [← Option.some.inj h]; exact ⟨rfl, rfl⟩
  · rw [gns_bad C pos ss mp hs] at h
    rw [← Option.some.inj h]; exact ⟨rfl, rfl⟩
  · rw [gns_stop C pos ss mp (Or.inl hs)] at h
    rw [← Option.some.inj h]; exact ⟨rfl, rfl⟩
  · rw [gns_evasions C pos ss mp hs] at h
    rw [← Option.some.inj h]; exact ⟨rfl, rfl⟩
  · rw [gns_stop C pos ss mp (Or.inr (Or.inl hs))] at h
    rw [← Option.some.inj h]; exact ⟨rfl, rfl⟩
  · rw [gns_captures C pos ss mp (Or.inr (Or.inl hs))] at h
    rw [← Option.some.inj h]; exact ⟨rfl, rfl⟩
  · rw [gns_checks C pos ss mp hs] at h
    rw [← Option.some.inj h]; exact ⟨rfl, rfl⟩
  · rw [gns_stop C pos ss mp (Or.inr (Or.inr (Or.inl hs)))] at h
    rw [← Option.some.inj h]; exact ⟨rfl, rfl⟩
  · rw [gns_captures C pos ss mp (Or.inr (Or.inr (Or.inl hs)))] at h
    rw [← Option.some.inj h]; exact ⟨rfl, rfl⟩
  · rw [gns_stop C pos ss mp (Or.inr (Or.inr (Or.inr (Or.inl hs))))] at h
    rw [← Option.some.inj h]; exact ⟨rfl, rfl⟩
  · rw [gns_captures C pos ss mp (Or.inr (Or.inr (Or.inr (Or.inl hs))))] at h
    rw [← Option.some.inj h]; exact ⟨rfl, rfl⟩
  · rw [gns_stop C pos ss mp (Or.inr (Or.inr (Or.inr (Or.inr (Or.inl hs)))))] at h
    rw [← Option.some.inj h]; exact ⟨rfl, rfl⟩
  · rw [gns_captures C pos ss mp (Or.inr (Or.inr (Or.inr (Or.inr hs))))] at h
    rw [← Option.some.inj h]; exact ⟨rfl, rfl⟩
  · rw [gns_stop C pos ss mp (Or.inr (Or.inr (Or.inr (Or.inr (Or.inr hs)))))] at h
    rw [← Option.some.inj h]; exact ⟨rfl, rfl⟩
  · rcases Nat.lt_or_ge mp.stage 17 with hlt | hge
    · have h16 : mp.stage = STOP := by
        show mp.stage = 16
        omega
      unfold generate_next_stage at h
      rw [if_pos h16] at h
      exact absurd h (by simp)
    · obtain ⟨k, hk⟩ : ∃ k, mp.stage = k + 17 := ⟨mp.stage - 17, by omega⟩
      unfold generate_next_stage at h
      rw [if_neg (by rw [hk]; show k + 17 ≠ 16; omega)] at h
      simp [hk] at h

theorem setArr_fixed (mp : MovePicker) (p : Ptr) (a : Int → ExtMove) :
    (mp.setArr p a).countermove = mp.countermove ∧ (mp.setArr p a).ttMove = mp.ttMove := by
  cases p <;> exact ⟨rfl, rfl⟩

theorem pick_fixed (mp : MovePicker) :
    mp.pick.countermove = mp.countermove ∧ mp.pick.ttMove = mp.ttMove := by
  unfold MovePicker.pick
  exact setArr_fixed _ _ _

/-- No pass changes the countermove or the hint. -/
theorem step_fixed (mp : MovePicker) :
    match next_move_step C pos ss mp with
    | .ret _ mp' => mp'.countermove = mp.countermove ∧ mp'.ttMove = mp.ttMove
    | .brk mp' => mp'.countermove = mp.countermove ∧ mp'.ttMove = mp.ttMove
    | .defer _ mp' => mp'.countermove = mp.countermove ∧ mp'.ttMove = mp.ttMove
    | .abort => True := by
  by_cases hc : mp.cur = mp.endMoves ∧ mp.stage ≠ STOP
  · rw [step_gen C pos ss mp hc.1 hc.2]
    cases hg : generate_next_stage C pos ss mp with
    | none => trivial
    | some mp' => exact gns_fixed C pos ss mp mp' hg
  · unfold next_move_step
    rw [if_neg hc]
    rcases Nat.lt_or_ge mp.stage 17 with hlt | hge
    · have hcases : mp.stage = 0 ∨ mp.stage = 1 ∨ mp.stage = 2 ∨ mp.stage = 3 ∨ mp.stage = 4
          ∨ mp.stage = 5 ∨ mp.stage = 6 ∨ mp.stage = 7 ∨ mp.stage = 8 ∨ mp.stage = 9
          ∨ mp.stage = 10 ∨ mp.stage = 11 ∨ mp.stage = 12 ∨ mp.stage = 13 ∨ mp.stage = 14
          ∨ mp.stage = 15 ∨ mp.stage = 16 := by omega
      rcases hcases with hs | hs | hs | hs | hs | hs | hs | hs | hs | hs | hs | hs | hs | hs
        | hs | hs | hs
      all_goals
        simp only [hs]
        try split_ifs
        all_goals first
          | trivial
          | exact ⟨rfl, rfl⟩
          | exact pick_fixed mp
          | exact ⟨(setArr_fixed _ _ _).1.trans (pick_fixed mp).1,
              (setArr_fixed _ _ _).2.trans (pick_fixed mp).2⟩
    · obtain ⟨k, hk⟩ : ∃ k, mp.stage = k + 17 := ⟨mp.stage - 17, by omega⟩
      simp [hk]

theorem nextStage_gt_killers (s : Nat) (h : KILLERS < s) : KILLERS < nextStage s := by
  unfold nextStage
  split <;> first
    | exact Nat.lt_succ_of_lt h
    | decide

/-- A move returned by a pass made in `KILLERS` is not `MOVE_NONE`, is
pseudo-legal and is no capture. -/
theorem step_killer_ret (mp : MovePicker) (hs : mp.stage = KILLERS) :
    match next_move_step C pos ss mp with
    | .ret m _ => m ≠ MOVE_NONE ∧ pos.pseudo_legal m = true ∧ ¬ pos.capture m = true
    | _ => True := by
  by_cases hc : mp.cur = mp.endMoves ∧ mp.stage ≠ STOP
  · rw [step_gen C pos ss mp hc.1 hc.2]
    cases hg : generate_next_stage C pos ss mp <;> trivial
  · have hne : mp.cur ≠ mp.endMoves := fun he => hc ⟨he, by rw [hs]; decide⟩
    rw [step_linear C pos ss mp (Or.inl hs) hne]
    by_cases hk : linKeep pos mp (mp.deref mp.cur).move = true
    · rw [if_pos hk]
      simp only [linKeep, hs, if_true, decide_eq_true_eq] at hk
      exact ⟨hk.1, hk.2.2.1, hk.2.2.2⟩
    · rw [if_neg hk]
      trivial

/-- A move returned by a call that ends in `KILLERS` is not `MOVE_NONE`, is
pseudo-legal and is no capture. -/
theorem next_move_killer_ret : ∀ (fuel : Nat) (mp : MovePicker) (m : Move) (mp' : MovePicker),
    next_move C pos ss fuel mp = some (m, mp') → mp'.stage = KILLERS →
    m ≠ MOVE_NONE ∧ pos.pseudo_legal m = true ∧ ¬ pos.capture m = true := by
  intro fuel
  induction fuel with
  | zero => intro mp m mp' h; simp [next_move] at h
  | succ fuel ih =>
    intro mp m mp' h hs'
    simp only [next_move] at h
    have hst := step_stage C pos ss mp
    cases hs : next_move_step C pos ss mp with
    | ret m1 mp1 =>
      rw [hs] at h hst
      simp only [Option.some.injEq, Prod.mk.injEq] at h
      obtain ⟨rfl, rfl⟩ := h
      have hk := step_killer_ret C pos ss mp (hst.symm.trans hs')
      rw [hs] at hk
      exact hk
    | brk mp1 =>
      rw [hs] at h
      exact ih mp1 m mp' h hs'
    | defer m1 mp1 =>
      rw [hs] at h
      exact ih mp1 m mp' h hs'
    | abort =>
      rw [hs] at h
      simp at h

end MoveSelection
namespace MoveSelection

variable (C : Consts) (pos : Position) (ss : Stack)

/-! ### The killer stage of any run -/

/-- One pass keeps `KillerInv`, a move returned in `KILLERS` being added to
the moves returned there. -/
theorem killerInv_step (cm : Move) (Q : List Move → Prop)
    (hsub : ∀ l l' : List Move, Q l → l'.Sublist l → Q l')
    (hQ : Q (killerList ss cm)) (mp : MovePicker) (acc : List Move)
    (h : KillerInv cm Q mp acc) :
    match next_move_step C pos ss mp with
    | .ret m mp' => KillerInv cm Q mp' (if mp'.stage = KILLERS then acc ++ [m] else acc)
    | .brk mp' => KillerInv cm Q mp' acc
    | .defer _ mp' => KillerInv cm Q mp' acc
    | .abort => True := by
  obtain ⟨hd, hcase⟩ := h
  have hfix := step_fixed C pos ss mp
  have hstg := step_stage C pos ss mp
  by_cases hc : mp.cur = mp.endMoves ∧ mp.stage ≠ STOP
  · -- a stage change
    rw [step_gen C pos ss mp hc.1 hc.2] at hfix hstg ⊢
    cases hg : generate_next_stage C pos ss mp with
    | none => trivial
    | some mp' =>
      rw [hg] at hfix hstg
      simp only at hfix hstg ⊢
      have hs' := gns_stage C pos ss mp mp' hg
      refine ⟨hfix.1.trans hd, ?_⟩
      rcases hcase with ⟨hlt, hacc⟩ | ⟨hs, i, n, hcur, hend, hle, hq⟩ | ⟨hgt, hq⟩
      · have h2 : mp.stage = 0 ∨ mp.stage = 1 := by
          have : mp.stage < 2 := hlt
          omega
        rcases h2 with hs | hs
        · exact Or.inl ⟨by rw [hs', hs]; decide, hacc⟩
        · right; left
          rw [gns_killers C pos ss mp hs] at hg
          rw [← Option.some.inj hg, hacc]
          refine ⟨rfl, 0, killerCount ss mp.countermove, rfl, rfl, ?_, ?_⟩
          · unfold killerCount
            split <;> decide
          · simp only [List.nil_append, sub_zero]
            rw [movesOf_killerArr, hd]
            exact hQ
      · right; right
        refine ⟨by rw [hs', hs]; decide, hsub _ _ hq (List.sublist_append_left _ _)⟩
      · right; right
        exact ⟨by rw [hs']; exact nextStage_gt_killers _ hgt, hq⟩
  · have hcur := step_cursor C pos ss mp hc
    rcases hcase with ⟨hlt, hacc⟩ | ⟨hs, i, n, hci, hen, hle, hq⟩ | ⟨hgt, hq⟩
    · cases hstep : next_move_step C pos ss mp with
      | ret m mp' =>
        rw [hstep] at hfix hstg
        simp only at hfix hstg ⊢
        have hne : mp'.stage ≠ KILLERS := by
          rw [hstg]; exact Nat.ne_of_lt hlt
        rw [if_neg hne]
        exact ⟨hfix.1.trans hd, Or.inl ⟨by rw [hstg]; exact hlt, hacc⟩⟩
      | brk mp' =>
        rw [hstep] at hfix hcur
        simp only at hfix hcur ⊢
        exact ⟨hfix.1.trans hd, Or.inl ⟨by rw [hcur.1]; exact hlt, hacc⟩⟩
      | defer m mp' =>
        rw [hstep] at hfix hcur
        simp only at hfix hcur ⊢
        exact ⟨hfix.1.trans hd, Or.inl ⟨by rw [hcur.1]; exact hlt, hacc⟩⟩
      | abort => trivial
    · -- in the killer stage
      have hne : mp.cur ≠ mp.endMoves := fun he => hc ⟨he, by rw [hs]; decide⟩
      have hlt : i < n := by
        rcases lt_or_eq_of_le hle with h | h
        · exact h
        · exact absurd (by rw [hci, hen, h]) hne
      have hslice : (slice mp.killers i (n - i).toNat).map (fun e => e.move)
          = (mp.killers i).move :: (slice mp.killers (i + 1) (n - (i + 1)).toNat).map
              (fun e => e.move) := by
        have : (n - i).toNat = (n - (i + 1)).toNat + 1 := by omega
        rw [this, slice_cons, List.map_cons]
      have hderef : (mp.deref mp.cur).move = (mp.killers i).move := by
        rw [hci]; rfl
      rw [step_linear C pos ss mp (Or.inl hs) hne]
      by_cases hk : linKeep pos mp (mp.deref mp.cur).move = true
      · rw [if_pos hk]
        show KillerInv cm Q { mp with cur := mp.cur.add 1 }
          (if mp.stage = KILLERS then acc ++ [(mp.deref mp.cur).move] else acc)
        rw [if_pos hs, hderef]
        refine ⟨hd, Or.inr (Or.inl ⟨hs, i + 1, n, ?_, hen, by omega, ?_⟩)⟩
        · show mp.cur.add 1 = _
          rw [hci]; rfl
        · rw [hslice] at hq
          show Q (acc ++ [(mp.killers i).move]
            ++ (slice mp.killers (i + 1) (n - (i + 1)).toNat).map fun e => e.move)
          rw [List.append_assoc, List.singleton_append]
          exact hq
      · rw [if_neg hk]
        show KillerInv cm Q { mp with cur := mp.cur.add 1 } acc
        refine ⟨hd, Or.inr (Or.inl ⟨hs, i + 1, n, ?_, hen, by omega, ?_⟩)⟩
        · show mp.cur.add 1 = _
          rw [hci]; rfl
        · rw [hslice] at hq
          exact hsub _ _ hq
            ((List.Sublist.refl _).append (List.sublist_cons_self _ _))
    · cases hstep : next_move_step C pos ss mp with
      | ret m mp' =>
        rw [hstep] at hfix hstg
        simp only at hfix hstg ⊢
        have hne : mp'.stage ≠ KILLERS := by
          rw [hstg]; exact Nat.ne_of_gt hgt
        rw [if_neg hne]
        exact ⟨hfix.1.trans hd, Or.inr (Or.inr ⟨by rw [hstg]; exact hgt, hq⟩)⟩
      | brk mp' =>
        rw [hstep] at hfix hcur
        simp only at hfix hcur ⊢
        exact ⟨hfix.1.trans hd, Or.inr (Or.inr ⟨by rw [hcur.1]; exact hgt, hq⟩)⟩
      | defer m mp' =>
        rw [hstep] at hfix hcur
        simp only at hfix hcur ⊢
        exact ⟨hfix.1.trans hd, Or.inr (Or.inr ⟨by rw [hcur.1]; exact hgt, hq⟩)⟩
      | abort => trivial

theorem killerInv_next_move (cm : Move) (Q : List Move → Prop)
    (hsub : ∀ l l' : List Move, Q l → l'.Sublist l → Q l')
    (hQ : Q (killerList ss cm)) :
    ∀ (fuel : Nat) (mp : MovePicker) (acc : List Move) (m : Move) (mp' : MovePicker),
      KillerInv cm Q mp acc → next_move C pos ss fuel mp = some (m, mp') →
      KillerInv cm Q mp' (if mp'.stage = KILLERS then acc ++ [m] else acc) := by
  intro fuel
  induction fuel with
  | zero => intro mp acc m mp' _ h; simp [next_move] at h
  | succ fuel ih =>
    intro mp acc m mp' hinv h
    have hstep := killerInv_step C pos ss cm Q hsub hQ mp acc hinv
    simp only [next_move] at h
    cases hs : next_move_step C pos ss mp with
    | ret m1 mp1 =>
      rw [hs] at h hstep
      simp only [Option.some.injEq, Prod.mk.injEq] at h
      obtain ⟨rfl, rfl⟩ := h
      exact hstep
    | brk mp1 =>
      rw [hs] at h hstep
      exact ih mp1 acc m mp' hstep h
    | defer m1 mp1 =>
      rw [hs] at h hstep
      exact ih mp1 acc m mp' hstep h
    | abort =>
      rw [hs] at h
      simp at h

/-- The moves returned in `KILLERS` by any number of calls satisfy every
property of move lists that holds of the killer candidates listed and is
kept by sublists; none of them is `MOVE_NONE`. -/
theorem killerInv_calls (cm : Move) (Q : List Move → Prop)
    (hsub : ∀ l l' : List Move, Q l → l'.Sublist l → Q l')
    (hQ : Q (killerList ss cm)) (fuel : Nat) :
    ∀ (k : Nat) (mp : MovePicker) (acc : List Move) (L : List (Move × MovePicker)),
      KillerInv cm Q mp acc → calls C pos ss fuel k mp = some L →
      Q (acc ++ returnedIn KILLERS L) ∧ ∀ m ∈ returnedIn KILLERS L, m ≠ MOVE_NONE := by
  have hnil : Q [] := hsub _ _ hQ (List.nil_sublist _)
  intro k
  induction k with
  | zero =>
    intro mp acc L hinv h
    simp only [calls, Option.some.injEq] at h
    rw [← h]
    refine ⟨?_, fun m hm => absurd hm (List.not_mem_nil _)⟩
    show Q (acc ++ [])
    rw [List.append_nil]
    rcases hinv.2 with ⟨_, hacc⟩ | ⟨_, i, n, _, _, _, hq⟩ | ⟨_, hq⟩
    · rw [hacc]; exact hnil
    · exact hsub _ _ hq (List.sublist_append_left _ _)
    · exact hq
  | succ k ih =>
    intro mp acc L hinv h
    obtain ⟨m, mp1, L', rfl, hn, hc⟩ := calls_succ_some C pos ss h
    have h1 := killerInv_next_move C pos ss cm Q hsub hQ fuel mp acc m mp1 hinv hn
    have h2 := ih mp1 _ L' h1 hc
    rw [returnedIn_cons]
    by_cases hs : mp1.stage = KILLERS
    · rw [if_pos hs] at h2 ⊢
      refine ⟨by rw [← List.append_assoc]; exact h2.1, fun x hx => ?_⟩
      rcases List.mem_append.1 hx with hx | hx
      · rw [List.mem_singleton.1 hx]
        exact (next_move_killer_ret C pos ss fuel mp m mp1 hn hs).1
      · exact h2.2 x hx
    · rw [if_neg hs] at h2 ⊢
      exact h2

/-- A constructed picker has returned nothing in `KILLERS`. -/
theorem killerInv_constructed (Q : List Move → Prop) (hnil : Q []) (mp : MovePicker)
    (hc : Constructed C pos ss mp) : KillerInv mp.countermove Q mp [] := by
  obtain ⟨_, _, _, hst, _, _⟩ := constructed_facts C pos ss mp hc
  refine ⟨rfl, ?_⟩
  rcases hst with h | h | h | h | h | ⟨h, _⟩
  · exact Or.inl ⟨by rw [h]; decide, rfl⟩
  all_goals exact Or.inr (Or.inr ⟨by rw [h]; decide, hnil⟩)

end MoveSelection
namespace MoveSelection

variable (C : Consts) (pos : Position) (ss : Stack)

/-- The killer candidates other than `MOVE_NONE` are pairwise different when
the stored killers are. -/
theorem nodup_killers_listed (cm : Move)
    (hk : ss.killers0 = ss.killers1 → ss.killers0 = MOVE_NONE) :
    ((killerList ss cm).filter fun m => decide (m ≠ MOVE_NONE)).Nodup := by
  by_cases h01 : ss.killers0 = ss.killers1
  · have h0 : ss.killers0 = MOVE_NONE := hk h01
    have h1 : ss.killers1 = MOVE_NONE := h01 ▸ h0
    unfold killerList
    split
    · rw [h0, h1]
      have h2 : ([MOVE_NONE, MOVE_NONE, cm].filter fun m => decide (m ≠ MOVE_NONE))
          = [cm].filter fun m => decide (m ≠ MOVE_NONE) := by
        simp [List.filter_cons]
      rw [h2]
      exact ((List.nodup_singleton cm).filter _)
    · rw [h0, h1]
      simp
  · apply List.Nodup.filter
    unfold killerList
    split
    · rename_i hc
      simp only [List.nodup_cons, List.mem_cons, List.mem_singleton, List.not_mem_nil,
        or_false, not_or, List.nodup_nil, and_true, not_false_eq_true]
      exact ⟨⟨h01, fun h => hc.1 h.symm⟩, fun h => hc.2 h.symm⟩
    · simp only [List.nodup_cons, List.mem_singleton, List.not_mem_nil, List.nodup_nil,
        and_true, not_false_eq_true]
      exact h01

/-- A sublist without `MOVE_NONE` of the killer candidates has no move twice
when the stored killers are different. -/
theorem nodup_of_sublist_killers (cm : Move)
    (hk : ss.killers0 = ss.killers1 → ss.killers0 = MOVE_NONE) {R : List Move}
    (hs : R.Sublist (killerList ss cm)) (hnz : ∀ m ∈ R, m ≠ MOVE_NONE) : R.Nodup := by
  have h1 : R.filter (fun m => decide (m ≠ MOVE_NONE)) = R :=
    List.filter_eq_self.2 fun m hm => by simpa using hnz m hm
  rw [← h1]
  exact (nodup_killers_listed ss cm hk).sublist (hs.filter _)

end MoveSelection
namespace MoveSelection

variable (C : Consts) (pos : Position) (ss : Stack)

/-! ### The deferred tail and the captures still to pick -/

/-- The losing captures of a range, counted after `pick_best`: the entry
picked and those left. -/
theorem countP_pick (tt : Move) (a : Int → ExtMove) (i : Int) (k : Nat) :
    ((slice a i (k + 1)).map fun x => x.move).countP (isBad pos tt)
      = (if isBad pos tt (pick_best a i (i + (k + 1 : Nat)) i).move = true then 1 else 0)
        + ((slice (pick_best a i (i + (k + 1 : Nat))) (i + 1) k).map
            fun x => x.move).countP (isBad pos tt) := by
  have hp := ((pick_best_perm a i k).map fun x => x.move).countP_eq (isBad pos tt)
  rw [← hp, slice_cons, List.map_cons, List.countP_cons]
  omega

theorem nextStage_gt_good (s : Nat) (h : GOOD_CAPTURES < s) : GOOD_CAPTURES < nextStage s := by
  unfold nextStage
  split <;> first
    | exact Nat.lt_succ_of_lt h
    | decide

/-- A pass of `GOOD_CAPTURES` over a non-empty segment keeps `GoodInv`; when
it defers a capture, the slot it writes at is beyond the segment. -/
theorem good_pass (tt : Move)
    (hfit : (pos.genCaptures.length : Int) + (pos.genCaptures.countP (isBad pos tt) : Nat)
      ≤ C.MAX_MOVES)
    (mp : MovePicker) (hs : mp.stage = GOOD_CAPTURES) (htt : mp.ttMove = tt) (i e : Int)
    (hcur : mp.cur = .moves i) (hend : mp.endMoves = .moves pos.genCaptures.length)
    (hebc : mp.endBadCaptures = .moves e) (h0 : 0 ≤ i) (hlt : i < pos.genCaptures.length)
    (hcount : C.MAX_MOVES - 1 - e
        + (((slice mp.moves i ((pos.genCaptures.length : Int) - i).toNat).map
            fun x => x.move).countP (isBad pos tt) : Nat)
        ≤ (pos.genCaptures.countP (isBad pos tt) : Nat)) :
    match next_move_step C pos ss mp with
    | .ret _ mp' => GoodInv C pos tt mp'
    | .brk mp' => GoodInv C pos tt mp'
    | .defer m mp' =>
      GoodInv C pos tt mp' ∧ (pos.genCaptures.length : Int) ≤ e ∧
        m = (pick_best mp.moves i pos.genCaptures.length i).move ∧
        mp' = { mp with
          moves := Function.update (pick_best mp.moves i pos.genCaptures.length) e
            { pick_best mp.moves i pos.genCaptures.length e with move := m }
          cur := .moves (i + 1)
          endBadCaptures := .moves (e - 1) }
    | .abort => True := by
  obtain ⟨k, hk⟩ : ∃ k : Nat, ((pos.genCaptures.length : Int) - i).toNat = k + 1 :=
    ⟨((pos.genCaptures.length : Int) - i).toNat - 1, by omega⟩
  have hn : (pos.genCaptures.length : Int) = i + ((k + 1 : Nat) : Int) := by omega
  have hk' : ((pos.genCaptures.length : Int) - (i + 1)).toNat = k := by omega
  have hcp := countP_pick pos tt mp.moves i k
  rw [← hn] at hcp
  rw [hk, hcp] at hcount
  rw [step_good C pos ss mp hs i pos.genCaptures.length e hcur hend hebc hlt]
  by_cases hne : (pick_best mp.moves i pos.genCaptures.length i).move = mp.ttMove
  · -- the hint: skipped
    have hnb : ¬ isBad pos tt (pick_best mp.moves i pos.genCaptures.length i).move = true := by
      simp [isBad, hne, htt]
    rw [if_neg hnb] at hcount
    rw [if_neg (by simpa using hne)]
    refine ⟨htt, Or.inr (Or.inl ⟨hs, i + 1, e, rfl, hend, hebc, by omega, by omega, ?_⟩)⟩
    show C.MAX_MOVES - 1 - e
        + (((slice (pick_best mp.moves i pos.genCaptures.length) (i + 1)
            ((pos.genCaptures.length : Int) - (i + 1)).toNat).map
            fun x => x.move).countP (isBad pos tt) : Nat) ≤ _
    rw [hk']
    omega
  · rw [if_pos (by simpa using hne)]
    by_cases hsee : pos.see_sign (pick_best mp.moves i pos.genCaptures.length i).move
        ≥ VALUE_ZERO
    · -- a capture that does not lose: returned
      have hnb : ¬ isBad pos tt (pick_best mp.moves i pos.genCaptures.length i).move = true := by
        simp only [isBad, decide_eq_true_eq, not_and, not_lt]
        exact fun _ => hsee
      rw [if_neg hnb] at hcount
      rw [if_pos hsee]
      refine ⟨htt, Or.inr (Or.inl ⟨hs, i + 1, e, rfl, hend, hebc, by omega, by omega, ?_⟩)⟩
      show C.MAX_MOVES - 1 - e
          + (((slice (pick_best mp.moves i pos.genCaptures.length) (i + 1)
              ((pos.genCaptures.length : Int) - (i + 1)).toNat).map
              fun x => x.move).countP (isBad pos tt) : Nat) ≤ _
      rw [hk']
      omega
    · -- a losing capture: deferred
      have hb : isBad pos tt (pick_best mp.moves i pos.genCaptures.length i).move = true := by
        simp only [isBad, decide_eq_true_eq]
        exact ⟨by rw [← htt]; exact hne, lt_of_not_ge hsee⟩
      rw [if_pos hb] at hcount
      rw [if_neg hsee]
      have hle : (pos.genCaptures.length : Int) ≤ e := by
        push_cast at hcount
        omega
      refine ⟨⟨htt, Or.inr (Or.inl ⟨hs, i + 1, e - 1, rfl, hend, rfl, by omega, by omega, ?_⟩)⟩,
        hle, rfl, rfl⟩
      show C.MAX_MOVES - 1 - (e - 1)
          + (((slice (Function.update (pick_best mp.moves i pos.genCaptures.length) e
                { pick_best mp.moves i pos.genCaptures.length e with
                  move := (pick_best mp.moves i pos.genCaptures.length i).move }) (i + 1)
              ((pos.genCaptures.length : Int) - (i + 1)).toNat).map
              fun x => x.move).countP (isBad pos tt) : Nat) ≤ _
      have hsl : slice (Function.update (pick_best mp.moves i pos.genCaptures.length) e
            { pick_best mp.moves i pos.genCaptures.length e with
              move := (pick_best mp.moves i pos.genCaptures.length i).move }) (i + 1) k
          = slice (pick_best mp.moves i pos.genCaptures.length) (i + 1) k := by
        apply slice_congr
        intro j hj
        exact Function.update_noteq (by omega) _ _
      rw [hk', hsl]
      push_cast at hcount ⊢
      omega

end MoveSelection
namespace MoveSelection

variable (C : Consts) (pos : Position) (ss : Stack)

/-- Every pass keeps `GoodInv`. -/
theorem goodInv_step (tt : Move)
    (hfit : (pos.genCaptures.length : Int) + (pos.genCaptures.countP (isBad pos tt) : Nat)
      ≤ C.MAX_MOVES)
    (mp : MovePicker) (h : GoodInv C pos tt mp) :
    match next_move_step C pos ss mp with
    | .ret _ mp' => GoodInv C pos tt mp'
    | .brk mp' => GoodInv C pos tt mp'
    | .defer _ mp' => GoodInv C pos tt mp'
    | .abort => True := by
  obtain ⟨htt, hcase⟩ := h
  rcases hcase with ⟨hs, hebc⟩ | ⟨hs, i, e, hcur, hend, hebc, h0, hle, hcount⟩ | ⟨hs0, hs1⟩
  · by_cases hce : mp.cur = mp.endMoves
    · rw [step_gen C pos ss mp hce (by rw [hs]; decide),
        gns_captures C pos ss mp (Or.inl hs)]
      refine ⟨htt, Or.inr (Or.inl ⟨by simp [hs], 0, C.MAX_MOVES - 1, rfl, rfl, hebc,
        le_refl _, by omega, ?_⟩)⟩
      have hm : (slice (capArr C pos mp.moves) 0
          ((pos.genCaptures.length : Int) - 0).toNat).map (fun x => x.move)
          = pos.genCaptures := by
        have := movesOf_capArr C pos mp.moves
        unfold movesOf at this
        simpa using this
      show C.MAX_MOVES - 1 - (C.MAX_MOVES - 1)
        + (((slice (capArr C pos mp.moves) 0 ((pos.genCaptures.length : Int) - 0).toNat).map
            fun x => x.move).countP (isBad pos tt) : Nat) ≤ _
      rw [hm]
      omega
    · rw [step_hint C pos ss mp (Or.inl hs) hce]
      exact ⟨htt, Or.inl ⟨hs, hebc⟩⟩
  · by_cases heq : i = pos.genCaptures.length
    · have hce : mp.cur = mp.endMoves := by rw [hcur, hend, heq]
      rw [step_gen C pos ss mp hce (by rw [hs]; decide), gns_killers C pos ss mp hs]
      exact ⟨htt, Or.inr (Or.inr ⟨by show KILLERS ≠ MAIN_SEARCH; decide,
        by show KILLERS ≠ GOOD_CAPTURES; decide⟩)⟩
    · have hp := good_pass C pos ss tt hfit mp hs htt i e hcur hend hebc h0
        (lt_of_le_of_ne hle heq) hcount
      revert hp
      cases next_move_step C pos ss mp with
      | ret m mp' => exact fun hp => hp
      | brk mp' => exact fun hp => hp
      | defer m mp' => exact fun hp => hp.1
      | abort => exact fun _ => trivial
  · have hst := step_stage C pos ss mp
    have hfix := step_fixed C pos ss mp
    have hgt : GOOD_CAPTURES < mp.stage := by
      have h0 : mp.stage ≠ 0 := hs0
      have h1 : mp.stage ≠ 1 := hs1
      show 1 < mp.stage
      omega
    have hnext := nextStage_gt_good mp.stage hgt
    have key : ∀ mp' : MovePicker, mp'.ttMove = mp.ttMove →
        (mp'.stage = mp.stage ∨ mp'.stage = nextStage mp.stage) → GoodInv C pos tt mp' := by
      intro mp' h1 h2
      have hgt' : GOOD_CAPTURES < mp'.stage := by
        rcases h2 with h2 | h2 <;> rw [h2]
        · exact hgt
        · exact hnext
      have hgt2 : 1 < mp'.stage := hgt'
      exact ⟨h1.trans htt, Or.inr (Or.inr ⟨by show mp'.stage ≠ 0; omega,
        by show mp'.stage ≠ 1; omega⟩)⟩
    revert hst hfix
    cases next_move_step C pos ss mp with
    | ret m mp' => exact fun hst hfix => key mp' hfix.2 (Or.inl hst)
    | brk mp' => exact fun hst hfix => key mp' hfix.2 hst
    | defer m mp' => exact fun hst hfix => key mp' hfix.2 (Or.inl hst)
    | abort => exact fun _ _ => trivial

/-- `GoodInv` holds in every state a pass starts in, when the generated
captures and a second copy of the losing ones fit the buffer. -/
theorem visited_goodInv (mp : MovePicker) (h : Visited C pos ss mp) :
    (pos.genCaptures.length : Int) + (pos.genCaptures.countP (isBad pos mp.ttMove) : Nat)
      ≤ C.MAX_MOVES → GoodInv C pos mp.ttMove mp := by
  induction h with
  | init hc =>
    intro _
    obtain ⟨_, _, hebc, hst, _, _⟩ := constructed_facts C pos ss _ hc
    refine ⟨rfl, ?_⟩
    rcases hst with h | h | h | h | h | ⟨h, _⟩
    · exact Or.inl ⟨h, hebc⟩
    all_goals exact Or.inr (Or.inr ⟨by rw [h]; decide, by rw [h]; decide⟩)
  | pass _ hstep ih =>
    rename_i mp1 mp2 _
    intro hfit
    have hfix := step_fixed C pos ss mp1
    revert hstep hfix
    cases hs : next_move_step C pos ss mp1 with
    | ret m mp' =>
      intro hstep hfix
      simp only [Step.after, Option.some.injEq] at hstep
      subst hstep
      have h1 := goodInv_step C pos ss mp1.ttMove (by rw [← hfix.2]; exact hfit) mp1
        (ih (by rw [← hfix.2]; exact hfit))
      rw [hs] at h1
      rw [hfix.2]
      exact h1
    | brk mp' =>
      intro hstep hfix
      simp only [Step.after, Option.some.injEq] at hstep
      subst hstep
      have h1 := goodInv_step C pos ss mp1.ttMove (by rw [← hfix.2]; exact hfit) mp1
        (ih (by rw [← hfix.2]; exact hfit))
      rw [hs] at h1
      rw [hfix.2]
      exact h1
    | defer m mp' =>
      intro hstep hfix
      simp only [Step.after, Option.some.injEq] at hstep
      subst hstep
      have h1 := goodInv_step C pos ss mp1.ttMove (by rw [← hfix.2]; exact hfit) mp1
        (ih (by rw [← hfix.2]; exact hfit))
      rw [hs] at h1
      rw [hfix.2]
      exact h1
    | abort =>
      intro hstep
      simp [Step.after] at hstep

end MoveSelection
namespace MoveSelection

/-! ### Passes on the concrete inputs -/

theorem mkMain_mpT : MovePicker.mkMain C2 pos8 ss8 raw0 0 1 = some mpT := rfl

theorem mkMain_mpF : MovePicker.mkMain C0 posF ss8 raw0 0 1 = some mp8 := rfl

theorem step_mp0 : next_move_step C0 pos0 ss0 mp0 = .ret 4 mp0h := by
  rw [step_hint C0 pos0 ss0 mp0 (Or.inl rfl) (by decide)]
  rfl

theorem step_mp0h : next_move_step C0 pos0 ss0 mp0h = .brk mp0g := by
  rw [step_gen C0 pos0 ss0 mp0h rfl (by decide), gns_captures C0 pos0 ss0 mp0h (Or.inl rfl)]
  rfl

theorem visited_mp0g : Visited C0 pos0 ss0 mp0g :=
  Visited.pass (Visited.pass
    (Visited.init (Or.inl ⟨raw0, 4, 5, rfl⟩) : Visited C0 pos0 ss0 mp0)
    (by rw [step_mp0]; rfl)) (by rw [step_mp0h]; rfl)

theorem step_mpT : next_move_step C2 pos8 ss8 mpT = .brk mpTg := by
  rw [step_gen C2 pos8 ss8 mpT rfl (by decide), gns_captures C2 pos8 ss8 mpT (Or.inl rfl)]
  rfl

theorem visited_mpTg : Visited C2 pos8 ss8 mpTg :=
  Visited.pass (Visited.init (Or.inl ⟨raw0, 0, 1, rfl⟩) : Visited C2 pos8 ss8 mpT)
    (by rw [step_mpT]; rfl)

theorem posF_length : posF.genCaptures.length = 256 := List.length_range' 1 1 256

theorem step_mpF : next_move_step C0 posF ss8 mp8 = .brk mpFg := by
  rw [step_gen C0 posF ss8 mp8 rfl (by decide), gns_captures C0 posF ss8 mp8 (Or.inl rfl),
    posF_length]
  rfl

theorem visited_mpFg : Visited C0 posF ss8 mpFg :=
  Visited.pass (Visited.init (Or.inl ⟨raw0, 0, 1, rfl⟩) : Visited C0 posF ss8 mp8)
    (by rw [step_mpF]; rfl)

/-- The first pass of `GOOD_CAPTURES` on `mp0g` defers the capture 5. -/
theorem step_mp0g : next_move_step C0 pos0 ss0 mp0g = .defer 5 mp0d := by
  have hp : (pick_best mp0g.moves 0 5 0).move = 5 := by decide
  rw [step_good C0 pos0 ss0 mp0g rfl 0 5 255 rfl rfl rfl (by decide), hp,
    if_pos (by decide), if_neg (by decide)]
  rfl

/-- The first pass of `GOOD_CAPTURES` on `mpTg` defers the capture 3. -/
theorem step_mpTg :
    next_move_step C2 pos8 ss8 mpTg = .defer 3
      { mpTg with
        moves := Function.update (pick_best mpTg.moves 0 2) 1
          { pick_best mpTg.moves 0 2 1 with move := 3 }
        cur := .moves 1
        endBadCaptures := .moves 0 } := by
  have hp : (pick_best mpTg.moves 0 2 0).move = 3 := by decide
  rw [step_good C2 pos8 ss8 mpTg rfl 0 2 1 rfl rfl rfl (by decide), hp,
    if_pos (by decide), if_neg (by decide)]
  rfl

/-- The entries of the buffer of `mpFg` after `pick_best`: generated
captures, none of them `MOVE_NONE`. -/
theorem pick_mpFg (x : Int) (hx : 0 ≤ x ∧ x < 256) :
    (pick_best mpFg.moves 0 256 x).move ∈ posF.genCaptures := by
  apply pick_best_sat (fun m => m ∈ posF.genCaptures) mpFg.moves 0 256 _ x (Or.inl hx)
  intro j h1 h2
  have h3 : j < (posF.genCaptures.length : Int) := by
    rw [posF_length]
    exact h2
  exact capArr_sat C0 posF (fun m => m ∈ posF.genCaptures) (fun m hm => hm) mp8.moves j
    (Or.inl ⟨h1, h3⟩)

/-- The first pass of `GOOD_CAPTURES` on `mpFg` defers the capture picked. -/
theorem step_mpFg :
    next_move_step C0 posF ss8 mpFg = .defer (pick_best mpFg.moves 0 256 0).move
      { mpFg with
        moves := Function.update (pick_best mpFg.moves 0 256) 255
          { pick_best mpFg.moves 0 256 255 with
            move := (pick_best mpFg.moves 0 256 0).move }
        cur := .moves 1
        endBadCaptures := .moves 254 } := by
  have hm := pick_mpFg 0 (by decide)
  have hne : (pick_best mpFg.moves 0 256 0).move ≠ mpFg.ttMove := by
    intro h
    rw [h] at hm
    have h1 : (1 : Nat) ≤ mpFg.ttMove := (List.mem_range'_1.1 hm).1
    exact absurd h1 (by decide)
  rw [step_good C0 posF ss8 mpFg rfl 0 256 255 rfl rfl rfl (by decide), if_pos hne,
    if_neg (by decide)]
  rfl

/-- The entries 0 and 255 of the buffer of `mpFg` after `pick_best` hold
different captures. -/
theorem pick_mpFg_ne :
    (pick_best mpFg.moves 0 256 255).move ≠ (pick_best mpFg.moves 0 256 0).move := by
  have hperm := pick_best_perm mpFg.moves 0 255
  have hmoves : (slice mpFg.moves 0 256).map (fun e => e.move) = posF.genCaptures := by
    have h := movesOf_capArr C0 posF mp8.moves
    rw [posF_length] at h
    exact h
  have hnd : ((slice (pick_best mpFg.moves 0 256) 0 256).map fun e => e.move).Nodup := by
    have h1 := hperm.map fun e => e.move
    have h2 : ((slice mpFg.moves 0 256).map fun e => e.move).Nodup := by
      rw [hmoves]
      exact List.nodup_range' 1 256
    exact h1.nodup_iff.2 h2
  intro heq
  have hlen : ((slice (pick_best mpFg.moves 0 256) 0 256).map fun e => e.move).length = 256 := by
    rw [List.length_map, slice_length]
  have hb0 : 0 < ((slice (pick_best mpFg.moves 0 256) 0 256).map fun e => e.move).length := by
    rw [hlen]
    decide
  have hb255 :
      255 < ((slice (pick_best mpFg.moves 0 256) 0 256).map fun e => e.move).length := by
    rw [hlen]
    decide
  have h0 : ((slice (pick_best mpFg.moves 0 256) 0 256).map fun e => e.move)[0]
      = (pick_best mpFg.moves 0 256 0).move := by
    rw [List.getElem_map, slice_getElem]
    rfl
  have h255 : ((slice (pick_best mpFg.moves 0 256) 0 256).map fun e => e.move)[255]
      = (pick_best mpFg.moves 0 256 255).move := by
    rw [List.getElem_map, slice_getElem]
    rfl
  have := (List.Nodup.getElem_inj_iff hnd (i := 0) (j := 255)).1 (by rw [h0, h255, heq])
  exact absurd this (by decide)

end MoveSelection
namespace MoveSelection

variable (C : Consts) (pos : Position) (ss : Stack)

/-! ### Counting the passes that return -/

theorem setArr_endBadCaptures (mp : MovePicker) (p : Ptr) (a : Int → ExtMove) :
    (mp.setArr p a).endBadCaptures = mp.endBadCaptures := by
  cases p <;> rfl

theorem pick_endBadCaptures (mp : MovePicker) : mp.pick.endBadCaptures = mp.endBadCaptures := by
  unfold MovePicker.pick
  exact setArr_endBadCaptures _ _ _

theorem add_off (p : Ptr) (k : Int) : (p.add k).off = p.off + k := by
  cases p <;> rfl

/-- What a pass that changes no stage does to the three pointers. -/
theorem step_frame (mp : MovePicker) (hc : ¬ (mp.cur = mp.endMoves ∧ mp.stage ≠ STOP)) :
    match next_move_step C pos ss mp with
    | .ret _ mp' =>
      mp'.endMoves = mp.endMoves ∧ mp'.endBadCaptures = mp.endBadCaptures ∧
        (mp.stage ≠ STOP →
          mp'.cur.off = mp.cur.off + (if mp.stage = BAD_CAPTURES then -1 else 1))
    | .brk mp' => mp'.endBadCaptures = mp.endBadCaptures
    | .defer _ mp' =>
      mp.stage = GOOD_CAPTURES ∧ mp'.endBadCaptures.off = mp.endBadCaptures.off + -1
    | .abort => True := by
  unfold next_move_step
  rw [if_neg hc]
  rcases Nat.lt_or_ge mp.stage 17 with hlt | hge
  · have hcases : mp.stage = 0 ∨ mp.stage = 1 ∨ mp.stage = 2 ∨ mp.stage = 3 ∨ mp.stage = 4
        ∨ mp.stage = 5 ∨ mp.stage = 6 ∨ mp.stage = 7 ∨ mp.stage = 8 ∨ mp.stage = 9
        ∨ mp.stage = 10 ∨ mp.stage = 11 ∨ mp.stage = 12 ∨ mp.stage = 13 ∨ mp.stage = 14
        ∨ mp.stage = 15 ∨ mp.stage = 16 := by omega
    rcases hcases with hs | hs | hs | hs | hs | hs | hs | hs | hs | hs | hs | hs | hs | hs
      | hs | hs | hs
    all_goals
      simp only [hs]
      try split_ifs
      all_goals first
        | trivial
        | rfl
        | simp [add_off, pick_endMoves, pick_endBadCaptures, pick_cur, MovePicker.advance]
  · obtain ⟨k, hk⟩ : ∃ k, mp.stage = k + 17 := ⟨mp.stage - 17, by omega⟩
    simp [hk]

end MoveSelection
namespace MoveSelection

variable (C : Consts) (pos : Position) (ss : Stack)

/-- How `remaining` changes when `cur` moves by `dc` and `endBadCaptures` by
`db` within a stage: in `BAD_CAPTURES` (stage 4), in the main-search stages
before it, in the stages after it, and in `STOP` (stage 16). -/
theorem remaining_shift (mp mp' : MovePicker) (hs : mp'.stage = mp.stage)
    (he : mp'.endMoves.off = mp.endMoves.off) (dc db : Int)
    (hc : mp'.cur.off = mp.cur.off + dc)
    (hb : mp'.endBadCaptures.off = mp.endBadCaptures.off + db) :
    (mp.stage = 4 → remaining C pos mp' = remaining C pos mp + dc) ∧
    (mp.stage < 4 → remaining C pos mp' = remaining C pos mp - dc - db) ∧
    (4 < mp.stage → mp.stage ≠ 16 → remaining C pos mp' = remaining C pos mp - dc) ∧
    (mp.stage = 16 → remaining C pos mp' = remaining C pos mp) := by
  unfold remaining
  rw [hs, he, hc, hb]
  rcases Nat.lt_or_ge mp.stage 17 with hlt | hge
  · have hcases : mp.stage = 0 ∨ mp.stage = 1 ∨ mp.stage = 2 ∨ mp.stage = 3 ∨ mp.stage = 4
        ∨ mp.stage = 5 ∨ mp.stage = 6 ∨ mp.stage = 7 ∨ mp.stage = 8 ∨ mp.stage = 9
        ∨ mp.stage = 10 ∨ mp.stage = 11 ∨ mp.stage = 12 ∨ mp.stage = 13 ∨ mp.stage = 14
        ∨ mp.stage = 15 ∨ mp.stage = 16 := by omega
    rcases hcases with h | h | h | h | h | h | h | h | h | h | h | h | h | h | h | h | h
    all_goals
      refine ⟨fun h1 => ?_, fun h1 => ?_, fun h1 h2 => ?_, fun h1 => ?_⟩
      all_goals first
        | (exfalso; omega)
        | (simp only [h]; done)
        | (simp only [h]; ring)
  · obtain ⟨k, hk⟩ : ∃ k, mp.stage = k + 17 := ⟨mp.stage - 17, by omega⟩
    refine ⟨fun h1 => ?_, fun h1 => ?_, fun h1 h2 => ?_, fun h1 => ?_⟩
    all_goals first
      | (exfalso; omega)
      | (simp only [hk]; done)
      | (simp only [hk]; ring)

theorem off_moves (i : Int) : (Ptr.moves i).off = i := rfl

theorem off_killers (i : Int) : (Ptr.killers i).off = i := rfl

theorem killerCount_le (cm : Move) : killerCount ss cm ≤ 3 := by
  unfold killerCount
  split <;> decide

/-- Entering the next stage does not raise `remaining`. -/
theorem remaining_gen (mp mp' : MovePicker) (hce : mp.cur = mp.endMoves)
    (h : generate_next_stage C pos ss mp = some mp') :
    remaining C pos mp' ≤ remaining C pos mp := by
  have hseg : mp.endMoves.off - mp.cur.off = 0 := by rw [hce]; ring
  have hseg' : mp.cur.off - mp.endMoves.off = 0 := by rw [hce]; ring
  have hkc := killerCount_le ss mp.countermove
  have hcases : mp.stage = 0 ∨ mp.stage = 1 ∨ mp.stage = 2 ∨ mp.stage = 3 ∨ mp.stage = 4
      ∨ mp.stage = 5 ∨ mp.stage = 6 ∨ mp.stage = 7 ∨ mp.stage = 8 ∨ mp.stage = 9
      ∨ mp.stage = 10 ∨ mp.stage = 11 ∨ mp.stage = 12 ∨ mp.stage = 13 ∨ mp.stage = 14
      ∨ mp.stage = 15 ∨ 16 ≤ mp.stage := by omega
  rcases hcases with hs | hs | hs | hs | hs | hs | hs | hs | hs | hs | hs | hs | hs | hs | hs
    | hs | hs
  · rw [gns_captures C pos ss mp (Or.inl hs)] at h
    rw [← Option.some.inj h]
    simp only [remaining, hs, off_moves, off_killers, hseg]
    linarith
  · rw [gns_killers C pos ss mp hs] at h
    rw [← Option.some.inj h]
    simp only [remaining, hs, off_moves, off_killers, hseg]
    linarith
  · rw [gns_quiets C pos ss mp hs] at h
    rw [← Option.some.inj h]
    simp only [remaining, hs, off_moves, off_killers, hseg]
    linarith
  · rw [gns_bad C pos ss mp hs] at h
    rw [← Option.some.inj h]
    simp only [remaining, hs, off_moves, off_killers, hseg]
    linarith
  · rw [gns_stop C pos ss mp (Or.inl hs)] at h
    rw [← Option.some.inj h]
    simp only [remaining, hs, off_moves, off_killers, hseg']
    exact le_refl _
  · rw [gns_evasions C pos ss mp hs] at h
    rw [← Option.some.inj h]
    simp only [remaining, hs, off_moves, off_killers, hseg]
    linarith
  · rw [gns_stop C pos ss mp (Or.inr (Or.inl hs))] at h
    rw [← Option.some.inj h]
    simp only [remaining, hs, off_moves, off_killers, hseg]
    exact le_refl _
  · rw [gns_captures C pos ss mp (Or.inr (Or.inl hs))] at h
    rw [← Option.some.inj h]
    simp only [remaining, hs, off_moves, off_killers, hseg]
    linarith
  · rw [gns_checks C pos ss mp hs] at h
    rw [← Option.some.inj h]
    simp only [remaining, hs, off_moves, off_killers, hseg]
    linarith
  · rw [gns_stop C pos ss mp (Or.inr (Or.inr (Or.inl hs)))] at h
    rw [← Option.some.inj h]
    simp only [remaining, hs, off_moves, off_killers, hseg]
    exact le_refl _
  · rw [gns_captures C pos ss mp (Or.inr (Or.inr (Or.inl hs)))] at h
    rw [← Option.some.inj h]
    simp only [remaining, hs, off_moves, off_killers, hseg]
    linarith
  · rw [gns_stop C pos ss mp (Or.inr (Or.inr (Or.inr (Or.inl hs))))] at h
    rw [← Option.some.inj h]
    simp only [remaining, hs, off_moves, off_killers, hseg]
    exact le_refl _
  · rw [gns_captures C pos ss mp (Or.inr (Or.inr (Or.inr (Or.inl hs))))] at h
    rw [← Option.some.inj h]
    simp only [remaining, hs, off_moves, off_killers, hseg]
    linarith
  · rw [gns_stop C pos ss mp (Or.inr (Or.inr (Or.inr (Or.inr (Or.inl hs)))))] at h
    rw [← Option.some.inj h]
    simp only [remaining, hs, off_moves, off_killers, hseg]
    exact le_refl _
  · rw [gns_captures C pos ss mp (Or.inr (Or.inr (Or.inr (Or.inr hs))))] at h
    rw [← Option.some.inj h]
    simp only [remaining, hs, off_moves, off_killers, hseg]
    linarith
  · rw [gns_stop C pos ss mp (Or.inr (Or.inr (Or.inr (Or.inr (Or.inr hs)))))] at h
    rw [← Option.some.inj h]
    simp only [remaining, hs, off_moves, off_killers, hseg]
    exact le_refl _
  · rcases Nat.lt_or_ge mp.stage 17 with hlt | hge
    · have h16 : mp.stage = STOP := by
        show mp.stage = 16
        omega
      unfold generate_next_stage at h
      rw [if_pos h16] at h
      exact absurd h (by simp)
    · obtain ⟨k, hk⟩ : ∃ k, mp.stage = k + 17 := ⟨mp.stage - 17, by omega⟩
      unfold generate_next_stage at h
      rw [if_neg (by rw [hk]; show k + 17 ≠ 16; omega)] at h
      simp [hk] at h

end MoveSelection
namespace MoveSelection

variable (C : Consts) (pos : Position) (ss : Stack)

/-- A pass that returns outside `STOP` lowers `remaining`; no pass raises
it. -/
theorem remaining_step (mp : MovePicker) :
    match next_move_step C pos ss mp with
    | .ret _ mp' =>
      remaining C pos mp' + (if mp.stage = STOP then 0 else 1) ≤ remaining C pos mp
    | .brk mp' => remaining C pos mp' ≤ remaining C pos mp
    | .defer _ mp' => remaining C pos mp' ≤ remaining C pos mp
    | .abort => True := by
  by_cases hc : mp.cur = mp.endMoves ∧ mp.stage ≠ STOP
  · rw [step_gen C pos ss mp hc.1 hc.2]
    cases hg : generate_next_stage C pos ss mp with
    | none => trivial
    | some mp' => exact remaining_gen C pos ss mp mp' hc.1 hg
  · by_cases hstop : mp.stage = STOP
    · rw [step_STOP C pos ss mp hstop]
      simp [hstop]
    · have hst := step_stage C pos ss mp
      have hcur := step_cursor C pos ss mp hc
      have hfr := step_frame C pos ss mp hc
      revert hst hcur hfr
      cases next_move_step C pos ss mp with
      | ret m mp' =>
        intro hst _ hfr
        simp only at hst hfr ⊢
        rw [if_neg hstop]
        obtain ⟨he, hb, hcoff⟩ := hfr
        have hsh := remaining_shift C pos mp mp' hst (by rw [he])
          (if mp.stage = BAD_CAPTURES then -1 else 1) 0 (hcoff hstop) (by rw [hb]; ring)
        have h16 : mp.stage ≠ 16 := hstop
        rcases Nat.lt_trichotomy mp.stage 4 with h | h | h
        · have hne : ¬ mp.stage = BAD_CAPTURES := by
            show ¬ mp.stage = 4
            omega
          rw [if_neg hne] at hsh
          rw [hsh.2.1 h]
          linarith
        · have he4 : mp.stage = BAD_CAPTURES := h
          rw [if_pos he4] at hsh
          rw [hsh.1 h]
          linarith
        · have hne : ¬ mp.stage = BAD_CAPTURES := by
            show ¬ mp.stage = 4
            omega
          rw [if_neg hne] at hsh
          rw [hsh.2.2.1 h h16]
          linarith
      | brk mp' =>
        intro _ hcur hfr
        simp only at hcur hfr ⊢
        obtain ⟨h1, h2, h3, h4⟩ := hcur
        have hsh := remaining_shift C pos mp mp' h1 (by rw [h3]) 1 0
          (by rw [h2, add_off]) (by rw [hfr]; ring)
        have h16 : mp.stage ≠ 16 := hstop
        have hne4 : mp.stage ≠ 4 := by
          rcases h4 with h | h | h | (h | h | h | h | h) | h <;> rw [h] <;> decide
        rcases Nat.lt_trichotomy mp.stage 4 with h | h | h
        · rw [hsh.2.1 h]
          linarith
        · exact absurd h hne4
        · rw [hsh.2.2.1 h h16]
          linarith
      | defer m mp' =>
        intro _ hcur hfr
        simp only at hcur hfr ⊢
        obtain ⟨h1, h2, h3, _⟩ := hcur
        have hsh := remaining_shift C pos mp mp' h1 (by rw [h3]) 1 (-1)
          (by rw [h2, add_off]) hfr.2
        have hlt : mp.stage < 4 := by
          rw [hfr.1]
          decide
        rw [hsh.2.1 hlt]
        linarith
      | abort => intro _ _ _; trivial

/-- A call that returns outside `STOP` lowers `remaining`. -/
theorem remaining_next_move : ∀ (fuel : Nat) (mp : MovePicker) (m : Move) (mp' : MovePicker),
    next_move C pos ss fuel mp = some (m, mp') →
    remaining C pos mp' + (if mp'.stage = STOP then 0 else 1) ≤ remaining C pos mp := by
  intro fuel
  induction fuel with
  | zero => intro mp m mp' h; simp [next_move] at h
  | succ fuel ih =>
    intro mp m mp' h
    simp only [next_move] at h
    have hrem := remaining_step C pos ss mp
    have hst := step_stage C pos ss mp
    cases hs : next_move_step C pos ss mp with
    | ret m1 mp1 =>
      rw [hs] at h hrem hst
      simp only [Option.some.injEq, Prod.mk.injEq] at h
      obtain ⟨rfl, rfl⟩ := h
      simp only at hrem hst
      rw [hst]
      exact hrem
    | brk mp1 =>
      rw [hs] at h hrem
      exact le_trans (ih mp1 m mp' h) hrem
    | defer m1 mp1 =>
      rw [hs] at h hrem
      exact le_trans (ih mp1 m mp' h) hrem
    | abort =>
      rw [hs] at h
      simp at h

end MoveSelection
namespace MoveSelection

variable (C : Consts) (pos : Position) (ss : Stack)

/-- Under the invariant `remaining` is not negative. -/
theorem remaining_nonneg {P : Move → Prop} (mp : MovePicker) (hinv : Inv C P mp) :
    0 ≤ remaining C pos mp := by
  have hhint : HintOK P mp → 0 ≤ mp.endMoves.off - mp.cur.off := by
    intro h
    rcases h with h | ⟨h, _⟩
    · rw [h]; simp
    · rw [h, add_off]; simp
  have hrange : RangeOK P mp → 0 ≤ mp.endMoves.off - mp.cur.off := by
    rintro ⟨i, n, h1, h2, h3, _⟩
    rw [h1, h2, off_moves, off_moves]
    omega
  have htail : TailOK C P mp → 0 ≤ C.MAX_MOVES - 1 - mp.endBadCaptures.off := by
    rintro ⟨e, h1, h2, _⟩
    rw [h1, off_moves]
    omega
  rcases hinv with ⟨hs, hh, ht⟩ | ⟨hs, hh⟩ | ⟨hs, hce⟩ | ⟨hs, hr, ht⟩ | ⟨hs, hr, ht⟩
    | ⟨hs, hr⟩ | ⟨hs, hr⟩ | hs
  · have := hhint hh
    have := htail ht
    simp only [remaining, hs]
    positivity
  · have := hhint hh
    rcases hs with hs | hs | hs | hs <;> simp only [remaining, hs] <;> positivity
  · simp only [remaining, hs, hce, sub_self]
    positivity
  · have := hrange hr
    have := htail ht
    rcases hs with hs | hs <;> simp only [remaining, hs] <;> positivity
  · obtain ⟨i, n, h1, h2, h3⟩ := hr
    have := htail ht
    simp only [remaining, hs, h1, h2, off_killers]
    have : 0 ≤ n - i := by omega
    positivity
  · obtain ⟨c, e, h1, h2, h3, _⟩ := hr
    simp only [remaining, hs, h1, h2, off_moves]
    omega
  · have := hrange hr
    rcases hs with (hs | hs | hs | hs | hs) | hs <;> simp only [remaining, hs] <;> positivity
  · simp only [remaining, hs]
    exact le_refl _

/-- The calls that return a move other than `MOVE_NONE` are at most
`remaining` many. -/
theorem remaining_calls (fuel : Nat) :
    ∀ (k : Nat) (mp : MovePicker) (L : List (Move × MovePicker)),
      Inv C (fun _ => True) mp → calls C pos ss fuel k mp = some L →
      (((L.map Prod.fst).countP fun m => decide (m ≠ MOVE_NONE) : Nat) : Int)
        ≤ remaining C pos mp := by
  intro k
  induction k with
  | zero =>
    intro mp L hinv h
    simp only [calls, Option.some.injEq] at h
    rw [← h]
    simpa using remaining_nonneg C pos mp hinv
  | succ k ih =>
    intro mp L hinv h
    obtain ⟨m, mp1, L', rfl, hn, hc⟩ := calls_succ_some C pos ss h
    obtain ⟨hinv1, _, hstop⟩ :=
      inv_next_move_of C pos ss (inv_step_any C pos ss) fuel mp mp1 m hinv hn
    have h1 := remaining_next_move C pos ss fuel mp m mp1 hn
    have h2 := ih mp1 L' hinv1 hc
    rw [List.map_cons, List.countP_cons]
    by_cases hm : m = MOVE_NONE
    · have hd : ¬ (decide (m ≠ MOVE_NONE) = true) := by simp [hm]
      rw [if_neg hd]
      have : (0 : Int) ≤ if mp1.stage = STOP then 0 else 1 := by split <;> decide
      push_cast
      linarith
    · have hd : decide (m ≠ MOVE_NONE) = true := by simp [hm]
      have hne : mp1.stage ≠ STOP := fun hs => hm (hstop hs)
      rw [if_pos hd]
      rw [if_neg hne] at h1
      push_cast
      linarith

/-- What `remaining` is for a constructed picker. -/
theorem remaining_constructed (mp : MovePicker) (hc : Constructed C pos ss mp) :
    remaining C pos mp ≤ ((1 + genCount pos mp.stage + 3 : Nat) : Int) := by
  obtain ⟨hcur, hend, hebc, hst, _, _⟩ := constructed_facts C pos ss mp hc
  have hseg : mp.endMoves.off - mp.cur.off ≤ 1 := by
    rw [hcur, hend, off_moves, off_moves]
    split <;> decide
  have htail : C.MAX_MOVES - 1 - mp.endBadCaptures.off = 0 := by
    rw [hebc, off_moves]
    ring
  rcases hst with h | h | h | h | h | ⟨h, _⟩ <;>
    simp only [remaining, genCount, h, htail] <;> push_cast <;> linarith

/-- A pass either returns, or moves `cur` one entry towards `endMoves`
within the stage, or enters a later stage. -/
theorem pass_progress (mp mp' : MovePicker) (hinv : Inv C (fun _ => True) mp)
    (hafter : (next_move_step C pos ss mp).after = some mp') :
    (∃ m, next_move_step C pos ss mp = .ret m mp') ∨
    (mp'.stage = mp.stage ∧ mp'.endMoves = mp.endMoves ∧ mp'.cur.off = mp.cur.off + 1
      ∧ mp.cur.off < mp.endMoves.off) ∨
    (mp.stage < mp'.stage ∧ mp'.stage ≤ STOP) := by
  have hseg := inv_segment C mp hinv
  by_cases hc : mp.cur = mp.endMoves ∧ mp.stage ≠ STOP
  · rw [step_gen C pos ss mp hc.1 hc.2] at hafter
    cases hg : generate_next_stage C pos ss mp with
    | none =>
      rw [hg] at hafter
      simp [Step.after] at hafter
    | some mp1 =>
      rw [hg] at hafter
      simp only [Step.after, Option.some.injEq] at hafter
      subst hafter
      have hs1 := gns_stage C pos ss mp mp1 hg
      right; right
      rw [hs1]
      exact ⟨nextStage_gt mp.stage (lt_of_le_of_ne hseg.1 hc.2), nextStage_le mp.stage⟩
  · have hcur := step_cursor C pos ss mp hc
    have key : ∀ mp1 : MovePicker,
        mp1.stage = mp.stage ∧ mp1.cur = mp.cur.add 1 ∧ mp1.endMoves = mp.endMoves ∧
          (mp.stage = GOOD_CAPTURES ∨ mp.stage = KILLERS ∨ mp.stage = ALL_QUIETS
            ∨ IsPickStage mp.stage ∨ mp.stage = CHECKS) →
        mp1.stage = mp.stage ∧ mp1.endMoves = mp.endMoves ∧ mp1.cur.off = mp.cur.off + 1
          ∧ mp.cur.off < mp.endMoves.off := by
      rintro mp1 ⟨h1, h2, h3, h4⟩
      obtain ⟨hle, heq⟩ := hseg.2 h4
      have hne : mp.stage ≠ STOP := by
        rcases h4 with h | h | h | (h | h | h | h | h) | h <;> rw [h] <;> decide
      exact ⟨h1, h3, by rw [h2, add_off],
        lt_of_le_of_ne hle (fun h => hc ⟨heq h, hne⟩)⟩
    revert hcur hafter
    cases next_move_step C pos ss mp with
    | ret m mp1 =>
      intro hafter _
      simp only [Step.after, Option.some.injEq] at hafter
      exact Or.inl ⟨m, by rw [hafter]⟩
    | brk mp1 =>
      intro hafter hcur
      simp only [Step.after, Option.some.injEq] at hafter
      subst hafter
      exact Or.inr (Or.inl (key _ hcur))
    | defer m mp1 =>
      intro hafter hcur
      simp only [Step.after, Option.some.injEq] at hafter
      subst hafter
      exact Or.inr (Or.inl (key _ hcur))
    | abort =>
      intro hafter
      simp [Step.after] at hafter

end MoveSelection
namespace MoveSelection

variable (C : Consts) (pos : Position) (ss : Stack)

/-! ### From the end of `GOOD_CAPTURES` to `STOP`, whatever the buffer holds -/

/-- Once `GOOD_CAPTURES` has consumed its segment, the rest of main search
tries the killers, generates and tries the quiet moves and then returns the
`k` entries from `moves + MAX_MOVES - 1` down to `endBadCaptures + 1` as
they are after the quiet moves have been generated. -/
theorem seg_after_good (mp : MovePicker) (hs : mp.stage = GOOD_CAPTURES)
    (hcur : mp.cur = mp.endMoves) (e : Int) (hebc : mp.endBadCaptures = .moves e)
    (k : Nat) (hk : C.MAX_MOVES - 1 = e + k) :
    ∃ mp', Seg C pos ss mp
      (((killerList ss mp.countermove).filter (keepKiller pos mp.ttMove)).map
          (Event.ret KILLERS) ++
        (((quietOrder C pos ss mp.depth mp.moves).filter
            (keepQuiet ss mp.ttMove mp.countermove)).map (Event.ret ALL_QUIETS) ++
          (tailMoves (quietArr C pos ss mp.depth mp.moves) (C.MAX_MOVES - 1) k).map
            (Event.ret BAD_CAPTURES))) mp' ∧ mp'.stage = STOP := by
  obtain ⟨cm, d, tt, kl, rs, th, st, egq, ebc, mv, cur, em⟩ := mp
  simp only at hs hcur hebc ⊢
  subst hs
  subst hcur
  subst hebc
  have h4 := Seg.of_gen C pos ss
    (q := ⟨cm, d, tt, kl, rs, th, GOOD_CAPTURES, egq, .moves e, mv, cur, cur⟩)
    rfl (by show GOOD_CAPTURES ≠ STOP; decide) (gns_killers C pos ss _ rfl)
  have hkc : ((killerCount ss cm).toNat : Int) = killerCount ss cm := by
    unfold killerCount; split <;> simp
  have h5 := seg_linear C pos ss
    ⟨cm, d, tt, killerArr ss cm kl, rs, th, KILLERS, egq, .moves e, mv,
      .killers 0, .killers (killerCount ss cm)⟩ (Or.inl rfl) (.killers 0) (killerCount ss cm)
    (by simp [Ptr.add]) (killerCount ss cm).toNat 0 (by rw [hkc]; simp)
  simp only [Ptr.add, zero_add, Ptr.off, MovePicker.arr, add_zero] at h5
  rw [movesOf_killerArr] at h5
  have h6 := Seg.of_gen C pos ss
    (q := ⟨cm, d, tt, killerArr ss cm kl, rs, th, KILLERS, egq, .moves e, mv,
      .killers (killerCount ss cm), .killers (killerCount ss cm)⟩)
    rfl (by show KILLERS ≠ STOP; decide) (gns_quiets C pos ss _ rfl)
  simp only at h6
  generalize hegq : (if d < 3 * C.ONE_PLY then
      Ptr.moves (0 + ((slice (scoreRange (quietValue C pos ss) (generate pos.genQuiets mv)
        pos.genQuiets.length) 0 ((pos.genQuiets.length : Int) - 0).toNat).countP
          (fun m => decide (m.value > VALUE_ZERO)) : Nat))
      else Ptr.moves pos.genQuiets.length) = egq' at h6
  have h7 := seg_linear C pos ss
    ⟨cm, d, tt, killerArr ss cm kl, rs, th, ALL_QUIETS, egq', .moves e,
      quietArr C pos ss d mv, .moves 0, .moves pos.genQuiets.length⟩ (Or.inr (Or.inl rfl))
    (.moves 0) pos.genQuiets.length (by simp [Ptr.add]) pos.genQuiets.length 0 (by simp)
  simp only [Ptr.add, zero_add, Ptr.off, MovePicker.arr, add_zero] at h7
  rw [show (slice (quietArr C pos ss d mv) 0 pos.genQuiets.length).map (fun e => e.move)
    = quietOrder C pos ss d mv from rfl] at h7
  have h8 := Seg.of_gen C pos ss
    (q := ⟨cm, d, tt, killerArr ss cm kl, rs, th, ALL_QUIETS, egq', .moves e,
      quietArr C pos ss d mv, .moves pos.genQuiets.length, .moves pos.genQuiets.length⟩)
    rfl (by show ALL_QUIETS ≠ STOP; decide) (gns_bad C pos ss _ rfl)
  have h9 := seg_bad C pos ss
    ⟨cm, d, tt, killerArr ss cm kl, rs, th, BAD_CAPTURES, egq', .moves e,
      quietArr C pos ss d mv, .moves (C.MAX_MOVES - 1), .moves e⟩ rfl e rfl
    k (C.MAX_MOVES - 1) hk
  simp only at h9
  have h10 := Seg.of_gen C pos ss
    (q := ⟨cm, d, tt, killerArr ss cm kl, rs, th, BAD_CAPTURES, egq', .moves e,
      quietArr C pos ss d mv, .moves e, .moves e⟩)
    rfl (by show BAD_CAPTURES ≠ STOP; decide) (gns_stop C pos ss _ (Or.inl rfl))
  have hkk : linKeep pos
      ⟨cm, d, tt, killerArr ss cm kl, rs, th, KILLERS, egq, .moves e, mv,
        .killers 0, .killers (killerCount ss cm)⟩ = keepKiller pos tt := by
    funext m
    simp [linKeep, keepKiller]
  have hq : linKeep pos
      ⟨cm, d, tt, killerArr ss cm kl, rs, th, ALL_QUIETS, egq', .moves e,
        quietArr C pos ss d mv, .moves 0, .moves pos.genQuiets.length⟩
      = keepQuiet ss tt cm := by
    funext m
    obtain ⟨e0, e1, e2⟩ := killerArr_moves ss cm kl
    simp [linKeep, keepQuiet, e0, e1, e2]
  rw [hkk] at h5
  rw [hq] at h7
  have hall := Seg.trans C pos ss h4 (Seg.trans C pos ss h5 (Seg.trans C pos ss h6
      (Seg.trans C pos ss h7 (Seg.trans C pos ss h8 (Seg.trans C pos ss h9 h10)))))
  simp only [List.nil_append, List.append_nil] at hall
  exact ⟨_, hall, rfl⟩

end MoveSelection
namespace MoveSelection

/-! ### Main search over a buffer of three entries -/

theorem mkMain_mpH : MovePicker.mkMain Cb3 posH ss8 raw0 2 5 = some mpH := rfl

theorem mkMain_mpW : MovePicker.mkMain Cb3 posW ss8 raw0 102 5 = some mpW := rfl

theorem step_mpH : next_move_step Cb3 posH ss8 mpH = .ret 2 { mpH with cur := .moves 1 } := by
  rw [step_hint Cb3 posH ss8 mpH (Or.inl rfl) (by decide)]
  rfl

theorem step_mpHh : next_move_step Cb3 posH ss8 { mpH with cur := .moves 1 } = .brk mpHg := by
  rw [step_gen Cb3 posH ss8 _ rfl (by decide), gns_captures Cb3 posH ss8 _ (Or.inl rfl)]
  rfl

/-- The first pass of `GOOD_CAPTURES` on `mpHg` picks the capture 7, the most
valuable victim, and defers it to the slot 2, over the capture 5. -/
theorem step_mpHg : next_move_step Cb3 posH ss8 mpHg = .defer 7 mpH1 := by
  have hp : (pick_best mpHg.moves 0 3 0).move = 7 := by decide
  rw [step_good Cb3 posH ss8 mpHg rfl 0 3 2 rfl rfl rfl (by decide), hp,
    if_pos (by decide), if_neg (by decide)]
  rfl

/-- The next pass picks the slot 2, which keeps the score of the capture 5
and now holds the move 7, and defers that move to the slot 1. -/
theorem step_mpH1 : next_move_step Cb3 posH ss8 mpH1 = .defer 7 mpH2 := by
  have hp : (pick_best mpH1.moves 1 3 1).move = 7 := by decide
  rw [step_good Cb3 posH ss8 mpH1 rfl 1 3 1 rfl rfl rfl (by decide), hp,
    if_pos (by decide), if_neg (by decide)]
  rfl

/-- The last pass of `GOOD_CAPTURES` picks the hint, which is skipped. -/
theorem step_mpH2 : next_move_step Cb3 posH ss8 mpH2 = .brk mpH3 := by
  have hp : (pick_best mpH2.moves 2 3 2).move = 2 := by decide
  rw [step_good Cb3 posH ss8 mpH2 rfl 2 3 0 rfl rfl rfl (by decide), hp,
    if_neg (by decide)]
  rfl

/-- The trace of main search on `mpH`: the hint 2, two deferrals of the
capture 7, and in `BAD_CAPTURES` the moves 2 and 7. -/
theorem run_mpH : ∃ F, run Cb3 posH ss8 F mpH = some
    [Event.ret MAIN_SEARCH 2, Event.defer 7, Event.defer 7,
      Event.ret BAD_CAPTURES 2, Event.ret BAD_CAPTURES 7] := by
  have h1 : Seg Cb3 posH ss8 mpH [Event.ret MAIN_SEARCH 2] { mpH with cur := .moves 1 } :=
    Seg.of_ret Cb3 posH ss8 (by decide) step_mpH
  have h2 : Seg Cb3 posH ss8 { mpH with cur := .moves 1 } [] mpHg :=
    Seg.of_brk Cb3 posH ss8 (by decide) step_mpHh
  have h3 : Seg Cb3 posH ss8 mpHg [Event.defer 7] mpH1 :=
    Seg.of_defer Cb3 posH ss8 (by decide) step_mpHg
  have h4 : Seg Cb3 posH ss8 mpH1 [Event.defer 7] mpH2 :=
    Seg.of_defer Cb3 posH ss8 (by decide) step_mpH1
  have h5 : Seg Cb3 posH ss8 mpH2 [] mpH3 :=
    Seg.of_brk Cb3 posH ss8 (by decide) step_mpH2
  obtain ⟨mp', h6, hst⟩ := seg_after_good Cb3 posH ss8 mpH3 rfl rfl 0 rfl 2 (by decide)
  have hk : (killerList ss8 mpH3.countermove).filter (keepKiller posH mpH3.ttMove) = [] := by
    decide
  have hq : quietOrder Cb3 posH ss8 mpH3.depth mpH3.moves = [] := rfl
  have ht : tailMoves (quietArr Cb3 posH ss8 mpH3.depth mpH3.moves) (Cb3.MAX_MOVES - 1) 2
      = [2, 7] := by decide
  rw [hk, hq, ht] at h6
  have hall := Seg.trans Cb3 posH ss8 h1 (Seg.trans Cb3 posH ss8 h2 (Seg.trans Cb3 posH ss8 h3
    (Seg.trans Cb3 posH ss8 h4 (Seg.trans Cb3 posH ss8 h5 h6))))
  exact Seg.run_of_stop Cb3 posH ss8 hall hst

theorem step_mpW : next_move_step Cb3 posW ss8 mpW = .ret 102 { mpW with cur := .moves 1 } := by
  rw [step_hint Cb3 posW ss8 mpW (Or.inl rfl) (by decide)]
  rfl

theorem step_mpWh : next_move_step Cb3 posW ss8 { mpW with cur := .moves 1 } = .brk mpWg := by
  rw [step_gen Cb3 posW ss8 _ rfl (by decide), gns_captures Cb3 posW ss8 _ (Or.inl rfl)]
  rfl

/-- The pass of `GOOD_CAPTURES` on `mpWg` defers the capture 1 to the
slot 2. -/
theorem step_mpWg : next_move_step Cb3 posW ss8 mpWg = .defer 1 mpW1 := by
  have hp : (pick_best mpWg.moves 0 1 0).move = 1 := by decide
  rw [step_good Cb3 posW ss8 mpWg rfl 0 1 2 rfl rfl rfl (by decide), hp,
    if_pos (by decide), if_neg (by decide)]
  rfl

/-- The trace of main search on `mpW`: the hint 102, the deferral of the
capture 1, the quiet moves 100 and 101, and in `BAD_CAPTURES` the quiet move
102 that `generate<QUIETS>` wrote over the deferred capture. -/
theorem run_mpW : ∃ F, run Cb3 posW ss8 F mpW = some
    [Event.ret MAIN_SEARCH 102, Event.defer 1, Event.ret ALL_QUIETS 100,
      Event.ret ALL_QUIETS 101, Event.ret BAD_CAPTURES 102] := by
  have h1 : Seg Cb3 posW ss8 mpW [Event.ret MAIN_SEARCH 102] { mpW with cur := .moves 1 } :=
    Seg.of_ret Cb3 posW ss8 (by decide) step_mpW
  have h2 : Seg Cb3 posW ss8 { mpW with cur := .moves 1 } [] mpWg :=
    Seg.of_brk Cb3 posW ss8 (by decide) step_mpWh
  have h3 : Seg Cb3 posW ss8 mpWg [Event.defer 1] mpW1 :=
    Seg.of_defer Cb3 posW ss8 (by decide) step_mpWg
  obtain ⟨mp', h6, hst⟩ := seg_after_good Cb3 posW ss8 mpW1 rfl rfl 1 rfl 1 (by decide)
  have hk : (killerList ss8 mpW1.countermove).filter (keepKiller posW mpW1.ttMove) = [] := by
    decide
  have hq : quietOrder Cb3 posW ss8 mpW1.depth mpW1.moves = [100, 101, 102] := by decide
  have ht : tailMoves (quietArr Cb3 posW ss8 mpW1.depth mpW1.moves) (Cb3.MAX_MOVES - 1) 1
      = [102] := by decide
  rw [hk, hq, ht] at h6
  have hall := Seg.trans Cb3 posW ss8 h1 (Seg.trans Cb3 posW ss8 h2
    (Seg.trans Cb3 posW ss8 h3 h6))
  exact Seg.run_of_stop Cb3 posW ss8 hall hst

end MoveSelection
namespace MoveSelection

/-! ### Calls on the inputs with a buffer of three entries -/

theorem partitionSpec_Cb3 : PartitionSpec Cb3 := partitionSpec_C0

/-- The calls on `mpH` return 2, 2, 7 and then `MOVE_NONE`. -/
theorem calls_mpH : ∃ N, ∀ fuel k, N ≤ fuel → N ≤ k →
    ∃ L, calls Cb3 posH ss8 fuel k mpH = some L ∧
      L.map Prod.fst = [2, 2, 7] ++ List.replicate (k - 3) MOVE_NONE ∧
      returnedIn BAD_CAPTURES L = [2, 7] := by
  obtain ⟨F, hrun⟩ := run_mpH
  refine ⟨max F 3, fun fuel k hfuel hk => ?_⟩
  obtain ⟨L, hL, hm, hin⟩ := returnedIn_of_trace Cb3 posH ss8 hrun fuel k
    (le_trans (le_max_left _ _) hfuel) (le_trans (le_max_right _ _) hk)
  exact ⟨L, hL, hm, by rw [hin BAD_CAPTURES (by decide)]; rfl⟩

/-- The calls on `mpW` return 102, 100, 101, 102 and then `MOVE_NONE`. -/
theorem calls_mpW : ∃ N, ∀ fuel k, N ≤ fuel → N ≤ k →
    ∃ L, calls Cb3 posW ss8 fuel k mpW = some L ∧
      L.map Prod.fst = [102, 100, 101, 102] ++ List.replicate (k - 4) MOVE_NONE ∧
      returnedIn GOOD_CAPTURES L = [] ∧
      returnedIn BAD_CAPTURES L = [102] := by
  obtain ⟨F, hrun⟩ := run_mpW
  refine ⟨max F 4, fun fuel k hfuel hk => ?_⟩
  obtain ⟨L, hL, hm, hin⟩ := returnedIn_of_trace Cb3 posW ss8 hrun fuel k
    (le_trans (le_max_left _ _) hfuel) (le_trans (le_max_right _ _) hk)
  exact ⟨L, hL, hm, by rw [hin GOOD_CAPTURES (by decide)]; rfl,
    by rw [hin BAD_CAPTURES (by decide)]; rfl⟩

end MoveSelection
namespace MoveSelection

/-! ### The two calls of quiescence search on `posP` -/

theorem step_mpPQ : next_move_step C0 posP ss0 mpPQ = .brk mpPQg := by
  rw [step_gen C0 posP ss0 mpPQ rfl (by decide), gns_captures C0 posP ss0 mpPQ
    (Or.inr (Or.inr (Or.inl rfl)))]
  rfl

theorem step_mpPQg : next_move_step C0 posP ss0 mpPQg = .ret 9 mpPQ1 := by
  have hp : (pick_best mpPQg.moves 0 1 0).move = 9 := by decide
  rw [step_pick C0 posP ss0 mpPQg (Or.inr (Or.inr (Or.inl rfl))) 0 1 rfl rfl (by decide), hp,
    if_pos (by decide)]
  rfl

theorem step_mpPQ1 : next_move_step C0 posP ss0 mpPQ1 = .brk mpPQ2 := by
  rw [step_gen C0 posP ss0 mpPQ1 rfl (by decide), gns_stop C0 posP ss0 mpPQ1
    (Or.inr (Or.inr (Or.inr (Or.inl rfl))))]
  rfl

/-- The first call on `mpPQ` returns the capture 9. -/
theorem next_move_mpPQ (f : Nat) : next_move C0 posP ss0 (f + 2) mpPQ = some (9, mpPQ1) := by
  rw [next_move, step_mpPQ]
  simp only
  rw [next_move, step_mpPQg]

/-- The second call returns `MOVE_NONE` and leaves the picker in `STOP`. -/
theorem next_move_mpPQ1 (f : Nat) :
    next_move C0 posP ss0 (f + 2) mpPQ1 = some (MOVE_NONE, mpPQ2) := by
  rw [next_move, step_mpPQ1]
  simp only
  exact next_move_STOP C0 posP ss0 mpPQ2 rfl f

theorem reachable_mpPQ1 : Reachable C0 posP ss0 mpPQ1 :=
  Reachable.call (Reachable.init (Or.inr (Or.inl ⟨raw0, 0, -3, 5, mkQsearch_mpPQ⟩)))
    (next_move_mpPQ 0)

theorem reachable_mpPQ2 : Reachable C0 posP ss0 mpPQ2 :=
  Reachable.call reachable_mpPQ1 (next_move_mpPQ1 0)

/-! ### The quiet stage on `posM`, whose quiet scores are 7, -5 and 7 -/

theorem mkMain_mpS_posM : MovePicker.mkMain C0 posM ss0 raw0 4 2 = some mpS := rfl

/-- Main search on `posM` returns the quiet moves 100 and 101 during
`ALL_QUIETS`. -/
theorem quiets_posM : ∃ N, ∀ fuel, N ≤ fuel →
    ∃ L, calls C0 posM ss0 fuel 12 mpS = some L ∧
      100 ∈ returnedIn ALL_QUIETS L ∧ 101 ∈ returnedIn ALL_QUIETS L := by
  obtain ⟨af, F, T, hrun, hrets, _⟩ := constructed_run C0 posM ss0 partitionSpec_C0 mpS
    (Or.inl ⟨raw0, 4, 2, mkMain_mpS_posM⟩) (fun _ => by decide)
  obtain ⟨hq, _, _⟩ := retsIn_main_quiets C0 posM ss0
    (show mpS.stage = MAIN_SEARCH from rfl) hrets
  have hperm := quietOrder_perm C0 posM ss0 partitionSpec_C0 mpS.depth af
  have hlen : (rets T).length ≤ 12 := by
    rw [hrets, modeRets_main C0 posM ss0 mpS af rfl]
    have h2 : (quietOrder C0 posM ss0 mpS.depth af).length = 3 := hperm.length_eq
    have h5 := List.length_filter_le (keepQuiet ss0 mpS.ttMove mpS.countermove)
      (quietOrder C0 posM ss0 mpS.depth af)
    have h6 : ((killerList ss0 mpS.countermove).filter (keepKiller posM mpS.ttMove)).length
        ≤ 3 := by decide
    have h8 : (hintRets MAIN_SEARCH mpS.ttMove).length ≤ 1 := by decide
    have h9 : (List.filter (isGood posM mpS.ttMove) (capPicks C0 posM mpS.moves)).length
        + (List.filter (isBad posM mpS.ttMove) (capPicks C0 posM mpS.moves)).length ≤ 5 := by
      decide
    simp only [List.length_append, tag, List.length_map]
    omega
  refine ⟨F, fun fuel hfuel => ?_⟩
  obtain ⟨L, hL, _, hin⟩ := returnedIn_of_trace C0 posM ss0 hrun fuel 12 hfuel hlen
  refine ⟨L, hL, ?_, ?_⟩ <;> rw [hin ALL_QUIETS (by decide), hq] <;>
    refine List.mem_filter.2 ⟨hperm.mem_iff.2 (by decide), by decide⟩

end MoveSelection
namespace MoveSelection

variable (C : Consts) (pos : Position) (ss : Stack)

/-! ### The 32-bit arithmetic of the quiet score -/

theorem wrap32_of_fits {x : Int} (h : fits32 x) : wrap32 x = x := by
  unfold fits32 at h
  unfold wrap32
  omega

theorem cmTerm_eq (t : Option (Piece → Square → Value)) (w : Int) (pc : Piece) (sq : Square) :
    cmTerm t w pc sq = wrap32 (t.elim 0 (fun tbl => w * tbl pc sq)) := by
  cases t <;> rfl

theorem cmEntry_eq (t : Option (Piece → Square → Value)) (pc : Piece) (sq : Square) :
    cmEntry t pc sq = t.elim 0 (fun tbl => tbl pc sq) := by
  cases t <;> rfl

/-- The quiet score is the sum of the four terms, each product and each sum
reduced to 32 bits. -/
theorem quietValue_wrapped (m : Move) :
    quietValue C pos ss m
      = wrap32 (wrap32 (wrap32 (pos.history (pos.moved_piece m) (C.to_sq m)
            + wrap32 (ss.cm.elim 0 (fun t => 3 * t (pos.moved_piece m) (C.to_sq m))))
          + wrap32 (ss.fm.elim 0 (fun t => 2 * t (pos.moved_piece m) (C.to_sq m))))
        + ss.f2.elim 0 (fun t => t (pos.moved_piece m) (C.to_sq m))) := by
  rw [quietValue, cmTerm_eq, cmTerm_eq, cmEntry_eq]

/-- When no product and no partial sum leaves the 32-bit range, the quiet
score is the exact sum. -/
theorem quietValue_exact (m : Move)
    (h1 : fits32 (ss.cm.elim 0 (fun t => 3 * t (pos.moved_piece m) (C.to_sq m))))
    (h2 : fits32 (ss.fm.elim 0 (fun t => 2 * t (pos.moved_piece m) (C.to_sq m))))
    (h3 : fits32 (pos.history (pos.moved_piece m) (C.to_sq m)
      + ss.cm.elim 0 (fun t => 3 * t (pos.moved_piece m) (C.to_sq m))))
    (h4 : fits32 (pos.history (pos.moved_piece m) (C.to_sq m)
      + ss.cm.elim 0 (fun t => 3 * t (pos.moved_piece m) (C.to_sq m))
      + ss.fm.elim 0 (fun t => 2 * t (pos.moved_piece m) (C.to_sq m))))
    (h5 : fits32 (pos.history (pos.moved_piece m) (C.to_sq m)
      + ss.cm.elim 0 (fun t => 3 * t (pos.moved_piece m) (C.to_sq m))
      + ss.fm.elim 0 (fun t => 2 * t (pos.moved_piece m) (C.to_sq m))
      + ss.f2.elim 0 (fun t => t (pos.moved_piece m) (C.to_sq m)))) :
    quietValue C pos ss m
      = pos.history (pos.moved_piece m) (C.to_sq m)
        + ss.cm.elim 0 (fun t => 3 * t (pos.moved_piece m) (C.to_sq m))
        + ss.fm.elim 0 (fun t => 2 * t (pos.moved_piece m) (C.to_sq m))
        + ss.f2.elim 0 (fun t => t (pos.moved_piece m) (C.to_sq m)) := by
  rw [quietValue_wrapped, wrap32_of_fits h1, wrap32_of_fits h2, wrap32_of_fits h3,
    wrap32_of_fits h4, wrap32_of_fits h5]

/-- Entries of absolute value at most `B` with `7 * B < 2^31` cause no
overflow. -/
theorem quietValue_bounded (m : Move) (B : Int) (hB : 7 * B < 2147483648)
    (hh : |pos.history (pos.moved_piece m) (C.to_sq m)| ≤ B)
    (hcm : ∀ t, ss.cm = some t → |t (pos.moved_piece m) (C.to_sq m)| ≤ B)
    (hfm : ∀ t, ss.fm = some t → |t (pos.moved_piece m) (C.to_sq m)| ≤ B)
    (hf2 : ∀ t, ss.f2 = some t → |t (pos.moved_piece m) (C.to_sq m)| ≤ B) :
    quietValue C pos ss m
      = pos.history (pos.moved_piece m) (C.to_sq m)
        + ss.cm.elim 0 (fun t => 3 * t (pos.moved_piece m) (C.to_sq m))
        + ss.fm.elim 0 (fun t => 2 * t (pos.moved_piece m) (C.to_sq m))
        + ss.f2.elim 0 (fun t => t (pos.moved_piece m) (C.to_sq m)) := by
  have hB0 : 0 ≤ B := le_trans (abs_nonneg _) hh
  have ha : |ss.cm.elim 0 (fun t => t (pos.moved_piece m) (C.to_sq m))| ≤ B := by
    cases h : ss.cm with
    | none => simpa using hB0
    | some t => simpa using hcm t h
  have hb : |ss.fm.elim 0 (fun t => t (pos.moved_piece m) (C.to_sq m))| ≤ B := by
    cases h : ss.fm with
    | none => simpa using hB0
    | some t => simpa using hfm t h
  have hc : |ss.f2.elim 0 (fun t => t (pos.moved_piece m) (C.to_sq m))| ≤ B := by
    cases h : ss.f2 with
    | none => simpa using hB0
    | some t => simpa using hf2 t h
  have ea : ss.cm.elim 0 (fun t => 3 * t (pos.moved_piece m) (C.to_sq m))
      = 3 * ss.cm.elim 0 (fun t => t (pos.moved_piece m) (C.to_sq m)) := by
    cases ss.cm <;> simp
  have eb : ss.fm.elim 0 (fun t => 2 * t (pos.moved_piece m) (C.to_sq m))
      = 2 * ss.fm.elim 0 (fun t => t (pos.moved_piece m) (C.to_sq m)) := by
    cases ss.fm <;> simp
  rw [abs_le] at hh ha hb hc
  have key : ∀ h a b c : Int, (-B ≤ h ∧ h ≤ B) → (-B ≤ a ∧ a ≤ B) → (-B ≤ b ∧ b ≤ B) →
      (-B ≤ c ∧ c ≤ B) →
      fits32 (3 * a) ∧ fits32 (2 * b) ∧ fits32 (h + 3 * a) ∧ fits32 (h + 3 * a + 2 * b) ∧
        fits32 (h + 3 * a + 2 * b + c) := by
    intro h a b c h1 h2 h3 h4
    unfold fits32
    omega
  obtain ⟨k1, k2, k3, k4, k5⟩ := key _ _ _ _ hh ha hb hc
  rw [← ea] at k1 k3 k4 k5
  rw [← eb] at k2 k4 k5
  exact quietValue_exact C pos ss m k1 k2 k3 k4 k5

end MoveSelection
namespace MoveSelection

variable (C : Consts) (pos : Position) (ss : Stack)

/-! ## The first call -/

theorem first_call_hint (mp : MovePicker) (hs : IsHintStage mp.stage)
    (hcur : mp.cur = .moves 0) (hend : mp.endMoves = .moves 1) (fuel : Nat) :
    next_move C pos ss (fuel + 1) mp = some (mp.ttMove, { mp with cur := .moves 1 }) := by
  have hne : mp.cur ≠ mp.endMoves := by rw [hcur, hend]; simp
  simp only [next_move, step_hint C pos ss mp hs hne, hcur, Ptr.add, zero_add]

/-- Claim C2 (hint priority): a picker built by the main-search constructor, by
the quiescence constructor in a mode other than recapture, or by the probcut
constructor, from a hint `ttm` that is not `MOVE_NONE` and is pseudo-legal
(and, for probcut, is a capture with `see(ttm) > threshold`), returns `ttm`
at its first call of `next_move`, whatever the fuel (one pass suffices). -/
theorem hint_priority (raw mp : MovePicker) (ttm : Move) (d : Depth) (s : Square) (th : Value)
    (hmk : MovePicker.mkMain C pos ss raw ttm d = some mp
      ∨ (MovePicker.mkQsearch C pos raw ttm d s = some mp ∧ mp.stage ≠ RECAPTURE)
      ∨ (MovePicker.mkProbcut C pos raw ttm th = some mp ∧ pos.capture ttm = true
          ∧ pos.see ttm > th))
    (h0 : ttm ≠ MOVE_NONE) (hpl : pos.pseudo_legal ttm = true) (fuel : Nat) :
    ∃ mp', next_move C pos ss (fuel + 1) mp = some (ttm, mp') := by
  have h0' : ttm ≠ 0 := h0
  rcases hmk with h | ⟨h, hr⟩ | ⟨h, hc, hsee⟩
  · obtain ⟨_, hst, htt, hcur, hend, _⟩ := mkMain_spec C pos ss h
    rw [if_pos ⟨h0', hpl⟩] at htt
    rw [htt, if_pos h0] at hend
    have hs : IsHintStage mp.stage := by
      rw [hst]; split
      · exact Or.inr (Or.inl rfl)
      · exact Or.inl rfl
    exact ⟨_, by rw [first_call_hint C pos ss mp hs hcur hend fuel, htt]⟩
  · obtain ⟨_, hst, htt, _, hcur, hend, _⟩ := mkQsearch_spec C pos h
    rw [if_neg hr, if_pos ⟨h0', hpl⟩] at htt
    rw [htt, if_pos h0] at hend
    have hs : IsHintStage mp.stage := by
      rw [hst] at hr ⊢
      split
      · exact Or.inr (Or.inl rfl)
      · split
        · exact Or.inr (Or.inr (Or.inl rfl))
        · split
          · exact Or.inr (Or.inr (Or.inr (Or.inl rfl)))
          · rename_i h1 h2 h3
            simp [h1, h2, h3] at hr
    exact ⟨_, by rw [first_call_hint C pos ss mp hs hcur hend fuel, htt]⟩
  · obtain ⟨_, hst, _, htt, hcur, hend, _⟩ := mkProbcut_spec C pos h
    rw [if_pos ⟨h0', hpl, hc, hsee⟩] at htt
    rw [htt, if_pos h0] at hend
    have hs : IsHintStage mp.stage := Or.inr (Or.inr (Or.inr (Or.inr hst)))
    exact ⟨_, by rw [first_call_hint C pos ss mp hs hcur hend fuel, htt]⟩

/-- Witness of `hint_priority`: main search on `pos0` with hint 4. -/
theorem hint_priority_witness :
    MovePicker.mkMain C0 pos0 ss0 raw0 4 5 = some mp0 ∧ (4 : Move) ≠ MOVE_NONE
      ∧ pos0.pseudo_legal 4 = true
      ∧ ∃ mp', next_move C0 pos0 ss0 (0 + 1) mp0 = some (4, mp') :=
  ⟨rfl, by decide, rfl,
    hint_priority C0 pos0 ss0 raw0 mp0 4 5 0 0 (Or.inl rfl) (by decide) rfl 0⟩

end MoveSelection
namespace MoveSelection

variable (C : Consts) (pos : Position) (ss : Stack)

/-! ## Exhaustion and pseudo-legality -/

/-- Claim C1 (exhaustion is terminal): for a picker obtained from any of the
three constructors by calls of `next_move`, on a position whose generators
never emit `MOVE_NONE` (and with `std::partition` meeting its contract), a
call that returns `MOVE_NONE` leaves the picker in `STOP`, and from then on
every call returns `MOVE_NONE` and leaves the picker as it is; and a call
made in `STOP` returns `MOVE_NONE` and leaves the whole picker (stage,
cursors, buffer) unchanged. -/
theorem exhaustion_is_terminal (hpart : PartitionSpec C)
    (hgen : GenSat pos fun m => m ≠ MOVE_NONE) (mp : MovePicker)
    (hreach : Reachable C pos ss mp) :
    (∀ fuel m mp', next_move C pos ss fuel mp = some (m, mp') → m = MOVE_NONE →
        mp'.stage = STOP ∧
        ∀ fuel' k, calls C pos ss (fuel' + 1) k mp' = some (List.replicate k (MOVE_NONE, mp'))) ∧
    (mp.stage = STOP → ∀ fuel, next_move C pos ss (fuel + 1) mp = some (MOVE_NONE, mp)) := by
  have hinv := inv_reachable C pos ss hpart hgen (fun m hm _ => hm) mp hreach
  constructor
  · intro fuel m mp' h hm
    obtain ⟨_, h2, _⟩ := inv_next_move C pos ss hpart hgen (fun m hm _ => hm) fuel mp mp' m hinv h
    have hstop : mp'.stage = STOP := by
      by_contra hne
      exact h2 hne hm
    exact ⟨hstop, fun fuel' k => calls_STOP C pos ss mp' hstop fuel' k⟩
  · intro hs fuel
    exact next_move_STOP C pos ss mp hs fuel

/-- Witness of `exhaustion_is_terminal`: quiescence search without checks on
`posP`, whose only move is the capture 9. The first call returns 9 and
leaves the picker `mpPQ1`; the second call, made on `mpPQ1`, returns
`MOVE_NONE`: it leaves the picker `mpPQ2` in `STOP`, every later call returns
`MOVE_NONE`, and a call made on `mpPQ2` leaves `mpPQ2`. -/
theorem exhaustion_is_terminal_witness :
    PartitionSpec C0 ∧ GenSat posP (fun m => m ≠ MOVE_NONE) ∧
    Reachable C0 posP ss0 mpPQ1 ∧ Reachable C0 posP ss0 mpPQ2 ∧
    next_move C0 posP ss0 2 mpPQ = some (9, mpPQ1) ∧
    next_move C0 posP ss0 2 mpPQ1 = some (MOVE_NONE, mpPQ2) ∧
    (mpPQ2.stage = STOP ∧
      ∀ fuel k, calls C0 posP ss0 (fuel + 1) k mpPQ2
        = some (List.replicate k (MOVE_NONE, mpPQ2))) ∧
    (mpPQ2.stage = STOP ∧
      ∀ fuel, next_move C0 posP ss0 (fuel + 1) mpPQ2 = some (MOVE_NONE, mpPQ2)) :=
  ⟨partitionSpec_C0, by decide, reachable_mpPQ1, reachable_mpPQ2, next_move_mpPQ 0,
    next_move_mpPQ1 0,
    (exhaustion_is_terminal C0 posP ss0 partitionSpec_C0 (by decide) mpPQ1 reachable_mpPQ1).1
      2 MOVE_NONE mpPQ2 (next_move_mpPQ1 0) rfl,
    rfl,
    (exhaustion_is_terminal C0 posP ss0 partitionSpec_C0 (by decide) mpPQ2 reachable_mpPQ2).2
      rfl⟩

/-- Claim C6 (every move returned is pseudo-legal): for a picker obtained from
any of the three constructors by calls of `next_move`, on a position whose
generators emit only pseudo-legal moves (and with `std::partition` meeting
its contract), every value a call of `next_move` returns other than
`MOVE_NONE` satisfies `pos.pseudo_legal`. -/
theorem returned_pseudo_legal (hpart : PartitionSpec C)
    (hgen : GenSat pos fun m => pos.pseudo_legal m = true) (mp : MovePicker)
    (hreach : Reachable C pos ss mp) (fuel : Nat) (m : Move) (mp' : MovePicker)
    (h : next_move C pos ss fuel mp = some (m, mp')) (hm : m ≠ MOVE_NONE) :
    pos.pseudo_legal m = true := by
  have hinv := inv_reachable C pos ss hpart hgen (fun m _ hp => hp) mp hreach
  obtain ⟨_, h2, h3⟩ := inv_next_move C pos ss hpart hgen (fun m _ hp => hp) fuel mp mp' m hinv h
  by_cases hs : mp'.stage = STOP
  · exact absurd (h3 hs) hm
  · exact h2 hs

/-- Witness of `returned_pseudo_legal`: the first call on `mp0`, which
returns the hint 4. -/
theorem returned_pseudo_legal_witness :
    PartitionSpec C0 ∧ GenSat pos0 (fun m => pos0.pseudo_legal m = true)
      ∧ Reachable C0 pos0 ss0 mp0
      ∧ next_move C0 pos0 ss0 1 mp0 = some (4, { mp0 with cur := .moves 1 })
      ∧ (4 : Move) ≠ MOVE_NONE ∧ pos0.pseudo_legal 4 = true :=
  ⟨partitionSpec_C0, by decide, Reachable.init (Or.inl ⟨raw0, 4, 5, rfl⟩), rfl, by decide,
    returned_pseudo_legal C0 pos0 ss0 partitionSpec_C0 (by decide) mp0
      (Reachable.init (Or.inl ⟨raw0, 4, 5, rfl⟩)) 1 4 { mp0 with cur := .moves 1 } rfl
      (by decide)⟩

end MoveSelection
namespace MoveSelection

variable (C : Consts) (pos : Position) (ss : Stack)

/-- Claim C3 as amended (the hint is returned exactly once): for a picker
built by any constructor whose stored `ttMove` is not `MOVE_NONE`, with
`std::partition` meeting its contract and, in main search, a buffer in
which the deferred tail meets neither the generated captures nor the
generated quiet moves, the calls of `next_move` all return with enough
fuel, the first returns `ttMove`, and no later call, in whatever stage,
returns `ttMove` again, whether or not the generators emit that move. -/
theorem hint_returned_once (hpart : PartitionSpec C) (mp : MovePicker)
    (hc : Constructed C pos ss mp) (htt : mp.ttMove ≠ MOVE_NONE)
    (hfit : mp.stage = MAIN_SEARCH → Fits C pos mp.ttMove) :
    ∃ N, ∀ fuel k, N ≤ fuel → 1 ≤ k →
      ∃ L, calls C pos ss fuel k mp = some L ∧
        (L.map Prod.fst).head? = some mp.ttMove ∧ mp.ttMove ∉ (L.map Prod.fst).tail := by
  obtain ⟨af, F, T, hrun, hrets, _⟩ := constructed_run C pos ss hpart mp hc hfit
  obtain ⟨_, _, _, hst, _, _⟩ := constructed_facts C pos ss mp hc
  obtain ⟨R, hR, hne⟩ := modeRets_hint C pos ss mp af htt hst
  refine ⟨F, fun fuel k hfuel hk => ?_⟩
  obtain ⟨L, hL, _, hmoves, _⟩ := calls_of_trace C pos ss hrun fuel k hfuel
  refine ⟨L, hL, ?_, ?_⟩
  · obtain ⟨j, rfl⟩ : ∃ j, k = j + 1 := ⟨k - 1, by omega⟩
    rw [hmoves, hrets, hR]
    simp
  · obtain ⟨j, rfl⟩ : ∃ j, k = j + 1 := ⟨k - 1, by omega⟩
    rw [hmoves, hrets, hR]
    simp only [List.map_cons, List.cons_append, List.take_succ_cons, List.tail_cons]
    intro hmem
    have := List.mem_of_mem_take hmem
    rcases List.mem_append.1 this with h1 | h1
    · obtain ⟨p, hp, hp2⟩ := List.mem_map.1 h1
      exact hne p hp hp2
    · exact htt (List.eq_of_mem_replicate h1)

/-- Witness of `hint_returned_once`: main search on `pos0` with hint 4. -/
theorem hint_returned_once_witness :
    PartitionSpec C0 ∧ Constructed C0 pos0 ss0 mp0 ∧ mp0.ttMove ≠ MOVE_NONE
      ∧ (mp0.stage = MAIN_SEARCH → Fits C0 pos0 mp0.ttMove)
      ∧ ∃ N, ∀ fuel k, N ≤ fuel → 1 ≤ k →
        ∃ L, calls C0 pos0 ss0 fuel k mp0 = some L ∧
          (L.map Prod.fst).head? = some mp0.ttMove ∧ mp0.ttMove ∉ (L.map Prod.fst).tail :=
  ⟨partitionSpec_C0, Or.inl ⟨raw0, 4, 5, rfl⟩, by decide, fun _ => by decide,
    hint_returned_once C0 pos0 ss0 partitionSpec_C0 mp0 (Or.inl ⟨raw0, 4, 5, rfl⟩) (by decide)
      (fun _ => by decide)⟩

/-- Counterexample to claim C3 as stated: `BAD_CAPTURES` returns `*cur--`
without comparing it with the hint, so the hint is returned a second time
when the deferred tail holds it. Over a buffer of three entries: with the
captures 2, 7, 5, the hint 2 and 7 losing, the deferrals of 7 reach the
slots of the generated captures and the calls return 2, 2, 7; with the
losing capture 1, the quiet moves 100, 101, 102 and the hint 102,
`generate<QUIETS>` writes 102 over the deferred capture and the calls return
102, 100, 101, 102. In both cases the generated moves fit the buffer. -/
theorem hint_returned_again_counterexample :
    (PartitionSpec Cb3 ∧ Constructed Cb3 posH ss8 mpH ∧ mpH.ttMove ≠ MOVE_NONE ∧
      (posH.genCaptures.length : Int) ≤ Cb3.MAX_MOVES ∧
      (posH.genQuiets.length : Int) ≤ Cb3.MAX_MOVES ∧
      ∃ N, ∀ fuel k, N ≤ fuel → N ≤ k →
        ∃ L, calls Cb3 posH ss8 fuel k mpH = some L ∧
          (L.map Prod.fst).head? = some mpH.ttMove ∧
          (L.map Prod.fst).take 3 = [2, 2, 7] ∧
          returnedIn BAD_CAPTURES L = [2, 7] ∧
          mpH.ttMove ∈ (L.map Prod.fst).tail) ∧
    (Constructed Cb3 posW ss8 mpW ∧ mpW.ttMove ≠ MOVE_NONE ∧
      (posW.genCaptures.length : Int) + (posW.genCaptures.countP (isBad posW mpW.ttMove) : Nat)
        ≤ Cb3.MAX_MOVES ∧
      (posW.genQuiets.length : Int) ≤ Cb3.MAX_MOVES ∧
      ∃ N, ∀ fuel k, N ≤ fuel → N ≤ k →
        ∃ L, calls Cb3 posW ss8 fuel k mpW = some L ∧
          (L.map Prod.fst).head? = some mpW.ttMove ∧
          (L.map Prod.fst).take 4 = [102, 100, 101, 102] ∧
          returnedIn BAD_CAPTURES L = [102] ∧
          mpW.ttMove ∈ (L.map Prod.fst).tail) := by
  refine ⟨⟨partitionSpec_Cb3, Or.inl ⟨raw0, 2, 5, mkMain_mpH⟩, by decide, by decide, by decide,
    ?_⟩, ⟨Or.inl ⟨raw0, 102, 5, mkMain_mpW⟩, by decide, by decide, by decide, ?_⟩⟩
  · obtain ⟨N, hN⟩ := calls_mpH
    refine ⟨N, fun fuel k hfuel hk => ?_⟩
    obtain ⟨L, hL, hm, hbad⟩ := hN fuel k hfuel hk
    refine ⟨L, hL, ?_, ?_, hbad, ?_⟩ <;> rw [hm] <;> simp [mpH]
  · obtain ⟨N, hN⟩ := calls_mpW
    refine ⟨N, fun fuel k hfuel hk => ?_⟩
    obtain ⟨L, hL, hm, _, hbad⟩ := hN fuel k hfuel hk
    refine ⟨L, hL, ?_, ?_, hbad, ?_⟩ <;> rw [hm] <;> simp [mpW]

end MoveSelection
namespace MoveSelection

variable (C : Consts) (pos : Position) (ss : Stack)

/-- Claim C4 as amended (no duplicate): for a picker built by any constructor,
provided each generated move list is duplicate-free, no generated capture is
among the generated quiet moves or quiet checks, the two stored killers are
different unless they are `MOVE_NONE`, no killer candidate that is
pseudo-legal and not a capture is among the generated captures (with
`std::partition` meeting its contract and, in main search, a buffer large
enough for the deferred tail not to meet the generated moves), the calls of
`next_move` return with enough fuel and the moves they return up to the
first `MOVE_NONE` are pairwise different. -/
theorem no_duplicate (hpart : PartitionSpec C) (mp : MovePicker)
    (hc : Constructed C pos ss mp) (hfit : mp.stage = MAIN_SEARCH → Fits C pos mp.ttMove)
    (hcap : pos.genCaptures.Nodup) (hqui : pos.genQuiets.Nodup) (heva : pos.genEvasions.Nodup)
    (hchk : pos.genQuietChecks.Nodup)
    (hcq : ∀ m ∈ pos.genCaptures, m ∉ pos.genQuiets)
    (hcc : ∀ m ∈ pos.genCaptures, m ∉ pos.genQuietChecks)
    (hk : ss.killers0 = ss.killers1 → ss.killers0 = MOVE_NONE)
    (hkc : ∀ m ∈ [ss.killers0, ss.killers1, mp.countermove],
      pos.pseudo_legal m = true → ¬ pos.capture m = true → m ∉ pos.genCaptures) :
    ∃ N, ∀ fuel k, N ≤ fuel → N ≤ k →
      ∃ L, calls C pos ss fuel k mp = some L ∧ (consumed L).Nodup := by
  obtain ⟨af, F, T, hrun, hrets, _⟩ := constructed_run C pos ss hpart mp hc hfit
  obtain ⟨_, _, _, hst, _, _⟩ := constructed_facts C pos ss mp hc
  refine ⟨max F ((rets T).length + 1), fun fuel k hfuel hcalls => ?_⟩
  obtain ⟨L, hL, _, _, hcons⟩ := calls_of_trace C pos ss hrun fuel k
    (le_trans (le_max_left _ _) hfuel)
  refine ⟨L, hL, ?_⟩
  rw [hcons (lt_of_lt_of_le (Nat.lt_succ_self _) (le_trans (le_max_right _ _) hcalls)), hrets]
  exact (nodup_modeRets C pos ss hpart mp af hst hcap hqui heva hchk hcq hcc hk hkc).sublist
    (List.takeWhile_sublist _)

/-- Witness of `no_duplicate`: main search on `pos0` with the two different
killers of `ss0`. -/
theorem no_duplicate_witness :
    PartitionSpec C0 ∧ Constructed C0 pos0 ss0 mp0
      ∧ (mp0.stage = MAIN_SEARCH → Fits C0 pos0 mp0.ttMove)
      ∧ pos0.genCaptures.Nodup ∧ pos0.genQuiets.Nodup ∧ pos0.genEvasions.Nodup
      ∧ pos0.genQuietChecks.Nodup
      ∧ (∀ m ∈ pos0.genCaptures, m ∉ pos0.genQuiets)
      ∧ (∀ m ∈ pos0.genCaptures, m ∉ pos0.genQuietChecks)
      ∧ (ss0.killers0 = ss0.killers1 → ss0.killers0 = MOVE_NONE)
      ∧ (∀ m ∈ [ss0.killers0, ss0.killers1, mp0.countermove],
          pos0.pseudo_legal m = true → ¬ pos0.capture m = true → m ∉ pos0.genCaptures)
      ∧ ∃ N, ∀ fuel k, N ≤ fuel → N ≤ k →
          ∃ L, calls C0 pos0 ss0 fuel k mp0 = some L ∧ (consumed L).Nodup :=
  ⟨partitionSpec_C0, Or.inl ⟨raw0, 4, 5, rfl⟩, fun _ => by decide, by decide, by decide,
    by decide, by decide, by decide, by decide, by decide, by decide,
    no_duplicate C0 pos0 ss0 partitionSpec_C0 mp0 (Or.inl ⟨raw0, 4, 5, rfl⟩)
      (fun _ => by decide) (by decide) (by decide) (by decide) (by decide) (by decide)
      (by decide) (by decide) (by decide)⟩

/-- Counterexample to claim C4 as stated, at two inputs whose generated lists
are duplicate-free and pairwise disjoint. On `posK` (no capture, the quiet
move 7, no quiet check) main search with the killers of `ssK`, both the move
7, returns 7 twice before `MOVE_NONE`. On `posQ`, whose capture generator
emits the move 9 that `pos.capture` does not count as a capture, main search
with the first killer 9 returns 9 during `GOOD_CAPTURES` and again during
`KILLERS`. -/
theorem no_duplicate_counterexample :
    (MovePicker.mkMain C0 posK ssK raw0 0 1 = some mpK
      ∧ posK.genCaptures.Nodup ∧ posK.genQuiets.Nodup ∧ posK.genEvasions.Nodup
      ∧ posK.genQuietChecks.Nodup
      ∧ posK.genCaptures.Disjoint posK.genQuiets
      ∧ posK.genCaptures.Disjoint posK.genQuietChecks
      ∧ posK.genQuiets.Disjoint posK.genQuietChecks
      ∧ ∃ N, ∀ fuel k, N ≤ fuel → N ≤ k →
          ∃ L, calls C0 posK ssK fuel k mpK = some L ∧ consumed L = [7, 7]
            ∧ ¬ (consumed L).Nodup)
    ∧ (MovePicker.mkMain C0 posQ ssQ raw0 0 1 = some mpQ
      ∧ posQ.genCaptures.Nodup ∧ posQ.genQuiets.Nodup ∧ posQ.genEvasions.Nodup
      ∧ posQ.genQuietChecks.Nodup
      ∧ posQ.genCaptures.Disjoint posQ.genQuiets
      ∧ posQ.genCaptures.Disjoint posQ.genQuietChecks
      ∧ posQ.genQuiets.Disjoint posQ.genQuietChecks
      ∧ (ssQ.killers0 = ssQ.killers1 → ssQ.killers0 = MOVE_NONE)
      ∧ ∃ N, ∀ fuel k, N ≤ fuel → N ≤ k →
          ∃ L, calls C0 posQ ssQ fuel k mpQ = some L ∧ consumed L = [9, 9]
            ∧ ¬ (consumed L).Nodup) := by
  constructor
  · refine ⟨rfl, List.nodup_nil, List.nodup_singleton 7, List.nodup_nil, List.nodup_nil,
      List.disjoint_nil_left _, List.disjoint_nil_left _, List.disjoint_nil_right _, ?_⟩
    obtain ⟨af, F, T, hrun, hrets, _⟩ := constructed_run C0 posK ssK partitionSpec_C0 mpK
      (Or.inl ⟨raw0, 0, 1, rfl⟩) (fun _ => by decide)
    have hq : quietOrder C0 posK ssK mpK.depth af = [7] :=
      List.perm_singleton.1 (quietOrder_perm C0 posK ssK partitionSpec_C0 mpK.depth af)
    have hm : (modeRets C0 posK ssK mpK af).map Prod.snd = [7, 7] := by
      rw [modeRets_main C0 posK ssK mpK af rfl, hq]
      decide
    refine ⟨max F ((rets T).length + 1), fun fuel k hfuel hk => ?_⟩
    obtain ⟨L, hL, _, _, hcons⟩ := calls_of_trace C0 posK ssK hrun fuel k
      (le_trans (le_max_left _ _) hfuel)
    have hc : consumed L = [7, 7] := by
      rw [hcons (lt_of_lt_of_le (Nat.lt_succ_self _) (le_trans (le_max_right _ _) hk)),
        hrets, hm]
      decide
    exact ⟨L, hL, hc, by rw [hc]; decide⟩
  · refine ⟨rfl, List.nodup_singleton 9, List.nodup_nil, List.nodup_nil, List.nodup_nil,
      List.disjoint_nil_right _, List.disjoint_nil_right _, List.disjoint_nil_left _,
      by decide, ?_⟩
    obtain ⟨af, F, T, hrun, hrets, _⟩ := constructed_run C0 posQ ssQ partitionSpec_C0 mpQ
      (Or.inl ⟨raw0, 0, 1, rfl⟩) (fun _ => by decide)
    have hp : capPicks C0 posQ mpQ.moves = [9] :=
      List.perm_singleton.1 (capPicks_perm C0 posQ mpQ.moves)
    have hq : quietOrder C0 posQ ssQ mpQ.depth af = [] :=
      List.perm_nil.1 (quietOrder_perm C0 posQ ssQ partitionSpec_C0 mpQ.depth af)
    have hm : (modeRets C0 posQ ssQ mpQ af).map Prod.snd = [9, 9] := by
      rw [modeRets_main C0 posQ ssQ mpQ af rfl, hp, hq]
      decide
    refine ⟨max F ((rets T).length + 1), fun fuel k hfuel hk => ?_⟩
    obtain ⟨L, hL, _, _, hcons⟩ := calls_of_trace C0 posQ ssQ hrun fuel k
      (le_trans (le_max_left _ _) hfuel)
    have hc : consumed L = [9, 9] := by
      rw [hcons (lt_of_lt_of_le (Nat.lt_succ_self _) (le_trans (le_max_right _ _) hk)),
        hrets, hm]
      decide
    exact ⟨L, hL, hc, by rw [hc]; decide⟩

end MoveSelection
namespace MoveSelection

variable (C : Consts) (pos : Position) (ss : Stack)

/-- Claim C5 (coverage in main search): for a picker built by the main-search
constructor on a position not in check, provided the buffer is large enough
for the generated captures, the generated quiet moves and the deferred tail
not to meet (and the generators emit no `MOVE_NONE`, the generated quiet
moves are pseudo-legal non-captures, and `std::partition` meets its
contract), the calls of `next_move` return with enough fuel and the set of
moves they return up to the first `MOVE_NONE` is: the accepted hint, every
generated capture, every generated quiet move, and the killer candidates
(the two stored killers and the countermove) that are not `MOVE_NONE`, are
pseudo-legal and are not captures. -/
theorem coverage_main (hpart : PartitionSpec C) (raw mp : MovePicker) (ttm : Move) (d : Depth)
    (hmk : MovePicker.mkMain C pos ss raw ttm d = some mp) (hchk : pos.checkers = false)
    (hfit : Fits C pos mp.ttMove)
    (h0 : ∀ m ∈ pos.genCaptures ++ pos.genQuiets, m ≠ MOVE_NONE)
    (hq : ∀ m ∈ pos.genQuiets, pos.pseudo_legal m = true ∧ ¬ pos.capture m = true) :
    ∃ N, ∀ fuel k, N ≤ fuel → N ≤ k →
      ∃ L, calls C pos ss fuel k mp = some L ∧
        ∀ m, m ∈ consumed L ↔
          ((m = ttm ∧ ttm ≠ MOVE_NONE ∧ pos.pseudo_legal ttm = true)
            ∨ m ∈ pos.genCaptures ∨ m ∈ pos.genQuiets
            ∨ (m ∈ [ss.killers0, ss.killers1, mp.countermove] ∧ m ≠ MOVE_NONE
                ∧ pos.pseudo_legal m = true ∧ ¬ pos.capture m = true)) := by
  obtain ⟨hc, hst⟩ := mkMain_constructed C pos ss hmk hchk
  obtain ⟨af, F, T, hrun, hrets, _⟩ := constructed_run C pos ss hpart mp hc (fun _ => hfit)
  obtain ⟨_, _, htt, _⟩ := mkMain_spec C pos ss hmk
  have hP : ∀ m, m ∈ capPicks C pos mp.moves ↔ m ∈ pos.genCaptures :=
    fun m => (capPicks_perm C pos mp.moves).mem_iff
  have hQ : ∀ m, m ∈ quietOrder C pos ss mp.depth af ↔ m ∈ pos.genQuiets :=
    fun m => (quietOrder_perm C pos ss hpart mp.depth af).mem_iff
  have hacc : (mp.ttMove ≠ MOVE_NONE ↔ (ttm ≠ MOVE_NONE ∧ pos.pseudo_legal ttm = true))
      ∧ (mp.ttMove ≠ MOVE_NONE → mp.ttMove = ttm) := by
    by_cases hcnd : ttm ≠ 0 ∧ pos.pseudo_legal ttm = true
    · rw [if_pos hcnd] at htt
      rw [htt]
      exact ⟨⟨fun _ => hcnd, fun h => h.1⟩, fun _ => rfl⟩
    · rw [if_neg hcnd] at htt
      rw [htt]
      exact ⟨⟨fun h => absurd rfl h, fun h => absurd h hcnd⟩, fun h => absurd rfl h⟩
  have hmem : ∀ p, p ∈ rets T ↔
      ((p = (MAIN_SEARCH, mp.ttMove) ∧ mp.ttMove ≠ MOVE_NONE)
        ∨ (p.1 = GOOD_CAPTURES ∧ p.2 ∈ pos.genCaptures ∧ isGood pos mp.ttMove p.2 = true)
        ∨ (p.1 = KILLERS ∧ p.2 ∈ killerList ss mp.countermove
            ∧ keepKiller pos mp.ttMove p.2 = true)
        ∨ (p.1 = ALL_QUIETS ∧ p.2 ∈ pos.genQuiets
            ∧ keepQuiet ss mp.ttMove mp.countermove p.2 = true)
        ∨ (p.1 = BAD_CAPTURES ∧ p.2 ∈ pos.genCaptures ∧ isBad pos mp.ttMove p.2 = true)) := by
    intro p
    rw [hrets, modeRets_main C pos ss mp af hst]
    simp only [List.mem_append, mem_hintRets, mem_tag, List.mem_filter, hP, hQ]
  have hnz : ∀ p ∈ rets T, p.2 ≠ MOVE_NONE := by
    intro p hp
    rcases (hmem p).1 hp with ⟨rfl, h⟩ | ⟨_, h, _⟩ | ⟨_, _, h⟩ | ⟨_, h, _⟩ | ⟨_, h, _⟩
    · exact h
    · exact h0 _ (List.mem_append_left _ h)
    · simp only [keepKiller, decide_eq_true_eq] at h; exact h.1
    · exact h0 _ (List.mem_append_right _ h)
    · exact h0 _ (List.mem_append_left _ h)
  refine ⟨max F ((rets T).length + 1), fun fuel k hfuel hcalls => ?_⟩
  obtain ⟨L, hL, _, hcons⟩ := consumed_of_nonzero C pos ss hrun fuel k
    (le_trans (le_max_left _ _) hfuel)
    (lt_of_lt_of_le (Nat.lt_succ_self _) (le_trans (le_max_right _ _) hcalls)) hnz
  refine ⟨L, hL, fun m => ?_⟩
  rw [hcons]
  constructor
  · intro hm
    obtain ⟨p, hp, rfl⟩ := List.mem_map.1 hm
    rcases (hmem p).1 hp with ⟨rfl, h⟩ | ⟨_, h, _⟩ | ⟨_, h1, h2⟩ | ⟨_, h, _⟩ | ⟨_, h, _⟩
    · exact Or.inl ⟨hacc.2 h, hacc.1.1 h⟩
    · exact Or.inr (Or.inl h)
    · simp only [keepKiller, decide_eq_true_eq] at h2
      refine Or.inr (Or.inr (Or.inr ⟨?_, h2.1, h2.2.2.1, h2.2.2.2⟩))
      rcases (mem_killerList ss).1 h1 with h | h | h <;> simp [h]
    · exact Or.inr (Or.inr (Or.inl h))
    · exact Or.inr (Or.inl h)
  · intro hm
    -- the hint itself
    by_cases heq : m = mp.ttMove
    · have hne : mp.ttMove ≠ MOVE_NONE := by
        rcases hm with ⟨_, h⟩ | h | h | ⟨_, h, _⟩
        · exact hacc.1.2 h
        · rw [← heq]; exact h0 _ (List.mem_append_left _ h)
        · rw [← heq]; exact h0 _ (List.mem_append_right _ h)
        · rw [← heq]; exact h
      exact List.mem_map.2 ⟨(MAIN_SEARCH, mp.ttMove), (hmem _).2 (Or.inl ⟨rfl, hne⟩), heq.symm⟩
    · have hkiller : m ∈ [ss.killers0, ss.killers1, mp.countermove] → m ≠ MOVE_NONE →
          pos.pseudo_legal m = true → ¬ pos.capture m = true →
          m ∈ (rets T).map Prod.snd := by
        intro h1 h2 h3 h4
        refine List.mem_map.2 ⟨(KILLERS, m), (hmem _).2 (Or.inr (Or.inr (Or.inl
          ⟨rfl, ?_, ?_⟩))), rfl⟩
        · simp only [List.mem_cons, List.mem_singleton, List.not_mem_nil, or_false] at h1
          exact (mem_killerList ss).2 h1
        · simp only [keepKiller, decide_eq_true_eq]
          exact ⟨h2, heq, h3, h4⟩
      rcases hm with ⟨h, h1, h2⟩ | h | h | ⟨h1, h2, h3, h4⟩
      · exact absurd (h.trans (hacc.2 (hacc.1.2 ⟨h1, h2⟩)).symm) heq
      · by_cases hs : pos.see_sign m ≥ VALUE_ZERO
        · refine List.mem_map.2 ⟨(GOOD_CAPTURES, m), (hmem _).2 (Or.inr (Or.inl
            ⟨rfl, h, ?_⟩)), rfl⟩
          simp only [isGood, decide_eq_true_eq]
          exact ⟨heq, hs⟩
        · refine List.mem_map.2 ⟨(BAD_CAPTURES, m), (hmem _).2 (Or.inr (Or.inr (Or.inr
            (Or.inr ⟨rfl, h, ?_⟩)))), rfl⟩
          simp only [isBad, decide_eq_true_eq]
          exact ⟨heq, lt_of_not_ge hs⟩
      · by_cases hk : m ∈ [ss.killers0, ss.killers1, mp.countermove]
        · exact hkiller hk (h0 _ (List.mem_append_right _ h)) (hq m h).1 (hq m h).2
        · refine List.mem_map.2 ⟨(ALL_QUIETS, m), (hmem _).2 (Or.inr (Or.inr (Or.inr
            (Or.inl ⟨rfl, h, ?_⟩)))), rfl⟩
          simp only [List.mem_cons, List.mem_singleton, List.not_mem_nil, or_false,
            not_or] at hk
          simp only [keepQuiet, decide_eq_true_eq]
          exact ⟨heq, hk.1, hk.2.1, hk.2.2⟩
      · exact hkiller h1 h2 h3 h4

/-- Witness of `coverage_main`: main search on `pos0` with hint 4. -/
theorem coverage_main_witness :
    PartitionSpec C0 ∧ MovePicker.mkMain C0 pos0 ss0 raw0 4 5 = some mp0
      ∧ pos0.checkers = false ∧ Fits C0 pos0 mp0.ttMove
      ∧ (∀ m ∈ pos0.genCaptures ++ pos0.genQuiets, m ≠ MOVE_NONE)
      ∧ (∀ m ∈ pos0.genQuiets, pos0.pseudo_legal m = true ∧ ¬ pos0.capture m = true)
      ∧ ∃ N, ∀ fuel k, N ≤ fuel → N ≤ k →
        ∃ L, calls C0 pos0 ss0 fuel k mp0 = some L ∧
          ∀ m, m ∈ consumed L ↔
            ((m = 4 ∧ (4 : Move) ≠ MOVE_NONE ∧ pos0.pseudo_legal 4 = true)
              ∨ m ∈ pos0.genCaptures ∨ m ∈ pos0.genQuiets
              ∨ (m ∈ [ss0.killers0, ss0.killers1, mp0.countermove] ∧ m ≠ MOVE_NONE
                  ∧ pos0.pseudo_legal m = true ∧ ¬ pos0.capture m = true)) :=
  ⟨partitionSpec_C0, rfl, rfl, by decide, by decide, by decide,
    coverage_main C0 pos0 ss0 partitionSpec_C0 raw0 mp0 4 5 rfl rfl (by decide) (by decide)
      (by decide)⟩

end MoveSelection
namespace MoveSelection

variable (C : Consts) (pos : Position) (ss : Stack)

/-- Claim C7 as amended (losing captures are deferred, not dropped): for a
picker built by the main-search constructor on a position not in check, with
a buffer in which the deferred tail meets neither the generated captures nor
the generated quiet moves, a capture generator that emits no move twice and
`std::partition` meeting its contract, the calls of `next_move` return with
enough fuel, every move returned during `GOOD_CAPTURES` has `see_sign >= 0`
and differs from the hint, and every generated capture with `see_sign < 0`
that differs from the hint is not returned during `GOOD_CAPTURES` and is
returned exactly once during `BAD_CAPTURES`. -/
theorem losing_captures_deferred (hpart : PartitionSpec C) (raw mp : MovePicker) (ttm : Move)
    (d : Depth) (hmk : MovePicker.mkMain C pos ss raw ttm d = some mp)
    (hchk : pos.checkers = false) (hfit : Fits C pos mp.ttMove)
    (hnd : pos.genCaptures.Nodup) :
    ∃ N, ∀ fuel k, N ≤ fuel → N ≤ k →
      ∃ L, calls C pos ss fuel k mp = some L ∧
        (∀ m ∈ returnedIn GOOD_CAPTURES L, pos.see_sign m ≥ VALUE_ZERO ∧ m ≠ mp.ttMove) ∧
        (∀ m ∈ pos.genCaptures, pos.see_sign m < VALUE_ZERO → m ≠ mp.ttMove →
          m ∉ returnedIn GOOD_CAPTURES L ∧ (returnedIn BAD_CAPTURES L).count m = 1) := by
  obtain ⟨hc, hst⟩ := mkMain_constructed C pos ss hmk hchk
  obtain ⟨af, F, T, hrun, hrets, _⟩ := constructed_run C pos ss hpart mp hc (fun _ => hfit)
  obtain ⟨hgood, hbad⟩ := retsIn_main C pos ss hst hrets
  refine ⟨max F (rets T).length, fun fuel k hfuel hcalls => ?_⟩
  obtain ⟨L, hL, _, hin⟩ := returnedIn_of_trace C pos ss hrun fuel k
    (le_trans (le_max_left _ _) hfuel) (le_trans (le_max_right _ _) hcalls)
  refine ⟨L, hL, ?_, ?_⟩
  · intro m hm
    rw [hin GOOD_CAPTURES (by decide), hgood] at hm
    have h := (List.mem_filter.1 hm).2
    simp only [isGood, decide_eq_true_eq] at h
    exact ⟨h.2, h.1⟩
  · intro m hm hs hne
    rw [hin GOOD_CAPTURES (by decide), hin BAD_CAPTURES (by decide), hgood, hbad]
    constructor
    · intro h
      have h := (List.mem_filter.1 h).2
      simp only [isGood, decide_eq_true_eq] at h
      exact absurd h.2 (not_le_of_lt hs)
    · exact count_filter_perm (capPicks_perm C pos mp.moves) hnd _ hm
        (by simp only [isBad, decide_eq_true_eq]; exact ⟨hne, hs⟩)

/-- Witness of `losing_captures_deferred`: main search on `pos0` with hint 4. -/
theorem losing_captures_deferred_witness :
    PartitionSpec C0 ∧ MovePicker.mkMain C0 pos0 ss0 raw0 4 5 = some mp0
      ∧ pos0.checkers = false ∧ Fits C0 pos0 mp0.ttMove ∧ pos0.genCaptures.Nodup
      ∧ ∃ N, ∀ fuel k, N ≤ fuel → N ≤ k →
        ∃ L, calls C0 pos0 ss0 fuel k mp0 = some L ∧
          (∀ m ∈ returnedIn GOOD_CAPTURES L,
            pos0.see_sign m ≥ VALUE_ZERO ∧ m ≠ mp0.ttMove) ∧
          (∀ m ∈ pos0.genCaptures, pos0.see_sign m < VALUE_ZERO → m ≠ mp0.ttMove →
            m ∉ returnedIn GOOD_CAPTURES L ∧ (returnedIn BAD_CAPTURES L).count m = 1) :=
  ⟨partitionSpec_C0, rfl, rfl, by decide, by decide,
    losing_captures_deferred C0 pos0 ss0 partitionSpec_C0 raw0 mp0 4 5 rfl rfl (by decide)
      (by decide)⟩

/-- Counterexample to claim C7 as stated: the proviso of the claim keeps the
generated captures off the deferred tail, not the quiet moves that
`generate<QUIETS>` writes to the same buffer afterwards. Over a buffer of
three entries, with the losing capture 1 and the quiet moves 100, 101, 102,
the capture and its slot `moves + 2` in the tail do not overlap, the capture
is deferred, the third quiet move is written over it, and `BAD_CAPTURES`
returns 102: the losing capture 1 is never returned. -/
theorem deferred_capture_lost_counterexample :
    PartitionSpec Cb3 ∧ MovePicker.mkMain Cb3 posW ss8 raw0 102 5 = some mpW ∧
      posW.checkers = false ∧ posW.genCaptures.Nodup ∧
      (posW.genCaptures.length : Int) + (posW.genCaptures.countP (isBad posW mpW.ttMove) : Nat)
        ≤ Cb3.MAX_MOVES ∧
      ¬ Fits Cb3 posW mpW.ttMove ∧
      1 ∈ posW.genCaptures ∧ posW.see_sign 1 < VALUE_ZERO ∧ 1 ≠ mpW.ttMove ∧
      ∃ N, ∀ fuel k, N ≤ fuel → N ≤ k →
        ∃ L, calls Cb3 posW ss8 fuel k mpW = some L ∧
          returnedIn GOOD_CAPTURES L = [] ∧
          returnedIn BAD_CAPTURES L = [102] ∧
          1 ∉ L.map Prod.fst ∧
          ¬ (returnedIn BAD_CAPTURES L).count 1 = 1 := by
  refine ⟨partitionSpec_Cb3, mkMain_mpW, rfl, by decide, by decide, by decide, by decide,
    by decide, by decide, ?_⟩
  obtain ⟨N, hN⟩ := calls_mpW
  refine ⟨N, fun fuel k hfuel hk => ?_⟩
  obtain ⟨L, hL, hm, hgood, hbad⟩ := hN fuel k hfuel hk
  refine ⟨L, hL, hgood, hbad, ?_, ?_⟩
  · rw [hm]
    intro h
    rcases List.mem_append.1 h with h1 | h1
    · revert h1
      decide
    · exact absurd (List.eq_of_mem_replicate h1) (by decide)
  · rw [hbad]
    decide

/-- Claim C8 as amended (bad-capture order): for a picker built by the
main-search constructor on a position not in check, with sufficient buffer
capacity and `std::partition` meeting its contract, the run of the picker up
to `STOP` has one trace `T`, and the moves returned during `BAD_CAPTURES` are
the captures deferred during `GOOD_CAPTURES` in the same order in which they
were deferred: the first one deferred is the first one returned. -/
theorem bad_captures_in_deferral_order (hpart : PartitionSpec C) (raw mp : MovePicker)
    (ttm : Move) (d : Depth) (hmk : MovePicker.mkMain C pos ss raw ttm d = some mp)
    (hchk : pos.checkers = false) (hfit : Fits C pos mp.ttMove) :
    ∃ N T, (∀ F, N ≤ F → run C pos ss F mp = some T) ∧
      retsIn BAD_CAPTURES T = defers T ∧
      ∀ fuel k, N ≤ fuel → N ≤ k →
        ∃ L, calls C pos ss fuel k mp = some L ∧ returnedIn BAD_CAPTURES L = defers T := by
  obtain ⟨hc, hst⟩ := mkMain_constructed C pos ss hmk hchk
  obtain ⟨af, F, T, hrun, hrets, hdef⟩ := constructed_run C pos ss hpart mp hc (fun _ => hfit)
  obtain ⟨_, hbad⟩ := retsIn_main C pos ss hst hrets
  have heq : retsIn BAD_CAPTURES T = defers T := by
    rw [hbad, hdef, modeDefers, if_pos hst]
  refine ⟨max F (rets T).length, T,
    fun F' hF => run_mono C pos ss F mp T hrun F' (le_trans (le_max_left _ _) hF), heq,
    fun fuel k hfuel hcalls => ?_⟩
  obtain ⟨L, hL, _, hin⟩ := returnedIn_of_trace C pos ss hrun fuel k
    (le_trans (le_max_left _ _) hfuel) (le_trans (le_max_right _ _) hcalls)
  exact ⟨L, hL, by rw [hin BAD_CAPTURES (by decide), heq]⟩

/-- Witness of `bad_captures_in_deferral_order`: main search on `pos8`. -/
theorem bad_captures_in_deferral_order_witness :
    PartitionSpec C0 ∧ MovePicker.mkMain C0 pos8 ss8 raw0 0 1 = some mp8
      ∧ pos8.checkers = false ∧ Fits C0 pos8 mp8.ttMove
      ∧ ∃ N T, (∀ F, N ≤ F → run C0 pos8 ss8 F mp8 = some T) ∧
        retsIn BAD_CAPTURES T = defers T ∧
        ∀ fuel k, N ≤ fuel → N ≤ k →
          ∃ L, calls C0 pos8 ss8 fuel k mp8 = some L
            ∧ returnedIn BAD_CAPTURES L = defers T :=
  ⟨partitionSpec_C0, rfl, rfl, by decide,
    bad_captures_in_deferral_order C0 pos8 ss8 partitionSpec_C0 raw0 mp8 0 1 rfl rfl
      (by decide)⟩

/-- Counterexample to claim C8 as stated: on `pos8` main search defers the
losing captures in the order 3, 1 and `BAD_CAPTURES` returns them in the
order 3, 1, which is not the reverse order 1, 3. -/
theorem bad_capture_order_counterexample :
    MovePicker.mkMain C0 pos8 ss8 raw0 0 1 = some mp8 ∧
      ∃ N T, (∀ F, N ≤ F → run C0 pos8 ss8 F mp8 = some T) ∧ defers T = [3, 1] ∧
        ∀ fuel k, N ≤ fuel → N ≤ k →
          ∃ L, calls C0 pos8 ss8 fuel k mp8 = some L
            ∧ returnedIn BAD_CAPTURES L = [3, 1]
            ∧ returnedIn BAD_CAPTURES L ≠ (defers T).reverse := by
  refine ⟨rfl, ?_⟩
  obtain ⟨af, F, T, hrun, hrets, hdef⟩ := constructed_run C0 pos8 ss8 partitionSpec_C0 mp8
    (Or.inl ⟨raw0, 0, 1, rfl⟩) (fun _ => by decide)
  obtain ⟨_, hbad⟩ := retsIn_main C0 pos8 ss8 rfl hrets
  have hp : capPicks C0 pos8 mp8.moves = [3, 1] := rfl
  have hd : defers T = [3, 1] := by
    have hs : mp8.stage = MAIN_SEARCH := rfl
    rw [hdef, modeDefers, if_pos hs, hp]
    decide
  have hb : retsIn BAD_CAPTURES T = [3, 1] := by
    rw [hbad, hp]
    decide
  refine ⟨max F (rets T).length, T,
    fun F' hF => run_mono C0 pos8 ss8 F mp8 T hrun F' (le_trans (le_max_left _ _) hF), hd,
    fun fuel k hfuel hcalls => ?_⟩
  obtain ⟨L, hL, _, hin⟩ := returnedIn_of_trace C0 pos8 ss8 hrun fuel k
    (le_trans (le_max_left _ _) hfuel) (le_trans (le_max_right _ _) hcalls)
  refine ⟨L, hL, by rw [hin BAD_CAPTURES (by decide), hb], ?_⟩
  rw [hin BAD_CAPTURES (by decide), hb, hd]
  decide

end MoveSelection
namespace MoveSelection

variable (C : Consts) (pos : Position) (ss : Stack)

end MoveSelection
namespace MoveSelection

variable (C : Consts) (pos : Position) (ss : Stack)

/-- Claim C10 (recapture filter): for a picker built by the quiescence
constructor with `d <= DEPTH_QS_RECAPTURES` (that constant being at most
`DEPTH_QS_NO_CHECKS`) on a position not in check, with target square `s` and
any hint `ttm`, when the capture generator emits no `MOVE_NONE` and no move
twice, the calls of `next_move` return with enough fuel, the moves returned
before `MOVE_NONE` are exactly the generated captures whose destination is
`s`, each once, a capture to another square is never returned, and every call
made after the last of them returns `MOVE_NONE` and leaves the picker in
`STOP` (there is such a call). -/
theorem recapture_filter (raw mp : MovePicker) (ttm : Move) (d : Depth) (s : Square)
    (hmk : MovePicker.mkQsearch C pos raw ttm d s = some mp)
    (hchk : pos.checkers = false) (hd : d ≤ C.DEPTH_QS_RECAPTURES)
    (hord : C.DEPTH_QS_RECAPTURES ≤ C.DEPTH_QS_NO_CHECKS)
    (h0 : ∀ m ∈ pos.genCaptures, m ≠ MOVE_NONE) (hnd : pos.genCaptures.Nodup) :
    ∃ N, ∀ fuel k, N ≤ fuel → N ≤ k →
      ∃ L, calls C pos ss fuel k mp = some L ∧
        (consumed L).Perm (pos.genCaptures.filter fun m => decide (C.to_sq m = s)) ∧
        (consumed L).Nodup ∧
        (∀ m ∈ pos.genCaptures, C.to_sq m ≠ s → m ∉ L.map Prod.fst) ∧
        (consumed L).length < L.length ∧
        (∀ p ∈ L.drop (consumed L).length, p.1 = MOVE_NONE ∧ p.2.stage = STOP) := by
  obtain ⟨_, hst, _, hsq, _⟩ := mkQsearch_spec C pos hmk
  have hst : mp.stage = RECAPTURE := by
    rw [hst, if_neg (by simp [hchk]), if_neg (not_lt.2 (le_trans hd hord)),
      if_neg (not_lt.2 hd)]
  obtain ⟨F, T, hrun, hrets, _⟩ := constructed_run_other C pos ss mp
    (mkQsearch_constructed C pos ss hmk) (by rw [hst]; decide) mp.moves
  rw [modeRets_recapture C pos ss mp mp.moves hst, hsq hst] at hrets
  have hmoves : (rets T).map Prod.snd
      = (capPicks C pos mp.moves).filter fun m => decide (C.to_sq m = s) := by
    rw [hrets, map_snd_tag]
  have hperm := capPicks_perm C pos mp.moves
  have hnz : ∀ p ∈ rets T, p.2 ≠ MOVE_NONE := by
    intro p hp
    have : p.2 ∈ (rets T).map Prod.snd := List.mem_map.2 ⟨p, hp, rfl⟩
    rw [hmoves] at this
    exact h0 _ (hperm.mem_iff.1 (List.mem_filter.1 this).1)
  refine ⟨max F ((rets T).length + 1), fun fuel k hfuel hcalls => ?_⟩
  have hk : (rets T).length < k :=
    lt_of_lt_of_le (Nat.lt_succ_self _) (le_trans (le_max_right _ _) hcalls)
  obtain ⟨L, hL, hstg, hcons⟩ := consumed_of_nonzero C pos ss hrun fuel k
    (le_trans (le_max_left _ _) hfuel) hk hnz
  have hlen : (consumed L).length = (rets T).length := by rw [hcons, List.length_map]
  have hLlen : L.length = k := by
    have := congrArg List.length hstg
    simp only [staged, List.length_map, List.length_append, List.length_replicate] at this
    omega
  have hfst : L.map Prod.fst
      = (rets T).map Prod.snd ++ List.replicate (k - (rets T).length) MOVE_NONE := by
    have := congrArg (List.map Prod.snd) hstg
    simp only [staged, List.map_map, List.map_append, List.map_replicate] at this
    exact this
  refine ⟨L, hL, ?_, ?_, ?_, ?_, ?_⟩
  · rw [hcons, hmoves]
    exact hperm.filter _
  · rw [hcons, hmoves]
    exact (hperm.nodup_iff.2 hnd).filter _
  · intro m hm hne hmem
    rw [hfst] at hmem
    have := mem_returns_of_ne hmem (h0 m hm)
    rw [hmoves] at this
    have h2 := (List.mem_filter.1 this).2
    simp only [decide_eq_true_eq] at h2
    exact hne h2
  · rw [hlen, hLlen]
    exact hk
  · rw [hlen]
    exact drop_of_staged hstg

/-- Witness of `recapture_filter`: recapture mode on `pos0`, square 3. -/
theorem recapture_filter_witness :
    MovePicker.mkQsearch C0 pos0 raw0 4 (-7) 3 = some mpR
      ∧ pos0.checkers = false ∧ (-7 : Depth) ≤ C0.DEPTH_QS_RECAPTURES
      ∧ C0.DEPTH_QS_RECAPTURES ≤ C0.DEPTH_QS_NO_CHECKS
      ∧ (∀ m ∈ pos0.genCaptures, m ≠ MOVE_NONE) ∧ pos0.genCaptures.Nodup
      ∧ ∃ N, ∀ fuel k, N ≤ fuel → N ≤ k →
        ∃ L, calls C0 pos0 ss0 fuel k mpR = some L ∧
          (consumed L).Perm (pos0.genCaptures.filter fun m => decide (C0.to_sq m = 3)) ∧
          (consumed L).Nodup ∧
          (∀ m ∈ pos0.genCaptures, C0.to_sq m ≠ 3 → m ∉ L.map Prod.fst) ∧
          (consumed L).length < L.length ∧
          (∀ p ∈ L.drop (consumed L).length, p.1 = MOVE_NONE ∧ p.2.stage = STOP) :=
  ⟨mkQsearch_mpR, rfl, by decide, by decide, by decide, by decide,
    recapture_filter C0 pos0 ss0 raw0 mpR 4 (-7) 3 mkQsearch_mpR rfl (by decide) (by decide)
      (by decide) (by decide)⟩

end MoveSelection
namespace MoveSelection

variable (C : Consts) (pos : Position) (ss : Stack)

/-- Claim C11 (quiet partition under shallow depth): for a picker built by
the main-search constructor with `d < 3 * ONE_PLY` (and `std::partition`
meeting its contract), any number `k` of calls of `next_move` return with
enough fuel, and the moves they return during `ALL_QUIETS` are a list `A`
followed by a list `B`, every move of `A` having a quiet score `> 0` and
every move of `B` a quiet score `<= 0`: every returned quiet move of positive
score comes before every returned quiet move of non-positive score.  (A
picker built on a position in check is in evasion mode and returns nothing
in `ALL_QUIETS`.) -/
theorem quiet_partition_shallow (hpart : PartitionSpec C) (raw mp : MovePicker) (ttm : Move)
    (d : Depth) (hmk : MovePicker.mkMain C pos ss raw ttm d = some mp)
    (hd : d < 3 * C.ONE_PLY) (k : Nat) :
    ∃ N L, (∀ fuel, N ≤ fuel → calls C pos ss fuel k mp = some L) ∧
      ∃ A B, returnedIn ALL_QUIETS L = A ++ B ∧
        (∀ m ∈ A, quietValue C pos ss m > VALUE_ZERO) ∧
        (∀ m ∈ B, quietValue C pos ss m ≤ VALUE_ZERO) := by
  have hc : Constructed C pos ss mp := Or.inl ⟨raw, ttm, d, hmk⟩
  obtain ⟨_, _, _, _, _, _, _, _, hdepth, _⟩ := mkMain_spec C pos ss hmk
  obtain ⟨N, L, hN⟩ := calls_total C pos ss hpart k mp (Reachable.init hc)
  refine ⟨N, L, hN, ?_⟩
  have hQ : ∀ a, ∃ A B, quietOrder C pos ss mp.depth a = A ++ B ∧
      (∀ m ∈ A, quietValue C pos ss m > VALUE_ZERO) ∧
      (∀ m ∈ B, ¬ quietValue C pos ss m > VALUE_ZERO) := by
    intro a
    obtain ⟨A, B, h1, h2, h3⟩ := quietOrder_shallow C pos ss hpart mp.depth a
      (by rw [hdepth]; exact hd)
    exact ⟨A, B, h1, h2, fun m hm => not_lt.2 (h3 m hm)⟩
  have hsub : ∀ l l' : List Move,
      (∃ A B, l = A ++ B ∧ (∀ m ∈ A, quietValue C pos ss m > VALUE_ZERO) ∧
        (∀ m ∈ B, ¬ quietValue C pos ss m > VALUE_ZERO)) → l'.Sublist l →
      ∃ A B, l' = A ++ B ∧ (∀ m ∈ A, quietValue C pos ss m > VALUE_ZERO) ∧
        (∀ m ∈ B, ¬ quietValue C pos ss m > VALUE_ZERO) :=
    fun l l' h hs => split_sublist h hs
  have hinv := quietInv_constructed C pos ss
    (fun l => ∃ A B, l = A ++ B ∧ (∀ m ∈ A, quietValue C pos ss m > VALUE_ZERO) ∧
      (∀ m ∈ B, ¬ quietValue C pos ss m > VALUE_ZERO))
    (hsub _ [] (hQ fun _ => ⟨0, 0⟩) (List.nil_sublist _)) mp hc
  obtain ⟨A, B, h1, h2, h3⟩ := quietInv_calls C pos ss mp.depth
    (fun l => ∃ A B, l = A ++ B ∧ (∀ m ∈ A, quietValue C pos ss m > VALUE_ZERO) ∧
      (∀ m ∈ B, ¬ quietValue C pos ss m > VALUE_ZERO))
    hsub hQ N k mp [] L hinv (hN N (le_refl _))
  exact ⟨A, B, by simpa using h1, h2, fun m hm => not_lt.1 (h3 m hm)⟩

/-- Witness of `quiet_partition_shallow`: main search at depth 2 on `posM`,
twelve calls. The quiet moves 100 and 102 have the score 7 and the quiet move
101 has the score -5; all three are returned during the quiet stage, and the
returned moves split into a part with positive scores that holds 100 and a
later part with scores `<= 0` that holds 101. -/
theorem quiet_partition_shallow_witness :
    PartitionSpec C0 ∧ MovePicker.mkMain C0 posM ss0 raw0 4 2 = some mpS
      ∧ (2 : Depth) < 3 * C0.ONE_PLY
      ∧ quietValue C0 posM ss0 100 = 7 ∧ quietValue C0 posM ss0 101 = -5
      ∧ ∃ N L, (∀ fuel, N ≤ fuel → calls C0 posM ss0 fuel 12 mpS = some L) ∧
        ∃ A B, returnedIn ALL_QUIETS L = A ++ B ∧ 100 ∈ A ∧ 101 ∈ B ∧
          (∀ m ∈ A, quietValue C0 posM ss0 m > VALUE_ZERO) ∧
          (∀ m ∈ B, quietValue C0 posM ss0 m ≤ VALUE_ZERO) := by
  refine ⟨partitionSpec_C0, mkMain_mpS_posM, by decide, by decide, by decide, ?_⟩
  obtain ⟨N, L, hN, A, B, hAB, hA, hB⟩ :=
    quiet_partition_shallow C0 posM ss0 partitionSpec_C0 raw0 mpS 4 2 mkMain_mpS_posM
      (by decide) 12
  obtain ⟨F, hF⟩ := quiets_posM
  obtain ⟨L', hL', h100, h101⟩ := hF (max N F) (le_max_right _ _)
  have hLL : L' = L := by
    have := hN (max N F) (le_max_left _ _)
    rw [hL'] at this
    exact Option.some.inj this
  subst hLL
  rw [hAB] at h100 h101
  refine ⟨N, L', hN, A, B, hAB, ?_, ?_, hA, hB⟩
  · rcases List.mem_append.1 h100 with h | h
    · exact h
    · exact absurd (hB 100 h) (by decide)
  · rcases List.mem_append.1 h101 with h | h
    · exact absurd (hA 101 h) (by decide)
    · exact h

end MoveSelection
namespace MoveSelection

variable (C : Consts) (pos : Position) (ss : Stack)

/-- Claim C12 (hint validation): let `acc` say that the supplied hint passes
the validation of the constructor used: `ttm` is not `MOVE_NONE` and is
pseudo-legal, and moreover, for the quiescence constructor, the picker is not
in recapture mode, and, for the probcut constructor, `ttm` is a capture with
`see(ttm) > threshold`.  After construction a hint is stored exactly when
`acc` holds; when it holds the stored `ttMove` is `ttm` and one buffer slot
is reserved; in every other case `ttMove` is `MOVE_NONE`, no slot is reserved
(`endMoves == cur`), and no call of `next_move`, the first one in particular,
returns from a hint stage (the first call does return, with enough fuel,
when `std::partition` meets its contract). -/
theorem hint_validation (raw mp : MovePicker) (ttm : Move) (d : Depth) (s : Square)
    (th : Value) (acc : Prop)
    (hmk : (MovePicker.mkMain C pos ss raw ttm d = some mp
        ∧ (acc ↔ (ttm ≠ MOVE_NONE ∧ pos.pseudo_legal ttm = true)))
      ∨ (MovePicker.mkQsearch C pos raw ttm d s = some mp
        ∧ (acc ↔ (ttm ≠ MOVE_NONE ∧ pos.pseudo_legal ttm = true ∧ mp.stage ≠ RECAPTURE)))
      ∨ (MovePicker.mkProbcut C pos raw ttm th = some mp
        ∧ (acc ↔ (ttm ≠ MOVE_NONE ∧ pos.pseudo_legal ttm = true ∧ pos.capture ttm = true
            ∧ pos.see ttm > th)))) :
    (mp.ttMove ≠ MOVE_NONE ↔ acc) ∧
    (acc → mp.ttMove = ttm ∧ mp.cur = .moves 0 ∧ mp.endMoves = .moves 1) ∧
    (¬ acc → mp.ttMove = MOVE_NONE ∧ mp.cur = .moves 0 ∧ mp.endMoves = .moves 0 ∧
      (∀ fuel m mp', next_move C pos ss fuel mp = some (m, mp') → ¬ IsHintStage mp'.stage) ∧
      (PartitionSpec C → ∃ N m mp',
        (∀ fuel, N ≤ fuel → next_move C pos ss fuel mp = some (m, mp'))
          ∧ ¬ IsHintStage mp'.stage)) := by
  have hcon : Constructed C pos ss mp := by
    rcases hmk with ⟨h, _⟩ | ⟨h, _⟩ | ⟨h, _⟩
    · exact Or.inl ⟨raw, ttm, d, h⟩
    · exact mkQsearch_constructed C pos ss h
    · exact mkProbcut_constructed C pos ss h
  obtain ⟨hcur, hend, _⟩ := constructed_facts C pos ss mp hcon
  have hval : (acc → mp.ttMove = ttm ∧ ttm ≠ MOVE_NONE) ∧ (¬ acc → mp.ttMove = MOVE_NONE) := by
    rcases hmk with ⟨h, hacc⟩ | ⟨h, hacc⟩ | ⟨h, hacc⟩
    · obtain ⟨_, _, htt, _⟩ := mkMain_spec C pos ss h
      constructor
      · intro ha
        rw [htt, if_pos (show ttm ≠ 0 ∧ pos.pseudo_legal ttm = true from hacc.1 ha)]
        exact ⟨rfl, (hacc.1 ha).1⟩
      · intro ha
        rw [htt, if_neg (fun (hc : ttm ≠ 0 ∧ pos.pseudo_legal ttm = true) => ha (hacc.2 hc))]
    · obtain ⟨_, _, htt, _⟩ := mkQsearch_spec C pos h
      constructor
      · intro ha
        obtain ⟨h1, h2, h3⟩ := hacc.1 ha
        rw [htt, if_neg h3, if_pos (show ttm ≠ 0 ∧ pos.pseudo_legal ttm = true from ⟨h1, h2⟩)]
        exact ⟨rfl, h1⟩
      · intro ha
        rw [htt]
        split
        · rfl
        · rename_i hr
          rw [if_neg (fun (hc : ttm ≠ 0 ∧ pos.pseudo_legal ttm = true) =>
            ha (hacc.2 ⟨hc.1, hc.2, hr⟩))]
    · obtain ⟨_, _, _, htt, _⟩ := mkProbcut_spec C pos h
      constructor
      · intro ha
        rw [htt, if_pos (show ttm ≠ 0 ∧ pos.pseudo_legal ttm = true ∧ pos.capture ttm = true
          ∧ pos.see ttm > th from hacc.1 ha)]
        exact ⟨rfl, (hacc.1 ha).1⟩
      · intro ha
        rw [htt, if_neg (fun (hc : ttm ≠ 0 ∧ pos.pseudo_legal ttm = true
          ∧ pos.capture ttm = true ∧ pos.see ttm > th) => ha (hacc.2 hc))]
  refine ⟨⟨fun hne => ?_, fun ha => ?_⟩, fun ha => ?_, fun ha => ?_⟩
  · by_contra hna
    exact hne (hval.2 hna)
  · rw [(hval.1 ha).1]
    exact (hval.1 ha).2
  · have hne : mp.ttMove ≠ MOVE_NONE := by
      rw [(hval.1 ha).1]
      exact (hval.1 ha).2
    rw [if_pos hne] at hend
    exact ⟨(hval.1 ha).1, hcur, hend⟩
  · have htt := hval.2 ha
    rw [htt, if_neg (fun h => h rfl)] at hend
    refine ⟨htt, hcur, hend, fun fuel m mp' h => no_hint_return C pos ss mp hcon htt fuel m mp' h,
      fun hpart => ?_⟩
    obtain ⟨N, m, mp', hN⟩ := reachable_total C pos ss hpart mp (Reachable.init hcon)
    exact ⟨N, m, mp', hN, no_hint_return C pos ss mp hcon htt N m mp' (hN N (le_refl _))⟩

/-- Witness of `hint_validation`: the probcut constructor on `pos0` with
threshold 0 accepts the hint 4, a capture with `see` 5; the main-search
constructor on `posE`, where no move is pseudo-legal, rejects the hint 4. -/
theorem hint_validation_witness :
    (MovePicker.mkProbcut C0 pos0 raw0 4 0 = some mpP
      ∧ ((4 : Move) ≠ MOVE_NONE ∧ pos0.pseudo_legal 4 = true ∧ pos0.capture 4 = true
          ∧ pos0.see 4 > 0)
      ∧ mpP.ttMove = 4 ∧ mpP.cur = .moves 0 ∧ mpP.endMoves = .moves 1)
    ∧ (MovePicker.mkMain C0 posE ss0 raw0 4 5 = some mpE
      ∧ ¬ ((4 : Move) ≠ MOVE_NONE ∧ posE.pseudo_legal 4 = true)
      ∧ mpE.ttMove = MOVE_NONE ∧ mpE.cur = .moves 0 ∧ mpE.endMoves = .moves 0) :=
  ⟨⟨rfl, by decide,
    (hint_validation C0 pos0 ss0 raw0 mpP 4 0 0 0
      ((4 : Move) ≠ MOVE_NONE ∧ pos0.pseudo_legal 4 = true ∧ pos0.capture 4 = true
        ∧ pos0.see 4 > 0)
      (Or.inr (Or.inr ⟨rfl, Iff.rfl⟩))).2.1 (by decide)⟩,
   ⟨mkMain_mpE, by decide,
    ((hint_validation C0 posE ss0 raw0 mpE 4 5 0 0
      ((4 : Move) ≠ MOVE_NONE ∧ posE.pseudo_legal 4 = true)
      (Or.inl ⟨mkMain_mpE, Iff.rfl⟩)).2.2 (by decide)).1,
    ((hint_validation C0 posE ss0 raw0 mpE 4 5 0 0
      ((4 : Move) ≠ MOVE_NONE ∧ posE.pseudo_legal 4 = true)
      (Or.inl ⟨mkMain_mpE, Iff.rfl⟩)).2.2 (by decide)).2.1,
    ((hint_validation C0 posE ss0 raw0 mpE 4 5 0 0
      ((4 : Move) ≠ MOVE_NONE ∧ posE.pseudo_legal 4 = true)
      (Or.inl ⟨mkMain_mpE, Iff.rfl⟩)).2.2 (by decide)).2.2.1⟩⟩

end MoveSelection
namespace MoveSelection

variable (C : Consts) (pos : Position) (ss : Stack)

/-- Claim C13 (no moves means immediate exhaustion): for a picker built by
any of the three constructors, in whatever mode, on a position for which
every generator emits the empty list and `pos.pseudo_legal` is false for
every move (with `std::partition` meeting its contract), the first call of
`next_move` returns with enough fuel, returns `MOVE_NONE` and leaves the
picker in `STOP`. -/
theorem no_moves_exhaustion (hpart : PartitionSpec C) (mp : MovePicker)
    (hc : Constructed C pos ss mp)
    (h1 : pos.genCaptures = []) (h2 : pos.genQuiets = []) (h3 : pos.genEvasions = [])
    (h4 : pos.genQuietChecks = []) (hpl : ∀ m, pos.pseudo_legal m = false) :
    ∃ N mp', (∀ fuel, N ≤ fuel → next_move C pos ss fuel mp = some (MOVE_NONE, mp'))
      ∧ mp'.stage = STOP := by
  have hgen : GenSat pos fun _ => False := by
    intro m hm
    rw [h1, h2, h3, h4] at hm
    exact absurd hm (List.not_mem_nil _)
  have hkill : ∀ m, m ≠ MOVE_NONE → pos.pseudo_legal m = true → False := by
    intro m _ h
    rw [hpl m] at h
    exact Bool.noConfusion h
  have hinv := inv_constructed C pos ss hkill mp hc
  obtain ⟨N, m, mp', hN⟩ := reachable_total C pos ss hpart mp (Reachable.init hc)
  obtain ⟨_, hP, hstop⟩ := inv_next_move C pos ss hpart hgen hkill N mp mp' m hinv
    (hN N (le_refl _))
  have hs : mp'.stage = STOP := by
    by_contra hne
    exact hP hne
  have hm : m = MOVE_NONE := hstop hs
  rw [hm] at hN
  exact ⟨N, mp', hN, hs⟩

/-- Witness of `no_moves_exhaustion`: main search on the position `posE`
without moves, the supplied hint 4 being rejected. -/
theorem no_moves_exhaustion_witness :
    PartitionSpec C0 ∧ Constructed C0 posE ss0 mpE
      ∧ posE.genCaptures = [] ∧ posE.genQuiets = [] ∧ posE.genEvasions = []
      ∧ posE.genQuietChecks = [] ∧ (∀ m, posE.pseudo_legal m = false)
      ∧ ∃ N mp', (∀ fuel, N ≤ fuel →
          next_move C0 posE ss0 fuel mpE = some (MOVE_NONE, mp')) ∧ mp'.stage = STOP :=
  ⟨partitionSpec_C0, Or.inl ⟨raw0, 4, 5, mkMain_mpE⟩, rfl, rfl, rfl, rfl, fun _ => rfl,
    no_moves_exhaustion C0 posE ss0 partitionSpec_C0 mpE
      (Or.inl ⟨raw0, 4, 5, mkMain_mpE⟩) rfl rfl rfl rfl (fun _ => rfl)⟩

end MoveSelection
namespace MoveSelection

variable (C : Consts) (pos : Position) (ss : Stack)

/-- Claim C14 as amended (single-move position): for a picker built by any of
the three constructors with no hint (`ttm = MOVE_NONE`) on a position whose
only pseudo-legal move is `m` (not `MOVE_NONE`) and for which the generators
of the picker's mode emit `m` and nothing else (from the capture generator
when `pos.capture(m)`, from the quiet generator otherwise, in main search),
provided that in main search the two stored killers are not both `m` when `m`
is a quiet move, that in probcut mode `see(m) > threshold`, and that in
recapture mode `to_sq(m)` is the target square (the buffer holding at least
two entries and `std::partition` meeting its contract), the first call of
`next_move` returns `m` and the second call returns `MOVE_NONE`, both with
enough fuel. -/
theorem single_move_position (hpart : PartitionSpec C) (hmax : 2 ≤ C.MAX_MOVES)
    (raw mp : MovePicker) (d : Depth) (s : Square) (th : Value) (m : Move)
    (hmk : MovePicker.mkMain C pos ss raw MOVE_NONE d = some mp
      ∨ MovePicker.mkQsearch C pos raw MOVE_NONE d s = some mp
      ∨ MovePicker.mkProbcut C pos raw MOVE_NONE th = some mp)
    (hm0 : m ≠ MOVE_NONE) (hpl : ∀ x, pos.pseudo_legal x = true ↔ x = m)
    (hgen :
      (mp.stage = MAIN_SEARCH ∧
        ((pos.genCaptures = [m] ∧ pos.genQuiets = [] ∧ pos.capture m = true)
          ∨ (pos.genCaptures = [] ∧ pos.genQuiets = [m] ∧ pos.capture m = false
              ∧ ¬ (ss.killers0 = m ∧ ss.killers1 = m))))
      ∨ (mp.stage = EVASION ∧ pos.genEvasions = [m])
      ∨ (mp.stage = QSEARCH_WITH_CHECKS ∧
          ((pos.genCaptures = [m] ∧ pos.genQuietChecks = [])
            ∨ (pos.genCaptures = [] ∧ pos.genQuietChecks = [m])))
      ∨ (mp.stage = QSEARCH_WITHOUT_CHECKS ∧ pos.genCaptures = [m])
      ∨ (mp.stage = PROBCUT ∧ pos.genCaptures = [m] ∧ pos.see m > th)
      ∨ (mp.stage = RECAPTURE ∧ pos.genCaptures = [m] ∧ C.to_sq m = s)) :
    ∃ N, ∀ fuel, N ≤ fuel →
      ∃ mp1 mp2, next_move C pos ss fuel mp = some (m, mp1)
        ∧ next_move C pos ss fuel mp1 = some (MOVE_NONE, mp2) ∧ mp2.stage = STOP := by
  have hcon : Constructed C pos ss mp := by
    rcases hmk with h | h | h
    · exact Or.inl ⟨raw, _, d, h⟩
    · exact mkQsearch_constructed C pos ss h
    · exact mkProbcut_constructed C pos ss h
  have htt : mp.ttMove = MOVE_NONE := by
    rcases hmk with h | h | h
    · obtain ⟨_, _, h2, _⟩ := mkMain_spec C pos ss h
      rw [h2, if_neg (fun hc => hc.1 rfl)]
    · obtain ⟨_, _, h2, _⟩ := mkQsearch_spec C pos h
      rw [h2]
      split
      · rfl
      · rw [if_neg (fun hc => hc.1 rfl)]
    · obtain ⟨_, _, _, h2, _⟩ := mkProbcut_spec C pos h
      rw [h2, if_neg (fun hc => hc.1 rfl)]
  have hfit : mp.stage = MAIN_SEARCH → Fits C pos mp.ttMove := by
    intro hst
    rcases hgen with ⟨_, ⟨h1, h2, _⟩ | ⟨h1, h2, _⟩⟩ | ⟨h, _⟩ | ⟨h, _⟩ | ⟨h, _⟩ | ⟨h, _⟩ | ⟨h, _⟩
    · unfold Fits
      rw [h1, h2]
      have : List.countP (isBad pos mp.ttMove) [m] ≤ 1 := List.countP_le_length _
      simp only [List.length_singleton, List.length_nil, Nat.cast_one, Nat.cast_zero]
      constructor <;> omega
    · unfold Fits
      rw [h1, h2]
      simp only [List.countP_nil, List.length_singleton, List.length_nil, Nat.cast_one,
        Nat.cast_zero]
      constructor <;> omega
    all_goals
      rw [h] at hst
      exact absurd hst (by decide)
  obtain ⟨af, F, T, hrun, hrets, _⟩ := constructed_run C pos ss hpart mp hcon hfit
  have hsingle : ∃ st, rets T = [(st, m)] := by
    rw [hrets]
    rcases hgen with ⟨hst, ⟨h1, h2, h3⟩ | ⟨h1, h2, h3, h4⟩⟩ | ⟨hst, h1⟩ | ⟨hst, ⟨h1, h2⟩ | ⟨h1, h2⟩⟩
      | ⟨hst, h1⟩ | ⟨hst, h1, h2⟩ | ⟨hst, h1, h2⟩
    · exact modeRets_single_capture C pos ss hpart mp af m hst htt hm0 hpl h1 h2 h3
    · exact modeRets_single_quiet C pos ss hpart mp af m hst htt hm0 hpl h1 h2 h3 h4
    · refine ⟨ALL_EVASIONS, ?_⟩
      rw [modeRets_evasion C pos ss mp af hst, evaPicks_of_single C pos _ m h1, htt]
      simp [hintRets, tag, hm0]
    · refine ⟨QCAPTURES_1, ?_⟩
      rw [modeRets_qs_checks C pos ss mp af hst, capPicks_of_single C pos _ m h1, h2, htt]
      simp [hintRets, tag, hm0]
    · refine ⟨CHECKS, ?_⟩
      rw [modeRets_qs_checks C pos ss mp af hst, capPicks_of_nil C pos _ h1, h2, htt]
      simp [hintRets, tag, hm0]
    · refine ⟨QCAPTURES_2, ?_⟩
      rw [modeRets_qs_no_checks C pos ss mp af hst, capPicks_of_single C pos _ m h1, htt]
      simp [hintRets, tag, hm0]
    · refine ⟨PROBCUT_CAPTURES, ?_⟩
      have hth : mp.threshold = th := by
        rcases hmk with h | h | h
        · obtain ⟨_, h2, _⟩ := mkMain_spec C pos ss h
          rw [hst] at h2
          split at h2 <;> exact absurd h2 (by decide)
        · obtain ⟨_, h2, _⟩ := mkQsearch_spec C pos h
          rw [hst] at h2
          split at h2
          · exact absurd h2 (by decide)
          · split at h2
            · exact absurd h2 (by decide)
            · split at h2 <;> exact absurd h2 (by decide)
        · exact (mkProbcut_spec C pos h).2.2.1
      rw [modeRets_probcut C pos ss mp af hst, capPicks_of_single C pos _ m h1, htt, hth]
      simp [hintRets, tag, hm0, h2]
    · refine ⟨RECAPTURES, ?_⟩
      have hsq : mp.recaptureSquare = s := by
        rcases hmk with h | h | h
        · obtain ⟨_, h2, _⟩ := mkMain_spec C pos ss h
          rw [hst] at h2
          split at h2 <;> exact absurd h2 (by decide)
        · exact (mkQsearch_spec C pos h).2.2.2.1 hst
        · have h2 := (mkProbcut_spec C pos h).2.1
          rw [hst] at h2
          exact absurd h2 (by decide)
      rw [modeRets_recapture C pos ss mp af hst, capPicks_of_single C pos _ m h1, hsq]
      simp [tag, h2]
  obtain ⟨st, hst⟩ := hsingle
  refine ⟨F, fun fuel hfuel => ?_⟩
  obtain ⟨mp1, mp2, h1, _, h2, h3⟩ := two_calls_of_single C pos ss hrun hst fuel hfuel
  exact ⟨mp1, mp2, h1, h2, h3⟩

/-- Witness of `single_move_position`: quiescence search without checks on
`posP`, whose only move is the capture 9. -/
theorem single_move_position_witness :
    PartitionSpec C0 ∧ 2 ≤ C0.MAX_MOVES
      ∧ MovePicker.mkQsearch C0 posP raw0 MOVE_NONE (-3) 5 = some mpPQ
      ∧ (9 : Move) ≠ MOVE_NONE ∧ (∀ x, posP.pseudo_legal x = true ↔ x = 9)
      ∧ (mpPQ.stage = QSEARCH_WITHOUT_CHECKS ∧ posP.genCaptures = [9])
      ∧ ∃ N, ∀ fuel, N ≤ fuel →
        ∃ mp1 mp2, next_move C0 posP ss0 fuel mpPQ = some (9, mp1)
          ∧ next_move C0 posP ss0 fuel mp1 = some (MOVE_NONE, mp2) ∧ mp2.stage = STOP :=
  ⟨partitionSpec_C0, by decide, mkQsearch_mpPQ, by decide, fun x => by simp [posP],
    ⟨rfl, rfl⟩,
    single_move_position C0 posP ss0 partitionSpec_C0 (by decide) raw0 mpPQ (-3) 5 0 9
      (Or.inr (Or.inl mkQsearch_mpPQ)) (by decide) (fun x => by simp [posP])
      (Or.inr (Or.inr (Or.inr (Or.inl ⟨rfl, rfl⟩))))⟩

/-- Counterexample to claim C14 as stated, at three pickers built with no
hint on a position whose generators emit exactly one move, the only
pseudo-legal one.  Main search on `posK` (the quiet move 7) with both stored
killers equal to 7 returns 7 at the first call and 7 again at the second.
The probcut picker with threshold 0 on `posP` (the capture 9, with `see` 0)
returns `MOVE_NONE` at the first call, and so does the recapture picker on
`posP` with target square 5, the capture 9 going to square 9. -/
theorem single_move_counterexample :
    (MovePicker.mkMain C0 posK ssK raw0 MOVE_NONE 1 = some mpK
      ∧ posK.genCaptures ++ posK.genQuiets = [7] ∧ (∀ x, posK.pseudo_legal x = true ↔ x = 7)
      ∧ ∃ N, ∀ fuel, N ≤ fuel →
        ∃ mp1 mp2, next_move C0 posK ssK fuel mpK = some (7, mp1)
          ∧ next_move C0 posK ssK fuel mp1 = some (7, mp2) ∧ (7 : Move) ≠ MOVE_NONE)
    ∧ (MovePicker.mkProbcut C0 posP raw0 MOVE_NONE 0 = some mpPP
      ∧ posP.genCaptures = [9] ∧ (∀ x, posP.pseudo_legal x = true ↔ x = 9)
      ∧ ∃ N, ∀ fuel, N ≤ fuel →
        ∃ mp1, next_move C0 posP ss0 fuel mpPP = some (MOVE_NONE, mp1)
          ∧ (9 : Move) ≠ MOVE_NONE)
    ∧ (MovePicker.mkQsearch C0 posP raw0 MOVE_NONE (-7) 5 = some mpPR
      ∧ posP.genCaptures = [9] ∧ (∀ x, posP.pseudo_legal x = true ↔ x = 9)
      ∧ ∃ N, ∀ fuel, N ≤ fuel →
        ∃ mp1, next_move C0 posP ss0 fuel mpPR = some (MOVE_NONE, mp1)
          ∧ (9 : Move) ≠ MOVE_NONE) := by
  refine ⟨⟨mkMain_mpK, rfl, fun x => by simp [posK], ?_⟩,
    ⟨mkProbcut_mpPP, rfl, fun x => by simp [posP], ?_⟩,
    ⟨mkQsearch_mpPR, rfl, fun x => by simp [posP], ?_⟩⟩
  · obtain ⟨af, F, T, hrun, hrets, _⟩ := constructed_run C0 posK ssK partitionSpec_C0 mpK
      (Or.inl ⟨raw0, 0, 1, mkMain_mpK⟩) (fun _ => by decide)
    have hq : quietOrder C0 posK ssK mpK.depth af = [7] :=
      quietOrder_of_single C0 posK ssK partitionSpec_C0 _ _ 7 rfl
    have hm : modeRets C0 posK ssK mpK af = [(KILLERS, 7), (KILLERS, 7)] := by
      rw [modeRets_main C0 posK ssK mpK af rfl, hq]
      decide
    rw [hm] at hrets
    refine ⟨F, fun fuel hfuel => ?_⟩
    obtain ⟨mp1, mp2, h1, _, h2, _⟩ := two_calls_of_pair C0 posK ssK hrun hrets fuel hfuel
    exact ⟨mp1, mp2, h1, h2, by decide⟩
  · obtain ⟨F, T, hrun, hrets, _⟩ := constructed_run_other C0 posP ss0 mpPP
      (mkProbcut_constructed C0 posP ss0 mkProbcut_mpPP) (by decide) mpPP.moves
    have hm : modeRets C0 posP ss0 mpPP mpPP.moves = [] := by
      rw [modeRets_probcut C0 posP ss0 mpPP _ rfl, capPicks_of_single C0 posP _ 9 rfl]
      decide
    rw [hm] at hrets
    refine ⟨F, fun fuel hfuel => ?_⟩
    obtain ⟨mp1, h1, _⟩ := first_call_of_empty C0 posP ss0 hrun hrets fuel hfuel
    exact ⟨mp1, h1, by decide⟩
  · obtain ⟨F, T, hrun, hrets, _⟩ := constructed_run_other C0 posP ss0 mpPR
      (mkQsearch_constructed C0 posP ss0 mkQsearch_mpPR) (by decide) mpPR.moves
    have hm : modeRets C0 posP ss0 mpPR mpPR.moves = [] := by
      rw [modeRets_recapture C0 posP ss0 mpPR _ rfl, capPicks_of_single C0 posP _ 9 rfl]
      decide
    rw [hm] at hrets
    refine ⟨F, fun fuel hfuel => ?_⟩
    obtain ⟨mp1, h1, _⟩ := first_call_of_empty C0 posP ss0 hrun hrets fuel hfuel
    exact ⟨mp1, h1, by decide⟩

end MoveSelection
namespace MoveSelection

variable (C : Consts) (pos : Position) (ss : Stack)

/-- Claim C15 (initial stage selection): the main-search constructor (which
asserts `d > DEPTH_ZERO`) sets `stage` to `EVASION` when the side to move is
in check and to `MAIN_SEARCH` otherwise; the quiescence constructor (which
asserts `d <= DEPTH_ZERO`) sets `EVASION` when in check, else
`QSEARCH_WITH_CHECKS` when `d > DEPTH_QS_NO_CHECKS`, else
`QSEARCH_WITHOUT_CHECKS` when `d > DEPTH_QS_RECAPTURES`, else `RECAPTURE`,
where it records the target square and discards the hint; the probcut
constructor (which asserts that the side to move is not in check) sets
`PROBCUT`.  Outside the `RECAPTURE` branch the stored hint is the supplied one
whenever that one passes the validation. -/
theorem initial_stage_selection (raw : MovePicker) (ttm : Move) (d : Depth) (s : Square)
    (th : Value) :
    (d > DEPTH_ZERO → ∃ mp, MovePicker.mkMain C pos ss raw ttm d = some mp ∧
      mp.stage = (if pos.checkers = true then EVASION else MAIN_SEARCH) ∧
      mp.ttMove = (if ttm ≠ MOVE_NONE ∧ pos.pseudo_legal ttm = true then ttm else MOVE_NONE)) ∧
    (d ≤ DEPTH_ZERO → ∃ mp, MovePicker.mkQsearch C pos raw ttm d s = some mp ∧
      mp.stage = (if pos.checkers = true then EVASION
        else if d > C.DEPTH_QS_NO_CHECKS then QSEARCH_WITH_CHECKS
        else if d > C.DEPTH_QS_RECAPTURES then QSEARCH_WITHOUT_CHECKS
        else RECAPTURE) ∧
      (mp.stage = RECAPTURE → mp.recaptureSquare = s ∧ mp.ttMove = MOVE_NONE) ∧
      (mp.stage ≠ RECAPTURE → mp.ttMove =
        (if ttm ≠ MOVE_NONE ∧ pos.pseudo_legal ttm = true then ttm else MOVE_NONE))) ∧
    (pos.checkers = false → ∃ mp, MovePicker.mkProbcut C pos raw ttm th = some mp ∧
      mp.stage = PROBCUT ∧ mp.threshold = th ∧
      mp.ttMove = (if ttm ≠ MOVE_NONE ∧ pos.pseudo_legal ttm = true ∧ pos.capture ttm = true
        ∧ pos.see ttm > th then ttm else MOVE_NONE)) := by
  refine ⟨fun hd => ?_, fun hd => ?_, fun hc => ?_⟩
  · obtain ⟨mp, hmp⟩ : ∃ mp, MovePicker.mkMain C pos ss raw ttm d = some mp := by
      unfold MovePicker.mkMain
      rw [if_pos hd]
      exact ⟨_, rfl⟩
    obtain ⟨_, h1, h2, _⟩ := mkMain_spec C pos ss hmp
    exact ⟨mp, hmp, h1, h2⟩
  · obtain ⟨mp, hmp⟩ : ∃ mp, MovePicker.mkQsearch C pos raw ttm d s = some mp := by
      unfold MovePicker.mkQsearch
      rw [if_pos hd]
      simp only
      split
      · exact ⟨_, rfl⟩
      · split
        · exact ⟨_, rfl⟩
        · split <;> exact ⟨_, rfl⟩
    obtain ⟨_, h1, h2, h3, _⟩ := mkQsearch_spec C pos hmp
    refine ⟨mp, hmp, h1, fun hr => ⟨h3 hr, ?_⟩, fun hr => ?_⟩
    · rw [h2, if_pos hr]
    · rw [h2, if_neg hr]
      rfl
  · obtain ⟨mp, hmp⟩ : ∃ mp, MovePicker.mkProbcut C pos raw ttm th = some mp := by
      unfold MovePicker.mkProbcut
      rw [if_neg (by simp [hc])]
      exact ⟨_, rfl⟩
    obtain ⟨_, h1, h2, h3, _⟩ := mkProbcut_spec C pos hmp
    exact ⟨mp, hmp, h1, h2, h3⟩

/-- Witness of `initial_stage_selection`: the quiescence constructor at depth
`-7` on `pos0` selects `RECAPTURE`, records the square and discards the
hint 4. -/
theorem initial_stage_selection_witness :
    (-7 : Depth) ≤ DEPTH_ZERO ∧
      ∃ mp, MovePicker.mkQsearch C0 pos0 raw0 4 (-7) 3 = some mp ∧
        mp.stage = (if pos0.checkers = true then EVASION
          else if (-7 : Depth) > C0.DEPTH_QS_NO_CHECKS then QSEARCH_WITH_CHECKS
          else if (-7 : Depth) > C0.DEPTH_QS_RECAPTURES then QSEARCH_WITHOUT_CHECKS
          else RECAPTURE) ∧
        (mp.stage = RECAPTURE → mp.recaptureSquare = 3 ∧ mp.ttMove = MOVE_NONE) ∧
        (mp.stage ≠ RECAPTURE → mp.ttMove =
          (if (4 : Move) ≠ MOVE_NONE ∧ pos0.pseudo_legal 4 = true then 4 else MOVE_NONE)) :=
  ⟨by decide, (initial_stage_selection C0 pos0 ss0 raw0 4 (-7) 3 0).2.1 (by decide)⟩

end MoveSelection
namespace UCI

/-- Claim C16 as amended (`UCI::value` mate reporting), for constants with
`MAX_PLY < VALUE_MATE`: for every `v` with `|v| < VALUE_MATE - MAX_PLY` the
result is `"cp "` followed by `v * 100 / PawnValueEg`; for every mating score
`v = VALUE_MATE - p` with `0 < p <= MAX_PLY` the result is `"mate y"` with
`y = ceil(p / 2) > 0`; for every mated score `v = -VALUE_MATE + p` with
`2 <= p <= MAX_PLY` the result is `"mate y"` with `y = -floor(p / 2) < 0`;
and for `v = -VALUE_MATE` and `v = -VALUE_MATE + 1` the result is
`"mate 0"`. -/
theorem value_reporting (K : Consts) (hK : K.MAX_PLY < K.VALUE_MATE) :
    (∀ v : Int, |v| < K.VALUE_MATE - K.MAX_PLY →
      value K v = "cp " ++ toString (Int.tdiv (v * 100) K.PawnValueEg)) ∧
    (∀ p : Int, 0 < p → p ≤ K.MAX_PLY →
      value K (K.VALUE_MATE - p) = "mate " ++ toString ((p + 1) / 2) ∧
        (p + 1) / 2 = ⌈(p : ℚ) / 2⌉ ∧ 0 < (p + 1) / 2) ∧
    (∀ p : Int, 2 ≤ p → p ≤ K.MAX_PLY →
      value K (-K.VALUE_MATE + p) = "mate " ++ toString (-(p / 2)) ∧
        p / 2 = ⌊(p : ℚ) / 2⌋ ∧ -(p / 2) < 0) ∧
    (∀ p : Int, 0 ≤ p → p ≤ 1 → p ≤ K.MAX_PLY →
      value K (-K.VALUE_MATE + p) = "mate " ++ toString (0 : Int)) := by
  refine ⟨?_, ?_, ?_, ?_⟩
  · intro v hv
    rw [value, if_pos hv, cpValue]
  · intro p hp hpm
    have hnot : ¬ |K.VALUE_MATE - p| < K.VALUE_MATE - K.MAX_PLY := by
      rw [abs_of_pos (by omega)]
      omega
    have hy : Int.tdiv (K.VALUE_MATE - (K.VALUE_MATE - p) + 1) 2 = (p + 1) / 2 := by
      rw [Int.tdiv_eq_ediv (by omega) (by decide)]
      congr 1
      omega
    refine ⟨?_, ?_, by omega⟩
    · rw [value, if_neg hnot, mateValue, if_pos (by omega), hy]
    · symm
      rw [Int.ceil_eq_iff]
      have h1 : p ≤ 2 * ((p + 1) / 2) := by omega
      have h2 : 2 * ((p + 1) / 2) < p + 2 := by omega
      have h1' : (p : ℚ) ≤ 2 * (((p + 1) / 2 : Int) : ℚ) := by exact_mod_cast h1
      have h2' : (2 : ℚ) * (((p + 1) / 2 : Int) : ℚ) < (p : ℚ) + 2 := by exact_mod_cast h2
      constructor <;> linarith
  · intro p hp hpm
    have hnot : ¬ |(-K.VALUE_MATE + p)| < K.VALUE_MATE - K.MAX_PLY := by
      rw [abs_of_neg (by omega)]
      omega
    have hy : Int.tdiv (-K.VALUE_MATE - (-K.VALUE_MATE + p)) 2 = -(p / 2) := by
      have : -K.VALUE_MATE - (-K.VALUE_MATE + p) = -p := by omega
      rw [this, Int.neg_tdiv, Int.tdiv_eq_ediv (by omega) (by decide)]
    refine ⟨?_, ?_, by omega⟩
    · rw [value, if_neg hnot, mateValue, if_neg (by omega), hy]
    · symm
      rw [Int.floor_eq_iff]
      have h1 : (2 : Int) * (p / 2) ≤ p := by omega
      have h2 : p < 2 * (p / 2) + 2 := by omega
      have h1' : (2 : ℚ) * ((p / 2 : Int) : ℚ) ≤ (p : ℚ) := by exact_mod_cast h1
      have h2' : (p : ℚ) < 2 * ((p / 2 : Int) : ℚ) + 2 := by exact_mod_cast h2
      constructor <;> linarith
  · intro p hp0 hp1 hpm
    have hnot : ¬ |(-K.VALUE_MATE + p)| < K.VALUE_MATE - K.MAX_PLY := by
      rw [abs_of_neg (by omega)]
      omega
    have hy : Int.tdiv (-K.VALUE_MATE - (-K.VALUE_MATE + p)) 2 = 0 := by
      have : -K.VALUE_MATE - (-K.VALUE_MATE + p) = -p := by omega
      rw [this]
      rcases (by omega : p = 0 ∨ p = 1) with h | h <;> rw [h] <;> decide
    rw [value, if_neg hnot, mateValue, if_neg (by omega), hy]

/-- Witness of `value_reporting`: the sample constants, where a mate in three
plies is reported as `mate 2` and being mated in four plies as `mate -2`. -/
theorem value_reporting_witness :
    K0.MAX_PLY < K0.VALUE_MATE ∧ value K0 100 = "cp 38" ∧ value K0 (32000 - 3) = "mate 2"
      ∧ value K0 (-32000 + 4) = "mate -2" ∧ value K0 (-32000 + 1) = "mate 0" :=
  ⟨by decide,
    ((value_reporting K0 (by decide)).1 100 (by decide)).trans (by decide),
    ((value_reporting K0 (by decide)).2.1 3 (by decide) (by decide)).1.trans (by decide),
    ((value_reporting K0 (by decide)).2.2.1 4 (by decide) (by decide)).1.trans (by decide),
    ((value_reporting K0 (by decide)).2.2.2 1 (by decide) (by decide) (by decide)).trans
      (by decide)⟩

/-- Counterexample to claim C16 as stated: with the sample constants the
score `-VALUE_MATE` of a side that is checkmated, which is at most
`-(VALUE_MATE - MAX_PLY)`, is reported as `"mate 0"`, and so is
`-VALUE_MATE + 1`: the reported `y` is not negative. -/
theorem value_mated_counterexample :
    (-32000 : Int) ≤ -(K0.VALUE_MATE - K0.MAX_PLY)
      ∧ value K0 (-32000) = "mate " ++ toString (mateValue K0 (-32000))
      ∧ mateValue K0 (-32000) = 0 ∧ ¬ mateValue K0 (-32000) < 0
      ∧ value K0 (-32000) = "mate 0"
      ∧ (-31999 : Int) ≤ -(K0.VALUE_MATE - K0.MAX_PLY)
      ∧ value K0 (-31999) = "mate " ++ toString (mateValue K0 (-31999))
      ∧ mateValue K0 (-31999) = 0 ∧ ¬ mateValue K0 (-31999) < 0 := by
  refine ⟨by decide, by decide, by decide, by decide, by decide, by decide, by decide,
    by decide, by decide⟩

end UCI
namespace MoveSelection

variable (C : Consts) (pos : Position) (ss : Stack)

/-- Claim C17 (stage chains are mode-exclusive and end in `STOP`): from each
of the six stages a constructor can set, the stages entered by successive
calls of `generate_next_stage` (five calls or more allowed) are those of the
chain of that stage, which ends in `STOP`: `MAIN_SEARCH, GOOD_CAPTURES,
KILLERS, ALL_QUIETS, BAD_CAPTURES, STOP`; `EVASION, ALL_EVASIONS, STOP`;
`QSEARCH_WITH_CHECKS, QCAPTURES_1, CHECKS, STOP`; `QSEARCH_WITHOUT_CHECKS,
QCAPTURES_2, STOP`; `PROBCUT, PROBCUT_CAPTURES, STOP`; `RECAPTURE, RECAPTURES,
STOP`.  Two different chains share only `STOP`; whatever calls of `next_move`
are made on a constructed picker, its stage stays in the chain of the stage
it was constructed with; and in `STOP` `generate_next_stage` is not run (its
`assert` fails) and `next_move` leaves the picker as it is. -/
theorem stage_chains :
    (∀ (mp : MovePicker), mp.stage ∈ initialStages → ∀ n, 5 ≤ n →
      (stagesEntered C pos ss n mp).map (mp.stage :: ·) = some (chain mp.stage)) ∧
    chain MAIN_SEARCH
      = [MAIN_SEARCH, GOOD_CAPTURES, KILLERS, ALL_QUIETS, BAD_CAPTURES, STOP] ∧
    chain EVASION = [EVASION, ALL_EVASIONS, STOP] ∧
    chain QSEARCH_WITH_CHECKS = [QSEARCH_WITH_CHECKS, QCAPTURES_1, CHECKS, STOP] ∧
    chain QSEARCH_WITHOUT_CHECKS = [QSEARCH_WITHOUT_CHECKS, QCAPTURES_2, STOP] ∧
    chain PROBCUT = [PROBCUT, PROBCUT_CAPTURES, STOP] ∧
    chain RECAPTURE = [RECAPTURE, RECAPTURES, STOP] ∧
    (∀ s ∈ initialStages, ∀ s' ∈ initialStages, s ≠ s' →
      ∀ x, x ∈ chain s → x ∈ chain s' → x = STOP) ∧
    (∀ (mp : MovePicker), Constructed C pos ss mp → mp.stage ∈ initialStages ∧
      ∀ fuel k L, calls C pos ss fuel k mp = some L → ∀ p ∈ L, p.2.stage ∈ chain mp.stage) ∧
    (∀ (mp : MovePicker), mp.stage = STOP → generate_next_stage C pos ss mp = none ∧
      ∀ fuel, next_move C pos ss (fuel + 1) mp = some (MOVE_NONE, mp)) := by
  refine ⟨?_, rfl, rfl, rfl, rfl, rfl, rfl, by decide, ?_, ?_⟩
  · intro mp hs n hn
    obtain ⟨k, rfl⟩ : ∃ k, n = k + 5 := ⟨n - 5, by omega⟩
    have hle : mp.stage ≤ STOP := by
      revert hs
      generalize mp.stage = s
      revert s
      decide
    rw [stagesEntered_eq C pos ss _ mp hle, Option.map_some', stageList_chain _ hs k]
  · intro mp hc
    obtain ⟨_, _, _, hst, _, _⟩ := constructed_facts C pos ss mp hc
    have hin : mp.stage ∈ initialStages := by
      rcases hst with h | h | h | h | h | ⟨h, _⟩ <;> rw [h] <;> decide
    refine ⟨hin, fun fuel k L hL p hp => ?_⟩
    obtain ⟨n, hn⟩ := calls_stage C pos ss fuel k mp L hL p hp
    rw [← hn]
    exact chain_iterate hin n
  · intro mp hs
    refine ⟨?_, fun fuel => next_move_STOP C pos ss mp hs fuel⟩
    unfold generate_next_stage
    rw [if_pos hs]

/-- Witness of `stage_chains`: six calls of `generate_next_stage` from the
main-search picker `mp0` enter the five stages after `MAIN_SEARCH`. -/
theorem stage_chains_witness :
    mp0.stage ∈ initialStages ∧ 5 ≤ 6 ∧
      (stagesEntered C0 pos0 ss0 6 mp0).map (mp0.stage :: ·)
        = some [MAIN_SEARCH, GOOD_CAPTURES, KILLERS, ALL_QUIETS, BAD_CAPTURES, STOP] :=
  ⟨by decide, by decide, (stage_chains C0 pos0 ss0).1 mp0 (by decide) 6 (by decide)⟩

end MoveSelection
namespace MoveSelection

variable (C : Consts) (pos : Position) (ss : Stack)

/-- Claim C18 (capture scoring formula): after `score<CAPTURES>`, every entry
of the range `[moves, endMoves)` has
`value = PieceValue[MG][piece_on(to_sq(m))] - 200 * relative_rank(side_to_move, to_sq(m))`
for its own move `m`, in integer arithmetic; no entry of the buffer changes
its move or its place, entries outside the range and the other members of
the picker are unchanged; and when the range has just been filled by
`generate<CAPTURES>`, its entry `j` holds the `j`-th generated capture with
that value. -/
theorem capture_scoring (mp : MovePicker) (i : Int) (j : Nat) :
    ((0 ≤ i ∧ i < mp.endMoves.off) →
      ((score_CAPTURES C pos mp).moves i).value
        = C.PieceValueMG (pos.piece_on (C.to_sq (mp.moves i).move))
          - 200 * C.relative_rank pos.side_to_move (C.to_sq (mp.moves i).move)) ∧
    ((score_CAPTURES C pos mp).moves i).move = (mp.moves i).move ∧
    (¬ (0 ≤ i ∧ i < mp.endMoves.off) → (score_CAPTURES C pos mp).moves i = mp.moves i) ∧
    score_CAPTURES C pos mp = { mp with moves := (score_CAPTURES C pos mp).moves } ∧
    (∀ h : j < pos.genCaptures.length,
      (score_CAPTURES C pos (mp.gen pos.genCaptures)).moves j
        = { move := pos.genCaptures[j]
            value := C.PieceValueMG (pos.piece_on (C.to_sq pos.genCaptures[j]))
              - 200 * C.relative_rank pos.side_to_move (C.to_sq pos.genCaptures[j]) }) := by
  refine ⟨fun h => ?_, ?_, fun h => ?_, rfl, fun h => ?_⟩
  · simp only [score_CAPTURES, scoreRange, if_pos h, captureValue]
  · exact scoreRange_move _ _ _ _
  · simp only [score_CAPTURES, scoreRange, if_neg h]
  · have hr : (0 : Int) ≤ (j : Int) ∧ (j : Int) < (pos.genCaptures.length : Int) :=
      ⟨by omega, by omega⟩
    simp only [score_CAPTURES, MovePicker.gen, scoreRange, Ptr.off, if_pos hr, captureValue,
      generate_move _ _ _ h]

/-- Witness of `capture_scoring`: the entry 1 of the buffer after generating
and scoring the captures of `pos0`. -/
theorem capture_scoring_witness :
    (1 : Nat) < pos0.genCaptures.length ∧
      (score_CAPTURES C0 pos0 (raw0.gen pos0.genCaptures)).moves (1 : Nat)
        = { move := 2
            value := C0.PieceValueMG (pos0.piece_on (C0.to_sq 2))
              - 200 * C0.relative_rank pos0.side_to_move (C0.to_sq 2) } :=
  ⟨by decide, (capture_scoring C0 pos0 raw0 0 1).2.2.2.2 (by decide)⟩

/-- Claim C20 as amended (quiet scoring formula): after `score<QUIETS>`,
every entry of the range `[moves, endMoves)` has, for its own move `m` with
`pc = moved_piece(m)` and `to = to_sq(m)`, the value
`history[pc][to] + 3 * cm[pc][to] + 2 * fm[pc][to] + f2[pc][to]` computed in
the 32-bit `int` arithmetic of `Value` (each product and each sum, from left
to right, reduced to 32 bits), where `cm`, `fm`, `f2` are the counter-move
tables of the frames 1, 2 and 4 plies back and a term whose table pointer is
null is 0; when no product and no partial sum of the expression leaves the
32-bit range, the value is the exact integer sum; no entry changes its move,
and entries outside the range and the other members of the picker are
unchanged. -/
theorem quiet_scoring (mp : MovePicker) (i : Int) :
    ((0 ≤ i ∧ i < mp.endMoves.off) →
      ((score_QUIETS C pos ss mp).moves i).value
        = wrap32 (wrap32 (wrap32
            (pos.history (pos.moved_piece (mp.moves i).move) (C.to_sq (mp.moves i).move)
              + wrap32 (ss.cm.elim 0 (fun t =>
                  3 * t (pos.moved_piece (mp.moves i).move) (C.to_sq (mp.moves i).move))))
            + wrap32 (ss.fm.elim 0 (fun t =>
                2 * t (pos.moved_piece (mp.moves i).move) (C.to_sq (mp.moves i).move))))
          + ss.f2.elim 0 (fun t =>
              t (pos.moved_piece (mp.moves i).move) (C.to_sq (mp.moves i).move))) ∧
      (fits32 (ss.cm.elim 0 (fun t =>
          3 * t (pos.moved_piece (mp.moves i).move) (C.to_sq (mp.moves i).move))) →
        fits32 (ss.fm.elim 0 (fun t =>
          2 * t (pos.moved_piece (mp.moves i).move) (C.to_sq (mp.moves i).move))) →
        fits32
          (pos.history (pos.moved_piece (mp.moves i).move) (C.to_sq (mp.moves i).move)
            + ss.cm.elim 0 (fun t =>
                3 * t (pos.moved_piece (mp.moves i).move) (C.to_sq (mp.moves i).move))) →
        fits32
          (pos.history (pos.moved_piece (mp.moves i).move) (C.to_sq (mp.moves i).move)
            + ss.cm.elim 0 (fun t =>
                3 * t (pos.moved_piece (mp.moves i).move) (C.to_sq (mp.moves i).move))
            + ss.fm.elim 0 (fun t =>
                2 * t (pos.moved_piece (mp.moves i).move) (C.to_sq (mp.moves i).move))) →
        fits32
          (pos.history (pos.moved_piece (mp.moves i).move) (C.to_sq (mp.moves i).move)
            + ss.cm.elim 0 (fun t =>
                3 * t (pos.moved_piece (mp.moves i).move) (C.to_sq (mp.moves i).move))
            + ss.fm.elim 0 (fun t =>
                2 * t (pos.moved_piece (mp.moves i).move) (C.to_sq (mp.moves i).move))
            + ss.f2.elim 0 (fun t =>
                t (pos.moved_piece (mp.moves i).move) (C.to_sq (mp.moves i).move))) →
        ((score_QUIETS C pos ss mp).moves i).value
          = pos.history (pos.moved_piece (mp.moves i).move) (C.to_sq (mp.moves i).move)
            + ss.cm.elim 0 (fun t =>
                3 * t (pos.moved_piece (mp.moves i).move) (C.to_sq (mp.moves i).move))
            + ss.fm.elim 0 (fun t =>
                2 * t (pos.moved_piece (mp.moves i).move) (C.to_sq (mp.moves i).move))
            + ss.f2.elim 0 (fun t =>
                t (pos.moved_piece (mp.moves i).move) (C.to_sq (mp.moves i).move)))) ∧
    ((score_QUIETS C pos ss mp).moves i).move = (mp.moves i).move ∧
    (¬ (0 ≤ i ∧ i < mp.endMoves.off) → (score_QUIETS C pos ss mp).moves i = mp.moves i) ∧
    score_QUIETS C pos ss mp = { mp with moves := (score_QUIETS C pos ss mp).moves } := by
  refine ⟨fun h => ?_, ?_, fun h => ?_, rfl⟩
  · have hv : ((score_QUIETS C pos ss mp).moves i).value
        = quietValue C pos ss (mp.moves i).move := by
      simp only [score_QUIETS, scoreRange, if_pos h]
    rw [hv]
    exact ⟨quietValue_wrapped C pos ss _, quietValue_exact C pos ss _⟩
  · exact scoreRange_move _ _ _ _
  · simp only [score_QUIETS, scoreRange, if_neg h]

/-- Witness of `quiet_scoring`: the quiet moves of `pos0` generated and
scored with the tables of `ssT` (entries 10 and 100, the third pointer
null). The entry 0 holds the move 100, with history value -36, and gets the
value `-36 + 3 * 10 + 2 * 100 + 0 = 194`, nothing overflowing. -/
theorem quiet_scoring_witness :
    ((0 : Int) ≤ 0 ∧ (0 : Int) < (raw0.gen pos0.genQuiets).endMoves.off) ∧
      ((raw0.gen pos0.genQuiets).moves 0).move = 100 ∧
      pos0.history (pos0.moved_piece 100) (C0.to_sq 100) = -36 ∧
      ((score_QUIETS C0 pos0 ssT (raw0.gen pos0.genQuiets)).moves 0).value
        = pos0.history (pos0.moved_piece ((raw0.gen pos0.genQuiets).moves 0).move)
            (C0.to_sq ((raw0.gen pos0.genQuiets).moves 0).move)
          + 3 * 10 + 2 * 100 + 0 ∧
      ((score_QUIETS C0 pos0 ssT (raw0.gen pos0.genQuiets)).moves 0).value = 194 := by
  have h := ((quiet_scoring C0 pos0 ssT (raw0.gen pos0.genQuiets) 0).1 (by decide)).2
    (by decide) (by decide) (by decide) (by decide) (by decide)
  refine ⟨by decide, by decide, by decide, h, ?_⟩
  rw [h]
  decide

/-- Counterexample to claim C20 as stated: `Value` is a 32-bit `int`, and
the exact integer sum is not what is stored when it does not fit. With the
quiet moves of `pos0` generated and the table `cm` of `ssBig`, whose entries
are `2^30`, the entry 0 holds the move 100 with history value -36; the exact
sum `-36 + 3 * 2^30` is 3221225436, and `score<QUIETS>` stores
-1073741860. -/
theorem quiet_scoring_overflow_counterexample :
    ((0 : Int) ≤ 0 ∧ (0 : Int) < (raw0.gen pos0.genQuiets).endMoves.off) ∧
      ((raw0.gen pos0.genQuiets).moves 0).move = 100 ∧
      pos0.history (pos0.moved_piece 100) (C0.to_sq 100)
          + ssBig.cm.elim 0 (fun t => 3 * t (pos0.moved_piece 100) (C0.to_sq 100))
          + ssBig.fm.elim 0 (fun t => 2 * t (pos0.moved_piece 100) (C0.to_sq 100))
          + ssBig.f2.elim 0 (fun t => t (pos0.moved_piece 100) (C0.to_sq 100))
        = 3221225436 ∧
      ((score_QUIETS C0 pos0 ssBig (raw0.gen pos0.genQuiets)).moves 0).value = -1073741860 ∧
      ((score_QUIETS C0 pos0 ssBig (raw0.gen pos0.genQuiets)).moves 0).value
        ≠ pos0.history (pos0.moved_piece ((raw0.gen pos0.genQuiets).moves 0).move)
              (C0.to_sq ((raw0.gen pos0.genQuiets).moves 0).move)
          + ssBig.cm.elim 0 (fun t =>
              3 * t (pos0.moved_piece ((raw0.gen pos0.genQuiets).moves 0).move)
                (C0.to_sq ((raw0.gen pos0.genQuiets).moves 0).move))
          + ssBig.fm.elim 0 (fun t =>
              2 * t (pos0.moved_piece ((raw0.gen pos0.genQuiets).moves 0).move)
                (C0.to_sq ((raw0.gen pos0.genQuiets).moves 0).move))
          + ssBig.f2.elim 0 (fun t =>
              t (pos0.moved_piece ((raw0.gen pos0.genQuiets).moves 0).move)
                (C0.to_sq ((raw0.gen pos0.genQuiets).moves 0).move)) := by
  refine ⟨by decide, by decide, by decide, by decide, by decide⟩

end MoveSelection
namespace MoveSelection

variable (C : Consts) (pos : Position) (ss : Stack)

end MoveSelection
namespace MoveSelection

variable (C : Consts) (pos : Position) (ss : Stack)

end MoveSelection
namespace MoveSelection

/-- Claim C22 (insertion_sort is a stable descending sort): for every array
and every range `[begin, end)` of it, the empty and the one-element range
included, after `insertion_sort(begin, end)` the range is a permutation of
what it held, its values are in non-increasing order, and for every value
`v` the entries of value `v` are the same, in the same order, as before the
call, so that entries of equal value keep their relative order; nothing
outside the range is written. -/
theorem insertion_sort_stable_descending (a : Int → ExtMove) (begin_ end_ : Int) :
    (slice (insertion_sort a begin_ end_) begin_ (end_ - begin_).toNat).Perm
      (slice a begin_ (end_ - begin_).toNat) ∧
    (slice (insertion_sort a begin_ end_) begin_ (end_ - begin_).toNat).Pairwise
      (fun x y => y.value ≤ x.value) ∧
    (∀ v : Value,
      (slice (insertion_sort a begin_ end_) begin_ (end_ - begin_).toNat).filter
          (fun e => decide (e.value = v))
        = (slice a begin_ (end_ - begin_).toNat).filter (fun e => decide (e.value = v))) ∧
    (∀ x, x < begin_ ∨ end_ ≤ x → insertion_sort a begin_ end_ x = a x) := by
  rcases le_or_lt end_ begin_ with h | h
  · rw [insertion_sort_empty a begin_ end_ h]
    have h0 : (end_ - begin_).toNat = 0 := by omega
    rw [h0, slice_zero]
    exact ⟨List.Perm.refl _, List.Pairwise.nil, fun _ => rfl, fun _ _ => rfl⟩
  · have he : end_ = begin_ + ((end_ - begin_).toNat : Int) := by omega
    have h1 := insertion_sort_spec a begin_ (end_ - begin_).toNat
    have h2 := insertion_sort_stable a begin_ (end_ - begin_).toNat
    rw [← he] at h1 h2
    exact ⟨h1.2, h2.1, h2.2, h1.1⟩

end MoveSelection
namespace MoveSelection

/-- Claim C23 (pick_best selects the maximum): for every non-empty range
`[begin, end)` there is a position `j` of the range, the one
`std::max_element` finds, such that `pick_best` is the swap of the entries
`begin` and `j`; the entry then at `begin`, whose move is returned, is the
old entry `j`; its value is `>=` the value of every entry of the range,
before and after the call; every entry of the range before `j` has a
strictly smaller value, so that on ties the first maximal entry is chosen;
entries other than `begin` and `j` are unchanged, and the old entry `begin`
is at `j`; the range holds the same multiset of scored moves. -/
theorem pick_best_selects_max (a : Int → ExtMove) (begin_ end_ : Int) (h : begin_ < end_) :
    ∃ j, begin_ ≤ j ∧ j < end_ ∧
      pick_best a begin_ end_ = swap a begin_ j ∧
      pick_best a begin_ end_ begin_ = a j ∧
      pick_best a begin_ end_ j = a begin_ ∧
      (∀ x, x ≠ begin_ → x ≠ j → pick_best a begin_ end_ x = a x) ∧
      (∀ x, begin_ ≤ x → x < end_ → (a x).value ≤ (pick_best a begin_ end_ begin_).value) ∧
      (∀ x, begin_ ≤ x → x < end_ →
        (pick_best a begin_ end_ x).value ≤ (pick_best a begin_ end_ begin_).value) ∧
      (∀ x, begin_ ≤ x → x < j → (a x).value < (a j).value) ∧
      (slice (pick_best a begin_ end_) begin_ (end_ - begin_).toNat).Perm
        (slice a begin_ (end_ - begin_).toNat) := by
  have hm := max_element_mem a begin_ end_ h
  have hs := max_element_spec a begin_ end_ h
  have hb : pick_best a begin_ end_ begin_ = a (max_element a begin_ end_) := by
    unfold pick_best
    rw [swap_apply, Equiv.swap_apply_left]
  refine ⟨max_element a begin_ end_, hm.1, hm.2, rfl, hb, ?_, ?_, ?_, ?_, hs.2, ?_⟩
  · unfold pick_best
    rw [swap_apply, Equiv.swap_apply_right]
  · intro x h1 h2
    exact swap_frame a _ _ x h1 h2
  · intro x h1 h2
    rw [hb]
    exact hs.1 x h1 h2
  · intro x h1 h2
    exact pick_best_max a begin_ end_ h x h1 h2
  · have hn : end_ = begin_ + ((end_ - begin_).toNat : Int) := by omega
    exact swap_perm a begin_ (end_ - begin_).toNat begin_ _ ⟨le_refl _, by omega⟩
      ⟨hm.1, by omega⟩

/-- Witness of `pick_best_selects_max`: the range `[0, 3)` of `arrTie`, whose
greatest value 1 is at the positions 1 and 2. -/
theorem pick_best_selects_max_witness :
    (0 : Int) < 3 ∧
    ∃ j, (0 : Int) ≤ j ∧ j < 3 ∧
      pick_best arrTie 0 3 = swap arrTie 0 j ∧
      pick_best arrTie 0 3 0 = arrTie j ∧
      pick_best arrTie 0 3 j = arrTie 0 ∧
      (∀ x, x ≠ 0 → x ≠ j → pick_best arrTie 0 3 x = arrTie x) ∧
      (∀ x, (0 : Int) ≤ x → x < 3 → (arrTie x).value ≤ (pick_best arrTie 0 3 0).value) ∧
      (∀ x, (0 : Int) ≤ x → x < 3 →
        (pick_best arrTie 0 3 x).value ≤ (pick_best arrTie 0 3 0).value) ∧
      (∀ x, (0 : Int) ≤ x → x < j → (arrTie x).value < (arrTie j).value) ∧
      (slice (pick_best arrTie 0 3) 0 ((3 : Int) - 0).toNat).Perm
        (slice arrTie 0 ((3 : Int) - 0).toNat) :=
  ⟨by decide, pick_best_selects_max arrTie 0 3 (by decide)⟩

end MoveSelection
namespace MoveSelection

variable (C : Consts) (pos : Position) (ss : Stack)

/-- Claim C24 as amended (killer list deduplicated against the countermove):
for a picker built by the main-search constructor, any pair of stored
killers and any countermove, any number `k` of calls of `next_move` return
with enough fuel, and the moves they return during `KILLERS` are, in this
order, among the first stored killer, the second stored killer and the
countermove, the countermove being listed only when it differs from both
stored killers; none of them is `MOVE_NONE`.  The second stored killer is
not compared with the first: the stage returns no move twice provided the
two stored killers are different from each other unless both are
`MOVE_NONE`. -/
theorem killers_deduplicated (raw mp : MovePicker) (ttm : Move) (d : Depth)
    (hmk : MovePicker.mkMain C pos ss raw ttm d = some mp) (k : Nat) :
    ∃ N L, (∀ fuel, N ≤ fuel → calls C pos ss fuel k mp = some L) ∧
      (returnedIn KILLERS L).Sublist
        (if mp.countermove ≠ ss.killers0 ∧ mp.countermove ≠ ss.killers1
          then [ss.killers0, ss.killers1, mp.countermove] else [ss.killers0, ss.killers1]) ∧
      (∀ m ∈ returnedIn KILLERS L, m ≠ MOVE_NONE) ∧
      ((ss.killers0 = ss.killers1 → ss.killers0 = MOVE_NONE) →
        (returnedIn KILLERS L).Nodup) := by
  have hc : Constructed C pos ss mp := Or.inl ⟨raw, ttm, d, hmk⟩
  obtain ⟨N, L, hN⟩ := calls_total_any C pos ss k mp (Reachable.init hc)
  refine ⟨N, L, hN, ?_⟩
  have hinv := killerInv_constructed C pos ss
    (fun l => l.Sublist (killerList ss mp.countermove)) (List.nil_sublist _) mp hc
  obtain ⟨h1, h2⟩ := killerInv_calls C pos ss mp.countermove
    (fun l => l.Sublist (killerList ss mp.countermove))
    (fun l l' h hs => hs.trans h) (List.Sublist.refl _) N k mp [] L hinv (hN N (le_refl _))
  have h1' : (returnedIn KILLERS L).Sublist (killerList ss mp.countermove) := by
    simpa using h1
  exact ⟨h1', h2, fun hk => nodup_of_sublist_killers ss mp.countermove hk h1' h2⟩

/-- Witness of `killers_deduplicated`: main search on `pos0` with the two
different killers of `ss0`, ten calls. -/
theorem killers_deduplicated_witness :
    MovePicker.mkMain C0 pos0 ss0 raw0 4 5 = some mp0 ∧
    ∃ N L, (∀ fuel, N ≤ fuel → calls C0 pos0 ss0 fuel 10 mp0 = some L) ∧
      (returnedIn KILLERS L).Sublist
        (if mp0.countermove ≠ ss0.killers0 ∧ mp0.countermove ≠ ss0.killers1
          then [ss0.killers0, ss0.killers1, mp0.countermove]
          else [ss0.killers0, ss0.killers1]) ∧
      (∀ m ∈ returnedIn KILLERS L, m ≠ MOVE_NONE) ∧
      ((ss0.killers0 = ss0.killers1 → ss0.killers0 = MOVE_NONE) →
        (returnedIn KILLERS L).Nodup) :=
  ⟨mkMain_mp0, killers_deduplicated C0 pos0 ss0 raw0 mp0 4 5 mkMain_mp0 10⟩

/-- Counterexample to claim C24 as stated: on `posK`, whose only move is the
quiet move 7, main search with the stored killers of `ssK`, both the move 7,
returns 7 twice during `KILLERS`: the second stored killer, equal to the
first, is not skipped. -/
theorem killers_duplicate_counterexample :
    MovePicker.mkMain C0 posK ssK raw0 0 1 = some mpK ∧
    ssK.killers0 = 7 ∧ ssK.killers1 = 7 ∧
    ∃ N, ∀ fuel k, N ≤ fuel → N ≤ k →
      ∃ L, calls C0 posK ssK fuel k mpK = some L ∧ returnedIn KILLERS L = [7, 7]
        ∧ ¬ (returnedIn KILLERS L).Nodup := by
  refine ⟨rfl, rfl, rfl, ?_⟩
  obtain ⟨af, F, T, hrun, hrets, _⟩ := constructed_run C0 posK ssK partitionSpec_C0 mpK
    (Or.inl ⟨raw0, 0, 1, rfl⟩) (fun _ => by decide)
  have hq : quietOrder C0 posK ssK mpK.depth af = [7] :=
    List.perm_singleton.1 (quietOrder_perm C0 posK ssK partitionSpec_C0 mpK.depth af)
  have hm : modeRets C0 posK ssK mpK af = [(KILLERS, 7), (KILLERS, 7)] := by
    rw [modeRets_main C0 posK ssK mpK af rfl, hq]
    decide
  refine ⟨max F (rets T).length, fun fuel k hfuel hk => ?_⟩
  obtain ⟨L, hL, _, hret⟩ := returnedIn_of_trace C0 posK ssK hrun fuel k
    (le_trans (le_max_left _ _) hfuel) (le_trans (le_max_right _ _) hk)
  have hr : returnedIn KILLERS L = [7, 7] := by
    rw [hret KILLERS (by decide), retsIn, hrets, hm]
    decide
  exact ⟨L, hL, hr, by rw [hr]; decide⟩

end MoveSelection
namespace MoveSelection

variable (C : Consts) (pos : Position) (ss : Stack)

/-- Claim C25 as amended (buffer regions never collide): let the number of
generated captures plus the number of losing captures among them (the hint
apart) be at most `MAX_MOVES`.  Whenever a pass made in `GOOD_CAPTURES`
defers a losing capture `m`, the segment being `[moves + i, endMoves)` before
the pass, the slot `e` that `*endBadCaptures-- = m` writes is at or beyond
`endMoves`, so it is not in the unconsumed range `[cur, endMoves)`, where
`cur = moves + i + 1` after `pick_best(cur++, endMoves)`: the capture `m` is
the one `pick_best` put at `moves + i`, the slot `e` receives it, every
other entry of the buffer is as `pick_best` left it, and `endBadCaptures`
goes down by one. -/
theorem deferral_never_collides (mp : MovePicker) (hv : Visited C pos ss mp)
    (hfit : (pos.genCaptures.length : Int)
      + (pos.genCaptures.countP (isBad pos mp.ttMove) : Nat) ≤ C.MAX_MOVES)
    (hs : mp.stage = GOOD_CAPTURES) (m : Move) (mp' : MovePicker)
    (hstep : next_move_step C pos ss mp = .defer m mp') :
    ∃ i e, mp.cur = .moves i ∧ mp.endMoves = .moves pos.genCaptures.length ∧
      mp.endBadCaptures = .moves e ∧ 0 ≤ i ∧ i < pos.genCaptures.length ∧
      (pos.genCaptures.length : Int) ≤ e ∧ ¬ (i + 1 ≤ e ∧ e < pos.genCaptures.length) ∧
      m = (pick_best mp.moves i pos.genCaptures.length i).move ∧
      mp'.cur = .moves (i + 1) ∧ mp'.endMoves = .moves pos.genCaptures.length ∧
      mp'.endBadCaptures = .moves (e - 1) ∧ (mp'.moves e).move = m ∧
      ∀ j, j ≠ e → mp'.moves j = pick_best mp.moves i pos.genCaptures.length j := by
  obtain ⟨_, hcase⟩ := visited_goodInv C pos ss mp hv hfit
  rcases hcase with ⟨h0, _⟩ | ⟨_, i, e, hcur, hend, hebc, h0, hle, hcount⟩ | ⟨_, h1⟩
  · rw [hs] at h0
    exact absurd h0 (by decide)
  · have hlt : i < pos.genCaptures.length := by
      refine lt_of_le_of_ne hle (fun heq => ?_)
      have hce : mp.cur = mp.endMoves := by rw [hcur, hend, heq]
      rw [step_gen C pos ss mp hce (by rw [hs]; decide), gns_killers C pos ss mp hs] at hstep
      exact absurd hstep (by simp)
    have hp := good_pass C pos ss mp.ttMove hfit mp hs rfl i e hcur hend hebc h0 hlt hcount
    rw [hstep] at hp
    obtain ⟨_, hge, hm, hmp⟩ := hp
    refine ⟨i, e, hcur, hend, hebc, h0, hlt, hge, fun h => by omega, hm, ?_, ?_, ?_, ?_, ?_⟩
    · rw [hmp]
    · rw [hmp]
      exact hend
    · rw [hmp]
    · rw [hmp]
      show (Function.update (pick_best mp.moves i pos.genCaptures.length) e
        { pick_best mp.moves i pos.genCaptures.length e with move := m } e).move = m
      rw [Function.update_same]
    · intro j hj
      rw [hmp]
      exact Function.update_noteq hj _ _
  · exact absurd hs h1

/-- Witness of `deferral_never_collides`: main search on `pos0` with hint 4
enters `GOOD_CAPTURES` with five captures, three of them losing, in a buffer
of 256 entries; its first pass defers the capture 5 to the slot 255. -/
theorem deferral_never_collides_witness :
    Visited C0 pos0 ss0 mp0g ∧
    (pos0.genCaptures.length : Int)
      + (pos0.genCaptures.countP (isBad pos0 mp0g.ttMove) : Nat) ≤ C0.MAX_MOVES ∧
    mp0g.stage = GOOD_CAPTURES ∧
    next_move_step C0 pos0 ss0 mp0g = .defer 5 mp0d ∧
    ∃ i e, mp0g.cur = .moves i ∧ mp0g.endMoves = .moves pos0.genCaptures.length ∧
      mp0g.endBadCaptures = .moves e ∧ 0 ≤ i ∧ i < pos0.genCaptures.length ∧
      (pos0.genCaptures.length : Int) ≤ e ∧ ¬ (i + 1 ≤ e ∧ e < pos0.genCaptures.length) ∧
      5 = (pick_best mp0g.moves i pos0.genCaptures.length i).move ∧
      mp0d.cur = .moves (i + 1) ∧ mp0d.endMoves = .moves pos0.genCaptures.length ∧
      mp0d.endBadCaptures = .moves (e - 1) ∧ (mp0d.moves e).move = 5 ∧
      ∀ j, j ≠ e → mp0d.moves j = pick_best mp0g.moves i pos0.genCaptures.length j :=
  ⟨visited_mp0g, by decide, rfl, step_mp0g,
    deferral_never_collides C0 pos0 ss0 mp0g visited_mp0g (by decide) rfl 5 mp0d step_mp0g⟩

/-- Counterexample to claim C25 as stated, at two inputs whose capture list
has at most `MAX_MOVES` entries.  With a buffer of two entries and the two
losing captures of `pos8`, the first pass of `GOOD_CAPTURES` picks the
capture 3, leaves `cur` at `moves + 1` and writes 3 at
`endBadCaptures = moves + 1`, inside `[cur, endMoves) = [moves + 1, moves + 2)`,
over the capture 1, which has not been consumed.  With the buffer of 256
entries of `C0` and the 256 losing captures of `posF`, the first pass writes
the capture it picked at `moves + 255`, inside
`[cur, endMoves) = [moves + 1, moves + 256)`, over another generated
capture. -/
theorem deferral_collision_counterexample :
    (Visited C2 pos8 ss8 mpTg ∧ (pos8.genCaptures.length : Int) ≤ C2.MAX_MOVES ∧
      mpTg.stage = GOOD_CAPTURES ∧ mpTg.endBadCaptures = .moves 1 ∧
      (mpTg.pick.moves 1).move = 1 ∧ 1 ∈ pos8.genCaptures ∧
      ∃ mp', next_move_step C2 pos8 ss8 mpTg = .defer 3 mp' ∧
        mp'.cur = .moves 1 ∧ mp'.endMoves = .moves 2 ∧ (mp'.moves 1).move = 3) ∧
    (Visited C0 posF ss8 mpFg ∧ (posF.genCaptures.length : Int) ≤ C0.MAX_MOVES ∧
      mpFg.stage = GOOD_CAPTURES ∧ mpFg.endBadCaptures = .moves 255 ∧
      (mpFg.pick.moves 255).move ∈ posF.genCaptures ∧
      ∃ m mp', next_move_step C0 posF ss8 mpFg = .defer m mp' ∧
        mp'.cur = .moves 1 ∧ mp'.endMoves = .moves 256 ∧ (mp'.moves 255).move = m ∧
        (mpFg.pick.moves 255).move ≠ m) := by
  refine ⟨⟨visited_mpTg, by decide, rfl, rfl, by decide, by decide, _, step_mpTg, rfl, rfl, ?_⟩,
    ⟨visited_mpFg, ?_, rfl, rfl, pick_mpFg 255 (by decide), _, _, step_mpFg, rfl, rfl, ?_,
      pick_mpFg_ne⟩⟩
  · show (Function.update (pick_best mpTg.moves 0 2) 1
      { pick_best mpTg.moves 0 2 1 with move := 3 } 1).move = 3
    rw [Function.update_same]
  · rw [posF_length]
    decide
  · show (Function.update (pick_best mpFg.moves 0 256) 255
      { pick_best mpFg.moves 0 256 255 with
        move := (pick_best mpFg.moves 0 256 0).move } 255).move = _
    rw [Function.update_same]

end MoveSelection
namespace MoveSelection

variable (C : Consts) (pos : Position) (ss : Stack)

/-- Claim C26 (assertions are unreachable): let `mp` be a state in which a
pass through the loops of `next_move` starts, for a picker built by one of
the three constructors and any sequence of calls.  When the inner `while`
enters `generate_next_stage` (`cur == endMoves && stage != STOP`), the
incremented stage is within the enumeration and `generate_next_stage` fails
neither `assert(stage != STOP)` nor `assert(false)` of its default branch.
When the `switch` of `next_move` is reached instead, the stage is within the
enumeration and is not `RECAPTURE`, so the default branch is not taken; in
`RECAPTURE` the segment is empty.  When the `switch` reaches a case that
calls `pick_best(cur++, endMoves)`, `cur` and `endMoves` point into `moves`
with `cur < endMoves`: the range is not empty.  Altogether the pass fails no
`assert`. -/
theorem assertions_unreachable (mp : MovePicker) (h : Visited C pos ss mp) :
    (mp.cur = mp.endMoves ∧ mp.stage ≠ STOP →
      mp.stage + 1 ≤ STOP ∧ ∃ mp', generate_next_stage C pos ss mp = some mp') ∧
    (¬ (mp.cur = mp.endMoves ∧ mp.stage ≠ STOP) → mp.stage ≤ STOP ∧ mp.stage ≠ RECAPTURE) ∧
    (mp.stage = RECAPTURE → mp.cur = mp.endMoves) ∧
    (¬ (mp.cur = mp.endMoves ∧ mp.stage ≠ STOP) →
      (mp.stage = GOOD_CAPTURES ∨ IsPickStage mp.stage) →
      ∃ i n, mp.cur = .moves i ∧ mp.endMoves = .moves n ∧ i < n) ∧
    ∃ mp', (next_move_step C pos ss mp).after = some mp' := by
  have hinv := visited_inv C pos ss mp h
  have hle := (inv_segment C mp hinv).1
  obtain ⟨hrec, hrange⟩ := inv_pick_range C mp hinv
  refine ⟨fun hc => ?_, fun hc => ⟨hle, fun hs => ?_⟩, hrec, fun hc hs => ?_, ?_⟩
  · have hlt : mp.stage < STOP := lt_of_le_of_ne hle hc.2
    exact ⟨hlt, gns_some C pos ss mp hlt⟩
  · exact hc ⟨hrec hs, by rw [hs]; decide⟩
  · obtain ⟨i, n, h1, h2, h3⟩ := hrange hs
    refine ⟨i, n, h1, h2, lt_of_le_of_ne h3 (fun heq => hc ⟨by rw [h1, h2, heq], ?_⟩)⟩
    rcases hs with hs | hs | hs | hs | hs | hs <;> rw [hs] <;> decide
  · have hok := inv_step_any C pos ss mp hinv
    unfold StepOK at hok
    revert hok
    cases next_move_step C pos ss mp with
    | ret m mp1 => intro _; exact ⟨mp1, rfl⟩
    | brk mp1 => intro _; exact ⟨mp1, rfl⟩
    | defer m mp1 => intro _; exact ⟨mp1, rfl⟩
    | abort => intro hok; exact absurd hok id

/-- Witness of `assertions_unreachable`: the picker `mpR` built by the
quiescence constructor in recapture mode, whose segment is empty. -/
theorem assertions_unreachable_witness :
    Visited C0 pos0 ss0 mpR ∧
    (mpR.cur = mpR.endMoves ∧ mpR.stage ≠ STOP →
      mpR.stage + 1 ≤ STOP ∧ ∃ mp', generate_next_stage C0 pos0 ss0 mpR = some mp') ∧
    (¬ (mpR.cur = mpR.endMoves ∧ mpR.stage ≠ STOP) →
      mpR.stage ≤ STOP ∧ mpR.stage ≠ RECAPTURE) ∧
    (mpR.stage = RECAPTURE → mpR.cur = mpR.endMoves) ∧
    (¬ (mpR.cur = mpR.endMoves ∧ mpR.stage ≠ STOP) →
      (mpR.stage = GOOD_CAPTURES ∨ IsPickStage mpR.stage) →
      ∃ i n, mpR.cur = .moves i ∧ mpR.endMoves = .moves n ∧ i < n) ∧
    ∃ mp', (next_move_step C0 pos0 ss0 mpR).after = some mp' :=
  ⟨Visited.init (mkQsearch_constructed C0 pos0 ss0 mkQsearch_mpR),
    assertions_unreachable C0 pos0 ss0 mpR
      (Visited.init (mkQsearch_constructed C0 pos0 ss0 mkQsearch_mpR))⟩

end MoveSelection
namespace MoveSelection

variable (C : Consts) (pos : Position) (ss : Stack)

/-- Claim C27 (next_move terminates and consumption is finite): for a picker
built by one of the three constructors, whatever the (finite) generated
lists: any number `k` of calls of `next_move` return, each call making
finitely many passes through the loops (`N` passes suffice for each), and at
most `1 + g + 3` of them return a move other than `MOVE_NONE`, `g` being the
number of moves the generators of the mode emit; from every picker obtained
by calls the next call returns once it has enough fuel; and every pass made
from a state the calls go through either returns, or stays in its stage and
moves `cur` one entry forward in a non-empty segment, `endMoves` being
unchanged, or enters a later stage of the enumeration. -/
theorem next_move_terminates (mp0 : MovePicker) (hc : Constructed C pos ss mp0) :
    (∀ k : Nat, ∃ N L, (∀ fuel, N ≤ fuel → calls C pos ss fuel k mp0 = some L) ∧
      (L.map Prod.fst).countP (fun m => decide (m ≠ MOVE_NONE))
        ≤ 1 + genCount pos mp0.stage + 3) ∧
    (∀ mp, Reachable C pos ss mp →
      ∃ N m mp', ∀ fuel, N ≤ fuel → next_move C pos ss fuel mp = some (m, mp')) ∧
    (∀ mp, Visited C pos ss mp →
      ∃ mp', (next_move_step C pos ss mp).after = some mp' ∧
        ((∃ m, next_move_step C pos ss mp = .ret m mp') ∨
          (mp'.stage = mp.stage ∧ mp'.endMoves = mp.endMoves ∧ mp'.cur.off = mp.cur.off + 1
            ∧ mp.cur.off < mp.endMoves.off) ∨
          (mp.stage < mp'.stage ∧ mp'.stage ≤ STOP))) := by
  refine ⟨fun k => ?_, fun mp hr => reachable_total_any C pos ss mp hr, fun mp hv => ?_⟩
  · obtain ⟨N, L, hN⟩ := calls_total_any C pos ss k mp0 (Reachable.init hc)
    refine ⟨N, L, hN, ?_⟩
    have hinv : Inv C (fun _ => True) mp0 :=
      inv_constructed C pos ss (fun _ _ _ => trivial) mp0 hc
    have h1 := remaining_calls C pos ss N k mp0 L hinv (hN N (le_refl _))
    have h2 := remaining_constructed C pos ss mp0 hc
    exact_mod_cast le_trans h1 h2
  · have hinv := visited_inv C pos ss mp hv
    have hok := inv_step_any C pos ss mp hinv
    unfold StepOK at hok
    have hex : ∃ mp', (next_move_step C pos ss mp).after = some mp' := by
      revert hok
      cases next_move_step C pos ss mp with
      | ret m mp1 => intro _; exact ⟨mp1, rfl⟩
      | brk mp1 => intro _; exact ⟨mp1, rfl⟩
      | defer m mp1 => intro _; exact ⟨mp1, rfl⟩
      | abort => intro hok; exact absurd hok id
    obtain ⟨mp', hmp'⟩ := hex
    exact ⟨mp', hmp', pass_progress C pos ss mp mp' hinv hmp'⟩

/-- Witness of `next_move_terminates`: main search on `pos0` with hint 4,
five generated captures and three generated quiet moves. -/
theorem next_move_terminates_witness :
    Constructed C0 pos0 ss0 mp0 ∧
    (∀ k : Nat, ∃ N L, (∀ fuel, N ≤ fuel → calls C0 pos0 ss0 fuel k mp0 = some L) ∧
      (L.map Prod.fst).countP (fun m => decide (m ≠ MOVE_NONE)) ≤ 1 + (5 + 3) + 3) ∧
    (∀ mp, Reachable C0 pos0 ss0 mp →
      ∃ N m mp', ∀ fuel, N ≤ fuel → next_move C0 pos0 ss0 fuel mp = some (m, mp')) ∧
    (∀ mp, Visited C0 pos0 ss0 mp →
      ∃ mp', (next_move_step C0 pos0 ss0 mp).after = some mp' ∧
        ((∃ m, next_move_step C0 pos0 ss0 mp = .ret m mp') ∨
          (mp'.stage = mp.stage ∧ mp'.endMoves = mp.endMoves ∧ mp'.cur.off = mp.cur.off + 1
            ∧ mp.cur.off < mp.endMoves.off) ∨
          (mp.stage < mp'.stage ∧ mp'.stage ≤ STOP))) :=
  ⟨Or.inl ⟨raw0, 4, 5, rfl⟩, next_move_terminates C0 pos0 ss0 mp0 (Or.inl ⟨raw0, 4, 5, rfl⟩)⟩

end MoveSelection
namespace MoveSelection

variable (C : Consts) (pos : Position) (ss : Stack)

/-- Claim C28 (no duplicate under the search driver's killer invariant): for
a picker in main-search mode, if the generated capture list and the
generated quiet list are duplicate-free and disjoint, the buffer regions do
not overlap (the deferred tail meets neither the generated captures nor the
generated quiet moves), the two stored killers are different from each other
unless both are `MOVE_NONE`, and no killer candidate (stored killer or
countermove) that is pseudo-legal and not a capture is among the generated
captures, then, `std::partition` meeting its contract, the calls of
`next_move` return with enough fuel and the moves they return up to the
first `MOVE_NONE` are pairwise different. -/
theorem no_duplicate_main_search (hpart : PartitionSpec C) (mp : MovePicker)
    (hc : Constructed C pos ss mp) (hst : mp.stage = MAIN_SEARCH)
    (hfit : Fits C pos mp.ttMove)
    (hcap : pos.genCaptures.Nodup) (hqui : pos.genQuiets.Nodup)
    (hcq : ∀ m ∈ pos.genCaptures, m ∉ pos.genQuiets)
    (hk : ss.killers0 = ss.killers1 → ss.killers0 = MOVE_NONE)
    (hkc : ∀ m ∈ [ss.killers0, ss.killers1, mp.countermove],
      pos.pseudo_legal m = true → ¬ pos.capture m = true → m ∉ pos.genCaptures) :
    ∃ N, ∀ fuel k, N ≤ fuel → N ≤ k →
      ∃ L, calls C pos ss fuel k mp = some L ∧ (consumed L).Nodup := by
  obtain ⟨af, F, T, hrun, hrets, _⟩ := constructed_run C pos ss hpart mp hc (fun _ => hfit)
  refine ⟨max F ((rets T).length + 1), fun fuel k hfuel hcalls => ?_⟩
  obtain ⟨L, hL, _, _, hcons⟩ := calls_of_trace C pos ss hrun fuel k
    (le_trans (le_max_left _ _) hfuel)
  refine ⟨L, hL, ?_⟩
  rw [hcons (lt_of_lt_of_le (Nat.lt_succ_self _) (le_trans (le_max_right _ _) hcalls)), hrets,
    modeRets_main C pos ss mp af hst]
  simp only [List.map_append, map_snd_tag]
  refine List.Nodup.sublist (List.takeWhile_sublist _) ?_
  have hP : (capPicks C pos mp.moves).Nodup := (capPicks_perm C pos mp.moves).nodup_iff.2 hcap
  have hQ : (quietOrder C pos ss mp.depth af).Nodup :=
    (quietOrder_perm C pos ss hpart mp.depth af).nodup_iff.2 hqui
  apply nodup_main pos ss _ _ _ _ hP hQ
  · intro m h1 h2
    exact hcq m ((capPicks_perm C pos mp.moves).mem_iff.1 h1)
      ((quietOrder_perm C pos ss hpart mp.depth af).mem_iff.1 h2)
  · exact hk
  · intro m hm hpl hnc hmem
    refine hkc m ?_ hpl hnc ((capPicks_perm C pos mp.moves).mem_iff.1 hmem)
    rcases (mem_killerList ss).1 hm with h | h | h <;> simp [h]

/-- Witness of `no_duplicate_main_search`: main search on `pos0` with the two
different killers of `ss0`. -/
theorem no_duplicate_main_search_witness :
    PartitionSpec C0 ∧ Constructed C0 pos0 ss0 mp0 ∧ mp0.stage = MAIN_SEARCH
      ∧ Fits C0 pos0 mp0.ttMove
      ∧ pos0.genCaptures.Nodup ∧ pos0.genQuiets.Nodup
      ∧ (∀ m ∈ pos0.genCaptures, m ∉ pos0.genQuiets)
      ∧ (ss0.killers0 = ss0.killers1 → ss0.killers0 = MOVE_NONE)
      ∧ (∀ m ∈ [ss0.killers0, ss0.killers1, mp0.countermove],
          pos0.pseudo_legal m = true → ¬ pos0.capture m = true → m ∉ pos0.genCaptures)
      ∧ ∃ N, ∀ fuel k, N ≤ fuel → N ≤ k →
          ∃ L, calls C0 pos0 ss0 fuel k mp0 = some L ∧ (consumed L).Nodup :=
  ⟨partitionSpec_C0, Or.inl ⟨raw0, 4, 5, rfl⟩, rfl, by decide, by decide, by decide,
    by decide, by decide, by decide,
    no_duplicate_main_search C0 pos0 ss0 partitionSpec_C0 mp0 (Or.inl ⟨raw0, 4, 5, rfl⟩) rfl
      (by decide) (by decide) (by decide) (by decide) (by decide) (by decide)⟩

end MoveSelection
namespace MoveSelection

variable (C : Consts) (pos : Position) (ss : Stack)

/-- Claim C29 (quiet order at full depth): for a picker built by the
main-search constructor with `d >= 3 * ONE_PLY`, any number `k` of calls of
`next_move` return with enough fuel; the moves they return during
`ALL_QUIETS` are in non-increasing order of quiet score, and for every score
`v` the returned moves of score `v` come in the order in which
`generate<QUIETS>` emitted them (they are a sublist of the emitted moves of
score `v`). -/
theorem quiet_order_full_depth (raw mp : MovePicker) (ttm : Move) (d : Depth)
    (hmk : MovePicker.mkMain C pos ss raw ttm d = some mp) (hd : d ≥ 3 * C.ONE_PLY) (k : Nat) :
    ∃ N L, (∀ fuel, N ≤ fuel → calls C pos ss fuel k mp = some L) ∧
      (returnedIn ALL_QUIETS L).Pairwise
        (fun m m' => quietValue C pos ss m' ≤ quietValue C pos ss m) ∧
      ∀ v : Value,
        ((returnedIn ALL_QUIETS L).filter (fun m => decide (quietValue C pos ss m = v))).Sublist
          (pos.genQuiets.filter (fun m => decide (quietValue C pos ss m = v))) := by
  have hc : Constructed C pos ss mp := Or.inl ⟨raw, ttm, d, hmk⟩
  obtain ⟨_, _, _, _, _, _, _, _, hdepth, _⟩ := mkMain_spec C pos ss hmk
  obtain ⟨N, L, hN⟩ := calls_total_any C pos ss k mp (Reachable.init hc)
  refine ⟨N, L, hN, ?_⟩
  have hQ : ∀ a, (quietOrder C pos ss mp.depth a).Pairwise
        (fun m m' => quietValue C pos ss m' ≤ quietValue C pos ss m) ∧
      ∀ v : Value,
        ((quietOrder C pos ss mp.depth a).filter
          (fun m => decide (quietValue C pos ss m = v))).Sublist
          (pos.genQuiets.filter (fun m => decide (quietValue C pos ss m = v))) := by
    intro a
    obtain ⟨h1, h2⟩ := quietOrder_full C pos ss mp.depth a (by rw [hdepth]; exact not_lt.2 hd)
    exact ⟨h1, fun v => by rw [h2 v]⟩
  have hsub : ∀ l l' : List Move,
      (l.Pairwise (fun m m' => quietValue C pos ss m' ≤ quietValue C pos ss m) ∧
        ∀ v : Value, (l.filter (fun m => decide (quietValue C pos ss m = v))).Sublist
          (pos.genQuiets.filter (fun m => decide (quietValue C pos ss m = v)))) →
      l'.Sublist l →
      (l'.Pairwise (fun m m' => quietValue C pos ss m' ≤ quietValue C pos ss m) ∧
        ∀ v : Value, (l'.filter (fun m => decide (quietValue C pos ss m = v))).Sublist
          (pos.genQuiets.filter (fun m => decide (quietValue C pos ss m = v)))) :=
    fun l l' h hs => ⟨h.1.sublist hs, fun v => (hs.filter _).trans (h.2 v)⟩
  have hinv := quietInv_constructed C pos ss
    (fun l => l.Pairwise (fun m m' => quietValue C pos ss m' ≤ quietValue C pos ss m) ∧
      ∀ v : Value, (l.filter (fun m => decide (quietValue C pos ss m = v))).Sublist
        (pos.genQuiets.filter (fun m => decide (quietValue C pos ss m = v))))
    (hsub _ [] (hQ fun _ => ⟨0, 0⟩) (List.nil_sublist _)) mp hc
  have h := quietInv_calls C pos ss mp.depth
    (fun l => l.Pairwise (fun m m' => quietValue C pos ss m' ≤ quietValue C pos ss m) ∧
      ∀ v : Value, (l.filter (fun m => decide (quietValue C pos ss m = v))).Sublist
        (pos.genQuiets.filter (fun m => decide (quietValue C pos ss m = v))))
    hsub hQ N k mp [] L hinv (hN N (le_refl _))
  simpa using h

/-- Witness of `quiet_order_full_depth`: main search on `pos0` at depth 5,
ten calls. -/
theorem quiet_order_full_depth_witness :
    MovePicker.mkMain C0 pos0 ss0 raw0 4 5 = some mp0 ∧ (5 : Depth) ≥ 3 * C0.ONE_PLY ∧
      ∃ N L, (∀ fuel, N ≤ fuel → calls C0 pos0 ss0 fuel 10 mp0 = some L) ∧
        (returnedIn ALL_QUIETS L).Pairwise
          (fun m m' => quietValue C0 pos0 ss0 m' ≤ quietValue C0 pos0 ss0 m) ∧
        ∀ v : Value,
          ((returnedIn ALL_QUIETS L).filter
            (fun m => decide (quietValue C0 pos0 ss0 m = v))).Sublist
            (pos0.genQuiets.filter (fun m => decide (quietValue C0 pos0 ss0 m = v))) :=
  ⟨mkMain_mp0, by decide,
    quiet_order_full_depth C0 pos0 ss0 raw0 mp0 4 5 mkMain_mp0 (by decide) 10⟩

end MoveSelection
